import Mathlib

/-!
# Connected-component labeling of a binary 3-D volume (`Parallel_Labeling.c`)

A shallow embedding of the labeling core of `Parallel_Labeling.c`:

* the growable index stack (`createStack`, `doubleStack`, `push`, `pop`, ...),
* the explicit-stack flood fill `singlePassDFS`,
* the scanning labeler `singlePassLabeling` / `singlePassLabelingDefault`,
* the boundary-first split strategy `parallelEdgeFirstSinglePassLabeling`.

Conventions of the embedding.

* `SizeType` (`ptrdiff_t`) is written `Int`; its 64-bit range is not modelled.
* `dstPixelType` (`unsigned short`) is written `Nat`; every arithmetic result that
  the C code stores into a `dstPixelType` is reduced modulo `65536` explicitly.
* The image extents `DIM_X`, `DIM_Y`, `DIM_Z` are parameters `Dx Dy Dz : Nat`
  (the source fixes them to `1024, 1024, 20`) and are cast to `SizeType` where
  the source uses them.
* A volume `dstPixelType ***` is a function `k j i ↦ dstData3D[k][j][i]`; the
  theorems speak about the coordinates inside `[0, Dx) × [0, Dy) × [0, Dz)`.
* Heap layout is not modelled: the backing array of a stack is a function from
  indices to cells and `capacity` is the bookkeeping field the code keeps.
  `malloc`/`realloc` succeed in `Stack`, `doubleStack` and `push`; the outcome of
  `realloc` is a parameter of `doubleStackRealloc` and `pushRealloc`, which work
  on a `RawStack` whose `arr` may be the null pointer.
* A store `arr[n] = item` is inside the block of a stack when `0 ≤ n < capacity`.
  From a capacity of at least 1 on, every push stores inside the block and the
  stacks keep `size ≤ capacity` through every fill and every scan
  (`Stack.Room.push_room`, `FillState.Room.dfsAfter_room`, `scanRange_room`).
  A stack created with capacity 0 keeps the capacity `0 * 2 = 0` and its first
  push stores outside the block (claim C19 below). `allocateStack`
  creates the stacks with capacity `(Dx + Dy + Dz) / 10`; the theorems that
  state what a labeling run produces therefore assume
  `1 ≤ STACK_INITIAL_SIZE Dx Dy Dz`, that is `Dx + Dy + Dz ≥ 10` (the source has
  `1024 + 1024 + 20`), and are instantiated on such volumes. Theorems about what
  a run leaves unchanged, about its invariants, its termination or the order of
  two runs are stated for all dimensions.
* `while` loops take a fuel argument and return `none` when it runs out, so
  "the call returns" is the statement that the result is `some _`; a fuel of
  `Dx * Dy * Dz + 2` is shown to suffice for every fill with a label other
  than 1.
* The two iterations `imageNo = 0, 1` of the final loop of
  `parallelEdgeFirstSinglePassLabeling` are run one after the other.
-/

namespace ParallelLabeling

/-! ## Data model -/

/-- Number of values of `dstPixelType`; stores into a pixel are taken modulo this. -/
def PIXEL_RANGE : Nat := 65536

/-- Counterpart of `struct Stack { SizeType *arr; SizeType top, capacity, size; }`. -/
structure Stack where
  arr : Int → Int
  top : Int
  capacity : Int
  size : Int

/-- Embedding of `createStack`: an empty stack with `top = -1`. -/
def createStack (capacity : Int) : Stack :=
  { arr := fun _ => 0, top := -1, capacity := capacity, size := 0 }

/-- Embedding of `doubleStack` (with the reallocation succeeding): the capacity doubles,
the cells are kept. -/
def doubleStack (s : Stack) : Stack :=
  { s with capacity := s.capacity * 2 }

/-- Embedding of `isFull`. -/
def isFull (s : Stack) : Bool := s.size == s.capacity

/-- Embedding of `push`: double when full, then `arr[++top] = item; size++`. The cells are
not bounded by `capacity` here: that the store lands inside the block is a property of the
stack `push` is applied to (it holds from capacity 1 on, and fails for capacity 0). -/
def push (s : Stack) (item : Int) : Stack :=
  let s1 := if isFull s then doubleStack s else s
  { s1 with
    arr := fun n => if n = s1.top + 1 then item else s1.arr n
    top := s1.top + 1
    size := s1.size + 1 }

/-- Embedding of `isEmpty`. -/
def isEmpty (s : Stack) : Bool := s.size == 0

/-- Embedding of `getSize`. -/
def getSize (s : Stack) : Int := s.size

/-- Embedding of `pop`: on an empty stack the sentinel `-1` and the stack unchanged,
otherwise `arr[top--]` with `size--`. -/
def pop (s : Stack) : Int × Stack :=
  if isEmpty s then (-1, s)
  else (s.arr s.top, { s with top := s.top - 1, size := s.size - 1 })

/-- A volume `dstPixelType ***dstData3D`, read as `v k j i = dstData3D[k][j][i]`. -/
abbrev Volume := Int → Int → Int → Nat

/-- The assignment `dstData3D[k][j][i] = x`. -/
def setVoxel (v : Volume) (k j i : Int) (x : Nat) : Volume :=
  fun k1 j1 i1 => if k1 = k ∧ j1 = j ∧ i1 = i then x else v k1 j1 i1

/-- Counterpart of the macro `STACK_INITIAL_SIZE = (DIM_X + DIM_Y + DIM_Z)/10`. -/
def STACK_INITIAL_SIZE (Dx Dy Dz : Nat) : Int :=
  ((Dx : Int) + (Dy : Int) + (Dz : Int)) / 10

/-- The mutable state a flood fill works on: the volume and the three coordinate stacks. -/
structure FillState where
  dstData3D : Volume
  iStack : Stack
  jStack : Stack
  kStack : Stack

/-- Embedding of `allocateStack`: three fresh stacks of capacity `STACK_INITIAL_SIZE`. -/
def allocateStack (Dx Dy Dz : Nat) : Stack × Stack × Stack :=
  (createStack (STACK_INITIAL_SIZE Dx Dy Dz), createStack (STACK_INITIAL_SIZE Dx Dy Dz),
    createStack (STACK_INITIAL_SIZE Dx Dy Dz))

/-! ## The flood fill `singlePassDFS` -/

/-- One of the six identical blocks of the loop body of `singlePassDFS`:
`if (dstData3D[k][j][i] == 1) { dstData3D[k][j][i] = label; push i; push j; push k; }`. -/
def visitNeighbor (label : Nat) (st : FillState) (i j k : Int) : FillState :=
  if st.dstData3D k j i = 1 then
    { dstData3D := setVoxel st.dstData3D k j i label
      iStack := push st.iStack i
      jStack := push st.jStack j
      kStack := push st.kStack k }
  else st

/-- One iteration of the `while` loop of `singlePassDFS`: pop a coordinate and visit its
six neighbours in the order `i-1, i+1, j-1, j+1, k-1, k+1`, each behind its bounds guard. -/
def dfsBody (Dx Dy Dz : Nat) (label : Nat) (st : FillState) : FillState :=
  let i := (pop st.iStack).1
  let j := (pop st.jStack).1
  let k := (pop st.kStack).1
  let st0 : FillState :=
    { dstData3D := st.dstData3D
      iStack := (pop st.iStack).2
      jStack := (pop st.jStack).2
      kStack := (pop st.kStack).2 }
  let st1 := if i ≥ 1 then visitNeighbor label st0 (i - 1) j k else st0
  let st2 := if i < (Dx : Int) - 1 then visitNeighbor label st1 (i + 1) j k else st1
  let st3 := if j ≥ 1 then visitNeighbor label st2 i (j - 1) k else st2
  let st4 := if j < (Dy : Int) - 1 then visitNeighbor label st3 i (j + 1) k else st3
  let st5 := if k ≥ 1 then visitNeighbor label st4 i j (k - 1) else st4
  if k < (Dz : Int) - 1 then visitNeighbor label st5 i j (k + 1) else st5

/-- The loop `while (getSize(iStack) > 0) { ... }` of `singlePassDFS`, with fuel. -/
def dfsLoop (Dx Dy Dz : Nat) (label : Nat) : Nat → FillState → Option FillState
  | 0, _ => none
  | fuel + 1, st =>
    if getSize st.iStack > 0 then dfsLoop Dx Dy Dz label fuel (dfsBody Dx Dy Dz label st)
    else some st

/-- Embedding of `singlePassDFS`: push the seed, then run the loop. -/
def singlePassDFS (fuel : Nat) (Dx Dy Dz : Nat) (dstData3D : Volume) (i j k : Int)
    (label : Nat) (iStack jStack kStack : Stack) : Option FillState :=
  dfsLoop Dx Dy Dz label fuel
    { dstData3D := dstData3D
      iStack := push iStack i
      jStack := push jStack j
      kStack := push kStack k }

/-! ## The scanning labeler `singlePassLabeling` -/

/-- The index values of `for (x = lo; x < hi; x++)`, in order. -/
def forRange (lo hi : Int) : List Int :=
  List.map (fun n : Nat => lo + (n : Int)) (List.range (hi - lo).toNat)

/-- State of the scan of `singlePassLabeling`: volume and stacks, `label`, `objectCount`. -/
structure ScanState where
  fill : FillState
  label : Nat
  objectCount : Nat

/-- The body of the innermost loop of `singlePassLabeling` at the voxel `(i, j, k)`. -/
def scanVoxel (fuel : Nat) (Dx Dy Dz : Nat) (labelStep : Nat) (s : ScanState)
    (i j k : Int) : Option ScanState :=
  if s.fill.dstData3D k j i = 1 then
    (singlePassDFS fuel Dx Dy Dz (setVoxel s.fill.dstData3D k j i s.label) i j k s.label
        s.fill.iStack s.fill.jStack s.fill.kStack).map
      (fun st =>
        { fill := st
          label := (s.label + labelStep) % PIXEL_RANGE
          objectCount := (s.objectCount + 1) % PIXEL_RANGE })
  else some s

/-- The two inner loops (`j` then `i`) of `singlePassLabeling` on the plane `z = k`. -/
def scanPlane (fuel : Nat) (Dx Dy Dz : Nat) (labelStep : Nat) (s : ScanState)
    (k : Int) : Option ScanState :=
  (forRange 0 Dy).foldlM
    (fun s1 j => (forRange 0 Dx).foldlM (fun s2 i => scanVoxel fuel Dx Dy Dz labelStep s2 i j k) s1) s

/-- The triple loop of `singlePassLabeling`, started from an arbitrary scan state. -/
def scanRange (fuel : Nat) (Dx Dy Dz : Nat) (labelStep : Nat) (s : ScanState)
    (kMin kMax : Int) : Option ScanState :=
  (forRange kMin kMax).foldlM (fun s1 k => scanPlane fuel Dx Dy Dz labelStep s1 k) s

/-- Embedding of `singlePassLabeling`: returns the relabeled volume and the printed
`objectCount`. -/
def singlePassLabeling (fuel : Nat) (Dx Dy Dz : Nat) (dstData3D : Volume) (kMin kMax : Int)
    (labelStart labelStep : Nat) : Option (Volume × Nat) :=
  let stk := allocateStack Dx Dy Dz
  (scanRange fuel Dx Dy Dz labelStep
      { fill :=
          { dstData3D := dstData3D
            iStack := stk.1
            jStack := stk.2.1
            kStack := stk.2.2 }
        label := labelStart
        objectCount := 0 }
      kMin kMax).map
    (fun s => (s.fill.dstData3D, s.objectCount))

/-- Embedding of `singlePassLabelingDefault`. -/
def singlePassLabelingDefault (fuel : Nat) (Dx Dy Dz : Nat) (dstData3D : Volume) :
    Option (Volume × Nat) :=
  singlePassLabeling fuel Dx Dy Dz dstData3D 0 Dz 2 1

/-! ## The boundary-first strategy `parallelEdgeFirstSinglePassLabeling` -/

/-- The midplane `kMid = DIM_Z / 2`. -/
def kMid (Dz : Nat) : Int := (Dz : Int) / 2

/-- The body of the boundary loop of `parallelEdgeFirstSinglePassLabeling` at `(i, j, kMid)`:
state is the fill state together with `label`. -/
def boundaryVoxel (fuel : Nat) (Dx Dy Dz : Nat) (s : FillState × Nat)
    (i j : Int) : Option (FillState × Nat) :=
  if s.1.dstData3D (kMid Dz) j i = 1 then
    (singlePassDFS fuel Dx Dy Dz (setVoxel s.1.dstData3D (kMid Dz) j i s.2) i j (kMid Dz) s.2
        s.1.iStack s.1.jStack s.1.kStack).map
      (fun st => (st, (s.2 + 1) % PIXEL_RANGE))
  else some s

/-- The serial boundary pass of `parallelEdgeFirstSinglePassLabeling` (its first double loop):
returns the fill state and the value of `label` after the pass. -/
def boundaryPass (fuel : Nat) (Dx Dy Dz : Nat) (dstData3D : Volume) :
    Option (FillState × Nat) :=
  let stk := allocateStack Dx Dy Dz
  (forRange 0 Dy).foldlM
    (fun s1 j => (forRange 0 Dx).foldlM (fun s2 i => boundaryVoxel fuel Dx Dy Dz s2 i j) s1)
    ({ dstData3D := dstData3D
       iStack := stk.1
       jStack := stk.2.1
       kStack := stk.2.2 }, 2)

/-- The label argument `(label << 1) + imageNo` of the call made by iteration `imageNo` of
the final loop, converted to the 16-bit parameter type. -/
def halfLabelStart (label : Nat) (imageNo : Nat) : Nat :=
  ((label <<< 1) + imageNo) % PIXEL_RANGE

/-- The call made by iteration `imageNo` of the final loop:
`singlePassLabeling(dstData3D, imageNo * (kMid + 1), kMid + imageNo * (DIM_Z - kMid),
(label << 1) + imageNo, 2)`, the label argument converted to `dstPixelType`. -/
def halfRun (fuel : Nat) (Dx Dy Dz : Nat) (dstData3D : Volume) (label : Nat)
    (imageNo : Nat) : Option (Volume × Nat) :=
  singlePassLabeling fuel Dx Dy Dz dstData3D
    ((imageNo : Int) * (kMid Dz + 1))
    (kMid Dz + (imageNo : Int) * ((Dz : Int) - kMid Dz))
    (halfLabelStart label imageNo) 2

/-- What `parallelEdgeFirstSinglePassLabeling` produces: the volume and the three printed counts. -/
structure ParallelResult where
  dstData3D : Volume
  boundaryCount : Int
  lowerCount : Nat
  upperCount : Nat

/-- Embedding of `parallelEdgeFirstSinglePassLabeling`, the iterations `imageNo = 0` and
`imageNo = 1` executed in this order. The boundary count is the printed `label - 2`. -/
def parallelEdgeFirstSinglePassLabeling (fuel : Nat) (Dx Dy Dz : Nat) (dstData3D : Volume) :
    Option ParallelResult :=
  (boundaryPass fuel Dx Dy Dz dstData3D).bind fun b =>
  (halfRun fuel Dx Dy Dz b.1.dstData3D b.2 0).bind fun r0 =>
  (halfRun fuel Dx Dy Dz r0.1 b.2 1).map fun r1 =>
    { dstData3D := r1.1
      boundaryCount := (b.2 : Int) - 2
      lowerCount := r0.2
      upperCount := r1.2 }

/-! ## Coordinates, adjacency and connectivity (specification side) -/

/-- A voxel coordinate `(i, j, k)`, that is `(x, y, z)`. -/
@[ext] structure Voxel where
  i : Int
  j : Int
  k : Int
deriving DecidableEq

/-- The value `dstData3D[k][j][i]` at a coordinate. -/
def voxelAt (v : Volume) (p : Voxel) : Nat := v p.k p.j p.i

/-- The assignment `dstData3D[k][j][i] = x` at a coordinate. -/
def writeAt (v : Volume) (p : Voxel) (x : Nat) : Volume := setVoxel v p.k p.j p.i x

/-- The coordinate lies inside the volume `[0, Dx) × [0, Dy) × [0, Dz)`. -/
def InBox (Dx Dy Dz : Nat) (p : Voxel) : Prop :=
  0 ≤ p.i ∧ p.i < (Dx : Int) ∧ 0 ≤ p.j ∧ p.j < (Dy : Int) ∧
    0 ≤ p.k ∧ p.k < (Dz : Int)

instance (Dx Dy Dz : Nat) (p : Voxel) : Decidable (InBox Dx Dy Dz p) := by
  unfold InBox; infer_instance

/-- 6-connectivity as the glossary words it: two voxels are neighbours iff they differ
by 1 in exactly one axis coordinate (and agree in the other two). -/
def Adjacent6 (p q : Voxel) : Prop :=
  ((q.i = p.i + 1 ∨ q.i = p.i - 1) ∧ q.j = p.j ∧ q.k = p.k) ∨
  (q.i = p.i ∧ (q.j = p.j + 1 ∨ q.j = p.j - 1) ∧ q.k = p.k) ∨
  (q.i = p.i ∧ q.j = p.j ∧ (q.k = p.k + 1 ∨ q.k = p.k - 1))

instance (p q : Voxel) : Decidable (Adjacent6 p q) := by
  unfold Adjacent6; infer_instance

/-- A voxel of the volume that holds `1` (an object voxel not yet labeled). -/
def IsObject (Dx Dy Dz : Nat) (v : Volume) (p : Voxel) : Prop :=
  InBox Dx Dy Dz p ∧ voxelAt v p = 1

/-- One step of a chain: from `p` to a 6-neighbour `q` inside the volume that holds `1`. -/
def ChainStep (Dx Dy Dz : Nat) (v : Volume) (p q : Voxel) : Prop :=
  Adjacent6 p q ∧ InBox Dx Dy Dz q ∧ voxelAt v q = 1

/-- `q` is reachable from `p` through a chain (of at least one step) of 6-connected in-bounds
neighbours whose value in `v` is exactly `1`. -/
def ReachableFrom (Dx Dy Dz : Nat) (v : Volume) (p q : Voxel) : Prop :=
  Relation.TransGen (ChainStep Dx Dy Dz v) p q

/-- The two voxels are joined by a path of voxels holding `1` in `v` in which each step
changes exactly one of `x, y, z` by 1 (the path may have length 0). -/
def Connected (Dx Dy Dz : Nat) (v : Volume) (p q : Voxel) : Prop :=
  Relation.ReflTransGen (ChainStep Dx Dy Dz v) p q

/-- The scan order of `singlePassLabeling`: `z` outer, `y` middle, `x` inner. -/
def scanLt (p q : Voxel) : Prop :=
  p.k < q.k ∨ (p.k = q.k ∧ (p.j < q.j ∨ (p.j = q.j ∧ p.i < q.i)))

instance (p q : Voxel) : Decidable (scanLt p q) := by
  unfold scanLt; infer_instance

/-- Every voxel of the volume holds `0` or `1`. -/
def IsBinary (Dx Dy Dz : Nat) (v : Volume) : Prop :=
  ∀ p, InBox Dx Dy Dz p → voxelAt v p = 0 ∨ voxelAt v p = 1

/-- The `n`-th value of the label sequence of one `singlePassLabeling` call, as the
16-bit variable `label` holds it after `n` executions of `label += labelStep`. -/
def labelAt (labelStart labelStep : Nat) (n : Nat) : Nat :=
  (labelStart + n * labelStep) % PIXEL_RANGE

/-- `reps` is a system of representatives of the components of `1`-valued voxels of `v`
(connectivity taken in the whole volume) that have a voxel satisfying `S`: the
representatives are object voxels satisfying `S`, no two of them are connected, and every
object voxel satisfying `S` is connected to one of them. Its length is the number of such
components. -/
def IsRepresentativeSystem (Dx Dy Dz : Nat) (v : Volume) (S : Voxel → Prop)
    (reps : List Voxel) : Prop :=
  (∀ x ∈ reps, IsObject Dx Dy Dz v x ∧ S x) ∧
  reps.Pairwise (fun a b => ¬ Connected Dx Dy Dz v a b) ∧
  (∀ p, IsObject Dx Dy Dz v p → S p → ∃ x ∈ reps, Connected Dx Dy Dz v x p)

/-- At most `N` components of `1`-valued voxels of `v` have a voxel satisfying `S`: any
family of pairwise unconnected object voxels satisfying `S` has at most `N` members. -/
def AtMostComponents (Dx Dy Dz : Nat) (v : Volume) (S : Voxel → Prop) (N : Nat) : Prop :=
  ∀ reps : List Voxel, (∀ x ∈ reps, IsObject Dx Dy Dz v x ∧ S x) →
    reps.Pairwise (fun a b => ¬ Connected Dx Dy Dz v a b) → reps.length ≤ N

/-! ## Proof-side view of the flood fill: one stack of coordinates -/

/-- The neighbours the loop body of `singlePassDFS` inspects for a popped coordinate, in
the order of the source and behind the same guards. -/
def neighbors (Dx Dy Dz : Nat) (p : Voxel) : List Voxel :=
  (if p.i ≥ 1 then [⟨p.i - 1, p.j, p.k⟩] else []) ++
  ((if p.i < (Dx : Int) - 1 then [⟨p.i + 1, p.j, p.k⟩] else []) ++
  ((if p.j ≥ 1 then [⟨p.i, p.j - 1, p.k⟩] else []) ++
  ((if p.j < (Dy : Int) - 1 then [⟨p.i, p.j + 1, p.k⟩] else []) ++
  ((if p.k ≥ 1 then [⟨p.i, p.j, p.k - 1⟩] else []) ++
  (if p.k < (Dz : Int) - 1 then [⟨p.i, p.j, p.k + 1⟩] else [])))))

/-- The block `visitNeighbor` on a volume and a single stack of coordinates. -/
def visitList (label : Nat) (s : Volume × List Voxel) (q : Voxel) :
    Volume × List Voxel :=
  if voxelAt s.1 q = 1 then (writeAt s.1 q label, q :: s.2) else s

/-- The loop of `singlePassDFS` on a volume and a single stack of coordinates. -/
def fillLoop (Dx Dy Dz : Nat) (label : Nat) :
    Nat → Volume × List Voxel → Option Volume
  | 0, _ => none
  | _ + 1, (v, []) => some v
  | fuel + 1, (v, p :: rest) =>
    fillLoop Dx Dy Dz label fuel ((neighbors Dx Dy Dz p).foldl (visitList label) (v, rest))

/-- The stack `s` holds exactly the values `l`, top first. -/
def Stack.Holds (s : Stack) (l : List Int) : Prop :=
  s.size = (l.length : Int) ∧ s.top + 1 = (l.length : Int) ∧
    ∀ n : Nat, n < l.length → s.arr ((l.length : Int) - 1 - (n : Int)) = l.getD n 0

/-- The three stacks of a fill state hold, in lock-step, the coordinates `l`, top first. -/
def FillState.Holds (st : FillState) (l : List Voxel) : Prop :=
  st.iStack.Holds (l.map Voxel.i) ∧ st.jStack.Holds (l.map Voxel.j) ∧
    st.kStack.Holds (l.map Voxel.k)

/-- The coordinates visited by the triple loop of `singlePassLabeling` over `[kMin, kMax)`,
in the order of the scan. -/
def scanOrder (Dx Dy : Nat) (kMin kMax : Int) : List Voxel :=
  (forRange kMin kMax).flatMap fun k =>
    (forRange 0 Dy).flatMap fun j => (forRange 0 Dx).map fun i => ⟨i, j, k⟩

/-- The voxels of the volume as a finite set. -/
def boxFinset (Dx Dy Dz : Nat) : Finset Voxel :=
  (scanOrder Dx Dy 0 Dz).toFinset

/-- Number of distinct non-zero values held by the voxels of the volume. -/
def distinctLabels (Dx Dy Dz : Nat) (v : Volume) : Nat :=
  (((boxFinset Dx Dy Dz).image (voxelAt v)).erase 0).card

/-- Number of voxels of the volume that hold `1`. -/
def onesCount (Dx Dy Dz : Nat) (v : Volume) : Nat :=
  ((boxFinset Dx Dy Dz).filter (fun p => voxelAt v p = 1)).card

/-- Invariant of the loop of `singlePassDFS` started at `seed` on the volume `v0`, for a
state `s` (volume and stack): every change so far turned a reachable `1` into `label`, the
stack holds the seed or reachable voxels, and every claimed voxel that has left the stack
has all its `1`-neighbours claimed. -/
structure FillInv (Dx Dy Dz : Nat) (v0 : Volume) (seed : Voxel) (label : Nat)
    (s : Volume × List Voxel) : Prop where
  frame : ∀ q, voxelAt s.1 q = voxelAt v0 q ∨
    (voxelAt v0 q = 1 ∧ voxelAt s.1 q = label ∧ ReachableFrom Dx Dy Dz v0 seed q)
  onStack : ∀ p ∈ s.2, InBox Dx Dy Dz p ∧ (p = seed ∨ ReachableFrom Dx Dy Dz v0 seed p)
  closed : ∀ p, (p = seed ∨ voxelAt s.1 p ≠ voxelAt v0 p) →
    p ∈ s.2 ∨ ∀ q, ChainStep Dx Dy Dz v0 p q → voxelAt s.1 q = label

/-- Invariant of the scan of `singlePassLabeling` started on the volume `v0` with the label
sequence `(labelStart, labelStep)`: after the positions `done` (in scan order) the state is
`s` and the seeds found so far are `seeds`, in the order of discovery. -/
structure ScanInv (Dx Dy Dz : Nat) (v0 : Volume) (labelStart labelStep : Nat)
    (done : List Voxel) (s : ScanState) (seeds : List Voxel) : Prop where
  stacksEmpty : s.fill.Holds []
  sub : seeds.Sublist done
  obj : ∀ x ∈ seeds, voxelAt v0 x = 1
  sep : seeds.Pairwise (fun a b => ¬ Connected Dx Dy Dz v0 a b)
  cover : ∀ p ∈ done, voxelAt v0 p = 1 →
    ∃ x ∈ seeds, Connected Dx Dy Dz v0 x p ∧ (x = p ∨ scanLt x p)
  lab : ∀ n x, seeds[n]? = some x → ∀ q, Connected Dx Dy Dz v0 x q →
    voxelAt s.fill.dstData3D q = labelAt labelStart labelStep n
  frame : ∀ q, (∀ x ∈ seeds, ¬ Connected Dx Dy Dz v0 x q) →
    voxelAt s.fill.dstData3D q = voxelAt v0 q
  label_eq : s.label = labelAt labelStart labelStep seeds.length
  count_eq : s.objectCount = seeds.length % PIXEL_RANGE
  iso : ∀ n x, seeds[n]? = some x → labelAt labelStart labelStep n = 1 →
    ∀ q, ¬ ChainStep Dx Dy Dz v0 x q

/-- The `1`-valued voxels of `v1` are a union of whole components of the `1`-valued voxels
of `v`: nothing became `1`, and what is still `1` is so together with its component. -/
def Residual (Dx Dy Dz : Nat) (v v1 : Volume) : Prop :=
  (∀ q, voxelAt v1 q = 1 → voxelAt v q = 1) ∧
  (∀ x q, InBox Dx Dy Dz x → voxelAt v1 x = 1 → Connected Dx Dy Dz v x q → voxelAt v1 q = 1)

/-- No `1`-valued voxel of the plane `z = K` has a `1`-valued 6-neighbour. -/
def PlaneIsolated (Dx Dy Dz : Nat) (v : Volume) (K : Int) : Prop :=
  ∀ m, InBox Dx Dy Dz m → m.k = K → voxelAt v m = 1 → ∀ c, ¬ ChainStep Dx Dy Dz v m c

/-- No label computation of `parallelEdgeFirstSinglePassLabeling` exceeds 65535: with at
most `B` components meeting the midplane, at most `NL` components lying entirely below it
and at most `NU` entirely above it, the boundary pass computes labels up to `B + 2`, the
lower-half run up to `2 (B + 2) + 2 NL` and the upper-half run up to
`2 (B + 2) + 1 + 2 NU`. -/
def NoLabelOverflow (Dx Dy Dz : Nat) (v : Volume) (B NL NU : Nat) : Prop :=
  AtMostComponents Dx Dy Dz v (fun p => p.k = kMid Dz) B ∧
  AtMostComponents Dx Dy Dz v
    (fun p => p.k < kMid Dz ∧ ∀ q, Connected Dx Dy Dz v p q → q.k ≠ kMid Dz) NL ∧
  AtMostComponents Dx Dy Dz v
    (fun p => kMid Dz < p.k ∧ ∀ q, Connected Dx Dy Dz v p q → q.k ≠ kMid Dz) NU ∧
  2 * (B + 2) + 2 * NL ≤ 65535 ∧ 2 * (B + 2) + 1 + 2 * NU ≤ 65535

/-- What `parallelEdgeFirstSinglePassLabeling` has produced, in terms of the seeds found by
the boundary pass, the lower-half run and the upper-half run (each in discovery order). -/
structure ParallelOutcome (Dx Dy Dz : Nat) (v : Volume) (B NL NU : Nat) (r : ParallelResult)
    (seedsB seedsL seedsU : List Voxel) : Prop where
  lenB : seedsB.length ≤ B
  lenL : seedsL.length ≤ NL
  lenU : seedsU.length ≤ NU
  boundaryCount_eq : r.boundaryCount = (seedsB.length : Int)
  lowerCount_eq : r.lowerCount = seedsL.length
  upperCount_eq : r.upperCount = seedsU.length
  background : ∀ q, voxelAt v q ≠ 1 → voxelAt r.dstData3D q = voxelAt v q
  tagged : ∀ p, IsObject Dx Dy Dz v p →
    (∃ (n : Nat) (x : Voxel), seedsB[n]? = some x ∧ Connected Dx Dy Dz v x p ∧
      voxelAt r.dstData3D p = 2 + n) ∨
    (∃ (n : Nat) (x : Voxel), seedsL[n]? = some x ∧ Connected Dx Dy Dz v x p ∧
      voxelAt r.dstData3D p = 2 * (seedsB.length + 2) + 2 * n) ∨
    (∃ (n : Nat) (x : Voxel), seedsU[n]? = some x ∧ Connected Dx Dy Dz v x p ∧
      voxelAt r.dstData3D p = 2 * (seedsB.length + 2) + 1 + 2 * n)
  const : ∀ p q, IsObject Dx Dy Dz v p → Connected Dx Dy Dz v p q →
    voxelAt r.dstData3D p = voxelAt r.dstData3D q
  seedObj : ∀ x, (x ∈ seedsB ∨ x ∈ seedsL ∨ x ∈ seedsU) → IsObject Dx Dy Dz v x

/-- `x` is a label of the boundary pass when it finds `B` components: one of
`2, 3, ..., B + 1` (as long as the label does not exceed 65535). -/
def IsBoundaryLabel (B x : Nat) : Prop :=
  ∃ n, n < B ∧ 2 + n < PIXEL_RANGE ∧ x = labelAt 2 1 n

/-- `x` is a label of the lower-half run started after a boundary pass that left `label = L`:
one of `2L, 2L + 2, 2L + 4, ...` (as long as the label does not exceed 65535). -/
def IsLowerLabel (L x : Nat) : Prop :=
  ∃ n, 2 * L + 2 * n < PIXEL_RANGE ∧ x = labelAt (halfLabelStart L 0) 2 n

/-- `x` is a label of the upper-half run started after a boundary pass that left `label = L`:
one of `2L + 1, 2L + 3, ...` (as long as the label does not exceed 65535). -/
def IsUpperLabel (L x : Nat) : Prop :=
  ∃ n, 2 * L + 1 + 2 * n < PIXEL_RANGE ∧ x = labelAt (halfLabelStart L 1) 2 n

/-! ## Concrete volumes used to instantiate the theorems -/

/-- The row `[1, 1, 0, 1]` along `x` at `y = z = 0` (scenario B of the specification),
`0` everywhere else. -/
def rowVolume : Volume :=
  fun k j i => if k = 0 ∧ j = 0 ∧ (i = 0 ∨ i = 1 ∨ i = 3) then 1 else 0

/-- A single `1` at `x = y = 1`, `z = 0`, surrounded by `0`s (scenario A of the
specification). -/
def dotVolume : Volume :=
  fun k j i => if k = 0 ∧ j = 1 ∧ i = 1 then 1 else 0

/-- The row `[1, 0, 1]` along `x` at `y = z = 0`, `0` everywhere else: two one-voxel
components. -/
def gapVolume : Volume :=
  fun k j i => if k = 0 ∧ j = 0 ∧ (i = 0 ∨ i = 2) then 1 else 0

/-- The column `[1, 1, 1]` along `z` at `x = y = 0`, `0` everywhere else: for `Dz = 3` one
component through the midplane `z = 1`. -/
def columnVolume : Volume :=
  fun k j i => if j = 0 ∧ i = 0 ∧ (k = 0 ∨ k = 1 ∨ k = 2) then 1 else 0

/-- The column `[1, 0, 1]` along `z` at `x = y = 0`, `0` everywhere else: for `Dz = 3` one
voxel below and one above the midplane `z = 1` (scenario D of the specification). -/
def splitVolume : Volume :=
  fun k j i => if j = 0 ∧ i = 0 ∧ (k = 0 ∨ k = 2) then 1 else 0

/-- The volume that is 0 everywhere (scenario C of the specification). -/
def zeroVolume : Volume :=
  fun _ _ _ => 0

/-- The column `[0, 1, 1]` along `z` at `x = y = 0`, `0` everywhere else: a two-voxel
object at `z = 1` and `z = 2`. -/
def upperPairVolume : Volume :=
  fun k j i => if j = 0 ∧ i = 0 ∧ (k = 1 ∨ k = 2) then 1 else 0

/-- A `1×1×3` column `[0, 1, 0]` along `z`: a single `1` on the midplane `z = 1`. -/
def midDotVolume : Volume :=
  fun k j i => if j = 0 ∧ i = 0 ∧ k = 1 then 1 else 0

/-- Three one-voxel components of a `6×1×3` volume (rows along `x`, midplane `z = 1`): one
on the midplane at `x = 0`, one below it at `x = 2`, one above it at `x = 4`. -/
def triadVolume : Volume :=
  fun k j i => if j = 0 ∧ ((i = 0 ∧ k = 1) ∨ (i = 2 ∧ k = 0) ∨ (i = 4 ∧ k = 2)) then 1 else 0

/-! ## Sequences of stack operations -/

/-- Pushes the values of `xs` one after the other, the first element first. -/
def pushAll (s : Stack) (xs : List Int) : Stack :=
  xs.foldl push s

/-- Calls `pop` `n` times: the values returned, the first call first, and the stack left. -/
def popN : Nat → Stack → List Int × Stack
  | 0, s => ([], s)
  | n + 1, s => ((pop s).1 :: (popN n (pop s).2).1, (popN n (pop s).2).2)

/-- A call of the stack interface that can change the stack. -/
inductive StackOp where
  | pushOp (item : Int)
  | popOp

/-- Effect of one call on the stack. -/
def applyOp (s : Stack) : StackOp → Stack
  | StackOp.pushOp item => push s item
  | StackOp.popOp => (pop s).2

/-- Effect of a sequence of calls, the first element first. -/
def applyOps (s : Stack) (ops : List StackOp) : Stack :=
  ops.foldl applyOp s

/-! ## The stack when `realloc` may fail -/

/-- The fields of `struct Stack` when the pointer `arr` may be null: `arr = none` is the
null pointer, `arr = some a` a block whose cells are `a`. -/
structure RawStack where
  arr : Option (Int → Int)
  top : Int
  capacity : Int
  size : Int

/-- A stack with a valid backing array, seen as a `RawStack`. -/
def Stack.toRaw (s : Stack) : RawStack :=
  { arr := some s.arr, top := s.top, capacity := s.capacity, size := s.size }

/-- Embedding of `doubleStack`, statement by statement, with `reallocOk` telling whether
`realloc` succeeds: `capacity` is doubled first, then `arr` is overwritten with the result
of `realloc`, which is null on failure. The second component tells whether the `else`
branch (`perror("realloc")`) ran. -/
def doubleStackRealloc (reallocOk : Bool) (s : RawStack) : RawStack × Bool :=
  let s1 : RawStack := { s with capacity := s.capacity * 2 }
  let s2 : RawStack := { s1 with arr := if reallocOk then s1.arr else none }
  (s2, s2.arr.isNone)

/-- Embedding of `push` on top of `doubleStackRealloc`. `Except.error st` says that the
store `arr[++top] = item` goes through a null `arr`; `st` is the stack at that store. -/
def pushRealloc (reallocOk : Bool) (s : RawStack) (item : Int) : Except RawStack RawStack :=
  let s1 := if s.size == s.capacity then (doubleStackRealloc reallocOk s).1 else s
  match s1.arr with
  | none => Except.error { s1 with top := s1.top + 1 }
  | some a =>
    Except.ok
      { arr := some (fun n => if n = s1.top + 1 then item else a n)
        top := s1.top + 1
        capacity := s1.capacity
        size := s1.size + 1 }

/-! ## Slices of a volume on one side of a plane -/

/-- The volume that holds `a` on the slices `k` with `side k` and `b` on the other slices. -/
def mergeVolume (side : Int → Bool) (a b : Volume) : Volume :=
  fun k j i => if side k = true then a k j i else b k j i

/-- The slices strictly below the plane `z = K`. -/
def belowPlane (K : Int) : Int → Bool := fun k => decide (k < K)

/-- The slices strictly above the plane `z = K`. -/
def abovePlane (K : Int) : Int → Bool := fun k => decide (K < k)

/-- Every component of `1`-valued voxels of `u` that has a voxel on a slice of `side` lies
on slices of `side`. -/
def SideClosed (Dx Dy Dz : Nat) (side : Int → Bool) (u : Volume) : Prop :=
  ∀ x q, IsObject Dx Dy Dz u x → side x.k = true → Connected Dx Dy Dz u x q →
    side q.k = true

/-! ## The run of `singlePassDFS`, iteration by iteration -/

/-- The state in which `singlePassDFS` enters its loop: the seed has been pushed. -/
def dfsStart (dstData3D : Volume) (i j k : Int) (iStack jStack kStack : Stack) : FillState :=
  { dstData3D := dstData3D
    iStack := push iStack i
    jStack := push jStack j
    kStack := push kStack k }

/-- The state after `n` iterations of the loop of `singlePassDFS` (the state at the exit
of the loop if it exits earlier). -/
def dfsAfter (Dx Dy Dz : Nat) (label : Nat) : Nat → FillState → FillState
  | 0, st => st
  | n + 1, st =>
    if getSize st.iStack > 0 then dfsAfter Dx Dy Dz label n (dfsBody Dx Dy Dz label st)
    else st

/-- One iteration of the loop on a volume and a single stack of coordinates. -/
def fillStep (Dx Dy Dz : Nat) (label : Nat) (s : Volume × List Voxel) : Volume × List Voxel :=
  match s.2 with
  | [] => s
  | p :: rest => (neighbors Dx Dy Dz p).foldl (visitList label) (s.1, rest)

/-- The volume and the single stack of coordinates after `n` iterations. -/
def fillAfter (Dx Dy Dz : Nat) (label : Nat) : Nat → Volume × List Voxel → Volume × List Voxel
  | 0, s => s
  | n + 1, s => fillAfter Dx Dy Dz label n (fillStep Dx Dy Dz label s)

/-- The block `visitNeighbor` with the access `dstData3D[k][j][i]` checked against the
extents of the volume: `none` is an access out of range. -/
def visitNeighborChecked (Dx Dy Dz : Nat) (label : Nat) (st : FillState) (i j k : Int) :
    Option FillState :=
  if 0 ≤ i ∧ i < (Dx : Int) ∧ 0 ≤ j ∧ j < (Dy : Int) ∧ 0 ≤ k ∧ k < (Dz : Int) then
    some (visitNeighbor label st i j k)
  else none

/-- The loop body `dfsBody` with every voxel access checked: `none` is an access out of
range. -/
def dfsBodyChecked (Dx Dy Dz : Nat) (label : Nat) (st : FillState) : Option FillState :=
  let i := (pop st.iStack).1
  let j := (pop st.jStack).1
  let k := (pop st.kStack).1
  let st0 : FillState :=
    { dstData3D := st.dstData3D
      iStack := (pop st.iStack).2
      jStack := (pop st.jStack).2
      kStack := (pop st.kStack).2 }
  (if i ≥ 1 then visitNeighborChecked Dx Dy Dz label st0 (i - 1) j k else some st0).bind
  fun st1 =>
  (if i < (Dx : Int) - 1 then visitNeighborChecked Dx Dy Dz label st1 (i + 1) j k
    else some st1).bind
  fun st2 =>
  (if j ≥ 1 then visitNeighborChecked Dx Dy Dz label st2 i (j - 1) k else some st2).bind
  fun st3 =>
  (if j < (Dy : Int) - 1 then visitNeighborChecked Dx Dy Dz label st3 i (j + 1) k
    else some st3).bind
  fun st4 =>
  (if k ≥ 1 then visitNeighborChecked Dx Dy Dz label st4 i j (k - 1) else some st4).bind
  fun st5 =>
  if k < (Dz : Int) - 1 then visitNeighborChecked Dx Dy Dz label st5 i j (k + 1)
  else some st5

/-- The loop of `singlePassDFS` with every voxel access checked. The outer `none` is the
fuel running out; `some none` is an access out of range; `some (some st)` is the state at
the exit of the loop. -/
def dfsLoopChecked (Dx Dy Dz : Nat) (label : Nat) : Nat → FillState → Option (Option FillState)
  | 0, _ => none
  | fuel + 1, st =>
    if getSize st.iStack > 0 then
      match dfsBodyChecked Dx Dy Dz label st with
      | none => some none
      | some st1 => dfsLoopChecked Dx Dy Dz label fuel st1
    else some (some st)

/-- The function `singlePassDFS` with every voxel access checked. -/
def singlePassDFSChecked (fuel : Nat) (Dx Dy Dz : Nat) (dstData3D : Volume) (i j k : Int)
    (label : Nat) (iStack jStack kStack : Stack) : Option (Option FillState) :=
  dfsLoopChecked Dx Dy Dz label fuel (dfsStart dstData3D i j k iStack jStack kStack)

/-- The block `visitList` with a log of every coordinate pushed so far. -/
def visitListLog (label : Nat) (s : (Volume × List Voxel) × List Voxel) (q : Voxel) :
    (Volume × List Voxel) × List Voxel :=
  if voxelAt s.1.1 q = 1 then ((writeAt s.1.1 q label, q :: s.1.2), q :: s.2) else s

/-- One iteration of the loop on a volume, a single stack and the log of pushes. -/
def fillStepLog (Dx Dy Dz : Nat) (label : Nat) (s : (Volume × List Voxel) × List Voxel) :
    (Volume × List Voxel) × List Voxel :=
  match s.1.2 with
  | [] => s
  | p :: rest => (neighbors Dx Dy Dz p).foldl (visitListLog label) ((s.1.1, rest), s.2)

/-- The volume, the stack and the log of pushes after `n` iterations. -/
def fillAfterLog (Dx Dy Dz : Nat) (label : Nat) :
    Nat → (Volume × List Voxel) × List Voxel → (Volume × List Voxel) × List Voxel
  | 0, s => s
  | n + 1, s => fillAfterLog Dx Dy Dz label n (fillStepLog Dx Dy Dz label s)

/-- What the run of a fill keeps true of its volume `s.1.1`, its stack `s.1.2` and the log
`s.2` of the coordinates pushed so far: no coordinate was pushed twice, every pushed
voxel lies in the volume and holds `label`, and the stack is a sublist of the log. -/
structure PushInv (Dx Dy Dz : Nat) (label : Nat) (s : (Volume × List Voxel) × List Voxel) :
    Prop where
  logNodup : s.2.Nodup
  logInBox : ∀ p ∈ s.2, InBox Dx Dy Dz p
  logLabel : ∀ p ∈ s.2, voxelAt s.1.1 p = label
  stackSub : s.1.2.Sublist s.2

/-! ## The neighbour count `process` and the histogram `someOutput` -/

/-- The value of `result` that one iteration of the loops of `process`
(`Parallel_Labeling.c`, `example_advanced_3Dindexing.c`) writes to `dstData3D[k][j][i]`:
six guarded blocks `if (srcData3D[..] != 0) result++;` on a `dstPixelType`. -/
def processVoxel (Dx Dy Dz : Nat) (srcData3D : Volume) (i j k : Int) : Nat :=
  let r0 : Nat := 0
  let r1 := if i ≥ 1 then
    (if srcData3D k j (i - 1) ≠ 0 then (r0 + 1) % PIXEL_RANGE else r0) else r0
  let r2 := if i < (Dx : Int) - 1 then
    (if srcData3D k j (i + 1) ≠ 0 then (r1 + 1) % PIXEL_RANGE else r1) else r1
  let r3 := if j ≥ 1 then
    (if srcData3D k (j - 1) i ≠ 0 then (r2 + 1) % PIXEL_RANGE else r2) else r2
  let r4 := if j < (Dy : Int) - 1 then
    (if srcData3D k (j + 1) i ≠ 0 then (r3 + 1) % PIXEL_RANGE else r3) else r3
  let r5 := if k ≥ 1 then
    (if srcData3D (k - 1) j i ≠ 0 then (r4 + 1) % PIXEL_RANGE else r4) else r4
  if k < (Dz : Int) - 1 then
    (if srcData3D (k + 1) j i ≠ 0 then (r5 + 1) % PIXEL_RANGE else r5) else r5

/-- Embedding of `process` with 3-D indexing: the triple loop `k`, `j`, `i`, whose
iterations are independent, run in the order of the loop nest. -/
def process (Dx Dy Dz : Nat) (srcData3D dstData3D : Volume) : Volume :=
  (forRange 0 Dz).foldl (fun d k =>
    (forRange 0 Dy).foldl (fun d1 j =>
      (forRange 0 Dx).foldl (fun d2 i =>
        setVoxel d2 k j i (processVoxel Dx Dy Dz srcData3D i j k)) d1) d) dstData3D

/-- The counters of `someOutput`: `sum0 .. sum6`, and the number of times the `default`
branch ("unexpected value") ran. -/
structure Histogram where
  sum0 : Int
  sum1 : Int
  sum2 : Int
  sum3 : Int
  sum4 : Int
  sum5 : Int
  sum6 : Int
  unexpected : Nat

/-- The `switch (neighborCnt)` of `someOutput`. -/
def countVoxel (h : Histogram) (neighborCnt : Nat) : Histogram :=
  match neighborCnt with
  | 0 => { h with sum0 := h.sum0 + 1 }
  | 1 => { h with sum1 := h.sum1 + 1 }
  | 2 => { h with sum2 := h.sum2 + 1 }
  | 3 => { h with sum3 := h.sum3 + 1 }
  | 4 => { h with sum4 := h.sum4 + 1 }
  | 5 => { h with sum5 := h.sum5 + 1 }
  | 6 => { h with sum6 := h.sum6 + 1 }
  | _ => { h with unexpected := h.unexpected + 1 }

/-- Embedding of `someOutput` (`example_advanced_3Dindexing.c`): the counters after the
triple loop. -/
def someOutput (Dx Dy Dz : Nat) (dstData3D : Volume) : Histogram :=
  (forRange 0 Dz).foldl (fun h k =>
    (forRange 0 Dy).foldl (fun h1 j =>
      (forRange 0 Dx).foldl (fun h2 i => countVoxel h2 (dstData3D k j i)) h1) h)
    { sum0 := 0, sum1 := 0, sum2 := 0, sum3 := 0, sum4 := 0, sum5 := 0, sum6 := 0,
      unexpected := 0 }

/-- The value printed as `Total`: `sum0 + sum1 + ... + sum6`. -/
def Histogram.total (h : Histogram) : Int :=
  h.sum0 + h.sum1 + h.sum2 + h.sum3 + h.sum4 + h.sum5 + h.sum6

/-- The `6`-neighbours of `p` inside the volume whose source value is not 0. -/
def nonzeroNeighbors (Dx Dy Dz : Nat) (srcData3D : Volume) (p : Voxel) : Finset Voxel :=
  (boxFinset Dx Dy Dz).filter (fun q => Adjacent6 p q ∧ voxelAt srcData3D q ≠ 0)

/-! ## The flat-index `process` of `example_advanced.c` -/

/-- The value of `result` that iteration `inx` of the loop of `process`
(`example_advanced.c`) writes to `dstDataPtr[inx]`: the index is decoded into `k`, `j`,
`i`, and the six guarded blocks read the source at the flat index `srcInx` they compute. -/
def ExampleAdvanced.processIndex (Dx Dy Dz : Nat) (srcDataPtr : Int → Nat) (inx : Int) : Nat :=
  let planeVol : Int := (Dx : Int) * (Dy : Int)
  let k := inx / planeVol
  let temp := inx % planeVol
  let j := temp / (Dx : Int)
  let i := temp % (Dx : Int)
  let r0 : Nat := 0
  let r1 := if i ≥ 1 then
    (if srcDataPtr (k * planeVol + j * (Dx : Int) + (i - 1)) ≠ 0 then (r0 + 1) % PIXEL_RANGE
      else r0) else r0
  let r2 := if i < (Dx : Int) - 1 then
    (if srcDataPtr (k * planeVol + j * (Dx : Int) + (i + 1)) ≠ 0 then (r1 + 1) % PIXEL_RANGE
      else r1) else r1
  let r3 := if j ≥ 1 then
    (if srcDataPtr (k * planeVol + (j - 1) * (Dx : Int) + i) ≠ 0 then (r2 + 1) % PIXEL_RANGE
      else r2) else r2
  let r4 := if j < (Dy : Int) - 1 then
    (if srcDataPtr (k * planeVol + (j + 1) * (Dx : Int) + i) ≠ 0 then (r3 + 1) % PIXEL_RANGE
      else r3) else r3
  let r5 := if k ≥ 1 then
    (if srcDataPtr ((k - 1) * planeVol + j * (Dx : Int) + i) ≠ 0 then (r4 + 1) % PIXEL_RANGE
      else r4) else r4
  if k < (Dz : Int) - 1 then
    (if srcDataPtr ((k + 1) * planeVol + j * (Dx : Int) + i) ≠ 0 then (r5 + 1) % PIXEL_RANGE
      else r5) else r5

/-- Embedding of the flat-index `process` of `example_advanced.c`: the loop over
`inx = 0 .. VOLUME - 1`, whose iterations are independent, run in order. -/
def ExampleAdvanced.process (Dx Dy Dz : Nat) (srcDataPtr dstDataPtr : Int → Nat) : Int → Nat :=
  (forRange 0 ((Dx : Int) * (Dy : Int) * (Dz : Int))).foldl
    (fun d inx => fun n =>
      if n = inx then ExampleAdvanced.processIndex Dx Dy Dz srcDataPtr inx else d n)
    dstDataPtr

/-- The flat index of the voxel `(i, j, k)` in an image stored row-major with `x`
fastest. -/
def flatIndex (Dx Dy : Nat) (p : Voxel) : Int :=
  (p.k * (Dy : Int) + p.j) * (Dx : Int) + p.i

/-- The coordinates that the flat-index `process` decodes from `inx`. -/
def decodeIndex (Dx Dy : Nat) (inx : Int) : Voxel :=
  { i := (inx % ((Dx : Int) * (Dy : Int))) % (Dx : Int)
    j := (inx % ((Dx : Int) * (Dy : Int))) / (Dx : Int)
    k := inx / ((Dx : Int) * (Dy : Int)) }

/-- The image `v` stored row-major with `x` fastest. -/
def flatten (Dx Dy : Nat) (v : Volume) : Int → Nat :=
  fun inx => voxelAt v (decodeIndex Dx Dy inx)

/-- A row along `x` (in the slice `z = 0`, `y = 0`) with a `1` at every even `x ≥ 0` and
a `0` at every odd `x`: with `Dx = 2 m - 1` it has `m` one-voxel components. -/
def stripeVolume : Volume :=
  fun k j i => if k = 0 ∧ j = 0 ∧ 0 ≤ i ∧ i % 2 = 0 then 1 else 0

/-- The `1`-valued voxels `x = 0, 2, ..., 2 m - 2` of `stripeVolume`, in scan order. -/
def stripeSeeds (m : Nat) : List Voxel :=
  List.map (fun n : Nat => (⟨2 * (n : Int), 0, 0⟩ : Voxel)) (List.range m)

/-! ## Stores inside the block of a stack -/

/-- The bookkeeping of a stack leaves room: `top = size - 1`, `0 ≤ size ≤ capacity` and
`capacity ≥ 1`. On such a stack `push` writes the cell `top + 1 = size`, which, after the
doubling of a full stack, lies in `[0, capacity)`. -/
def Stack.Room (s : Stack) : Prop :=
  s.top + 1 = s.size ∧ 0 ≤ s.size ∧ s.size ≤ s.capacity ∧ 1 ≤ s.capacity

/-- The three coordinate stacks of a fill state leave room. -/
def FillState.Room (st : FillState) : Prop :=
  st.iStack.Room ∧ st.jStack.Room ∧ st.kStack.Room

/-! ## Theorems -/


theorem voxelAt_writeAt (v : Volume) (p q : Voxel) (x : Nat) :
    voxelAt (writeAt v p x) q = if q = p then x else voxelAt v q := by
  unfold voxelAt writeAt setVoxel
  by_cases h : q = p
  · subst h; simp
  · have h1 : ¬ (q.k = p.k ∧ q.j = p.j ∧ q.i = p.i) := fun ⟨a, b, c⟩ => h (Voxel.ext c b a)
    simp [h, h1]

theorem voxelAt_writeAt_self (v : Volume) (p : Voxel) (x : Nat) :
    voxelAt (writeAt v p x) p = x := by
  simp [voxelAt_writeAt]

theorem voxelAt_writeAt_ne (v : Volume) {p q : Voxel} (x : Nat) (h : q ≠ p) :
    voxelAt (writeAt v p x) q = voxelAt v q := by
  simp [voxelAt_writeAt, h]

/-! ### The stack behaves as a list -/

theorem createStack_holds (c : Int) : (createStack c).Holds [] := by
  simp [Stack.Holds, createStack]

theorem Stack.Holds.getSize_eq {s : Stack} {l : List Int} (h : s.Holds l) :
    getSize s = (l.length : Int) := h.1

theorem Stack.holds_store {s : Stack} {l : List Int} (h : s.Holds l) (x c : Int) :
    Stack.Holds
      { arr := fun n => if n = s.top + 1 then x else s.arr n
        top := s.top + 1
        capacity := c
        size := s.size + 1 } (x :: l) := by
  obtain ⟨h1, h2, h3⟩ := h
  unfold Stack.Holds
  simp only [List.length_cons, Nat.cast_add, Nat.cast_one]
  refine ⟨by omega, by omega, ?_⟩
  intro n hn
  cases n with
  | zero =>
    have e : ((l.length : Int) + 1 - 1 - ((0 : Nat) : Int)) = s.top + 1 := by
      simp only [Nat.cast_zero]; omega
    rw [e]
    simp
  | succ m =>
    have hm : m < l.length := by omega
    have e : ((l.length : Int) + 1 - 1 - ((m + 1 : Nat) : Int))
        = (l.length : Int) - 1 - (m : Int) := by
      push_cast; omega
    have ne : ¬ ((l.length : Int) - 1 - (m : Int) = s.top + 1) := by omega
    rw [e]
    simp only [ne, if_false, List.getD_cons_succ]
    exact h3 m hm

theorem Stack.Holds.push_holds {s : Stack} {l : List Int} (h : s.Holds l) (x : Int) :
    (push s x).Holds (x :: l) := by
  unfold ParallelLabeling.push
  by_cases hf : isFull s = true
  · simp only [hf, if_true]
    exact Stack.holds_store h x _
  · simp only [hf]
    exact Stack.holds_store h x _

theorem Stack.Holds.pop_holds {s : Stack} {x : Int} {l : List Int}
    (h : s.Holds (x :: l)) : (pop s).1 = x ∧ (pop s).2.Holds l := by
  obtain ⟨h1, h2, h3⟩ := h
  simp only [List.length_cons, Nat.cast_add, Nat.cast_one] at h1 h2 h3
  have hne : isEmpty s = false := by
    simp only [isEmpty, beq_eq_false_iff_ne, ne_eq]
    omega
  unfold pop Stack.Holds
  simp only [hne]
  refine ⟨?_, ?_, ?_, ?_⟩
  · have h0 := h3 0 (by omega)
    simp only [Nat.cast_zero, List.getD_cons_zero] at h0
    rw [← h0]
    simp only [Bool.false_eq_true, if_false]
    congr 1
    omega
  · simp only [Bool.false_eq_true, if_false]; omega
  · simp only [Bool.false_eq_true, if_false]; omega
  · intro n hn
    have hs := h3 (n + 1) (by omega)
    simp only [List.getD_cons_succ] at hs
    rw [← hs]
    simp only [Bool.false_eq_true, if_false]
    congr 1
    push_cast
    omega

/-! ### The three-stack loop refines the one-stack loop -/

theorem FillState.Holds.guarded_visit (st : FillState) (s : Volume × List Voxel)
    (hd : st.dstData3D = s.1) (hs : st.Holds s.2) (label : Nat) (c : Prop) [Decidable c]
    (i j k : Int) :
    (if c then visitNeighbor label st i j k else st).dstData3D
        = ((if c then [(⟨i, j, k⟩ : Voxel)] else []).foldl (visitList label) s).1 ∧
      (if c then visitNeighbor label st i j k else st).Holds
        ((if c then [(⟨i, j, k⟩ : Voxel)] else []).foldl (visitList label) s).2 := by
  by_cases hc : c
  · simp only [hc, if_true, List.foldl_cons, List.foldl_nil]
    unfold visitNeighbor visitList
    by_cases hv : st.dstData3D k j i = 1
    · have hv2 : voxelAt s.1 ⟨i, j, k⟩ = 1 := by rw [← hd]; exact hv
      simp only [hv, hv2, if_true]
      refine ⟨?_, ?_, ?_, ?_⟩
      · rw [hd]; rfl
      · exact hs.1.push_holds i
      · exact hs.2.1.push_holds j
      · exact hs.2.2.push_holds k
    · have hv2 : ¬ voxelAt s.1 ⟨i, j, k⟩ = 1 := by rw [← hd]; exact hv
      simp only [hv, hv2, if_false]
      exact ⟨hd, hs⟩
  · simp only [hc, if_false, List.foldl_nil]
    exact ⟨hd, hs⟩

theorem FillState.Holds.dfsBody_holds {st : FillState} {p : Voxel} {rest : List Voxel}
    (hs : st.Holds (p :: rest)) (Dx Dy Dz : Nat) (label : Nat) :
    (dfsBody Dx Dy Dz label st).dstData3D
        = ((neighbors Dx Dy Dz p).foldl (visitList label) (st.dstData3D, rest)).1 ∧
      (dfsBody Dx Dy Dz label st).Holds
        ((neighbors Dx Dy Dz p).foldl (visitList label) (st.dstData3D, rest)).2 := by
  obtain ⟨hi, hj, hk⟩ := hs
  simp only [List.map_cons] at hi hj hk
  obtain ⟨ei, hi2⟩ := hi.pop_holds
  obtain ⟨ej, hj2⟩ := hj.pop_holds
  obtain ⟨ek, hk2⟩ := hk.pop_holds
  unfold dfsBody neighbors
  simp only [ei, ej, ek, List.foldl_append]
  have h0 : (FillState.mk st.dstData3D (pop st.iStack).2 (pop st.jStack).2
      (pop st.kStack).2).Holds (st.dstData3D, rest).2 := ⟨hi2, hj2, hk2⟩
  have h1 := FillState.Holds.guarded_visit
    (FillState.mk st.dstData3D (pop st.iStack).2 (pop st.jStack).2 (pop st.kStack).2)
    (st.dstData3D, rest) rfl h0 label
    (p.i ≥ 1) (p.i - 1) p.j p.k
  have h2 := FillState.Holds.guarded_visit _ _ h1.1 h1.2 label (p.i < (Dx : Int) - 1)
    (p.i + 1) p.j p.k
  have h3 := FillState.Holds.guarded_visit _ _ h2.1 h2.2 label (p.j ≥ 1) p.i (p.j - 1) p.k
  have h4 := FillState.Holds.guarded_visit _ _ h3.1 h3.2 label (p.j < (Dy : Int) - 1)
    p.i (p.j + 1) p.k
  have h5 := FillState.Holds.guarded_visit _ _ h4.1 h4.2 label (p.k ≥ 1) p.i p.j (p.k - 1)
  exact FillState.Holds.guarded_visit _ _ h5.1 h5.2 label (p.k < (Dz : Int) - 1)
    p.i p.j (p.k + 1)

theorem dfsLoop_refines (Dx Dy Dz : Nat) (label : Nat) (fuel : Nat) :
    ∀ (st : FillState) (l : List Voxel), st.Holds l →
      (dfsLoop Dx Dy Dz label fuel st).map FillState.dstData3D
          = fillLoop Dx Dy Dz label fuel (st.dstData3D, l) ∧
        ∀ st1, dfsLoop Dx Dy Dz label fuel st = some st1 → st1.Holds [] := by
  induction fuel with
  | zero =>
    intro st l _
    simp [dfsLoop, fillLoop]
  | succ n ih =>
    intro st l hs
    cases l with
    | nil =>
      have h0 : ¬ getSize st.iStack > 0 := by
        have := hs.1.getSize_eq
        simp only [List.map_nil, List.length_nil, Nat.cast_zero] at this
        omega
      simp only [dfsLoop, h0, if_false, fillLoop, Option.map_some', Option.some.injEq,
        true_and]
      intro st1 h1
      rw [← h1]
      exact hs
    | cons p rest =>
      have h0 : getSize st.iStack > 0 := by
        have := hs.1.getSize_eq
        simp only [List.map_cons, List.length_cons, Nat.cast_add, Nat.cast_one] at this
        omega
      obtain ⟨hb1, hb2⟩ := hs.dfsBody_holds Dx Dy Dz label
      simp only [dfsLoop, h0, if_true, fillLoop]
      have := ih (dfsBody Dx Dy Dz label st) _ hb2
      rw [hb1] at this
      exact this

theorem singlePassDFS_refines (fuel Dx Dy Dz : Nat) (v : Volume) (p : Voxel) (label : Nat)
    (iS jS kS : Stack) (hi : iS.Holds []) (hj : jS.Holds []) (hk : kS.Holds []) :
    (singlePassDFS fuel Dx Dy Dz v p.i p.j p.k label iS jS kS).map FillState.dstData3D
        = fillLoop Dx Dy Dz label fuel (v, [p]) ∧
      ∀ st1, singlePassDFS fuel Dx Dy Dz v p.i p.j p.k label iS jS kS = some st1 →
        st1.Holds [] := by
  unfold singlePassDFS
  exact dfsLoop_refines Dx Dy Dz label fuel _ [p]
    ⟨hi.push_holds p.i, hj.push_holds p.j, hk.push_holds p.k⟩

/-! ### The inspected neighbours are the 6-neighbours inside the volume -/

theorem mem_neighbors {Dx Dy Dz : Nat} {p q : Voxel} :
    q ∈ neighbors Dx Dy Dz p ↔
      (p.i ≥ 1 ∧ q = ⟨p.i - 1, p.j, p.k⟩) ∨ (p.i < (Dx : Int) - 1 ∧ q = ⟨p.i + 1, p.j, p.k⟩) ∨
      (p.j ≥ 1 ∧ q = ⟨p.i, p.j - 1, p.k⟩) ∨ (p.j < (Dy : Int) - 1 ∧ q = ⟨p.i, p.j + 1, p.k⟩) ∨
      (p.k ≥ 1 ∧ q = ⟨p.i, p.j, p.k - 1⟩) ∨ (p.k < (Dz : Int) - 1 ∧ q = ⟨p.i, p.j, p.k + 1⟩) := by
  unfold neighbors
  simp only [List.mem_append, List.mem_ite_nil_right, List.mem_singleton]

theorem mem_neighbors_iff {Dx Dy Dz : Nat} {p q : Voxel} (hp : InBox Dx Dy Dz p) :
    q ∈ neighbors Dx Dy Dz p ↔ Adjacent6 p q ∧ InBox Dx Dy Dz q := by
  rw [mem_neighbors]
  unfold Adjacent6 InBox at *
  simp only [Voxel.ext_iff]
  omega

theorem neighbors_inBox {Dx Dy Dz : Nat} {p q : Voxel} (hp : InBox Dx Dy Dz p)
    (h : q ∈ neighbors Dx Dy Dz p) : InBox Dx Dy Dz q :=
  ((mem_neighbors_iff hp).1 h).2

theorem Adjacent6.swap {p q : Voxel} (h : Adjacent6 p q) : Adjacent6 q p := by
  unfold Adjacent6 at *
  omega

theorem Adjacent6.ne {p q : Voxel} (h : Adjacent6 p q) : p ≠ q := by
  intro e
  subst e
  unfold Adjacent6 at h
  omega

theorem neighbors_symm {Dx Dy Dz : Nat} {p q : Voxel} (hp : InBox Dx Dy Dz p)
    (h : q ∈ neighbors Dx Dy Dz p) : p ∈ neighbors Dx Dy Dz q := by
  have h1 := (mem_neighbors_iff hp).1 h
  exact (mem_neighbors_iff h1.2).2 ⟨h1.1.swap, hp⟩

/-! ### Effect of one loop iteration on the volume and on the stack -/

theorem foldl_visitList_value (label : Nat) (L : List Voxel) :
    ∀ (s : Volume × List Voxel) (q : Voxel),
      voxelAt (L.foldl (visitList label) s).1 q
        = if q ∈ L ∧ voxelAt s.1 q = 1 then label else voxelAt s.1 q := by
  induction L with
  | nil => intro s q; simp
  | cons a L ih =>
    intro s q
    rw [List.foldl_cons, ih]
    unfold visitList
    by_cases ha : voxelAt s.1 a = 1
    · simp only [ha, if_true, voxelAt_writeAt, List.mem_cons]
      by_cases hq : q = a
      · subst hq
        by_cases hl : label = 1
        · simp [hl, ha]
        · simp [hl, ha]
      · simp [hq]
    · simp only [ha, if_false, List.mem_cons]
      by_cases hq : q = a
      · subst hq
        simp [ha]
      · simp [hq]

theorem foldl_visitList_mem (label : Nat) (L : List Voxel) :
    ∀ (s : Volume × List Voxel) (x : Voxel),
      x ∈ (L.foldl (visitList label) s).2 ↔ x ∈ s.2 ∨ (x ∈ L ∧ voxelAt s.1 x = 1) := by
  induction L with
  | nil => intro s x; simp
  | cons a L ih =>
    intro s x
    rw [List.foldl_cons, ih]
    unfold visitList
    by_cases ha : voxelAt s.1 a = 1
    · simp only [ha, if_true, voxelAt_writeAt, List.mem_cons]
      by_cases hx : x = a
      · subst hx
        simp [ha]
      · simp [hx]
    · simp only [ha, if_false, List.mem_cons]
      by_cases hx : x = a
      · subst hx
        simp [ha]
      · simp [hx]

/-! ### Partial correctness of the fill loop -/

theorem ChainStep.of_mem_neighbors {Dx Dy Dz : Nat} {v : Volume} {p q : Voxel}
    (hp : InBox Dx Dy Dz p) (h : q ∈ neighbors Dx Dy Dz p) (hv : voxelAt v q = 1) :
    ChainStep Dx Dy Dz v p q :=
  ⟨((mem_neighbors_iff hp).1 h).1, ((mem_neighbors_iff hp).1 h).2, hv⟩

theorem ChainStep.mem_nbrs {Dx Dy Dz : Nat} {v : Volume} {p q : Voxel}
    (hp : InBox Dx Dy Dz p) (h : ChainStep Dx Dy Dz v p q) : q ∈ neighbors Dx Dy Dz p :=
  (mem_neighbors_iff hp).2 ⟨h.1, h.2.1⟩

theorem ReachableFrom.target_isObject {Dx Dy Dz : Nat} {v : Volume} {p q : Voxel}
    (h : ReachableFrom Dx Dy Dz v p q) : InBox Dx Dy Dz q ∧ voxelAt v q = 1 := by
  cases h with
  | single h1 => exact h1.2
  | tail _ h1 => exact h1.2

theorem FillInv.initial (Dx Dy Dz : Nat) (v0 : Volume) (seed : Voxel) (label : Nat)
    (hseed : InBox Dx Dy Dz seed) : FillInv Dx Dy Dz v0 seed label (v0, [seed]) where
  frame := fun _ => Or.inl rfl
  onStack := by
    intro p hp
    simp only [List.mem_singleton] at hp
    subst hp
    exact ⟨hseed, Or.inl rfl⟩
  closed := by
    intro p hp
    rcases hp with hp | hp
    · left; simp [hp]
    · exact absurd rfl hp

theorem FillInv.step {Dx Dy Dz : Nat} {v0 : Volume} {seed : Voxel} {label : Nat}
    {v : Volume} {p0 : Voxel} {rest : List Voxel}
    (h : FillInv Dx Dy Dz v0 seed label (v, p0 :: rest)) :
    FillInv Dx Dy Dz v0 seed label
      ((neighbors Dx Dy Dz p0).foldl (visitList label) (v, rest)) := by
  obtain ⟨hbox0, hreach0⟩ := h.onStack p0 (List.mem_cons_self _ _)
  have hv0 : ∀ q, voxelAt v q = 1 → voxelAt v0 q = 1 := by
    intro q hq
    rcases h.frame q with e | e
    · rw [← e]; exact hq
    · exact e.1
  have hnew : ∀ q, q ∈ neighbors Dx Dy Dz p0 → voxelAt v q = 1 →
      InBox Dx Dy Dz q ∧ ReachableFrom Dx Dy Dz v0 seed q := by
    intro q hq hq1
    have hstep : ChainStep Dx Dy Dz v0 p0 q := ChainStep.of_mem_neighbors hbox0 hq (hv0 q hq1)
    refine ⟨hstep.2.1, ?_⟩
    rcases hreach0 with e | e
    · rw [← e]; exact Relation.TransGen.single hstep
    · exact Relation.TransGen.tail e hstep
  refine ⟨?_, ?_, ?_⟩
  · intro q
    rw [foldl_visitList_value]
    by_cases hc : q ∈ neighbors Dx Dy Dz p0 ∧ voxelAt v q = 1
    · rw [if_pos hc]
      exact Or.inr ⟨hv0 q hc.2, rfl, (hnew q hc.1 hc.2).2⟩
    · rw [if_neg hc]
      exact h.frame q
  · intro p hp
    rw [foldl_visitList_mem] at hp
    rcases hp with hp | hp
    · exact h.onStack p (List.mem_cons_of_mem _ hp)
    · have := hnew p hp.1 hp.2
      exact ⟨this.1, Or.inr this.2⟩
  · intro p hp
    by_cases hp0 : p = p0
    · right
      intro q hq
      rw [hp0] at hq
      have hmem := hq.mem_nbrs hbox0
      rw [foldl_visitList_value]
      by_cases hq1 : voxelAt v q = 1
      · simp [hmem, hq1]
      · simp only [hq1, and_false, if_false]
        rcases h.frame q with e | e
        · exact absurd (e.trans hq.2.2) hq1
        · exact e.2.1
    · by_cases hold : p = seed ∨ voxelAt v p ≠ voxelAt v0 p
      · rcases h.closed p hold with hin | hcl
        · left
          rw [foldl_visitList_mem]
          left
          simpa [hp0] using hin
        · right
          intro q hq
          rw [foldl_visitList_value]
          by_cases hc : q ∈ neighbors Dx Dy Dz p0 ∧ voxelAt v q = 1
          · simp [hc]
          · simp only [hc, if_false]
            exact hcl q hq
      · left
        rw [foldl_visitList_mem]
        right
        simp only [not_or, ne_eq, not_not] at hold
        have hne : voxelAt ((neighbors Dx Dy Dz p0).foldl (visitList label) (v, rest)).1 p
            ≠ voxelAt v0 p := by
          rcases hp with hp | hp
          · exact absurd hp hold.1
          · exact hp
        rw [foldl_visitList_value] at hne
        by_cases hc : p ∈ neighbors Dx Dy Dz p0 ∧ voxelAt v p = 1
        · exact hc
        · simp only [hc, if_false] at hne
          exact absurd hold.2 hne

theorem FillInv.result {Dx Dy Dz : Nat} {v0 : Volume} {seed : Voxel} {label : Nat} (fuel : Nat) :
    ∀ (s : Volume × List Voxel) (v1 : Volume), FillInv Dx Dy Dz v0 seed label s →
      fillLoop Dx Dy Dz label fuel s = some v1 → FillInv Dx Dy Dz v0 seed label (v1, []) := by
  induction fuel with
  | zero => intro s v1 _ h; simp [fillLoop] at h
  | succ n ih =>
    intro s v1 hinv h
    obtain ⟨v, stk⟩ := s
    cases stk with
    | nil =>
      simp only [fillLoop, Option.some.injEq] at h
      rw [← h]; exact hinv
    | cons p rest =>
      simp only [fillLoop] at h
      exact ih _ v1 hinv.step h

/-- What the loop of `singlePassDFS` has done when it returns: exactly the voxels reachable
from the seed through a chain of `1`-valued 6-neighbours hold `label`, all others are as
before. -/
theorem fillLoop_spec {Dx Dy Dz : Nat} {v0 v1 : Volume} {seed : Voxel} {label fuel : Nat}
    (hseed : InBox Dx Dy Dz seed)
    (h : fillLoop Dx Dy Dz label fuel (v0, [seed]) = some v1) :
    (∀ q, ReachableFrom Dx Dy Dz v0 seed q → voxelAt v1 q = label) ∧
    (∀ q, ¬ ReachableFrom Dx Dy Dz v0 seed q → voxelAt v1 q = voxelAt v0 q) := by
  have hinv := FillInv.result fuel _ v1 (FillInv.initial Dx Dy Dz v0 seed label hseed) h
  have hframe : ∀ q, ¬ ReachableFrom Dx Dy Dz v0 seed q → voxelAt v1 q = voxelAt v0 q := by
    intro q hq
    rcases hinv.frame q with e | e
    · exact e
    · exact absurd e.2.2 hq
  refine ⟨?_, hframe⟩
  intro q hq
  by_cases hl : label = 1
  · rcases hinv.frame q with e | e
    · rw [e, hq.target_isObject.2, hl]
    · exact e.2.1
  · induction hq with
    | single hstep =>
      rcases hinv.closed seed (Or.inl rfl) with hin | hcl
      · simp at hin
      · exact hcl _ hstep
    | tail hreach hstep ih =>
      rename_i b c
      have hb : voxelAt v1 b ≠ voxelAt v0 b := by
        rw [ih, (ReachableFrom.target_isObject hreach).2]; exact hl
      rcases hinv.closed b (Or.inr hb) with hin | hcl
      · simp at hin
      · exact hcl _ hstep

/-! ### Scan positions and the finite set of voxels -/

theorem mem_forRange {lo hi x : Int} : x ∈ forRange lo hi ↔ lo ≤ x ∧ x < hi := by
  unfold forRange
  simp only [List.mem_map, List.mem_range]
  constructor
  · rintro ⟨n, hn, rfl⟩
    rw [Int.lt_toNat] at hn
    omega
  · intro h
    have h0 : ((x - lo).toNat : Int) = x - lo := Int.toNat_of_nonneg (by omega)
    refine ⟨(x - lo).toNat, ?_, ?_⟩
    · rw [Int.lt_toNat]; omega
    · omega

theorem length_forRange (lo hi : Int) : (forRange lo hi).length = (hi - lo).toNat := by
  unfold forRange
  rw [List.length_map, List.length_range]

theorem mem_scanOrder {Dx Dy : Nat} {kMin kMax : Int} {p : Voxel} :
    p ∈ scanOrder Dx Dy kMin kMax ↔
      0 ≤ p.i ∧ p.i < (Dx : Int) ∧ 0 ≤ p.j ∧ p.j < (Dy : Int) ∧ kMin ≤ p.k ∧ p.k < kMax := by
  unfold scanOrder
  simp only [List.mem_flatMap, List.mem_map, mem_forRange]
  constructor
  · rintro ⟨k, hk, j, hj, i, hi, rfl⟩
    simp only
    omega
  · intro h
    exact ⟨p.k, by omega, p.j, by omega, p.i, by omega, rfl⟩

theorem mem_boxFinset {Dx Dy Dz : Nat} {p : Voxel} :
    p ∈ boxFinset Dx Dy Dz ↔ InBox Dx Dy Dz p := by
  unfold boxFinset InBox
  rw [List.mem_toFinset, mem_scanOrder]

theorem length_flatMap_const {α β : Type} (f : α → List β) (c : Nat) :
    ∀ l : List α, (∀ a ∈ l, (f a).length = c) → (l.flatMap f).length = l.length * c := by
  intro l
  induction l with
  | nil => intro _; simp
  | cons a l ih =>
    intro h
    rw [List.flatMap_cons, List.length_append, h a (List.mem_cons_self _ _),
      ih (fun b hb => h b (List.mem_cons_of_mem _ hb)), List.length_cons]
    ring

theorem length_scanOrder (Dx Dy : Nat) (kMin kMax : Int) :
    (scanOrder Dx Dy kMin kMax).length = (kMax - kMin).toNat * (Dy * Dx) := by
  unfold scanOrder
  rw [length_flatMap_const _ (Dy * Dx), length_forRange]
  intro k _
  rw [length_flatMap_const _ Dx, length_forRange]
  · simp
  · intro j _
    simp [length_forRange]

theorem card_boxFinset_le (Dx Dy Dz : Nat) : (boxFinset Dx Dy Dz).card ≤ Dx * Dy * Dz := by
  unfold boxFinset
  refine le_trans (List.toFinset_card_le _) ?_
  rw [length_scanOrder]
  simp only [sub_zero, Int.toNat_ofNat]
  exact le_of_eq (by ring)

theorem onesCount_le (Dx Dy Dz : Nat) (v : Volume) : onesCount Dx Dy Dz v ≤ Dx * Dy * Dz :=
  le_trans (Finset.card_filter_le _ _) (card_boxFinset_le Dx Dy Dz)

/-! ### Termination of the fill loop for a label other than 1 -/

theorem onesCount_writeAt {Dx Dy Dz : Nat} {v : Volume} {q : Voxel} {label : Nat}
    (hq : InBox Dx Dy Dz q) (hv : voxelAt v q = 1) (hl : label ≠ 1) :
    onesCount Dx Dy Dz (writeAt v q label) + 1 = onesCount Dx Dy Dz v := by
  unfold onesCount
  have hmem : q ∈ (boxFinset Dx Dy Dz).filter (fun p => voxelAt v p = 1) := by
    rw [Finset.mem_filter]
    exact ⟨mem_boxFinset.2 hq, hv⟩
  have heq : (boxFinset Dx Dy Dz).filter (fun p => voxelAt (writeAt v q label) p = 1)
      = ((boxFinset Dx Dy Dz).filter (fun p => voxelAt v p = 1)).erase q := by
    ext p
    simp only [Finset.mem_filter, Finset.mem_erase, voxelAt_writeAt]
    by_cases hp : p = q
    · simp [hp, hl]
    · simp [hp]
  rw [heq, Finset.card_erase_of_mem hmem]
  have : 0 < ((boxFinset Dx Dy Dz).filter (fun p => voxelAt v p = 1)).card :=
    Finset.card_pos.2 ⟨q, hmem⟩
  omega

theorem foldl_visitList_measure {Dx Dy Dz : Nat} {label : Nat} (hl : label ≠ 1)
    (L : List Voxel) :
    ∀ s : Volume × List Voxel, (∀ q ∈ L, InBox Dx Dy Dz q) →
      onesCount Dx Dy Dz (L.foldl (visitList label) s).1 + (L.foldl (visitList label) s).2.length
        = onesCount Dx Dy Dz s.1 + s.2.length := by
  induction L with
  | nil => intro s _; rfl
  | cons a L ih =>
    intro s hL
    rw [List.foldl_cons, ih _ (fun q hq => hL q (List.mem_cons_of_mem _ hq))]
    unfold visitList
    by_cases ha : voxelAt s.1 a = 1
    · simp only [ha, if_true, List.length_cons]
      have := onesCount_writeAt (hL a (List.mem_cons_self _ _)) ha hl
      omega
    · simp only [ha, if_false]

theorem fillLoop_terminates {Dx Dy Dz : Nat} {label : Nat} (hl : label ≠ 1) (fuel : Nat) :
    ∀ (v : Volume) (stk : List Voxel), (∀ p ∈ stk, InBox Dx Dy Dz p) →
      onesCount Dx Dy Dz v + stk.length < fuel →
      ∃ v1, fillLoop Dx Dy Dz label fuel (v, stk) = some v1 := by
  induction fuel with
  | zero => intro v stk _ h; omega
  | succ n ih =>
    intro v stk hbox hm
    cases stk with
    | nil => exact ⟨v, rfl⟩
    | cons p rest =>
      simp only [fillLoop]
      have hp := hbox p (List.mem_cons_self _ _)
      have hmeas := foldl_visitList_measure hl (neighbors Dx Dy Dz p) (v, rest)
        (fun q hq => neighbors_inBox hp hq)
      apply ih
      · intro x hx
        rw [foldl_visitList_mem] at hx
        rcases hx with hx | hx
        · exact hbox x (List.mem_cons_of_mem _ hx)
        · exact neighbors_inBox hp hx.1
      · simp only [List.length_cons] at hm
        simp only at hmeas
        omega

/-! ### With label 1 the loop cannot return once a stacked `1` has a `1`-neighbour -/

theorem fillLoop_label_one_diverges {Dx Dy Dz : Nat} (fuel : Nat) :
    ∀ (v : Volume) (stk : List Voxel),
      (∃ p ∈ stk, InBox Dx Dy Dz p ∧ voxelAt v p = 1 ∧
        ∃ q, q ∈ neighbors Dx Dy Dz p ∧ voxelAt v q = 1) →
      fillLoop Dx Dy Dz 1 fuel (v, stk) = none := by
  induction fuel with
  | zero => intro v stk _; rfl
  | succ n ih =>
    intro v stk hhot
    obtain ⟨p, hp, hbox, hv, q, hq, hqv⟩ := hhot
    cases stk with
    | nil => simp at hp
    | cons p0 rest =>
      simp only [fillLoop]
      apply ih
      have hval : ∀ x, voxelAt ((neighbors Dx Dy Dz p0).foldl (visitList 1) (v, rest)).1 x
          = voxelAt v x := by
        intro x
        rw [foldl_visitList_value]
        by_cases hc : x ∈ neighbors Dx Dy Dz p0 ∧ voxelAt v x = 1
        · rw [if_pos hc]; exact hc.2.symm
        · rw [if_neg hc]
      by_cases hpp : p = p0
      · refine ⟨q, ?_, neighbors_inBox hbox hq, ?_, p, neighbors_symm hbox hq, ?_⟩
        · rw [foldl_visitList_mem]
          right
          rw [← hpp]
          exact ⟨hq, hqv⟩
        · rw [hval]; exact hqv
        · rw [hval]; exact hv
      · refine ⟨p, ?_, hbox, ?_, q, hq, ?_⟩
        · rw [foldl_visitList_mem]
          left
          simpa [hpp] using hp
        · rw [hval]; exact hv
        · rw [hval]; exact hqv

/-! ### `singlePassDFS`: what it returns, and when it returns -/

theorem singlePassDFS_spec {fuel Dx Dy Dz : Nat} {v : Volume} {p : Voxel} {label : Nat}
    {iS jS kS : Stack} {st1 : FillState} (hp : InBox Dx Dy Dz p)
    (hi : iS.Holds []) (hj : jS.Holds []) (hk : kS.Holds [])
    (h : singlePassDFS fuel Dx Dy Dz v p.i p.j p.k label iS jS kS = some st1) :
    st1.Holds [] ∧
    (∀ q, ReachableFrom Dx Dy Dz v p q → voxelAt st1.dstData3D q = label) ∧
    (∀ q, ¬ ReachableFrom Dx Dy Dz v p q → voxelAt st1.dstData3D q = voxelAt v q) := by
  obtain ⟨h1, h2⟩ := singlePassDFS_refines fuel Dx Dy Dz v p label iS jS kS hi hj hk
  rw [h] at h1
  simp only [Option.map_some'] at h1
  exact ⟨h2 st1 h, fillLoop_spec hp h1.symm⟩

theorem singlePassDFS_returns {fuel Dx Dy Dz : Nat} (v : Volume) {p : Voxel} {label : Nat}
    {iS jS kS : Stack} (hp : InBox Dx Dy Dz p)
    (hi : iS.Holds []) (hj : jS.Holds []) (hk : kS.Holds [])
    (hl : label ≠ 1) (hfuel : Dx * Dy * Dz + 2 ≤ fuel) :
    ∃ st1, singlePassDFS fuel Dx Dy Dz v p.i p.j p.k label iS jS kS = some st1 := by
  obtain ⟨h1, _⟩ := singlePassDFS_refines fuel Dx Dy Dz v p label iS jS kS hi hj hk
  obtain ⟨v1, hv1⟩ := fillLoop_terminates hl fuel v [p]
    (by intro x hx; simp only [List.mem_singleton] at hx; rw [hx]; exact hp)
    (by
      have := onesCount_le Dx Dy Dz v
      simp only [List.length_singleton]
      omega)
  rw [hv1] at h1
  cases hres : singlePassDFS fuel Dx Dy Dz v p.i p.j p.k label iS jS kS with
  | none => rw [hres] at h1; simp at h1
  | some st1 => exact ⟨st1, rfl⟩

theorem singlePassDFS_label_one {fuel Dx Dy Dz : Nat} {v : Volume} {p : Voxel}
    {iS jS kS : Stack} {st1 : FillState} (hp : InBox Dx Dy Dz p)
    (hi : iS.Holds []) (hj : jS.Holds []) (hk : kS.Holds [])
    (hv : voxelAt v p = 1)
    (h : singlePassDFS fuel Dx Dy Dz v p.i p.j p.k 1 iS jS kS = some st1) :
    ∀ q, q ∈ neighbors Dx Dy Dz p → voxelAt v q ≠ 1 := by
  intro q hq hq1
  obtain ⟨h1, _⟩ := singlePassDFS_refines fuel Dx Dy Dz v p 1 iS jS kS hi hj hk
  rw [h, fillLoop_label_one_diverges fuel v [p]
    ⟨p, List.mem_singleton.2 rfl, hp, hv, q, hq, hq1⟩] at h1
  simp at h1

/-! ### Connectivity through `1`-valued voxels -/

theorem Connected.inBox {Dx Dy Dz : Nat} {v : Volume} {p q : Voxel}
    (h : Connected Dx Dy Dz v p q) (hp : InBox Dx Dy Dz p) : InBox Dx Dy Dz q := by
  cases h with
  | refl => exact hp
  | tail _ h1 => exact h1.2.1

theorem Connected.value {Dx Dy Dz : Nat} {v : Volume} {p q : Voxel}
    (h : Connected Dx Dy Dz v p q) (hp : voxelAt v p = 1) : voxelAt v q = 1 := by
  cases h with
  | refl => exact hp
  | tail _ h1 => exact h1.2.2

theorem Connected.isObject {Dx Dy Dz : Nat} {v : Volume} {p q : Voxel}
    (h : Connected Dx Dy Dz v p q) (hp : IsObject Dx Dy Dz v p) : IsObject Dx Dy Dz v q :=
  ⟨h.inBox hp.1, h.value hp.2⟩

theorem Connected.trans {Dx Dy Dz : Nat} {v : Volume} {p q r : Voxel}
    (h1 : Connected Dx Dy Dz v p q) (h2 : Connected Dx Dy Dz v q r) :
    Connected Dx Dy Dz v p r :=
  Relation.ReflTransGen.trans h1 h2

theorem Connected.symm {Dx Dy Dz : Nat} {v : Volume} {p q : Voxel}
    (h : Connected Dx Dy Dz v p q) (hp : IsObject Dx Dy Dz v p) :
    Connected Dx Dy Dz v q p := by
  induction h with
  | refl => exact Relation.ReflTransGen.refl
  | tail hpb hbc ih =>
    rename_i b c
    have hb : IsObject Dx Dy Dz v b := Connected.isObject hpb hp
    have hback : ChainStep Dx Dy Dz v c b := ⟨hbc.1.swap, hb.1, hb.2⟩
    exact Relation.ReflTransGen.head hback ih

theorem Connected.eq_or_reachable {Dx Dy Dz : Nat} {v : Volume} {p q : Voxel}
    (h : Connected Dx Dy Dz v p q) : q = p ∨ ReachableFrom Dx Dy Dz v p q := by
  rcases Relation.reflTransGen_iff_eq_or_transGen.1 h with e | e
  · exact Or.inl e
  · exact Or.inr e

theorem ReachableFrom.connected {Dx Dy Dz : Nat} {v : Volume} {p q : Voxel}
    (h : ReachableFrom Dx Dy Dz v p q) : Connected Dx Dy Dz v p q :=
  Relation.TransGen.to_reflTransGen h

theorem writeAt_same {v : Volume} {p : Voxel} {x : Nat} (h : voxelAt v p = x) :
    writeAt v p x = v := by
  funext k j i
  unfold writeAt setVoxel
  by_cases hc : k = p.k ∧ j = p.j ∧ i = p.i
  · rw [if_pos hc]
    obtain ⟨h1, h2, h3⟩ := hc
    rw [h1, h2, h3]
    exact h.symm
  · rw [if_neg hc]

/-- Writing the label on a `1`-valued seed and running `singlePassDFS` from it gives the
whole 6-connected component of the seed the label and changes nothing else. -/
theorem seedFill_spec {fuel Dx Dy Dz : Nat} {v : Volume} {p : Voxel} {label : Nat}
    {iS jS kS : Stack} {st1 : FillState} (hp : InBox Dx Dy Dz p) (hv : voxelAt v p = 1)
    (hi : iS.Holds []) (hj : jS.Holds []) (hk : kS.Holds [])
    (h : singlePassDFS fuel Dx Dy Dz (writeAt v p label) p.i p.j p.k label iS jS kS = some st1) :
    st1.Holds [] ∧
    (∀ q, Connected Dx Dy Dz v p q → voxelAt st1.dstData3D q = label) ∧
    (∀ q, ¬ Connected Dx Dy Dz v p q → voxelAt st1.dstData3D q = voxelAt v q) := by
  obtain ⟨hs, hr, hn⟩ := singlePassDFS_spec hp hi hj hk h
  refine ⟨hs, ?_, ?_⟩
  · intro q hq
    by_cases hl : label = 1
    · have hsame : writeAt v p label = v := writeAt_same (hv.trans hl.symm)
      rw [hsame] at hr hn
      by_cases hreach : ReachableFrom Dx Dy Dz v p q
      · exact hr q hreach
      · rw [hn q hreach, hq.value hv, hl]
    · have key : ∀ q, Connected Dx Dy Dz v p q →
          q = p ∨ ReachableFrom Dx Dy Dz (writeAt v p label) p q := by
        intro q hq
        induction hq with
        | refl => exact Or.inl rfl
        | tail hpb hbc ih =>
          rename_i b c
          by_cases hcp : c = p
          · exact Or.inl hcp
          · right
            have hstep : ChainStep Dx Dy Dz (writeAt v p label) b c :=
              ⟨hbc.1, hbc.2.1, by rw [voxelAt_writeAt_ne v label hcp]; exact hbc.2.2⟩
            rcases ih with e | e
            · rw [e] at hstep; exact Relation.TransGen.single hstep
            · exact Relation.TransGen.tail e hstep
      rcases key q hq with e | e
      · have hnot : ¬ ReachableFrom Dx Dy Dz (writeAt v p label) p p := by
          intro hpp
          have := (ReachableFrom.target_isObject hpp).2
          rw [voxelAt_writeAt_self] at this
          exact hl this
        rw [e, hn p hnot, voxelAt_writeAt_self]
      · exact hr q e
  · intro q hq
    have hqp : q ≠ p := by
      intro e
      rw [e] at hq
      exact hq Relation.ReflTransGen.refl
    have hnot : ¬ ReachableFrom Dx Dy Dz (writeAt v p label) p q := by
      intro hreach
      apply hq
      by_cases hl : label = 1
      · have hsame : writeAt v p label = v := writeAt_same (hv.trans hl.symm)
        rw [hsame] at hreach
        exact hreach.connected
      · have mono : ∀ a b, ChainStep Dx Dy Dz (writeAt v p label) a b →
            ChainStep Dx Dy Dz v a b := by
          intro a b hab
          refine ⟨hab.1, hab.2.1, ?_⟩
          have hb := hab.2.2
          rw [voxelAt_writeAt] at hb
          by_cases hbp : b = p
          · rw [if_pos hbp] at hb; exact absurd hb hl
          · rw [if_neg hbp] at hb; exact hb
        exact (Relation.TransGen.mono mono hreach).to_reflTransGen
    rw [hn q hnot, voxelAt_writeAt_ne v label hqp]

/-! ### The scan of `singlePassLabeling` -/

theorem scanLt_irrefl (p : Voxel) : ¬ scanLt p p := by
  unfold scanLt
  omega

theorem labelAt_succ (a s n : Nat) :
    (labelAt a s n + s) % PIXEL_RANGE = labelAt a s (n + 1) := by
  unfold labelAt PIXEL_RANGE
  have : (n + 1) * s = n * s + s := by ring
  rw [this]
  generalize n * s = t
  omega

theorem Connected.eq_of_isolated {Dx Dy Dz : Nat} {v : Volume} {x q : Voxel}
    (h : Connected Dx Dy Dz v x q) (hiso : ∀ c, ¬ ChainStep Dx Dy Dz v x c) : q = x := by
  rcases Relation.ReflTransGen.cases_head h with e | ⟨c, hc, _⟩
  · exact e.symm
  · exact absurd hc (hiso c)

/-- Facts about a position `p` that still holds `1` when the scan reaches it: it belongs to
no component found so far, and its component in the current volume is its component in the
initial volume. -/
theorem ScanInv.fresh {Dx Dy Dz : Nat} {v0 : Volume} {a st : Nat} {done : List Voxel}
    {s : ScanState} {seeds : List Voxel} (hinv : ScanInv Dx Dy Dz v0 a st done s seeds)
    {p : Voxel} (hp : InBox Dx Dy Dz p) (hlt : ∀ x ∈ done, scanLt x p)
    (hv : voxelAt s.fill.dstData3D p = 1) :
    (∀ x ∈ seeds, ¬ Connected Dx Dy Dz v0 x p) ∧ voxelAt v0 p = 1 ∧
    (∀ q, Connected Dx Dy Dz v0 p q → voxelAt s.fill.dstData3D q = 1) ∧
    (∀ q, Connected Dx Dy Dz s.fill.dstData3D p q ↔ Connected Dx Dy Dz v0 p q) := by
  have hA : ∀ x ∈ seeds, ¬ Connected Dx Dy Dz v0 x p := by
    intro x hx hc
    obtain ⟨n, hn⟩ := List.mem_iff_getElem?.1 hx
    have h1 : labelAt a st n = 1 := by rw [← hinv.lab n x hn p hc]; exact hv
    have hpx : p = x := hc.eq_of_isolated (hinv.iso n x hn h1)
    have := hlt x (hinv.sub.subset hx)
    rw [hpx] at this
    exact scanLt_irrefl x this
  have hv0 : voxelAt v0 p = 1 := by rw [← hinv.frame p hA]; exact hv
  have hobj : IsObject Dx Dy Dz v0 p := ⟨hp, hv0⟩
  have hB0 : ∀ q, Connected Dx Dy Dz v0 p q → voxelAt s.fill.dstData3D q = 1 := by
    intro q hq
    have hnone : ∀ x ∈ seeds, ¬ Connected Dx Dy Dz v0 x q :=
      fun x hx hc => hA x hx (hc.trans (hq.symm hobj))
    rw [hinv.frame q hnone]
    exact hq.value hv0
  refine ⟨hA, hv0, hB0, ?_⟩
  intro q
  constructor
  · intro hq
    induction hq with
    | refl => exact Relation.ReflTransGen.refl
    | tail hpb hbc ih =>
      rename_i b c
      have hb : IsObject Dx Dy Dz v0 b := Connected.isObject ih hobj
      have hc0 : voxelAt v0 c = 1 := by
        by_cases hnone : ∀ x ∈ seeds, ¬ Connected Dx Dy Dz v0 x c
        · rw [← hinv.frame c hnone]; exact hbc.2.2
        · exfalso
          push_neg at hnone
          obtain ⟨x, hx, hxc⟩ := hnone
          obtain ⟨n, hn⟩ := List.mem_iff_getElem?.1 hx
          have h1 : labelAt a st n = 1 := by rw [← hinv.lab n x hn c hxc]; exact hbc.2.2
          have hiso := hinv.iso n x hn h1
          have hcx : c = x := hxc.eq_of_isolated hiso
          rw [← hcx] at hiso
          exact hiso b ⟨hbc.1.swap, hb.1, hb.2⟩
      exact Relation.ReflTransGen.tail ih ⟨hbc.1, hbc.2.1, hc0⟩
  · intro hq
    induction hq with
    | refl => exact Relation.ReflTransGen.refl
    | tail hpb hbc ih =>
      rename_i b c
      exact Relation.ReflTransGen.tail ih
        ⟨hbc.1, hbc.2.1, hB0 c (Relation.ReflTransGen.tail hpb hbc)⟩

theorem ScanInv.skip {Dx Dy Dz : Nat} {v0 : Volume} {a st : Nat} {done : List Voxel}
    {s : ScanState} {seeds : List Voxel} (hinv : ScanInv Dx Dy Dz v0 a st done s seeds)
    {p : Voxel} (hlt : ∀ x ∈ done, scanLt x p) (hv : ¬ voxelAt s.fill.dstData3D p = 1) :
    ScanInv Dx Dy Dz v0 a st (done ++ [p]) s seeds where
  stacksEmpty := hinv.stacksEmpty
  sub := hinv.sub.trans (List.sublist_append_left _ _)
  obj := hinv.obj
  sep := hinv.sep
  cover := by
    intro q hq hq1
    rw [List.mem_append, List.mem_singleton] at hq
    rcases hq with hq | hq
    · exact hinv.cover q hq hq1
    · rw [hq] at hq1
      by_contra hcon
      push_neg at hcon
      apply hv
      rw [hinv.frame p ?_]
      · exact hq1
      · intro x hx hc
        have h1 := hcon x hx (by rw [hq]; exact hc)
        exact h1.2 (by rw [hq]; exact hlt x (hinv.sub.subset hx))
  lab := hinv.lab
  frame := hinv.frame
  label_eq := hinv.label_eq
  count_eq := hinv.count_eq
  iso := hinv.iso

theorem ScanInv.seed {Dx Dy Dz : Nat} {v0 : Volume} {a st : Nat} {done : List Voxel}
    {s : ScanState} {seeds : List Voxel} (hinv : ScanInv Dx Dy Dz v0 a st done s seeds)
    {p : Voxel} (hp : InBox Dx Dy Dz p) (hlt : ∀ x ∈ done, scanLt x p)
    (hv : voxelAt s.fill.dstData3D p = 1) {fuel : Nat} {st1 : FillState}
    (h : singlePassDFS fuel Dx Dy Dz (writeAt s.fill.dstData3D p s.label) p.i p.j p.k s.label
      s.fill.iStack s.fill.jStack s.fill.kStack = some st1) :
    ScanInv Dx Dy Dz v0 a st (done ++ [p])
      { fill := st1
        label := (s.label + st) % PIXEL_RANGE
        objectCount := (s.objectCount + 1) % PIXEL_RANGE } (seeds ++ [p]) := by
  obtain ⟨hA, hv0, hB0, hB⟩ := hinv.fresh hp hlt hv
  have hobj : IsObject Dx Dy Dz v0 p := ⟨hp, hv0⟩
  obtain ⟨hs1, hyes, hno⟩ := seedFill_spec hp hv hinv.stacksEmpty.1 hinv.stacksEmpty.2.1
    hinv.stacksEmpty.2.2 h
  have hidx : ∀ n x, (seeds ++ [p])[n]? = some x →
      (n < seeds.length ∧ seeds[n]? = some x) ∨ (n = seeds.length ∧ x = p) := by
    intro n x hn
    by_cases hlen : n < seeds.length
    · rw [List.getElem?_append_left hlen] at hn
      exact Or.inl ⟨hlen, hn⟩
    · rw [List.getElem?_append_right (by omega)] at hn
      right
      cases hk : n - seeds.length with
      | zero =>
        rw [hk] at hn
        simp only [List.getElem?_cons_zero, Option.some.injEq] at hn
        exact ⟨by omega, hn.symm⟩
      | succ m =>
        rw [hk] at hn
        simp at hn
  refine ⟨hs1, List.Sublist.append hinv.sub (List.Sublist.refl _), ?_, ?_, ?_, ?_, ?_, ?_, ?_, ?_⟩
  · intro x hx
    rw [List.mem_append, List.mem_singleton] at hx
    rcases hx with hx | hx
    · exact hinv.obj x hx
    · rw [hx]; exact hv0
  · rw [List.pairwise_append]
    refine ⟨hinv.sep, List.pairwise_singleton _ _, ?_⟩
    intro x hx y hy
    rw [List.mem_singleton] at hy
    rw [hy]
    exact hA x hx
  · intro q hq hq1
    rw [List.mem_append, List.mem_singleton] at hq
    rcases hq with hq | hq
    · obtain ⟨x, hx, hc⟩ := hinv.cover q hq hq1
      exact ⟨x, List.mem_append_left _ hx, hc⟩
    · exact ⟨p, List.mem_append_right _ (List.mem_singleton.2 rfl), by
        rw [hq]; exact Relation.ReflTransGen.refl, Or.inl hq.symm⟩
  · intro n x hn q hq
    rcases hidx n x hn with ⟨_, hn1⟩ | ⟨hn1, hx⟩
    · have hx : x ∈ seeds := List.mem_iff_getElem?.2 ⟨n, hn1⟩
      have hnot : ¬ Connected Dx Dy Dz s.fill.dstData3D p q := by
        intro hc
        have hc0 := (hB q).1 hc
        exact hA x hx (hq.trans (hc0.symm hobj))
      show voxelAt st1.dstData3D q = _
      rw [hno q hnot]
      exact hinv.lab n x hn1 q hq
    · show voxelAt st1.dstData3D q = _
      rw [hx] at hq
      rw [hyes q ((hB q).2 hq), hn1]
      exact hinv.label_eq
  · intro q hq
    have hnot : ¬ Connected Dx Dy Dz s.fill.dstData3D p q := by
      intro hc
      exact hq p (List.mem_append_right _ (List.mem_singleton.2 rfl)) ((hB q).1 hc)
    show voxelAt st1.dstData3D q = _
    rw [hno q hnot]
    exact hinv.frame q (fun x hx => hq x (List.mem_append_left _ hx))
  · show (s.label + st) % PIXEL_RANGE = _
    rw [hinv.label_eq, labelAt_succ, List.length_append, List.length_singleton]
  · show (s.objectCount + 1) % PIXEL_RANGE = _
    rw [hinv.count_eq, List.length_append, List.length_singleton]
    unfold PIXEL_RANGE
    omega
  · intro n x hn h1 q hq
    rcases hidx n x hn with ⟨_, hn1⟩ | ⟨hn1, hx⟩
    · exact hinv.iso n x hn1 h1 q hq
    · rw [hx] at hq
      have hl1 : s.label = 1 := by rw [hinv.label_eq, ← hn1]; exact h1
      rw [hl1] at h
      have hne := singlePassDFS_label_one hp hinv.stacksEmpty.1 hinv.stacksEmpty.2.1
        hinv.stacksEmpty.2.2 (voxelAt_writeAt_self _ _ _) h q (hq.mem_nbrs hp)
      rw [voxelAt_writeAt_ne _ _ (Ne.symm hq.1.ne)] at hne
      exact hne (hB0 q (Relation.ReflTransGen.single hq))

theorem ScanInv.scanVoxel_step {Dx Dy Dz : Nat} {v0 : Volume} {a st : Nat}
    {done : List Voxel} {s : ScanState} {seeds : List Voxel}
    (hinv : ScanInv Dx Dy Dz v0 a st done s seeds)
    {p : Voxel} (hp : InBox Dx Dy Dz p) (hlt : ∀ x ∈ done, scanLt x p) {fuel : Nat}
    {s1 : ScanState} (h : scanVoxel fuel Dx Dy Dz st s p.i p.j p.k = some s1) :
    ∃ seeds1, ScanInv Dx Dy Dz v0 a st (done ++ [p]) s1 seeds1 := by
  unfold scanVoxel at h
  by_cases hv : voxelAt s.fill.dstData3D p = 1
  · have hv2 : s.fill.dstData3D p.k p.j p.i = 1 := hv
    rw [if_pos hv2] at h
    rw [Option.map_eq_some'] at h
    obtain ⟨st1, hdfs, hs1⟩ := h
    rw [← hs1]
    exact ⟨seeds ++ [p], hinv.seed hp hlt hv hdfs⟩
  · have hv2 : ¬ s.fill.dstData3D p.k p.j p.i = 1 := hv
    rw [if_neg hv2] at h
    simp only [Option.some.injEq] at h
    rw [← h]
    exact ⟨seeds, hinv.skip hlt hv⟩

theorem ScanInv.scanVoxel_returns {Dx Dy Dz : Nat} {v0 : Volume} {a st : Nat}
    {done : List Voxel} {s : ScanState} {seeds : List Voxel}
    (hinv : ScanInv Dx Dy Dz v0 a st done s seeds)
    {p : Voxel} (hp : InBox Dx Dy Dz p) {fuel : Nat}
    (hl : voxelAt s.fill.dstData3D p = 1 → labelAt a st seeds.length ≠ 1)
    (hfuel : Dx * Dy * Dz + 2 ≤ fuel) :
    ∃ s1, scanVoxel fuel Dx Dy Dz st s p.i p.j p.k = some s1 := by
  unfold scanVoxel
  by_cases hv : voxelAt s.fill.dstData3D p = 1
  · have hv2 : s.fill.dstData3D p.k p.j p.i = 1 := hv
    rw [if_pos hv2]
    have hl1 : s.label ≠ 1 := by rw [hinv.label_eq]; exact hl hv
    obtain ⟨st1, h1⟩ := singlePassDFS_returns (setVoxel s.fill.dstData3D p.k p.j p.i s.label) hp
      hinv.stacksEmpty.1 hinv.stacksEmpty.2.1 hinv.stacksEmpty.2.2 hl1 hfuel
    rw [h1]
    exact ⟨_, rfl⟩
  · have hv2 : ¬ s.fill.dstData3D p.k p.j p.i = 1 := hv
    rw [if_neg hv2]
    exact ⟨s, rfl⟩

/-! ### The triple loop as one fold over the scan order -/

theorem foldlM_flatMap_option {α β σ : Type} (f : α → List β) (g : σ → β → Option σ) :
    ∀ (l : List α) (s : σ),
      (l.flatMap f).foldlM g s = l.foldlM (fun s1 a => (f a).foldlM g s1) s := by
  intro l
  induction l with
  | nil => intro s; rfl
  | cons a l ih =>
    intro s
    rw [List.flatMap_cons, List.foldlM_append, List.foldlM_cons]
    cases h : (f a).foldlM g s with
    | none => rfl
    | some s1 => exact ih s1

theorem foldlM_map_option {β γ σ : Type} (f : β → γ) (g : σ → γ → Option σ) :
    ∀ (l : List β) (s : σ),
      (l.map f).foldlM g s = l.foldlM (fun s1 b => g s1 (f b)) s := by
  intro l
  induction l with
  | nil => intro s; rfl
  | cons b l ih =>
    intro s
    rw [List.map_cons, List.foldlM_cons, List.foldlM_cons]
    cases h : g s (f b) with
    | none => rfl
    | some s1 => exact ih s1

theorem scanRange_eq_foldlM (fuel Dx Dy Dz : Nat) (labelStep : Nat) (s : ScanState)
    (kMin kMax : Int) :
    scanRange fuel Dx Dy Dz labelStep s kMin kMax
      = (scanOrder Dx Dy kMin kMax).foldlM
          (fun s1 p => scanVoxel fuel Dx Dy Dz labelStep s1 p.i p.j p.k) s := by
  unfold scanRange scanPlane scanOrder
  rw [foldlM_flatMap_option]
  congr 1
  funext s1 k
  rw [foldlM_flatMap_option]
  congr 1
  funext s2 j
  rw [foldlM_map_option]

theorem pairwise_forRange (lo hi : Int) : (forRange lo hi).Pairwise (fun a b => a < b) := by
  unfold forRange
  rw [List.pairwise_map]
  exact (List.pairwise_lt_range _).imp (fun h => by omega)

theorem pairwise_scanOrder (Dx Dy : Nat) (kMin kMax : Int) :
    (scanOrder Dx Dy kMin kMax).Pairwise scanLt := by
  unfold scanOrder
  rw [List.pairwise_flatMap]
  refine ⟨?_, ?_⟩
  · intro k _
    rw [List.pairwise_flatMap]
    refine ⟨?_, ?_⟩
    · intro j _
      rw [List.pairwise_map]
      exact (pairwise_forRange 0 Dx).imp (fun h => by unfold scanLt; dsimp only; omega)
    · refine (pairwise_forRange 0 Dy).imp ?_
      intro j1 j2 hj x hx y hy
      simp only [List.mem_map] at hx hy
      obtain ⟨i1, _, rfl⟩ := hx
      obtain ⟨i2, _, rfl⟩ := hy
      unfold scanLt
      dsimp only
      omega
  · refine (pairwise_forRange kMin kMax).imp ?_
    intro k1 k2 hk x hx y hy
    simp only [List.mem_flatMap, List.mem_map] at hx hy
    obtain ⟨j1, _, i1, _, rfl⟩ := hx
    obtain ⟨j2, _, i2, _, rfl⟩ := hy
    unfold scanLt
    dsimp only
    omega

theorem ScanInv.fold {Dx Dy Dz : Nat} {v0 : Volume} {a st fuel : Nat} :
    ∀ (post done : List Voxel) (s : ScanState) (seeds : List Voxel),
      (done ++ post).Pairwise scanLt → (∀ p ∈ post, InBox Dx Dy Dz p) →
      ScanInv Dx Dy Dz v0 a st done s seeds →
      ∀ s1, post.foldlM (fun s2 p => scanVoxel fuel Dx Dy Dz st s2 p.i p.j p.k) s = some s1 →
        ∃ seeds1, ScanInv Dx Dy Dz v0 a st (done ++ post) s1 seeds1 := by
  intro post
  induction post with
  | nil =>
    intro done s seeds _ _ hinv s1 h
    simp only [List.foldlM_nil, Option.pure_def, Option.some.injEq] at h
    rw [← h, List.append_nil]
    exact ⟨seeds, hinv⟩
  | cons p post ih =>
    intro done s seeds hsorted hbox hinv s1 h
    rw [List.foldlM_cons] at h
    simp only [Option.bind_eq_bind, Option.bind_eq_some] at h
    obtain ⟨s2, h2, h3⟩ := h
    have hlt : ∀ x ∈ done, scanLt x p := by
      intro x hx
      exact (List.pairwise_append.1 hsorted).2.2 x hx p (List.mem_cons_self _ _)
    obtain ⟨seeds2, hinv2⟩ := hinv.scanVoxel_step (hbox p (List.mem_cons_self _ _)) hlt h2
    have hs2 : (done ++ [p] ++ post).Pairwise scanLt := by
      rw [List.append_assoc]; exact hsorted
    obtain ⟨seeds1, hinv1⟩ := ih (done ++ [p]) s2 seeds2 hs2
      (fun q hq => hbox q (List.mem_cons_of_mem _ hq)) hinv2 s1 h3
    rw [List.append_assoc] at hinv1
    exact ⟨seeds1, hinv1⟩

theorem ScanInv.fold_returns {Dx Dy Dz : Nat} {v0 : Volume} {a st fuel : Nat}
    (hfuel : Dx * Dy * Dz + 2 ≤ fuel) :
    ∀ (post done : List Voxel) (s : ScanState) (seeds : List Voxel),
      (done ++ post).Pairwise scanLt → (∀ p ∈ post, InBox Dx Dy Dz p) →
      ScanInv Dx Dy Dz v0 a st done s seeds →
      (∀ reps : List Voxel, reps.Sublist (done ++ post) → (∀ x ∈ reps, voxelAt v0 x = 1) →
        reps.Pairwise (fun x y => ¬ Connected Dx Dy Dz v0 x y) →
        ∀ n, n < reps.length → labelAt a st n ≠ 1) →
      ∃ s1, post.foldlM (fun s2 p => scanVoxel fuel Dx Dy Dz st s2 p.i p.j p.k) s = some s1 := by
  intro post
  induction post with
  | nil =>
    intro done s seeds _ _ _ _
    exact ⟨s, rfl⟩
  | cons p post ih =>
    intro done s seeds hsorted hbox hinv hlab
    have hp := hbox p (List.mem_cons_self _ _)
    have hlt : ∀ x ∈ done, scanLt x p := by
      intro x hx
      exact (List.pairwise_append.1 hsorted).2.2 x hx p (List.mem_cons_self _ _)
    have hl : voxelAt s.fill.dstData3D p = 1 → labelAt a st seeds.length ≠ 1 := by
      intro hv
      obtain ⟨hA, hv0, _, _⟩ := hinv.fresh hp hlt hv
      apply hlab (seeds ++ [p])
      · exact List.Sublist.append hinv.sub (List.sublist_append_left [p] post)
      · intro x hx
        rw [List.mem_append, List.mem_singleton] at hx
        rcases hx with hx | hx
        · exact hinv.obj x hx
        · rw [hx]; exact hv0
      · rw [List.pairwise_append]
        refine ⟨hinv.sep, List.pairwise_singleton _ _, ?_⟩
        intro x hx y hy
        rw [List.mem_singleton] at hy
        rw [hy]
        exact hA x hx
      · simp
    obtain ⟨s2, h2⟩ := hinv.scanVoxel_returns hp hl hfuel
    obtain ⟨seeds2, hinv2⟩ := hinv.scanVoxel_step hp hlt h2
    have hs2 : (done ++ [p] ++ post).Pairwise scanLt := by
      rw [List.append_assoc]; exact hsorted
    obtain ⟨s1, h1⟩ := ih (done ++ [p]) s2 seeds2 hs2
      (fun q hq => hbox q (List.mem_cons_of_mem _ hq)) hinv2
      (by rw [List.append_assoc]; exact hlab)
    refine ⟨s1, ?_⟩
    rw [List.foldlM_cons, h2]
    exact h1

/-! ### `singlePassLabeling` and the boundary pass as scans -/

theorem ScanInv.start (Dx Dy Dz : Nat) (v0 : Volume) {a : Nat} (st : Nat) (ha : a < PIXEL_RANGE)
    {fill : FillState} (hd : fill.dstData3D = v0) (hs : fill.Holds []) :
    ScanInv Dx Dy Dz v0 a st [] { fill := fill, label := a, objectCount := 0 } [] where
  stacksEmpty := hs
  sub := List.Sublist.refl _
  obj := by intro x hx; simp at hx
  sep := List.Pairwise.nil
  cover := by intro p hp; simp at hp
  lab := by intro n x hn; simp at hn
  frame := by intro q _; rw [hd]
  label_eq := by
    show a = labelAt a st 0
    unfold labelAt
    rw [Nat.zero_mul, Nat.add_zero, Nat.mod_eq_of_lt ha]
  count_eq := by
    show 0 = 0 % PIXEL_RANGE
    rfl
  iso := by intro n x hn; simp at hn

theorem allocateStack_holds (Dx Dy Dz : Nat) (v : Volume) :
    (FillState.mk v (allocateStack Dx Dy Dz).1 (allocateStack Dx Dy Dz).2.1
      (allocateStack Dx Dy Dz).2.2).Holds [] :=
  ⟨createStack_holds _, createStack_holds _, createStack_holds _⟩

theorem scanOrder_inBox {Dx Dy Dz : Nat} {kMin kMax : Int} (h0 : 0 ≤ kMin)
    (h1 : kMax ≤ (Dz : Int)) {p : Voxel} (hp : p ∈ scanOrder Dx Dy kMin kMax) :
    InBox Dx Dy Dz p := by
  rw [mem_scanOrder] at hp
  unfold InBox
  omega

theorem scanRange_inv {fuel Dx Dy Dz : Nat} {v0 : Volume} {kMin kMax : Int} {a st : Nat}
    (h0 : 0 ≤ kMin) (h1 : kMax ≤ (Dz : Int)) (ha : a < PIXEL_RANGE)
    {fill : FillState} (hd : fill.dstData3D = v0) (hs : fill.Holds []) {s1 : ScanState}
    (h : scanRange fuel Dx Dy Dz st { fill := fill, label := a, objectCount := 0 } kMin kMax
      = some s1) :
    ∃ seeds, ScanInv Dx Dy Dz v0 a st (scanOrder Dx Dy kMin kMax) s1 seeds := by
  rw [scanRange_eq_foldlM] at h
  have := ScanInv.fold (scanOrder Dx Dy kMin kMax) [] _ []
    (by rw [List.nil_append]; exact pairwise_scanOrder Dx Dy kMin kMax)
    (fun p hp => scanOrder_inBox h0 h1 hp) (ScanInv.start Dx Dy Dz v0 st ha hd hs) s1 h
  simpa using this

theorem scanRange_returns {fuel Dx Dy Dz : Nat} {v0 : Volume} {kMin kMax : Int} {a st : Nat}
    (h0 : 0 ≤ kMin) (h1 : kMax ≤ (Dz : Int)) (ha : a < PIXEL_RANGE)
    {fill : FillState} (hd : fill.dstData3D = v0) (hs : fill.Holds [])
    (hfuel : Dx * Dy * Dz + 2 ≤ fuel)
    (hlab : ∀ reps : List Voxel,
      (∀ x ∈ reps, IsObject Dx Dy Dz v0 x ∧ kMin ≤ x.k ∧ x.k < kMax) →
      reps.Pairwise (fun x y => ¬ Connected Dx Dy Dz v0 x y) →
      ∀ n, n < reps.length → labelAt a st n ≠ 1) :
    ∃ s1, scanRange fuel Dx Dy Dz st { fill := fill, label := a, objectCount := 0 } kMin kMax
      = some s1 := by
  rw [scanRange_eq_foldlM]
  refine ScanInv.fold_returns hfuel (scanOrder Dx Dy kMin kMax) [] _ []
    (by rw [List.nil_append]; exact pairwise_scanOrder Dx Dy kMin kMax)
    (fun p hp => scanOrder_inBox h0 h1 hp) (ScanInv.start Dx Dy Dz v0 st ha hd hs) ?_
  intro reps hsub hobj hsep n hn
  refine hlab reps ?_ hsep n hn
  intro x hx
  have hmem : x ∈ scanOrder Dx Dy kMin kMax := by
    have := hsub.subset hx
    simpa using this
  refine ⟨⟨scanOrder_inBox h0 h1 hmem, hobj x hx⟩, ?_⟩
  rw [mem_scanOrder] at hmem
  omega

theorem singlePassLabeling_inv {fuel Dx Dy Dz : Nat} {v0 : Volume} {kMin kMax : Int}
    {a st : Nat} (h0 : 0 ≤ kMin) (h1 : kMax ≤ (Dz : Int)) (ha : a < PIXEL_RANGE)
    {r : Volume × Nat} (h : singlePassLabeling fuel Dx Dy Dz v0 kMin kMax a st = some r) :
    ∃ s1 seeds, ScanInv Dx Dy Dz v0 a st (scanOrder Dx Dy kMin kMax) s1 seeds ∧
      r = (s1.fill.dstData3D, s1.objectCount) := by
  unfold singlePassLabeling at h
  simp only [Option.map_eq_some'] at h
  obtain ⟨s1, hs1, hr⟩ := h
  obtain ⟨seeds, hinv⟩ := scanRange_inv h0 h1 ha rfl (allocateStack_holds Dx Dy Dz v0) hs1
  exact ⟨s1, seeds, hinv, hr.symm⟩

theorem singlePassLabeling_returns {fuel Dx Dy Dz : Nat} {v0 : Volume} {kMin kMax : Int}
    {a st : Nat} (h0 : 0 ≤ kMin) (h1 : kMax ≤ (Dz : Int)) (ha : a < PIXEL_RANGE)
    (hfuel : Dx * Dy * Dz + 2 ≤ fuel)
    (hlab : ∀ reps : List Voxel,
      (∀ x ∈ reps, IsObject Dx Dy Dz v0 x ∧ kMin ≤ x.k ∧ x.k < kMax) →
      reps.Pairwise (fun x y => ¬ Connected Dx Dy Dz v0 x y) →
      ∀ n, n < reps.length → labelAt a st n ≠ 1) :
    ∃ r, singlePassLabeling fuel Dx Dy Dz v0 kMin kMax a st = some r := by
  obtain ⟨s1, hs1⟩ := scanRange_returns h0 h1 ha rfl (allocateStack_holds Dx Dy Dz v0)
    hfuel hlab
  unfold singlePassLabeling
  simp only [hs1, Option.map_some']
  exact ⟨_, rfl⟩

theorem foldlM_option_sim {α σ τ : Type} (proj : σ → τ) (f : σ → α → Option σ)
    (g : τ → α → Option τ) (hfg : ∀ s a, (f s a).map proj = g (proj s) a) :
    ∀ (l : List α) (s : σ), (l.foldlM f s).map proj = l.foldlM g (proj s) := by
  intro l
  induction l with
  | nil => intro s; rfl
  | cons a l ih =>
    intro s
    rw [List.foldlM_cons, List.foldlM_cons, ← hfg]
    cases h : f s a with
    | none => rfl
    | some s1 => exact ih s1

theorem forRange_single (k : Int) : forRange k (k + 1) = [k] := by
  unfold forRange
  have : (k + 1 - k).toNat = 1 := by
    have : k + 1 - k = 1 := by omega
    rw [this]; rfl
  rw [this]
  simp [List.range_succ]

theorem boundaryPass_eq_scanRange (fuel Dx Dy Dz : Nat) (v : Volume) :
    boundaryPass fuel Dx Dy Dz v
      = (scanRange fuel Dx Dy Dz 1
          { fill := FillState.mk v (allocateStack Dx Dy Dz).1 (allocateStack Dx Dy Dz).2.1
              (allocateStack Dx Dy Dz).2.2
            label := 2
            objectCount := 0 } (kMid Dz) (kMid Dz + 1)).map (fun s => (s.fill, s.label)) := by
  unfold boundaryPass scanRange scanPlane
  rw [forRange_single]
  simp only [List.foldlM_cons, List.foldlM_nil, Option.pure_def, Option.bind_eq_bind,
    Option.bind_some]
  symm
  refine foldlM_option_sim (fun s : ScanState => (s.fill, s.label)) _ _ ?_ _ _
  intro s j
  refine foldlM_option_sim (fun s : ScanState => (s.fill, s.label)) _ _ ?_ _ _
  intro s2 i
  unfold scanVoxel boundaryVoxel
  by_cases hv : s2.fill.dstData3D (kMid Dz) j i = 1
  · simp only [hv, if_true, Option.map_map]
    rfl
  · simp only [hv, if_false, Option.map_some']

/-! ## Claims about `singlePassDFS` -/

/-- C3: for every volume, every in-bounds seed `(i, j, k)` and every label different from 1,
`singlePassDFS` (entered with its three stacks empty and of capacity at least 1, as
`allocateStack` creates them when `Dx + Dy + Dz ≥ 10`, and given enough fuel) returns, and
every voxel reachable from the seed through a chain (of one or more steps) of 6-connected
in-bounds neighbours whose value at call time was exactly 1 then holds `label`; the seed
itself still holds `label` if the caller had written it there. -/
theorem singlePassDFS_labels_reachable (fuel Dx Dy Dz : Nat) (dstData3D : Volume)
    (i j k : Int) (label : Nat) (iStack jStack kStack : Stack)
    (hseed : InBox Dx Dy Dz ⟨i, j, k⟩) (hlabel : label ≠ 1)
    (hi : iStack.Holds []) (hj : jStack.Holds []) (hk : kStack.Holds [])
    (hci : 1 ≤ iStack.capacity) (hcj : 1 ≤ jStack.capacity) (hck : 1 ≤ kStack.capacity)
    (hfuel : Dx * Dy * Dz + 2 ≤ fuel) :
    ∃ st1, singlePassDFS fuel Dx Dy Dz dstData3D i j k label iStack jStack kStack = some st1 ∧
      (∀ q, ReachableFrom Dx Dy Dz dstData3D ⟨i, j, k⟩ q → voxelAt st1.dstData3D q = label) ∧
      (voxelAt dstData3D ⟨i, j, k⟩ = label → voxelAt st1.dstData3D ⟨i, j, k⟩ = label) := by
  obtain ⟨st1, h⟩ := singlePassDFS_returns dstData3D hseed hi hj hk hlabel hfuel
  have hspec := singlePassDFS_spec hseed hi hj hk h
  refine ⟨st1, h, hspec.2.1, ?_⟩
  intro hs
  rw [hspec.2.2 _ (fun hr => hlabel (hs.symm.trans (ReachableFrom.target_isObject hr).2)), hs]

/-- On the row `[1, 1, 0, 1, 0, 0, 0, 0]` (an `8×1×1` volume, whose stacks are created with
capacity 1), seed `(0, 0, 0)` already holding the label 2: the fill returns and has written
2 on the voxel `x = 1`, the one voxel reachable from the seed. -/
theorem singlePassDFS_labels_reachable_witness :
    ReachableFrom 8 1 1 (setVoxel rowVolume 0 0 0 2) ⟨0, 0, 0⟩ ⟨1, 0, 0⟩ ∧
    ∃ st1, singlePassDFS 10 8 1 1 (setVoxel rowVolume 0 0 0 2) 0 0 0 2
        (allocateStack 8 1 1).1 (allocateStack 8 1 1).2.1 (allocateStack 8 1 1).2.2
          = some st1 ∧
      (∀ q, ReachableFrom 8 1 1 (setVoxel rowVolume 0 0 0 2) ⟨0, 0, 0⟩ q →
        voxelAt st1.dstData3D q = 2) ∧
      (voxelAt (setVoxel rowVolume 0 0 0 2) ⟨0, 0, 0⟩ = 2 →
        voxelAt st1.dstData3D ⟨0, 0, 0⟩ = 2) :=
  ⟨Relation.TransGen.single ⟨by decide, by decide, by decide⟩,
    singlePassDFS_labels_reachable 10 8 1 1 (setVoxel rowVolume 0 0 0 2) 0 0 0 2
      (allocateStack 8 1 1).1 (allocateStack 8 1 1).2.1 (allocateStack 8 1 1).2.2
      (by decide) (by decide) (createStack_holds _) (createStack_holds _)
      (createStack_holds _) (by decide) (by decide) (by decide) (by decide)⟩

/-- C4: for every volume, in-bounds seed and label, `singlePassDFS` (entered with its three
stacks empty) changes no voxel whose value at call time was different from 1, and changes
no 1-valued voxel that is not reachable from the seed through a chain of 6-connected
1-valued voxels. The call returns whenever the label is not 1 and the fuel suffices. -/
theorem singlePassDFS_frame (fuel Dx Dy Dz : Nat) (dstData3D : Volume)
    (i j k : Int) (label : Nat) (iStack jStack kStack : Stack)
    (hseed : InBox Dx Dy Dz ⟨i, j, k⟩)
    (hi : iStack.Holds []) (hj : jStack.Holds []) (hk : kStack.Holds []) :
    (label ≠ 1 → Dx * Dy * Dz + 2 ≤ fuel →
      ∃ st1, singlePassDFS fuel Dx Dy Dz dstData3D i j k label iStack jStack kStack
        = some st1) ∧
    ∀ st1, singlePassDFS fuel Dx Dy Dz dstData3D i j k label iStack jStack kStack = some st1 →
      ∀ q, (voxelAt dstData3D q ≠ 1 → voxelAt st1.dstData3D q = voxelAt dstData3D q) ∧
        (voxelAt dstData3D q = 1 → ¬ ReachableFrom Dx Dy Dz dstData3D ⟨i, j, k⟩ q →
          voxelAt st1.dstData3D q = voxelAt dstData3D q) := by
  refine ⟨fun hl hf => singlePassDFS_returns dstData3D hseed hi hj hk hl hf, ?_⟩
  intro st1 h q
  have hspec := (singlePassDFS_spec hseed hi hj hk h).2.2
  refine ⟨fun hq => hspec q (fun hr => hq (ReachableFrom.target_isObject hr).2), fun _ hq => hspec q hq⟩

theorem singlePassDFS_frame_witness :
    (2 ≠ 1 → 4 * 1 * 1 + 2 ≤ 6 →
      ∃ st1, singlePassDFS 6 4 1 1 rowVolume 0 0 0 2 (createStack 0) (createStack 0)
        (createStack 0) = some st1) ∧
    ∀ st1, singlePassDFS 6 4 1 1 rowVolume 0 0 0 2 (createStack 0) (createStack 0)
        (createStack 0) = some st1 →
      ∀ q, (voxelAt rowVolume q ≠ 1 → voxelAt st1.dstData3D q = voxelAt rowVolume q) ∧
        (voxelAt rowVolume q = 1 → ¬ ReachableFrom 4 1 1 rowVolume ⟨0, 0, 0⟩ q →
          voxelAt st1.dstData3D q = voxelAt rowVolume q) :=
  singlePassDFS_frame 6 4 1 1 rowVolume 0 0 0 2 (createStack 0) (createStack 0)
    (createStack 0) (by decide) (createStack_holds 0) (createStack_holds 0)
    (createStack_holds 0)

/-! ### Consequences of the scan invariant -/

theorem ScanInv.seed_isObject {Dx Dy Dz : Nat} {v0 : Volume} {a st : Nat} {done : List Voxel}
    {s : ScanState} {seeds : List Voxel} (hinv : ScanInv Dx Dy Dz v0 a st done s seeds)
    (hbox : ∀ p ∈ done, InBox Dx Dy Dz p) {x : Voxel} (hx : x ∈ seeds) :
    IsObject Dx Dy Dz v0 x :=
  ⟨hbox x (hinv.sub.subset hx), hinv.obj x hx⟩

theorem ScanInv.index_eq_of_connected {Dx Dy Dz : Nat} {v0 : Volume} {a st : Nat}
    {done : List Voxel} {s : ScanState} {seeds : List Voxel}
    (hinv : ScanInv Dx Dy Dz v0 a st done s seeds) (hbox : ∀ p ∈ done, InBox Dx Dy Dz p)
    {n m : Nat} {x y : Voxel} (hn : seeds[n]? = some x) (hm : seeds[m]? = some y)
    (hc : Connected Dx Dy Dz v0 x y) : n = m := by
  have hx : x ∈ seeds := List.mem_iff_getElem?.2 ⟨n, hn⟩
  obtain ⟨hn1, hn2⟩ := List.getElem?_eq_some_iff.1 hn
  obtain ⟨hm1, hm2⟩ := List.getElem?_eq_some_iff.1 hm
  have hpw := List.pairwise_iff_getElem.1 hinv.sep
  rcases Nat.lt_trichotomy n m with h | h | h
  · have := hpw n m hn1 hm1 h
    rw [hn2, hm2] at this
    exact absurd hc this
  · exact h
  · have := hpw m n hm1 hn1 h
    rw [hn2, hm2] at this
    exact absurd (hc.symm (hinv.seed_isObject hbox hx)) this

theorem ScanInv.index_eq_of_common {Dx Dy Dz : Nat} {v0 : Volume} {a st : Nat}
    {done : List Voxel} {s : ScanState} {seeds : List Voxel}
    (hinv : ScanInv Dx Dy Dz v0 a st done s seeds) (hbox : ∀ p ∈ done, InBox Dx Dy Dz p)
    {n m : Nat} {x y q : Voxel} (hn : seeds[n]? = some x) (hm : seeds[m]? = some y)
    (hxq : Connected Dx Dy Dz v0 x q) (hyq : Connected Dx Dy Dz v0 y q) : n = m := by
  have hy : y ∈ seeds := List.mem_iff_getElem?.2 ⟨m, hm⟩
  exact hinv.index_eq_of_connected hbox hn hm
    (hxq.trans (hyq.symm (hinv.seed_isObject hbox hy)))

theorem ScanInv.covered {Dx Dy Dz : Nat} {v0 : Volume} {a st : Nat} {done : List Voxel}
    {s : ScanState} {seeds : List Voxel} (hinv : ScanInv Dx Dy Dz v0 a st done s seeds)
    {p : Voxel} (hp : p ∈ done) (hv : voxelAt v0 p = 1) :
    ∃ (n : Nat) (x : Voxel), seeds[n]? = some x ∧ Connected Dx Dy Dz v0 x p ∧ (x = p ∨ scanLt x p) := by
  obtain ⟨x, hx, hc⟩ := hinv.cover p hp hv
  obtain ⟨n, hn⟩ := List.mem_iff_getElem?.1 hx
  exact ⟨n, x, hn, hc⟩

theorem ScanInv.unchanged_of_ne_one {Dx Dy Dz : Nat} {v0 : Volume} {a st : Nat}
    {done : List Voxel} {s : ScanState} {seeds : List Voxel}
    (hinv : ScanInv Dx Dy Dz v0 a st done s seeds) {q : Voxel} (hq : voxelAt v0 q ≠ 1) :
    voxelAt s.fill.dstData3D q = voxelAt v0 q :=
  hinv.frame q (fun x hx hc => hq (hc.value (hinv.obj x hx)))

theorem ScanInv.changed {Dx Dy Dz : Nat} {v0 : Volume} {a st : Nat}
    {done : List Voxel} {s : ScanState} {seeds : List Voxel}
    (hinv : ScanInv Dx Dy Dz v0 a st done s seeds) {q : Voxel}
    (hq : voxelAt s.fill.dstData3D q ≠ voxelAt v0 q) :
    ∃ (n : Nat) (x : Voxel), seeds[n]? = some x ∧ Connected Dx Dy Dz v0 x q := by
  by_contra hcon
  push_neg at hcon
  apply hq
  apply hinv.frame
  intro x hx hc
  obtain ⟨n, hn⟩ := List.mem_iff_getElem?.1 hx
  exact hcon n x hn hc

theorem ScanInv.seeds_sorted {Dx Dy Dz : Nat} {v0 : Volume} {a st : Nat}
    {done : List Voxel} {s : ScanState} {seeds : List Voxel}
    (hinv : ScanInv Dx Dy Dz v0 a st done s seeds) (hsorted : done.Pairwise scanLt) :
    seeds.Pairwise scanLt :=
  hsorted.sublist hinv.sub

theorem ScanInv.seed_first {Dx Dy Dz : Nat} {v0 : Volume} {a st : Nat}
    {done : List Voxel} {s : ScanState} {seeds : List Voxel}
    (hinv : ScanInv Dx Dy Dz v0 a st done s seeds) (hbox : ∀ p ∈ done, InBox Dx Dy Dz p)
    {x p : Voxel} (hx : x ∈ seeds) (hp : p ∈ done) (hc : Connected Dx Dy Dz v0 x p) :
    x = p ∨ scanLt x p := by
  have hobj := hinv.seed_isObject hbox hx
  obtain ⟨m, y, hm, hyp, hord⟩ := hinv.covered hp (hc.value hobj.2)
  obtain ⟨n, hn⟩ := List.mem_iff_getElem?.1 hx
  have hnm := hinv.index_eq_of_common hbox hn hm hc hyp
  rw [hnm, hm] at hn
  simp only [Option.some.injEq] at hn
  rw [← hn]
  exact hord

theorem ScanInv.representatives {Dx Dy Dz : Nat} {v0 : Volume} {a st : Nat}
    {kMin kMax : Int} {s : ScanState} {seeds : List Voxel} (h0 : 0 ≤ kMin)
    (h1 : kMax ≤ (Dz : Int))
    (hinv : ScanInv Dx Dy Dz v0 a st (scanOrder Dx Dy kMin kMax) s seeds) :
    IsRepresentativeSystem Dx Dy Dz v0 (fun p => kMin ≤ p.k ∧ p.k < kMax) seeds := by
  have hbox : ∀ p ∈ scanOrder Dx Dy kMin kMax, InBox Dx Dy Dz p :=
    fun p hp => scanOrder_inBox h0 h1 hp
  refine ⟨?_, hinv.sep, ?_⟩
  · intro x hx
    refine ⟨hinv.seed_isObject hbox hx, ?_⟩
    have := mem_scanOrder.1 (hinv.sub.subset hx)
    exact ⟨this.2.2.2.2.1, this.2.2.2.2.2⟩
  · intro p hp hr
    have hmem : p ∈ scanOrder Dx Dy kMin kMax := by
      rw [mem_scanOrder]
      exact ⟨hp.1.1, hp.1.2.1, hp.1.2.2.1, hp.1.2.2.2.1, hr.1, hr.2⟩
    obtain ⟨x, hx, hc, _⟩ := hinv.cover p hmem hp.2
    exact ⟨x, hx, hc⟩

theorem labelAt_of_le {a st n : Nat} (h : a + n * st < PIXEL_RANGE) :
    labelAt a st n = a + n * st := by
  unfold labelAt
  exact Nat.mod_eq_of_lt h

/-! ### Bounding the number of components -/

theorem atMostComponents_of_volume {Dx Dy Dz N : Nat} (v : Volume) (S : Voxel → Prop)
    (h : Dx * Dy * Dz ≤ N) : AtMostComponents Dx Dy Dz v S N := by
  intro reps hobj hsep
  have hnodup : reps.Nodup := by
    refine hsep.imp ?_
    intro a b hab e
    rw [e] at hab
    exact hab Relation.ReflTransGen.refl
  have hsub : reps.toFinset ⊆ boxFinset Dx Dy Dz := by
    intro x hx
    rw [List.mem_toFinset] at hx
    exact mem_boxFinset.2 (hobj x hx).1.1
  calc reps.length = reps.toFinset.card := (List.toFinset_card_of_nodup hnodup).symm
    _ ≤ (boxFinset Dx Dy Dz).card := Finset.card_le_card hsub
    _ ≤ Dx * Dy * Dz := card_boxFinset_le Dx Dy Dz
    _ ≤ N := h

theorem AtMostComponents.mono {Dx Dy Dz N : Nat} {v : Volume} {S T : Voxel → Prop}
    (h : AtMostComponents Dx Dy Dz v S N) (hTS : ∀ p, T p → S p) :
    AtMostComponents Dx Dy Dz v T N :=
  fun reps hobj hsep => h reps (fun x hx => ⟨(hobj x hx).1, hTS x (hobj x hx).2⟩) hsep

/-! ## Claims about `singlePassLabelingDefault` -/

theorem singlePassLabelingDefault_outcome {fuel Dx Dy Dz : Nat} {v : Volume}
    (hN : AtMostComponents Dx Dy Dz v (fun _ => True) 65534)
    (hfuel : Dx * Dy * Dz + 2 ≤ fuel) :
    ∃ (r : Volume × Nat) (s1 : ScanState) (seeds : List Voxel),
      singlePassLabelingDefault fuel Dx Dy Dz v = some r ∧
      ScanInv Dx Dy Dz v 2 1 (scanOrder Dx Dy 0 Dz) s1 seeds ∧
      r = (s1.fill.dstData3D, s1.objectCount) ∧ seeds.length ≤ 65534 := by
  have ha : 2 < PIXEL_RANGE := by unfold PIXEL_RANGE; omega
  have hret : ∃ r, singlePassLabeling fuel Dx Dy Dz v 0 Dz 2 1 = some r := by
    refine singlePassLabeling_returns (le_refl _) (le_refl _) ha hfuel ?_
    intro reps hobj hsep n hn
    have hlen := hN reps (fun x hx => ⟨(hobj x hx).1, trivial⟩) hsep
    unfold labelAt PIXEL_RANGE
    omega
  obtain ⟨r, hr⟩ := hret
  obtain ⟨s1, seeds, hinv, hrs⟩ := singlePassLabeling_inv (le_refl _) (le_refl _) ha hr
  refine ⟨r, s1, seeds, hr, hinv, hrs, ?_⟩
  have hrep := hinv.representatives (le_refl _) (le_refl _)
  exact hN seeds (fun x hx => ⟨(hrep.1 x hx).1, trivial⟩) hrep.2.1

theorem isObject_mem_scanOrder {Dx Dy Dz : Nat} {v : Volume} {p : Voxel}
    (hp : IsObject Dx Dy Dz v p) : p ∈ scanOrder Dx Dy 0 Dz := by
  rw [mem_scanOrder]
  exact hp.1

theorem ScanInv.default_object_label {Dx Dy Dz : Nat} {v : Volume} {s1 : ScanState}
    {seeds : List Voxel} (hinv : ScanInv Dx Dy Dz v 2 1 (scanOrder Dx Dy 0 Dz) s1 seeds)
    (hlen : seeds.length ≤ 65534) {p : Voxel} (hp : IsObject Dx Dy Dz v p) :
    ∃ (n : Nat) (x : Voxel), seeds[n]? = some x ∧ Connected Dx Dy Dz v x p ∧
      voxelAt s1.fill.dstData3D p = 2 + n := by
  obtain ⟨n, x, hn, hxp, _⟩ := hinv.covered (isObject_mem_scanOrder hp) hp.2
  have hnlt : n < seeds.length := (List.getElem?_eq_some_iff.1 hn).1
  refine ⟨n, x, hn, hxp, ?_⟩
  rw [hinv.lab n x hn p hxp, labelAt_of_le (by unfold PIXEL_RANGE; omega)]
  omega

theorem ScanInv.default_same_label_iff {Dx Dy Dz : Nat} {v : Volume} {s1 : ScanState}
    {seeds : List Voxel} (hinv : ScanInv Dx Dy Dz v 2 1 (scanOrder Dx Dy 0 Dz) s1 seeds)
    (hlen : seeds.length ≤ 65534) {p q : Voxel} (hp : IsObject Dx Dy Dz v p)
    (hq : IsObject Dx Dy Dz v q) :
    voxelAt s1.fill.dstData3D p = voxelAt s1.fill.dstData3D q ↔ Connected Dx Dy Dz v p q := by
  have hbox : ∀ x ∈ scanOrder Dx Dy 0 Dz, InBox Dx Dy Dz x :=
    fun x hx => scanOrder_inBox (le_refl _) (le_refl _) hx
  obtain ⟨n, x, hn, hxp, hvp⟩ := hinv.default_object_label hlen hp
  obtain ⟨m, y, hm, hyq, hvq⟩ := hinv.default_object_label hlen hq
  have hx : IsObject Dx Dy Dz v x := hinv.seed_isObject hbox (List.mem_iff_getElem?.2 ⟨n, hn⟩)
  rw [hvp, hvq]
  constructor
  · intro h
    have hnm : n = m := by omega
    rw [hnm, hm] at hn
    simp only [Option.some.injEq] at hn
    rw [hn] at hyq
    exact (hxp.symm hx).trans hyq
  · intro h
    have := hinv.index_eq_of_common hbox hn hm (hxp.trans h) hyq
    omega

/-- C1: for every volume (in particular every binary volume) whose stacks are created with a
capacity of at least 1 (`Dx + Dy + Dz ≥ 10`) and with at most 65534 components, so that no
label exceeds the 16-bit range, `singlePassLabelingDefault` returns, and two voxels that
were originally 1 carry the same value afterwards if and only if they are joined by a path
of originally-1 voxels in which each step changes exactly one of `x, y, z` by 1. -/
theorem singlePassLabelingDefault_same_label_iff_connected (fuel Dx Dy Dz : Nat) (v : Volume)
    (hcap : 1 ≤ STACK_INITIAL_SIZE Dx Dy Dz)
    (hN : AtMostComponents Dx Dy Dz v (fun _ => True) 65534)
    (hfuel : Dx * Dy * Dz + 2 ≤ fuel) :
    ∃ r, singlePassLabelingDefault fuel Dx Dy Dz v = some r ∧
      ∀ p q, IsObject Dx Dy Dz v p → IsObject Dx Dy Dz v q →
        (voxelAt r.1 p = voxelAt r.1 q ↔ Connected Dx Dy Dz v p q) := by
  obtain ⟨r, s1, seeds, hr, hinv, hrs, hlen⟩ := singlePassLabelingDefault_outcome hN hfuel
  refine ⟨r, hr, ?_⟩
  intro p q hp hq
  rw [hrs]
  exact hinv.default_same_label_iff hlen hp hq

/-- On the `8×1×1` row `[1, 1, 0, 1, 0, 0, 0, 0]` (stacks of capacity 1). -/
theorem singlePassLabelingDefault_same_label_iff_connected_witness :
    STACK_INITIAL_SIZE 8 1 1 = 1 ∧
    ∃ r, singlePassLabelingDefault 10 8 1 1 rowVolume = some r ∧
      ∀ p q, IsObject 8 1 1 rowVolume p → IsObject 8 1 1 rowVolume q →
        (voxelAt r.1 p = voxelAt r.1 q ↔ Connected 8 1 1 rowVolume p q) :=
  ⟨by decide, singlePassLabelingDefault_same_label_iff_connected 10 8 1 1 rowVolume
    (by decide) (atMostComponents_of_volume rowVolume _ (by decide)) (by decide)⟩

/-- C2: for every volume whose stacks are created with a capacity of at least 1
(`Dx + Dy + Dz ≥ 10`) and with at most 65534 object components, `singlePassLabelingDefault`
returns, every voxel that was 0 is still 0 and every voxel that was 1 holds a value `≥ 2`
(so no voxel that was 1 is left at 1 or becomes 0). -/
theorem singlePassLabelingDefault_output_contract (fuel Dx Dy Dz : Nat) (v : Volume)
    (hcap : 1 ≤ STACK_INITIAL_SIZE Dx Dy Dz)
    (hN : AtMostComponents Dx Dy Dz v (fun _ => True) 65534)
    (hfuel : Dx * Dy * Dz + 2 ≤ fuel) :
    ∃ r, singlePassLabelingDefault fuel Dx Dy Dz v = some r ∧
      ∀ p, InBox Dx Dy Dz p →
        (voxelAt v p = 0 → voxelAt r.1 p = 0) ∧ (voxelAt v p = 1 → 2 ≤ voxelAt r.1 p) := by
  obtain ⟨r, s1, seeds, hr, hinv, hrs, hlen⟩ := singlePassLabelingDefault_outcome hN hfuel
  refine ⟨r, hr, ?_⟩
  intro p hp
  constructor
  · intro h0
    rw [hrs]
    show voxelAt s1.fill.dstData3D p = 0
    rw [hinv.unchanged_of_ne_one (by rw [h0]; decide), h0]
  · intro h1
    obtain ⟨n, x, _, _, hv⟩ := hinv.default_object_label hlen ⟨hp, h1⟩
    rw [hrs]
    show 2 ≤ voxelAt s1.fill.dstData3D p
    rw [hv]
    omega

/-- On the `8×1×1` row `[1, 1, 0, 1, 0, 0, 0, 0]` (stacks of capacity 1), which the call
turns into `[2, 2, 0, 3, 0, 0, 0, 0]`. -/
theorem singlePassLabelingDefault_output_contract_witness :
    STACK_INITIAL_SIZE 8 1 1 = 1 ∧
    (∃ r, singlePassLabelingDefault 10 8 1 1 rowVolume = some r ∧
      ∀ p, InBox 8 1 1 p →
        (voxelAt rowVolume p = 0 → voxelAt r.1 p = 0) ∧
          (voxelAt rowVolume p = 1 → 2 ≤ voxelAt r.1 p)) ∧
    (singlePassLabelingDefault 10 8 1 1 rowVolume).map
        (fun r => (voxelAt r.1 ⟨0, 0, 0⟩, voxelAt r.1 ⟨1, 0, 0⟩, voxelAt r.1 ⟨2, 0, 0⟩,
          voxelAt r.1 ⟨3, 0, 0⟩, voxelAt r.1 ⟨4, 0, 0⟩)) = some (2, 2, 0, 3, 0) :=
  ⟨by decide, singlePassLabelingDefault_output_contract 10 8 1 1 rowVolume
    (by decide) (atMostComponents_of_volume rowVolume _ (by decide)) (by decide), by decide⟩

/-! ### Systems of representatives: the number of components is well defined -/

theorem eq_of_connected_of_pairwise {Dx Dy Dz : Nat} {v : Volume} {reps : List Voxel}
    (hsep : reps.Pairwise (fun a b => ¬ Connected Dx Dy Dz v a b))
    (hobj : ∀ x ∈ reps, IsObject Dx Dy Dz v x) {x y : Voxel} (hx : x ∈ reps) (hy : y ∈ reps)
    (hc : Connected Dx Dy Dz v x y) : x = y := by
  obtain ⟨n, hn⟩ := List.mem_iff_getElem?.1 hx
  obtain ⟨m, hm⟩ := List.mem_iff_getElem?.1 hy
  obtain ⟨hn1, hn2⟩ := List.getElem?_eq_some_iff.1 hn
  obtain ⟨hm1, hm2⟩ := List.getElem?_eq_some_iff.1 hm
  have hpw := List.pairwise_iff_getElem.1 hsep
  rcases Nat.lt_trichotomy n m with h | h | h
  · have := hpw n m hn1 hm1 h
    rw [hn2, hm2] at this
    exact absurd hc this
  · subst h
    rw [← hn2, ← hm2]
  · have := hpw m n hm1 hn1 h
    rw [hn2, hm2] at this
    exact absurd (hc.symm (hobj x hx)) this

theorem IsRepresentativeSystem.nodup {Dx Dy Dz : Nat} {v : Volume} {S : Voxel → Prop}
    {reps : List Voxel} (h : IsRepresentativeSystem Dx Dy Dz v S reps) : reps.Nodup := by
  refine h.2.1.imp ?_
  intro a b hab e
  rw [e] at hab
  exact hab Relation.ReflTransGen.refl

theorem IsRepresentativeSystem.length_le {Dx Dy Dz : Nat} {v : Volume} {S : Voxel → Prop}
    {reps1 reps2 : List Voxel} (h1 : IsRepresentativeSystem Dx Dy Dz v S reps1)
    (h2 : IsRepresentativeSystem Dx Dy Dz v S reps2) : reps1.length ≤ reps2.length := by
  classical
  have hex : ∀ x ∈ reps1, ∃ y, y ∈ reps2 ∧ Connected Dx Dy Dz v y x :=
    fun x hx => h2.2.2 x (h1.1 x hx).1 (h1.1 x hx).2
  let f : Voxel → Voxel := fun x =>
    if h : ∃ y, y ∈ reps2 ∧ Connected Dx Dy Dz v y x then Classical.choose h else x
  have hf : ∀ x ∈ reps1, f x ∈ reps2 ∧ Connected Dx Dy Dz v (f x) x := by
    intro x hx
    have h := hex x hx
    show (if h : ∃ y, y ∈ reps2 ∧ Connected Dx Dy Dz v y x then Classical.choose h else x)
        ∈ reps2 ∧ Connected Dx Dy Dz v
          (if h : ∃ y, y ∈ reps2 ∧ Connected Dx Dy Dz v y x then Classical.choose h else x) x
    rw [dif_pos h]
    exact Classical.choose_spec h
  have hcard : reps1.toFinset.card ≤ reps2.toFinset.card := by
    refine Finset.card_le_card_of_injOn f ?_ ?_
    · intro x hx
      have hx1 : x ∈ reps1 := List.mem_toFinset.1 (Finset.mem_coe.1 hx)
      exact Finset.mem_coe.2 (List.mem_toFinset.2 (hf x hx1).1)
    · intro x hx x1 hx1 hxx
      have hxm : x ∈ reps1 := List.mem_toFinset.1 (Finset.mem_coe.1 hx)
      have hxm1 : x1 ∈ reps1 := List.mem_toFinset.1 (Finset.mem_coe.1 hx1)
      have hc1 := (hf x hxm).2
      have hc2 := (hf x1 hxm1).2
      rw [hxx] at hc1
      have hyobj := (h2.1 (f x1) (hf x1 hxm1).1).1
      exact eq_of_connected_of_pairwise h1.2.1 (fun z hz => (h1.1 z hz).1) hxm hxm1
        ((hc1.symm hyobj).trans hc2)
  rw [List.toFinset_card_of_nodup h1.nodup, List.toFinset_card_of_nodup h2.nodup] at hcard
  exact hcard

theorem IsRepresentativeSystem.length_eq {Dx Dy Dz : Nat} {v : Volume} {S : Voxel → Prop}
    {reps1 reps2 : List Voxel} (h1 : IsRepresentativeSystem Dx Dy Dz v S reps1)
    (h2 : IsRepresentativeSystem Dx Dy Dz v S reps2) : reps1.length = reps2.length :=
  le_antisymm (h1.length_le h2) (h2.length_le h1)

theorem singlePassLabeling_returns_of_bound {fuel Dx Dy Dz : Nat} {v0 : Volume}
    {kMin kMax : Int} {a st : Nat} (h0 : 0 ≤ kMin) (h1 : kMax ≤ (Dz : Int))
    (ha : a < PIXEL_RANGE) (hfuel : Dx * Dy * Dz + 2 ≤ fuel) (N : Nat)
    (hN : AtMostComponents Dx Dy Dz v0 (fun p => kMin ≤ p.k ∧ p.k < kMax) N)
    (hl : ∀ n, n < N → labelAt a st n ≠ 1) :
    ∃ r, singlePassLabeling fuel Dx Dy Dz v0 kMin kMax a st = some r := by
  refine singlePassLabeling_returns h0 h1 ha hfuel ?_
  intro reps hobj hsep n hn
  exact hl n (lt_of_lt_of_le hn (hN reps hobj hsep))

/-! ## Claims about `singlePassLabeling` -/

theorem scanLt_asymm {p q : Voxel} (h1 : scanLt p q) (h2 : scanLt q p) : False := by
  unfold scanLt at h1 h2
  omega

/-- C5 (as stated, refuted): on the `8×1×1` row `[1, 0, 1, 0, 0, 0, 0, 0]` (stacks of
capacity 1) with `labelStart = 65535` and `labelStep = 1` two components are found; the
first (the voxel `x = 0`) receives `65535` and the component discovered second (`n = 1`,
the voxel `x = 2`) receives `0`, not `labelStart + n * labelStep = 65536`. -/
theorem singlePassLabeling_second_label_wraps :
    STACK_INITIAL_SIZE 8 1 1 = 1 ∧
    (singlePassLabeling 10 8 1 1 gapVolume 0 1 65535 1).map
        (fun r => (voxelAt r.1 ⟨0, 0, 0⟩, voxelAt r.1 ⟨2, 0, 0⟩, r.2)) = some (65535, 0, 2) ∧
      (0 : Nat) ≠ 65535 + 1 * 1 := by
  decide

/-- C5 (amended): for every volume whose stacks are created with a capacity of at least 1
(`Dx + Dy + Dz ≥ 10`) and every 16-bit `labelStart` and `labelStep`, whenever
`singlePassLabeling` over `[0, Dz)` returns it has discovered the components in the order of
their first voxel in the scan order (`z` outer, `y` middle, `x` inner): the seeds are
exactly the scan-first voxels of the components, listed in scan order, and the component
discovered `n`-th (counting from 0) holds `(labelStart + n * labelStep) mod 65536`, which is
`labelStart + n * labelStep` when that does not exceed 65535; consecutive labels differ by
`labelStep` modulo 65536. The call returns whenever none of the labels it generates is 1. -/
theorem singlePassLabeling_labels_by_discovery (fuel Dx Dy Dz : Nat) (v : Volume)
    (labelStart labelStep : Nat) (hcap : 1 ≤ STACK_INITIAL_SIZE Dx Dy Dz)
    (hstart : labelStart < PIXEL_RANGE) :
    (∀ r, singlePassLabeling fuel Dx Dy Dz v 0 Dz labelStart labelStep = some r →
      ∃ seeds : List Voxel,
        seeds.Pairwise scanLt ∧
        (∀ x, x ∈ seeds ↔
          (IsObject Dx Dy Dz v x ∧ ∀ p, Connected Dx Dy Dz v x p → x = p ∨ scanLt x p)) ∧
        (∀ (n : Nat) (x : Voxel), seeds[n]? = some x → ∀ q, Connected Dx Dy Dz v x q →
          voxelAt r.1 q = labelAt labelStart labelStep n)) ∧
    (∀ n, labelStart + n * labelStep < PIXEL_RANGE →
      labelAt labelStart labelStep n = labelStart + n * labelStep) ∧
    (∀ n, labelAt labelStart labelStep (n + 1)
      = (labelAt labelStart labelStep n + labelStep) % PIXEL_RANGE) ∧
    (∀ N, AtMostComponents Dx Dy Dz v (fun _ => True) N →
      (∀ n, n < N → labelAt labelStart labelStep n ≠ 1) → Dx * Dy * Dz + 2 ≤ fuel →
      ∃ r, singlePassLabeling fuel Dx Dy Dz v 0 Dz labelStart labelStep = some r) := by
  refine ⟨?_, fun n hn => labelAt_of_le hn, fun n => (labelAt_succ _ _ n).symm, ?_⟩
  · intro r hr
    obtain ⟨s1, seeds, hinv, hrs⟩ := singlePassLabeling_inv (le_refl _) (le_refl _) hstart hr
    have hbox : ∀ x ∈ scanOrder Dx Dy 0 Dz, InBox Dx Dy Dz x :=
      fun x hx => scanOrder_inBox (le_refl _) (le_refl _) hx
    refine ⟨seeds, hinv.seeds_sorted (pairwise_scanOrder Dx Dy 0 Dz), ?_, ?_⟩
    · intro x
      constructor
      · intro hx
        have hobj := hinv.seed_isObject hbox hx
        refine ⟨hobj, fun p hp => ?_⟩
        exact hinv.seed_first hbox hx (isObject_mem_scanOrder (hp.isObject hobj)) hp
      · rintro ⟨hobj, hfirst⟩
        obtain ⟨n, y, hn, hyx, hord⟩ := hinv.covered (isObject_mem_scanOrder hobj) hobj.2
        have hy : y ∈ seeds := List.mem_iff_getElem?.2 ⟨n, hn⟩
        rcases hord with e | hlt
        · rw [← e]; exact hy
        · exfalso
          rcases hfirst y (hyx.symm (hinv.seed_isObject hbox hy)) with e | hlt2
          · rw [e] at hlt; exact scanLt_irrefl y hlt
          · exact scanLt_asymm hlt hlt2
    · intro n x hn q hq
      rw [hrs]
      exact hinv.lab n x hn q hq
  · intro N hN hl hfuel
    exact singlePassLabeling_returns_of_bound (le_refl _) (le_refl _) hstart hfuel N
      (hN.mono (fun _ _ => trivial)) hl

/-- On the `8×1×1` row `[1, 0, 1, 0, 0, 0, 0, 0]` (stacks of capacity 1) with
`labelStart = 5` and `labelStep = 3`: the call returns, the component discovered first (the
voxel `x = 0`) holds 5 and the one discovered second (the voxel `x = 2`) holds 8. -/
theorem singlePassLabeling_labels_by_discovery_witness :
    STACK_INITIAL_SIZE 8 1 1 = 1 ∧
    ((∀ r, singlePassLabeling 10 8 1 1 gapVolume 0 (1 : Nat) 5 3 = some r →
      ∃ seeds : List Voxel,
        seeds.Pairwise scanLt ∧
        (∀ x, x ∈ seeds ↔
          (IsObject 8 1 1 gapVolume x ∧ ∀ p, Connected 8 1 1 gapVolume x p → x = p ∨ scanLt x p)) ∧
        (∀ (n : Nat) (x : Voxel), seeds[n]? = some x → ∀ q, Connected 8 1 1 gapVolume x q →
          voxelAt r.1 q = labelAt 5 3 n)) ∧
    (∀ n, 5 + n * 3 < PIXEL_RANGE → labelAt 5 3 n = 5 + n * 3) ∧
    (∀ n, labelAt 5 3 (n + 1) = (labelAt 5 3 n + 3) % PIXEL_RANGE) ∧
    (∀ N, AtMostComponents 8 1 1 gapVolume (fun _ => True) N →
      (∀ n, n < N → labelAt 5 3 n ≠ 1) → 8 * 1 * 1 + 2 ≤ 10 →
      ∃ r, singlePassLabeling 10 8 1 1 gapVolume 0 (1 : Nat) 5 3 = some r)) ∧
    (singlePassLabeling 10 8 1 1 gapVolume 0 (1 : Nat) 5 3).map
        (fun r => (voxelAt r.1 ⟨0, 0, 0⟩, voxelAt r.1 ⟨1, 0, 0⟩, voxelAt r.1 ⟨2, 0, 0⟩, r.2))
      = some (5, 0, 8, 2) :=
  ⟨by decide, singlePassLabeling_labels_by_discovery 10 8 1 1 gapVolume 5 3 (by decide)
    (by decide), by decide⟩

/-- C6: for every volume whose stacks are created with a capacity of at least 1
(`Dx + Dy + Dz ≥ 10`) and every z-range `[kMin, kMax)` within `[0, Dz)`, whenever
`singlePassLabeling` returns, the component count it reports equals, modulo the 16-bit
wrap-around of `objectCount` (so exactly, absent overflow), the number of 6-connected
components of 1-valued voxels, connectivity taken in the whole volume, that have at least
one voxel with `kMin ≤ z < kMax`: the length of any system of representatives of those
components. The call returns whenever none of the labels it generates is 1. -/
theorem singlePassLabeling_objectCount (fuel Dx Dy Dz : Nat) (v : Volume) (kMin kMax : Int)
    (labelStart labelStep : Nat) (hcap : 1 ≤ STACK_INITIAL_SIZE Dx Dy Dz)
    (h0 : 0 ≤ kMin) (h1 : kMax ≤ (Dz : Int))
    (hstart : labelStart < PIXEL_RANGE) :
    (∀ r, singlePassLabeling fuel Dx Dy Dz v kMin kMax labelStart labelStep = some r →
      (∃ reps, IsRepresentativeSystem Dx Dy Dz v (fun p => kMin ≤ p.k ∧ p.k < kMax) reps) ∧
      ∀ reps, IsRepresentativeSystem Dx Dy Dz v (fun p => kMin ≤ p.k ∧ p.k < kMax) reps →
        r.2 = reps.length % PIXEL_RANGE ∧ (reps.length < PIXEL_RANGE → r.2 = reps.length)) ∧
    (∀ N, AtMostComponents Dx Dy Dz v (fun p => kMin ≤ p.k ∧ p.k < kMax) N →
      (∀ n, n < N → labelAt labelStart labelStep n ≠ 1) → Dx * Dy * Dz + 2 ≤ fuel →
      ∃ r, singlePassLabeling fuel Dx Dy Dz v kMin kMax labelStart labelStep = some r) := by
  refine ⟨?_, fun N hN hl hfuel =>
    singlePassLabeling_returns_of_bound h0 h1 hstart hfuel N hN hl⟩
  intro r hr
  obtain ⟨s1, seeds, hinv, hrs⟩ := singlePassLabeling_inv h0 h1 hstart hr
  have hrep := hinv.representatives h0 h1
  refine ⟨⟨seeds, hrep⟩, ?_⟩
  intro reps hreps
  have hlen : reps.length = seeds.length := hreps.length_eq hrep
  have hcount : r.2 = reps.length % PIXEL_RANGE := by
    rw [hrs, hlen]
    exact hinv.count_eq
  exact ⟨hcount, fun hlt => by rw [hcount, Nat.mod_eq_of_lt hlt]⟩

/-- A single interior `1` surrounded by `0`s in a `5×5×1` volume (scenario A of the
specification on a volume whose stacks are created with capacity 1): the call returns and
reports one component. -/
theorem singlePassLabeling_objectCount_witness :
    STACK_INITIAL_SIZE 5 5 1 = 1 ∧
    ((∀ r, singlePassLabeling 27 5 5 1 dotVolume 0 1 2 1 = some r →
      (∃ reps, IsRepresentativeSystem 5 5 1 dotVolume (fun p => 0 ≤ p.k ∧ p.k < 1) reps) ∧
      ∀ reps, IsRepresentativeSystem 5 5 1 dotVolume (fun p => 0 ≤ p.k ∧ p.k < 1) reps →
        r.2 = reps.length % PIXEL_RANGE ∧ (reps.length < PIXEL_RANGE → r.2 = reps.length)) ∧
    (∀ N, AtMostComponents 5 5 1 dotVolume (fun p => 0 ≤ p.k ∧ p.k < 1) N →
      (∀ n, n < N → labelAt 2 1 n ≠ 1) → 5 * 5 * 1 + 2 ≤ 27 →
      ∃ r, singlePassLabeling 27 5 5 1 dotVolume 0 1 2 1 = some r)) ∧
    (singlePassLabeling 27 5 5 1 dotVolume 0 1 2 1).map Prod.snd = some 1 :=
  ⟨by decide, singlePassLabeling_objectCount 27 5 5 1 dotVolume 0 1 2 1 (by decide)
    (by decide) (by decide) (by decide), by decide⟩

/-! ### Composing scans: what a scan leaves for the next one -/

theorem connected_transfer {Dx Dy Dz : Nat} {v v1 : Volume} (hres : Residual Dx Dy Dz v v1)
    {x : Voxel} (hx : IsObject Dx Dy Dz v1 x) (q : Voxel) :
    Connected Dx Dy Dz v1 x q ↔ Connected Dx Dy Dz v x q := by
  constructor
  · intro h
    exact Relation.ReflTransGen.mono (fun a b hab => ⟨hab.1, hab.2.1, hres.1 b hab.2.2⟩) h
  · intro h
    induction h with
    | refl => exact Relation.ReflTransGen.refl
    | tail hxb hbc ih =>
      rename_i b c
      exact Relation.ReflTransGen.tail ih
        ⟨hbc.1, hbc.2.1, hres.2 x c hx.1 hx.2 (Relation.ReflTransGen.tail hxb hbc)⟩

theorem Residual.refl (Dx Dy Dz : Nat) (v : Volume) : Residual Dx Dy Dz v v :=
  ⟨fun _ h => h, fun _ _ _ hx hc => hc.value hx⟩

theorem Residual.compose {Dx Dy Dz : Nat} {v v1 v2 : Volume} (h1 : Residual Dx Dy Dz v v1)
    (h2 : Residual Dx Dy Dz v1 v2) : Residual Dx Dy Dz v v2 := by
  refine ⟨fun q hq => h1.1 q (h2.1 q hq), ?_⟩
  intro x q hx hx2 hc
  have hx1 : IsObject Dx Dy Dz v1 x := ⟨hx, h2.1 x hx2⟩
  exact h2.2 x q hx hx2 ((connected_transfer h1 hx1 q).2 hc)

theorem ScanInv.one_was_one {Dx Dy Dz : Nat} {v0 : Volume} {a st : Nat}
    {done : List Voxel} {s : ScanState} {seeds : List Voxel}
    (hinv : ScanInv Dx Dy Dz v0 a st done s seeds) {q : Voxel}
    (hq : voxelAt s.fill.dstData3D q = 1) : voxelAt v0 q = 1 := by
  by_contra h
  rw [hinv.unchanged_of_ne_one h] at hq
  exact h hq

theorem ScanInv.residual {Dx Dy Dz : Nat} {v0 : Volume} {a st : Nat}
    {done : List Voxel} {s : ScanState} {seeds : List Voxel}
    (hinv : ScanInv Dx Dy Dz v0 a st done s seeds)
    (hl : ∀ n, n < seeds.length → labelAt a st n ≠ 1) :
    Residual Dx Dy Dz v0 s.fill.dstData3D := by
  refine ⟨fun q hq => hinv.one_was_one hq, ?_⟩
  intro x q hx hx1 hc
  have hx0 : IsObject Dx Dy Dz v0 x := ⟨hx, hinv.one_was_one hx1⟩
  have hnone : ∀ y ∈ seeds, ¬ Connected Dx Dy Dz v0 y q := by
    intro y hy hyq
    obtain ⟨n, hn⟩ := List.mem_iff_getElem?.1 hy
    have := hinv.lab n y hn x (hyq.trans (hc.symm hx0))
    rw [hx1] at this
    exact hl n (List.getElem?_eq_some_iff.1 hn).1 this.symm
  rw [hinv.frame q hnone]
  exact hc.value hx0.2

theorem ScanInv.const_on_components {Dx Dy Dz : Nat} {v0 : Volume} {a st : Nat}
    {done : List Voxel} {s : ScanState} {seeds : List Voxel}
    (hinv : ScanInv Dx Dy Dz v0 a st done s seeds)
    {p q : Voxel} (hp : IsObject Dx Dy Dz v0 p) (hc : Connected Dx Dy Dz v0 p q) :
    voxelAt s.fill.dstData3D p = voxelAt s.fill.dstData3D q := by
  by_cases hex : ∃ x ∈ seeds, Connected Dx Dy Dz v0 x p
  · obtain ⟨x, hx, hxp⟩ := hex
    obtain ⟨n, hn⟩ := List.mem_iff_getElem?.1 hx
    rw [hinv.lab n x hn p hxp, hinv.lab n x hn q (hxp.trans hc)]
  · push_neg at hex
    have hq : ∀ x ∈ seeds, ¬ Connected Dx Dy Dz v0 x q := by
      intro x hx hxq
      exact hex x hx (hxq.trans (hc.symm hp))
    rw [hinv.frame p hex, hinv.frame q hq, hp.2, hc.value hp.2]

/-! ### The midplane after the boundary pass -/

theorem ScanInv.planeIsolated {Dx Dy Dz : Nat} {v0 : Volume} {a st : Nat} {K : Int}
    {s : ScanState} {seeds : List Voxel}
    (hinv : ScanInv Dx Dy Dz v0 a st (scanOrder Dx Dy K (K + 1)) s seeds) :
    PlaneIsolated Dx Dy Dz s.fill.dstData3D K := by
  intro m hm hmK hm1 c hstep
  have hmem : m ∈ scanOrder Dx Dy K (K + 1) := by
    rw [mem_scanOrder]
    unfold InBox at hm
    omega
  have hm0 : voxelAt v0 m = 1 := hinv.one_was_one hm1
  obtain ⟨n, x, hn, hxm, _⟩ := hinv.covered hmem hm0
  have hlab : labelAt a st n = 1 := by rw [← hinv.lab n x hn m hxm]; exact hm1
  have hiso := hinv.iso n x hn hlab
  have hmx : m = x := hxm.eq_of_isolated hiso
  rw [← hmx] at hiso
  exact hiso c ⟨hstep.1, hstep.2.1, hinv.one_was_one hstep.2.2⟩

theorem PlaneIsolated.of_shrink {Dx Dy Dz : Nat} {v v1 : Volume} {K : Int}
    (h : PlaneIsolated Dx Dy Dz v K) (hsub : ∀ q, voxelAt v1 q = 1 → voxelAt v q = 1) :
    PlaneIsolated Dx Dy Dz v1 K :=
  fun m hm hmK hm1 c hstep => h m hm hmK (hsub m hm1) c ⟨hstep.1, hstep.2.1, hsub c hstep.2.2⟩

theorem PlaneIsolated.stays_below {Dx Dy Dz : Nat} {v : Volume} {K : Int}
    (h : PlaneIsolated Dx Dy Dz v K) {x q : Voxel} (hx : IsObject Dx Dy Dz v x)
    (hxK : x.k < K) (hc : Connected Dx Dy Dz v x q) : q.k < K := by
  induction hc with
  | refl => exact hxK
  | tail hxb hbc ih =>
    rename_i b c
    have hb : IsObject Dx Dy Dz v b := Connected.isObject hxb hx
    by_contra hcK
    have hadj := hbc.1
    unfold Adjacent6 at hadj
    have hcK2 : c.k = K := by omega
    exact h c hbc.2.1 hcK2 hbc.2.2 b ⟨hbc.1.swap, hb.1, hb.2⟩

theorem PlaneIsolated.stays_above {Dx Dy Dz : Nat} {v : Volume} {K : Int}
    (h : PlaneIsolated Dx Dy Dz v K) {x q : Voxel} (hx : IsObject Dx Dy Dz v x)
    (hxK : K < x.k) (hc : Connected Dx Dy Dz v x q) : K < q.k := by
  induction hc with
  | refl => exact hxK
  | tail hxb hbc ih =>
    rename_i b c
    have hb : IsObject Dx Dy Dz v b := Connected.isObject hxb hx
    by_contra hcK
    have hadj := hbc.1
    unfold Adjacent6 at hadj
    have hcK2 : c.k = K := by omega
    exact h c hbc.2.1 hcK2 hbc.2.2 b ⟨hbc.1.swap, hb.1, hb.2⟩

theorem ScanInv.changed_below {Dx Dy Dz : Nat} {v0 : Volume} {a st : Nat} {kMin kMax K : Int}
    {s : ScanState} {seeds : List Voxel} (h0 : 0 ≤ kMin) (h1 : kMax ≤ (Dz : Int))
    (hinv : ScanInv Dx Dy Dz v0 a st (scanOrder Dx Dy kMin kMax) s seeds)
    (hiso : PlaneIsolated Dx Dy Dz v0 K) (hK : kMax ≤ K) {q : Voxel}
    (hq : voxelAt s.fill.dstData3D q ≠ voxelAt v0 q) : q.k < K := by
  obtain ⟨n, x, hn, hxq⟩ := hinv.changed hq
  have hx : x ∈ seeds := List.mem_iff_getElem?.2 ⟨n, hn⟩
  have hobj := hinv.seed_isObject (fun p hp => scanOrder_inBox h0 h1 hp) hx
  have hmem := mem_scanOrder.1 (hinv.sub.subset hx)
  exact hiso.stays_below hobj (by omega) hxq

theorem ScanInv.changed_above {Dx Dy Dz : Nat} {v0 : Volume} {a st : Nat} {kMin kMax K : Int}
    {s : ScanState} {seeds : List Voxel} (h0 : 0 ≤ kMin) (h1 : kMax ≤ (Dz : Int))
    (hinv : ScanInv Dx Dy Dz v0 a st (scanOrder Dx Dy kMin kMax) s seeds)
    (hiso : PlaneIsolated Dx Dy Dz v0 K) (hK : K < kMin) {q : Voxel}
    (hq : voxelAt s.fill.dstData3D q ≠ voxelAt v0 q) : K < q.k := by
  obtain ⟨n, x, hn, hxq⟩ := hinv.changed hq
  have hx : x ∈ seeds := List.mem_iff_getElem?.2 ⟨n, hn⟩
  have hobj := hinv.seed_isObject (fun p hp => scanOrder_inBox h0 h1 hp) hx
  have hmem := mem_scanOrder.1 (hinv.sub.subset hx)
  exact hiso.stays_above hobj (by omega) hxq

/-! ### The phases of `parallelEdgeFirstSinglePassLabeling` -/

theorem kMid_range {Dz : Nat} (hDz : 0 < Dz) : 0 ≤ kMid Dz ∧ kMid Dz < (Dz : Int) := by
  unfold kMid
  omega

theorem halfLabelStart_lt (label imageNo : Nat) : halfLabelStart label imageNo < PIXEL_RANGE := by
  unfold halfLabelStart
  exact Nat.mod_lt _ (by unfold PIXEL_RANGE; omega)

theorem halfLabelStart_eq {label imageNo : Nat} (h : 2 * label + imageNo < PIXEL_RANGE) :
    halfLabelStart label imageNo = 2 * label + imageNo := by
  unfold halfLabelStart
  rw [Nat.shiftLeft_eq, pow_one, Nat.mod_eq_of_lt (by omega)]
  omega

theorem halfRun_zero (fuel Dx Dy Dz : Nat) (v : Volume) (label : Nat) :
    halfRun fuel Dx Dy Dz v label 0
      = singlePassLabeling fuel Dx Dy Dz v 0 (kMid Dz) (halfLabelStart label 0) 2 := by
  unfold halfRun
  congr 1 <;> simp

theorem halfRun_one (fuel Dx Dy Dz : Nat) (v : Volume) (label : Nat) :
    halfRun fuel Dx Dy Dz v label 1
      = singlePassLabeling fuel Dx Dy Dz v (kMid Dz + 1) Dz (halfLabelStart label 1) 2 := by
  unfold halfRun
  congr 1 <;> simp

theorem boundaryPass_inv {fuel Dx Dy Dz : Nat} {v : Volume} (hDz : 0 < Dz)
    {b : FillState × Nat} (h : boundaryPass fuel Dx Dy Dz v = some b) :
    ∃ sB seeds, ScanInv Dx Dy Dz v 2 1 (scanOrder Dx Dy (kMid Dz) (kMid Dz + 1)) sB seeds ∧
      b = (sB.fill, sB.label) := by
  rw [boundaryPass_eq_scanRange, Option.map_eq_some'] at h
  obtain ⟨sB, hsB, hb⟩ := h
  have hk := kMid_range hDz
  obtain ⟨seeds, hinv⟩ := scanRange_inv hk.1 (by omega) (by unfold PIXEL_RANGE; omega) rfl
    (allocateStack_holds Dx Dy Dz v) hsB
  exact ⟨sB, seeds, hinv, hb.symm⟩

theorem boundaryPass_returns {fuel Dx Dy Dz : Nat} {v : Volume} (hDz : 0 < Dz)
    (hfuel : Dx * Dy * Dz + 2 ≤ fuel) (B : Nat)
    (hB : AtMostComponents Dx Dy Dz v (fun p => p.k = kMid Dz) B) (hB1 : B + 1 < PIXEL_RANGE) :
    ∃ b, boundaryPass fuel Dx Dy Dz v = some b := by
  have hk := kMid_range hDz
  obtain ⟨sB, hsB⟩ := @scanRange_returns fuel Dx Dy Dz v (kMid Dz) (kMid Dz + 1) 2 1 hk.1
    (show kMid Dz + 1 ≤ (Dz : Int) by omega) (by unfold PIXEL_RANGE; omega) _ rfl
    (allocateStack_holds Dx Dy Dz v) hfuel (by
      intro reps hobj hsep n hn
      have hlen := hB reps (fun x hx => ⟨(hobj x hx).1, by have := (hobj x hx).2; omega⟩) hsep
      unfold labelAt
      unfold PIXEL_RANGE at hB1 ⊢
      omega)
  rw [boundaryPass_eq_scanRange, hsB]
  exact ⟨_, rfl⟩

theorem parallel_decompose {fuel Dx Dy Dz : Nat} {v : Volume} {r : ParallelResult}
    (h : parallelEdgeFirstSinglePassLabeling fuel Dx Dy Dz v = some r) :
    ∃ b r0 r1, boundaryPass fuel Dx Dy Dz v = some b ∧
      halfRun fuel Dx Dy Dz b.1.dstData3D b.2 0 = some r0 ∧
      halfRun fuel Dx Dy Dz r0.1 b.2 1 = some r1 ∧
      r = { dstData3D := r1.1, boundaryCount := (b.2 : Int) - 2, lowerCount := r0.2,
            upperCount := r1.2 } := by
  unfold parallelEdgeFirstSinglePassLabeling at h
  simp only [Option.bind_eq_some, Option.map_eq_some'] at h
  obtain ⟨b, hb, r0, hr0, r1, hr1, hr⟩ := h
  exact ⟨b, r0, r1, hb, hr0, hr1, hr.symm⟩

theorem parallel_compose {fuel Dx Dy Dz : Nat} {v : Volume} {b : FillState × Nat}
    {r0 r1 : Volume × Nat} (hb : boundaryPass fuel Dx Dy Dz v = some b)
    (hr0 : halfRun fuel Dx Dy Dz b.1.dstData3D b.2 0 = some r0)
    (hr1 : halfRun fuel Dx Dy Dz r0.1 b.2 1 = some r1) :
    parallelEdgeFirstSinglePassLabeling fuel Dx Dy Dz v
      = some { dstData3D := r1.1, boundaryCount := (b.2 : Int) - 2, lowerCount := r0.2,
               upperCount := r1.2 } := by
  unfold parallelEdgeFirstSinglePassLabeling
  simp only [hb, Option.some_bind, hr0, hr1, Option.map_some']

theorem boundary_phase {fuel Dx Dy Dz : Nat} {v : Volume} (hDz : 0 < Dz)
    (hfuel : Dx * Dy * Dz + 2 ≤ fuel) {B : Nat}
    (hB : AtMostComponents Dx Dy Dz v (fun p => p.k = kMid Dz) B) (hB2 : B + 2 < PIXEL_RANGE) :
    ∃ (b : FillState × Nat) (sB : ScanState) (seedsB : List Voxel),
      boundaryPass fuel Dx Dy Dz v = some b ∧
      ScanInv Dx Dy Dz v 2 1 (scanOrder Dx Dy (kMid Dz) (kMid Dz + 1)) sB seedsB ∧
      b = (sB.fill, sB.label) ∧ seedsB.length ≤ B ∧ sB.label = seedsB.length + 2 ∧
      (∀ n, n < seedsB.length → labelAt 2 1 n = 2 + n) := by
  have hk := kMid_range hDz
  obtain ⟨b, hb⟩ := boundaryPass_returns hDz hfuel B hB (by omega)
  obtain ⟨sB, seedsB, hinv, hbs⟩ := boundaryPass_inv hDz hb
  have hrep := hinv.representatives hk.1 (show kMid Dz + 1 ≤ (Dz : Int) by omega)
  have hlen : seedsB.length ≤ B :=
    hB seedsB (fun x hx => ⟨(hrep.1 x hx).1, by have := (hrep.1 x hx).2; omega⟩) hrep.2.1
  refine ⟨b, sB, seedsB, hb, hinv, hbs, hlen, ?_, ?_⟩
  · rw [hinv.label_eq, labelAt_of_le (by omega)]
    omega
  · intro n hn
    rw [labelAt_of_le (by omega)]
    omega

theorem half_phase {fuel Dx Dy Dz : Nat} {v v1 : Volume} {kMin kMax : Int} {a N : Nat}
    {S : Voxel → Prop} (h0 : 0 ≤ kMin) (h1 : kMax ≤ (Dz : Int))
    (hfuel : Dx * Dy * Dz + 2 ≤ fuel) (hres : Residual Dx Dy Dz v v1)
    (hN : AtMostComponents Dx Dy Dz v S N)
    (hS : ∀ x, IsObject Dx Dy Dz v1 x → kMin ≤ x.k → x.k < kMax → S x)
    (ha : 2 ≤ a) (haN : a + 2 * N < PIXEL_RANGE) :
    ∃ (r : Volume × Nat) (sX : ScanState) (seedsX : List Voxel),
      singlePassLabeling fuel Dx Dy Dz v1 kMin kMax a 2 = some r ∧
      ScanInv Dx Dy Dz v1 a 2 (scanOrder Dx Dy kMin kMax) sX seedsX ∧
      r = (sX.fill.dstData3D, sX.objectCount) ∧ seedsX.length ≤ N ∧
      Residual Dx Dy Dz v1 sX.fill.dstData3D ∧
      (∀ n, n < seedsX.length → labelAt a 2 n = a + 2 * n) := by
  have hbound : ∀ reps : List Voxel,
      (∀ x ∈ reps, IsObject Dx Dy Dz v1 x ∧ kMin ≤ x.k ∧ x.k < kMax) →
      reps.Pairwise (fun x y => ¬ Connected Dx Dy Dz v1 x y) → reps.length ≤ N := by
    intro reps hobj hsep
    refine hN reps ?_ ?_
    · intro x hx
      have h := hobj x hx
      exact ⟨⟨h.1.1, hres.1 x h.1.2⟩, hS x h.1 h.2.1 h.2.2⟩
    · refine hsep.imp_of_mem ?_
      intro x y hx _ hxy hc
      exact hxy ((connected_transfer hres (hobj x hx).1 y).2 hc)
  have hlabel : ∀ n, n < N → labelAt a 2 n = a + 2 * n := by
    intro n hn
    rw [labelAt_of_le (by omega)]
    omega
  have haR : a < PIXEL_RANGE := by omega
  obtain ⟨r, hr⟩ := @singlePassLabeling_returns fuel Dx Dy Dz v1 kMin kMax a 2 h0 h1 haR
    hfuel (by
      intro reps hobj hsep n hn
      rw [hlabel n (lt_of_lt_of_le hn (hbound reps hobj hsep))]
      omega)
  obtain ⟨sX, seedsX, hinv, hrs⟩ := singlePassLabeling_inv h0 h1 haR hr
  have hrep := hinv.representatives h0 h1
  have hlen : seedsX.length ≤ N := hbound seedsX hrep.1 hrep.2.1
  refine ⟨r, sX, seedsX, hr, hinv, hrs, hlen, ?_, fun n hn => hlabel n (by omega)⟩
  refine hinv.residual ?_
  intro n hn
  rw [hlabel n (by omega)]
  omega

/-- Under `NoLabelOverflow`, `parallelEdgeFirstSinglePassLabeling` returns and its result is
described by `ParallelOutcome`. -/
theorem parallel_outcome_sides {fuel Dx Dy Dz : Nat} {v : Volume} {B NL NU : Nat}
    (hDz : 0 < Dz) (hfuel : Dx * Dy * Dz + 2 ≤ fuel)
    (hno : NoLabelOverflow Dx Dy Dz v B NL NU) :
    ∃ (r : ParallelResult) (seedsB seedsL seedsU : List Voxel),
      parallelEdgeFirstSinglePassLabeling fuel Dx Dy Dz v = some r ∧
      ParallelOutcome Dx Dy Dz v B NL NU r seedsB seedsL seedsU ∧
      (∀ x ∈ seedsB, x.k = kMid Dz) ∧ (∀ x ∈ seedsL, x.k < kMid Dz) ∧
      (∀ x ∈ seedsU, kMid Dz < x.k) := by
  obtain ⟨hB, hL, hU, hovL, hovU⟩ := hno
  have hk := kMid_range hDz
  -- boundary pass
  obtain ⟨b, sB, seedsB, hb, hinvB, hbs, hlenB, hlabelB, hlabB⟩ :=
    boundary_phase hDz hfuel hB (by unfold PIXEL_RANGE; omega)
  have hresB : Residual Dx Dy Dz v sB.fill.dstData3D :=
    hinvB.residual (by intro n hn; rw [hlabB n hn]; omega)
  have hisoB : PlaneIsolated Dx Dy Dz sB.fill.dstData3D (kMid Dz) := hinvB.planeIsolated
  have hPB : ∀ m, IsObject Dx Dy Dz v m → m.k = kMid Dz →
      voxelAt sB.fill.dstData3D m ≠ 1 := by
    intro m hm hmK
    have hmem : m ∈ scanOrder Dx Dy (kMid Dz) (kMid Dz + 1) := by
      rw [mem_scanOrder]
      have := hm.1
      unfold InBox at this
      omega
    obtain ⟨n, x, hn, hxm, _⟩ := hinvB.covered hmem hm.2
    rw [hinvB.lab n x hn m hxm, hlabB n (List.getElem?_eq_some_iff.1 hn).1]
    omega
  have hNP : ∀ x, IsObject Dx Dy Dz sB.fill.dstData3D x →
      ∀ q, Connected Dx Dy Dz v x q → q.k ≠ kMid Dz := by
    intro x hx q hc hqK
    have hxv : IsObject Dx Dy Dz v x := ⟨hx.1, hresB.1 x hx.2⟩
    exact hPB q (hc.isObject hxv) hqK (hresB.2 x q hx.1 hx.2 hc)
  have hb1 : b.1.dstData3D = sB.fill.dstData3D := by rw [hbs]
  have hb2 : b.2 = seedsB.length + 2 := by rw [hbs]; exact hlabelB
  -- lower half
  obtain ⟨r0, sL, seedsL, hr0, hinvL, hr0s, hlenL, hresL, hlabL⟩ :=
    @half_phase fuel Dx Dy Dz v sB.fill.dstData3D 0 (kMid Dz) (2 * (seedsB.length + 2)) NL _
      (le_refl 0) (le_of_lt hk.2) hfuel hresB hL
      (fun x hx _ hxK => ⟨hxK, hNP x hx⟩) (by omega) (by unfold PIXEL_RANGE; omega)
  have hrun0 : halfRun fuel Dx Dy Dz b.1.dstData3D b.2 0 = some r0 := by
    rw [halfRun_zero, hb1, hb2, halfLabelStart_eq (by unfold PIXEL_RANGE; omega)]
    exact hr0
  have hr01 : r0.1 = sL.fill.dstData3D := by rw [hr0s]
  have hres2 : Residual Dx Dy Dz v sL.fill.dstData3D := hresB.compose hresL
  have hbelow : ∀ q, voxelAt sL.fill.dstData3D q ≠ voxelAt sB.fill.dstData3D q →
      q.k < kMid Dz :=
    fun q hq => hinvL.changed_below (le_refl 0) (le_of_lt hk.2) hisoB (le_refl _) hq
  -- upper half
  obtain ⟨r1, sU, seedsU, hr1, hinvU, hr1s, hlenU, hresU, hlabU⟩ :=
    @half_phase fuel Dx Dy Dz v sL.fill.dstData3D (kMid Dz + 1) Dz
      (2 * (seedsB.length + 2) + 1) NU _
      (by omega) (le_refl _) hfuel hres2 hU
      (fun x hx hxK _ => ⟨by omega, hNP x ⟨hx.1, hresL.1 x hx.2⟩⟩) (by omega)
      (by unfold PIXEL_RANGE; omega)
  have hrun1 : halfRun fuel Dx Dy Dz r0.1 b.2 1 = some r1 := by
    rw [halfRun_one, hr01, hb2, halfLabelStart_eq (by unfold PIXEL_RANGE; omega)]
    exact hr1
  have hr11 : r1.1 = sU.fill.dstData3D := by rw [hr1s]
  refine ⟨_, seedsB, seedsL, seedsU, parallel_compose hb hrun0 hrun1, ?_, ?_, ?_, ?_⟩
  rotate_left
  · intro x hx
    have := mem_scanOrder.1 (hinvB.sub.subset hx)
    omega
  · intro x hx
    have := mem_scanOrder.1 (hinvL.sub.subset hx)
    omega
  · intro x hx
    have := mem_scanOrder.1 (hinvU.sub.subset hx)
    omega
  have hboxB : ∀ p ∈ scanOrder Dx Dy (kMid Dz) (kMid Dz + 1), InBox Dx Dy Dz p :=
    fun p hp => scanOrder_inBox hk.1 (by omega) hp
  have hboxL : ∀ p ∈ scanOrder Dx Dy 0 (kMid Dz), InBox Dx Dy Dz p :=
    fun p hp => scanOrder_inBox (le_refl 0) (le_of_lt hk.2) hp
  have hboxU : ∀ p ∈ scanOrder Dx Dy (kMid Dz + 1) Dz, InBox Dx Dy Dz p :=
    fun p hp => scanOrder_inBox (by omega) (le_refl _) hp
  -- a voxel that is not 1 after a phase is never touched again
  have hkeepL : ∀ q, voxelAt sB.fill.dstData3D q ≠ 1 →
      voxelAt sL.fill.dstData3D q = voxelAt sB.fill.dstData3D q :=
    fun q hq => hinvL.unchanged_of_ne_one hq
  have hkeepU : ∀ q, voxelAt sL.fill.dstData3D q ≠ 1 →
      voxelAt sU.fill.dstData3D q = voxelAt sL.fill.dstData3D q :=
    fun q hq => hinvU.unchanged_of_ne_one hq
  refine ⟨hlenB, hlenL, hlenU, ?_, ?_, ?_, ?_, ?_, ?_, ?_⟩
  · show (b.2 : Int) - 2 = _
    rw [hb2]
    push_cast
    omega
  · show r0.2 = _
    rw [hr0s]
    show sL.objectCount = _
    rw [hinvL.count_eq]
    exact Nat.mod_eq_of_lt (by unfold PIXEL_RANGE; omega)
  · show r1.2 = _
    rw [hr1s]
    show sU.objectCount = _
    rw [hinvU.count_eq]
    exact Nat.mod_eq_of_lt (by unfold PIXEL_RANGE; omega)
  · intro q hq
    show voxelAt r1.1 q = _
    have h1 : voxelAt sB.fill.dstData3D q = voxelAt v q := hinvB.unchanged_of_ne_one hq
    have h2 : voxelAt sL.fill.dstData3D q = voxelAt v q := by
      rw [hkeepL q (by rw [h1]; exact hq), h1]
    rw [hr11, hkeepU q (by rw [h2]; exact hq), h2]
  · intro p hp
    show (∃ (n : Nat) (x : Voxel), seedsB[n]? = some x ∧ Connected Dx Dy Dz v x p ∧
        voxelAt r1.1 p = 2 + n) ∨
      (∃ (n : Nat) (x : Voxel), seedsL[n]? = some x ∧ Connected Dx Dy Dz v x p ∧
        voxelAt r1.1 p = 2 * (seedsB.length + 2) + 2 * n) ∨
      (∃ (n : Nat) (x : Voxel), seedsU[n]? = some x ∧ Connected Dx Dy Dz v x p ∧
        voxelAt r1.1 p = 2 * (seedsB.length + 2) + 1 + 2 * n)
    rw [hr11]
    by_cases hex : ∃ x ∈ seedsB, Connected Dx Dy Dz v x p
    · left
      obtain ⟨x, hx, hxp⟩ := hex
      obtain ⟨n, hn⟩ := List.mem_iff_getElem?.1 hx
      have hnlt := (List.getElem?_eq_some_iff.1 hn).1
      have h1 : voxelAt sB.fill.dstData3D p = 2 + n := by
        rw [hinvB.lab n x hn p hxp, hlabB n hnlt]
      have h2 : voxelAt sL.fill.dstData3D p = 2 + n := by
        rw [hkeepL p (by rw [h1]; omega), h1]
      exact ⟨n, x, hn, hxp, by rw [hkeepU p (by rw [h2]; omega), h2]⟩
    · right
      push_neg at hex
      have h1 : voxelAt sB.fill.dstData3D p = 1 := by rw [hinvB.frame p hex]; exact hp.2
      have hp1 : IsObject Dx Dy Dz sB.fill.dstData3D p := ⟨hp.1, h1⟩
      have hpK : p.k ≠ kMid Dz := fun e => hPB p hp e h1
      have hpbox := hp.1
      unfold InBox at hpbox
      by_cases hlow : p.k < kMid Dz
      · left
        have hmem : p ∈ scanOrder Dx Dy 0 (kMid Dz) := by
          rw [mem_scanOrder]; omega
        obtain ⟨n, x, hn, hxp, _⟩ := hinvL.covered hmem h1
        have hnlt := (List.getElem?_eq_some_iff.1 hn).1
        have hx1 : IsObject Dx Dy Dz sB.fill.dstData3D x :=
          hinvL.seed_isObject hboxL (List.mem_iff_getElem?.2 ⟨n, hn⟩)
        have h2 : voxelAt sL.fill.dstData3D p = 2 * (seedsB.length + 2) + 2 * n := by
          rw [hinvL.lab n x hn p hxp, hlabL n hnlt]
        exact ⟨n, x, hn, (connected_transfer hresB hx1 p).1 hxp, by
          rw [hkeepU p (by rw [h2]; omega), h2]⟩
      · right
        have h2 : voxelAt sL.fill.dstData3D p = 1 := by
          by_contra hne
          have := hbelow p (by rw [h1]; exact hne)
          omega
        have hmem : p ∈ scanOrder Dx Dy (kMid Dz + 1) Dz := by
          rw [mem_scanOrder]; omega
        obtain ⟨n, x, hn, hxp, _⟩ := hinvU.covered hmem h2
        have hnlt := (List.getElem?_eq_some_iff.1 hn).1
        have hx2 : IsObject Dx Dy Dz sL.fill.dstData3D x :=
          hinvU.seed_isObject hboxU (List.mem_iff_getElem?.2 ⟨n, hn⟩)
        exact ⟨n, x, hn, (connected_transfer hres2 hx2 p).1 hxp, by
          rw [hinvU.lab n x hn p hxp, hlabU n hnlt]⟩
  · intro p q hp hc
    show voxelAt r1.1 p = voxelAt r1.1 q
    rw [hr11]
    have e1 : voxelAt sB.fill.dstData3D p = voxelAt sB.fill.dstData3D q :=
      hinvB.const_on_components hp hc
    have e2 : voxelAt sL.fill.dstData3D p = voxelAt sL.fill.dstData3D q := by
      by_cases h1 : voxelAt sB.fill.dstData3D p = 1
      · have hp1 : IsObject Dx Dy Dz sB.fill.dstData3D p := ⟨hp.1, h1⟩
        exact hinvL.const_on_components hp1 ((connected_transfer hresB hp1 q).2 hc)
      · rw [hkeepL p h1, hkeepL q (by rw [← e1]; exact h1), e1]
    by_cases h2 : voxelAt sL.fill.dstData3D p = 1
    · have hp2 : IsObject Dx Dy Dz sL.fill.dstData3D p := ⟨hp.1, h2⟩
      exact hinvU.const_on_components hp2 ((connected_transfer hres2 hp2 q).2 hc)
    · rw [hkeepU p h2, hkeepU q (by rw [← e2]; exact h2), e2]
  · intro x hx
    rcases hx with hx | hx | hx
    · exact hinvB.seed_isObject hboxB hx
    · have := hinvL.seed_isObject hboxL hx
      exact ⟨this.1, hresB.1 x this.2⟩
    · have := hinvU.seed_isObject hboxU hx
      exact ⟨this.1, hres2.1 x this.2⟩

theorem parallel_outcome {fuel Dx Dy Dz : Nat} {v : Volume} {B NL NU : Nat} (hDz : 0 < Dz)
    (hfuel : Dx * Dy * Dz + 2 ≤ fuel) (hno : NoLabelOverflow Dx Dy Dz v B NL NU) :
    ∃ (r : ParallelResult) (seedsB seedsL seedsU : List Voxel),
      parallelEdgeFirstSinglePassLabeling fuel Dx Dy Dz v = some r ∧
      ParallelOutcome Dx Dy Dz v B NL NU r seedsB seedsL seedsU := by
  obtain ⟨r, seedsB, seedsL, seedsU, hr, hout, -⟩ := parallel_outcome_sides hDz hfuel hno
  exact ⟨r, seedsB, seedsL, seedsU, hr, hout⟩

theorem noLabelOverflow_of_volume {Dx Dy Dz : Nat} (v : Volume)
    (h : 2 * (Dx * Dy * Dz + 2) + 1 + 2 * (Dx * Dy * Dz) ≤ 65535) :
    NoLabelOverflow Dx Dy Dz v (Dx * Dy * Dz) (Dx * Dy * Dz) (Dx * Dy * Dz) :=
  ⟨atMostComponents_of_volume v _ (le_refl _), atMostComponents_of_volume v _ (le_refl _),
    atMostComponents_of_volume v _ (le_refl _), by omega, h⟩

/-! ## Claims about `parallelEdgeFirstSinglePassLabeling` -/

theorem ParallelOutcome.object_label {Dx Dy Dz : Nat} {v : Volume} {B NL NU : Nat}
    {r : ParallelResult} {seedsB seedsL seedsU : List Voxel}
    (hout : ParallelOutcome Dx Dy Dz v B NL NU r seedsB seedsL seedsU) {p : Voxel}
    (hp : IsObject Dx Dy Dz v p) : 2 ≤ voxelAt r.dstData3D p := by
  rcases hout.tagged p hp with ⟨n, x, _, _, hv⟩ | ⟨n, x, _, _, hv⟩ | ⟨n, x, _, _, hv⟩
  all_goals rw [hv]; omega

theorem ParallelOutcome.same_label_iff {Dx Dy Dz : Nat} {v : Volume} {B NL NU : Nat}
    {r : ParallelResult} {seedsB seedsL seedsU : List Voxel}
    (hout : ParallelOutcome Dx Dy Dz v B NL NU r seedsB seedsL seedsU) {p q : Voxel}
    (hp : IsObject Dx Dy Dz v p) (hq : IsObject Dx Dy Dz v q) :
    voxelAt r.dstData3D p = voxelAt r.dstData3D q ↔ Connected Dx Dy Dz v p q := by
  constructor
  · intro heq
    have join : ∀ (seeds : List Voxel) (n m : Nat) (x y : Voxel), n = m →
        seeds[n]? = some x → seeds[m]? = some y → IsObject Dx Dy Dz v x →
        Connected Dx Dy Dz v x p → Connected Dx Dy Dz v y q → Connected Dx Dy Dz v p q := by
      intro seeds n m x y hnm hn hm hx hxp hyq
      rw [hnm, hm] at hn
      simp only [Option.some.injEq] at hn
      rw [hn] at hyq
      exact (hxp.symm hx).trans hyq
    rcases hout.tagged p hp with ⟨n, x, hn, hxp, hvp⟩ | ⟨n, x, hn, hxp, hvp⟩ |
      ⟨n, x, hn, hxp, hvp⟩ <;>
    rcases hout.tagged q hq with ⟨m, y, hm, hyq, hvq⟩ | ⟨m, y, hm, hyq, hvq⟩ |
      ⟨m, y, hm, hyq, hvq⟩
    · exact join seedsB n m x y (by omega) hn hm
        (hout.seedObj x (Or.inl (List.mem_iff_getElem?.2 ⟨n, hn⟩))) hxp hyq
    · have := (List.getElem?_eq_some_iff.1 hn).1
      omega
    · have := (List.getElem?_eq_some_iff.1 hn).1
      omega
    · have := (List.getElem?_eq_some_iff.1 hm).1
      omega
    · exact join seedsL n m x y (by omega) hn hm
        (hout.seedObj x (Or.inr (Or.inl (List.mem_iff_getElem?.2 ⟨n, hn⟩)))) hxp hyq
    · omega
    · have := (List.getElem?_eq_some_iff.1 hm).1
      omega
    · omega
    · exact join seedsU n m x y (by omega) hn hm
        (hout.seedObj x (Or.inr (Or.inr (List.mem_iff_getElem?.2 ⟨n, hn⟩)))) hxp hyq
  · intro hc
    exact hout.const p q hp hc

/-- C7: for every volume (in particular every binary one) with at least one z-plane, whose
stacks are created with a capacity of at least 1 (`Dx + Dy + Dz ≥ 10`) and for which no
label computation exceeds 65535, `parallelEdgeFirstSinglePassLabeling` (boundary pass, then
the lower-half and the upper-half run, executed sequentially) returns; every originally-0
voxel is 0, every originally-1 voxel holds a value `≥ 2`, and two originally-1 voxels hold
the same value if and only if they are 6-connected through originally-1 voxels, whether or
not their component straddles the midplane `z = Dz / 2`. -/
theorem parallelEdgeFirstSinglePassLabeling_correct (fuel Dx Dy Dz : Nat) (v : Volume)
    (B NL NU : Nat) (hDz : 0 < Dz) (hcap : 1 ≤ STACK_INITIAL_SIZE Dx Dy Dz)
    (hno : NoLabelOverflow Dx Dy Dz v B NL NU)
    (hfuel : Dx * Dy * Dz + 2 ≤ fuel) :
    ∃ r, parallelEdgeFirstSinglePassLabeling fuel Dx Dy Dz v = some r ∧
      (∀ p, InBox Dx Dy Dz p →
        (voxelAt v p = 0 → voxelAt r.dstData3D p = 0) ∧
        (voxelAt v p = 1 → 2 ≤ voxelAt r.dstData3D p)) ∧
      (∀ p q, IsObject Dx Dy Dz v p → IsObject Dx Dy Dz v q →
        (voxelAt r.dstData3D p = voxelAt r.dstData3D q ↔ Connected Dx Dy Dz v p q)) := by
  obtain ⟨r, seedsB, seedsL, seedsU, hr, hout⟩ := parallel_outcome hDz hfuel hno
  refine ⟨r, hr, ?_, fun p q hp hq => hout.same_label_iff hp hq⟩
  intro p hp
  constructor
  · intro h0
    rw [hout.background p (by rw [h0]; decide), h0]
  · intro h1
    exact hout.object_label ⟨hp, h1⟩

/-- On the `6×1×3` volume (stacks of capacity 1, midplane `z = 1`) whose only `1`s are the
column `x = 0`, `z = 0, 1, 2`, a component that straddles the midplane: the call returns
and the three voxels hold the same label 2. -/
theorem parallelEdgeFirstSinglePassLabeling_correct_witness :
    STACK_INITIAL_SIZE 6 1 3 = 1 ∧
    (∃ r, parallelEdgeFirstSinglePassLabeling 20 6 1 3 columnVolume = some r ∧
      (∀ p, InBox 6 1 3 p →
        (voxelAt columnVolume p = 0 → voxelAt r.dstData3D p = 0) ∧
        (voxelAt columnVolume p = 1 → 2 ≤ voxelAt r.dstData3D p)) ∧
      (∀ p q, IsObject 6 1 3 columnVolume p → IsObject 6 1 3 columnVolume q →
        (voxelAt r.dstData3D p = voxelAt r.dstData3D q ↔ Connected 6 1 3 columnVolume p q))) ∧
    (parallelEdgeFirstSinglePassLabeling 20 6 1 3 columnVolume).map
      (fun r => (voxelAt r.dstData3D ⟨0, 0, 0⟩, voxelAt r.dstData3D ⟨0, 0, 1⟩,
        voxelAt r.dstData3D ⟨0, 0, 2⟩, voxelAt r.dstData3D ⟨1, 0, 1⟩)) = some (2, 2, 2, 0) :=
  ⟨by decide, parallelEdgeFirstSinglePassLabeling_correct 20 6 1 3 columnVolume _ _ _
    (by decide) (by decide) (noLabelOverflow_of_volume columnVolume (by decide)) (by decide),
    by decide⟩

/-! ### Counting distinct labels -/

theorem card_image_le_of_kernel (s : Finset Voxel) (f g : Voxel → Nat)
    (h : ∀ p ∈ s, ∀ q ∈ s, g p = g q → f p = f q) : (s.image f).card ≤ (s.image g).card := by
  classical
  let phi : Nat → Nat := fun y =>
    if hy : ∃ p, p ∈ s ∧ f p = y then g (Classical.choose hy) else 0
  have hphi : ∀ y, ∀ hy : ∃ p, p ∈ s ∧ f p = y, phi y = g (Classical.choose hy) := by
    intro y hy
    show (if hy : ∃ p, p ∈ s ∧ f p = y then g (Classical.choose hy) else 0) = _
    rw [dif_pos hy]
  refine Finset.card_le_card_of_injOn phi ?_ ?_
  · intro y hy
    have hy1 : ∃ p, p ∈ s ∧ f p = y := by
      obtain ⟨p, hp, hfp⟩ := Finset.mem_image.1 (Finset.mem_coe.1 hy)
      exact ⟨p, hp, hfp⟩
    rw [hphi y hy1]
    exact Finset.mem_coe.2 (Finset.mem_image.2 ⟨_, (Classical.choose_spec hy1).1, rfl⟩)
  · intro y1 hy1 y2 hy2 heq
    have h1 : ∃ p, p ∈ s ∧ f p = y1 := by
      obtain ⟨p, hp, hfp⟩ := Finset.mem_image.1 (Finset.mem_coe.1 hy1)
      exact ⟨p, hp, hfp⟩
    have h2 : ∃ p, p ∈ s ∧ f p = y2 := by
      obtain ⟨p, hp, hfp⟩ := Finset.mem_image.1 (Finset.mem_coe.1 hy2)
      exact ⟨p, hp, hfp⟩
    rw [hphi y1 h1, hphi y2 h2] at heq
    have := h _ (Classical.choose_spec h1).1 _ (Classical.choose_spec h2).1 heq
    rw [(Classical.choose_spec h1).2, (Classical.choose_spec h2).2] at this
    exact this

theorem distinctLabels_eq_card_object_labels {Dx Dy Dz : Nat} {v w : Volume}
    (hbin : IsBinary Dx Dy Dz v)
    (hzero : ∀ p, InBox Dx Dy Dz p → voxelAt v p = 0 → voxelAt w p = 0)
    (hpos : ∀ p, IsObject Dx Dy Dz v p → 2 ≤ voxelAt w p) :
    distinctLabels Dx Dy Dz w
      = (((boxFinset Dx Dy Dz).filter (fun p => voxelAt v p = 1)).image (voxelAt w)).card := by
  unfold distinctLabels
  congr 1
  ext y
  simp only [Finset.mem_erase, Finset.mem_image, Finset.mem_filter, mem_boxFinset]
  constructor
  · rintro ⟨hy, p, hp, hpy⟩
    refine ⟨p, ⟨hp, ?_⟩, hpy⟩
    rcases hbin p hp with h0 | h1
    · exact absurd (hpy ▸ hzero p hp h0) hy
    · exact h1
  · rintro ⟨p, ⟨hp, h1⟩, hpy⟩
    refine ⟨?_, p, hp, hpy⟩
    have := hpos p ⟨hp, h1⟩
    omega

theorem distinctLabels_eq_of_same_kernel {Dx Dy Dz : Nat} {v w1 w2 : Volume}
    (hbin : IsBinary Dx Dy Dz v)
    (hzero1 : ∀ p, InBox Dx Dy Dz p → voxelAt v p = 0 → voxelAt w1 p = 0)
    (hpos1 : ∀ p, IsObject Dx Dy Dz v p → 2 ≤ voxelAt w1 p)
    (hzero2 : ∀ p, InBox Dx Dy Dz p → voxelAt v p = 0 → voxelAt w2 p = 0)
    (hpos2 : ∀ p, IsObject Dx Dy Dz v p → 2 ≤ voxelAt w2 p)
    (hker : ∀ p q, IsObject Dx Dy Dz v p → IsObject Dx Dy Dz v q →
      (voxelAt w1 p = voxelAt w1 q ↔ voxelAt w2 p = voxelAt w2 q)) :
    distinctLabels Dx Dy Dz w1 = distinctLabels Dx Dy Dz w2 := by
  rw [distinctLabels_eq_card_object_labels hbin hzero1 hpos1,
    distinctLabels_eq_card_object_labels hbin hzero2 hpos2]
  have hobj : ∀ p, p ∈ (boxFinset Dx Dy Dz).filter (fun p => voxelAt v p = 1) →
      IsObject Dx Dy Dz v p := by
    intro p hp
    rw [Finset.mem_filter, mem_boxFinset] at hp
    exact hp
  apply le_antisymm
  · exact card_image_le_of_kernel _ _ _
      (fun p hp q hq h => (hker p q (hobj p hp) (hobj q hq)).2 h)
  · exact card_image_le_of_kernel _ _ _
      (fun p hp q hq h => (hker p q (hobj p hp) (hobj q hq)).1 h)

/-- C8: for every binary volume whose stacks are created with a capacity of at least 1
(`Dx + Dy + Dz ≥ 10`) and in which no label overflows (at most 65534 components for the
single pass, `NoLabelOverflow` for the split strategy), both labelings return and the
number of distinct non-zero values in the volume after `singlePassLabelingDefault` equals
the number of distinct non-zero values after `parallelEdgeFirstSinglePassLabeling` applied
to the same input; this holds in particular when no component crosses the splitting plane
`z = Dz / 2`. -/
theorem labelings_have_same_number_of_labels (fuel Dx Dy Dz : Nat) (v : Volume)
    (B NL NU : Nat) (hbin : IsBinary Dx Dy Dz v) (hDz : 0 < Dz)
    (hcap : 1 ≤ STACK_INITIAL_SIZE Dx Dy Dz)
    (hN : AtMostComponents Dx Dy Dz v (fun _ => True) 65534)
    (hno : NoLabelOverflow Dx Dy Dz v B NL NU) (hfuel : Dx * Dy * Dz + 2 ≤ fuel) :
    ∃ r1 r2, singlePassLabelingDefault fuel Dx Dy Dz v = some r1 ∧
      parallelEdgeFirstSinglePassLabeling fuel Dx Dy Dz v = some r2 ∧
      distinctLabels Dx Dy Dz r1.1 = distinctLabels Dx Dy Dz r2.dstData3D := by
  obtain ⟨r1, s1, seeds, hr1, hinv, hrs, hlen⟩ := singlePassLabelingDefault_outcome hN hfuel
  obtain ⟨r2, seedsB, seedsL, seedsU, hr2, hout⟩ := parallel_outcome hDz hfuel hno
  refine ⟨r1, r2, hr1, hr2, ?_⟩
  have hr11 : r1.1 = s1.fill.dstData3D := by rw [hrs]
  rw [hr11]
  refine distinctLabels_eq_of_same_kernel hbin ?_ ?_ ?_ ?_ ?_
  · intro p _ h0
    rw [hinv.unchanged_of_ne_one (by rw [h0]; decide), h0]
  · intro p hp
    obtain ⟨n, x, _, _, hvp⟩ := hinv.default_object_label hlen hp
    omega
  · intro p _ h0
    rw [hout.background p (by rw [h0]; decide), h0]
  · intro p hp
    exact hout.object_label hp
  · intro p q hp hq
    rw [hinv.default_same_label_iff hlen hp hq, hout.same_label_iff hp hq]

theorem isBinary_splitVolume (Dx Dy Dz : Nat) : IsBinary Dx Dy Dz splitVolume := by
  intro p _
  unfold voxelAt splitVolume
  by_cases h : p.j = 0 ∧ p.i = 0 ∧ (p.k = 0 ∨ p.k = 2)
  · right; rw [if_pos h]
  · left; rw [if_neg h]

theorem splitVolume_off_midplane {q : Voxel} (h : voxelAt splitVolume q = 1) :
    q.i = 0 ∧ q.j = 0 ∧ (q.k = 0 ∨ q.k = 2) := by
  unfold voxelAt splitVolume at h
  by_cases hc : q.j = 0 ∧ q.i = 0 ∧ (q.k = 0 ∨ q.k = 2)
  · exact ⟨hc.2.1, hc.1, hc.2.2⟩
  · rw [if_neg hc] at h
    omega

theorem splitVolume_lone (Dx Dy Dz : Nat) {p c : Voxel} (hp : voxelAt splitVolume p = 1) :
    ¬ ChainStep Dx Dy Dz splitVolume p c := by
  rintro ⟨hadj, -, hv⟩
  have h1 := splitVolume_off_midplane hp
  have h2 := splitVolume_off_midplane hv
  unfold Adjacent6 at hadj
  omega

/-- On the `6×1×3` volume (stacks of capacity 1, midplane `z = 1`) whose only `1`s are at
`x = 0`, `z = 0` and `x = 0`, `z = 2`: no component crosses the midplane (a component is
one voxel, none lies on the midplane), both labelings return, the single pass writes 2 and
3, the split strategy 4 and 5, and the numbers of distinct labels agree. -/
theorem labelings_have_same_number_of_labels_witness :
    STACK_INITIAL_SIZE 6 1 3 = 1 ∧
    (∀ p q, IsObject 6 1 3 splitVolume p → Connected 6 1 3 splitVolume p q →
      q = p ∧ p.k ≠ kMid 3) ∧
    (∃ r1 r2, singlePassLabelingDefault 20 6 1 3 splitVolume = some r1 ∧
      parallelEdgeFirstSinglePassLabeling 20 6 1 3 splitVolume = some r2 ∧
      distinctLabels 6 1 3 r1.1 = distinctLabels 6 1 3 r2.dstData3D) ∧
    (singlePassLabelingDefault 20 6 1 3 splitVolume).map
      (fun r => (voxelAt r.1 ⟨0, 0, 0⟩, voxelAt r.1 ⟨0, 0, 1⟩, voxelAt r.1 ⟨0, 0, 2⟩))
      = some (2, 0, 3) ∧
    (parallelEdgeFirstSinglePassLabeling 20 6 1 3 splitVolume).map
      (fun r => (voxelAt r.dstData3D ⟨0, 0, 0⟩, voxelAt r.dstData3D ⟨0, 0, 1⟩,
        voxelAt r.dstData3D ⟨0, 0, 2⟩)) = some (4, 0, 5) := by
  refine ⟨by decide, ?_, labelings_have_same_number_of_labels 20 6 1 3 splitVolume _ _ _
    (isBinary_splitVolume 6 1 3) (by decide) (by decide)
    (atMostComponents_of_volume splitVolume _ (by decide))
    (noLabelOverflow_of_volume splitVolume (by decide)) (by decide), by decide, by decide⟩
  intro p q hp hq
  refine ⟨hq.eq_of_isolated (fun c => splitVolume_lone 6 1 3 hp.2), ?_⟩
  have h := splitVolume_off_midplane hp.2
  have hk : kMid 3 = 1 := by decide
  omega

/-! ### The three label sequences -/

theorem isBoundaryLabel_iff {B x : Nat} :
    IsBoundaryLabel B x ↔ ∃ n, n < B ∧ 2 + n < 65536 ∧ x = 2 + n := by
  unfold IsBoundaryLabel
  constructor
  · rintro ⟨n, hn, hlt, hx⟩
    refine ⟨n, hn, hlt, ?_⟩
    rw [hx, labelAt_of_le (by unfold PIXEL_RANGE at hlt ⊢; omega)]
    omega
  · rintro ⟨n, hn, hlt, hx⟩
    refine ⟨n, hn, hlt, ?_⟩
    rw [hx, labelAt_of_le (by unfold PIXEL_RANGE; omega)]
    omega

theorem isLowerLabel_iff {L x : Nat} :
    IsLowerLabel L x ↔ ∃ n, 2 * L + 2 * n < 65536 ∧ x = 2 * L + 2 * n := by
  unfold IsLowerLabel
  constructor
  · rintro ⟨n, hlt, hx⟩
    refine ⟨n, hlt, ?_⟩
    rw [hx, halfLabelStart_eq (by unfold PIXEL_RANGE at hlt ⊢; omega),
      labelAt_of_le (by unfold PIXEL_RANGE at hlt ⊢; omega)]
    omega
  · rintro ⟨n, hlt, hx⟩
    refine ⟨n, hlt, ?_⟩
    rw [hx, halfLabelStart_eq (by unfold PIXEL_RANGE; omega),
      labelAt_of_le (by unfold PIXEL_RANGE; omega)]
    omega

theorem isUpperLabel_iff {L x : Nat} :
    IsUpperLabel L x ↔ ∃ n, 2 * L + 1 + 2 * n < 65536 ∧ x = 2 * L + 1 + 2 * n := by
  unfold IsUpperLabel
  constructor
  · rintro ⟨n, hlt, hx⟩
    refine ⟨n, hlt, ?_⟩
    rw [hx, halfLabelStart_eq (by unfold PIXEL_RANGE at hlt ⊢; omega),
      labelAt_of_le (by unfold PIXEL_RANGE at hlt ⊢; omega)]
    omega
  · rintro ⟨n, hlt, hx⟩
    refine ⟨n, hlt, ?_⟩
    rw [hx, halfLabelStart_eq (by unfold PIXEL_RANGE; omega),
      labelAt_of_le (by unfold PIXEL_RANGE; omega)]
    omega

theorem label_sequences_disjoint (B x : Nat) :
    ¬ (IsBoundaryLabel B x ∧ IsLowerLabel (B + 2) x) ∧
    ¬ (IsBoundaryLabel B x ∧ IsUpperLabel (B + 2) x) ∧
    ¬ (IsLowerLabel (B + 2) x ∧ IsUpperLabel (B + 2) x) := by
  rw [isBoundaryLabel_iff, isLowerLabel_iff, isUpperLabel_iff]
  refine ⟨?_, ?_, ?_⟩
  · rintro ⟨⟨n, hn, _, hx⟩, ⟨m, _, hy⟩⟩
    omega
  · rintro ⟨⟨n, hn, _, hx⟩, ⟨m, _, hy⟩⟩
    omega
  · rintro ⟨⟨n, _, hx⟩, ⟨m, _, hy⟩⟩
    omega

/-- C9: for every number `B` of boundary components, with `L = B + 2` the label value after
the boundary pass, the three label sequences used by `parallelEdgeFirstSinglePassLabeling`
(boundary labels `2, ..., L - 1`; lower-half labels `2L, 2L + 2, ...`; upper-half labels
`2L + 1, 2L + 3, ...`) are pairwise disjoint as long as no label exceeds 65535; and for
every binary volume whose stacks are created with a capacity of at least 1
(`Dx + Dy + Dz ≥ 10`) and for which no label computation overflows, the call returns and
every non-zero final voxel value is producible by exactly one of the three sequences. -/
theorem parallel_label_sequences_disjoint (fuel Dx Dy Dz : Nat) (v : Volume) (B NL NU : Nat)
    (hbin : IsBinary Dx Dy Dz v) (hDz : 0 < Dz) (hcap : 1 ≤ STACK_INITIAL_SIZE Dx Dy Dz)
    (hno : NoLabelOverflow Dx Dy Dz v B NL NU)
    (hfuel : Dx * Dy * Dz + 2 ≤ fuel) :
    (∀ B1 x, ¬ (IsBoundaryLabel B1 x ∧ IsLowerLabel (B1 + 2) x) ∧
      ¬ (IsBoundaryLabel B1 x ∧ IsUpperLabel (B1 + 2) x) ∧
      ¬ (IsLowerLabel (B1 + 2) x ∧ IsUpperLabel (B1 + 2) x)) ∧
    ∃ (r : ParallelResult) (nb : Nat),
      parallelEdgeFirstSinglePassLabeling fuel Dx Dy Dz v = some r ∧
      r.boundaryCount = (nb : Int) ∧
      ∀ p, InBox Dx Dy Dz p → voxelAt r.dstData3D p ≠ 0 →
        (IsBoundaryLabel nb (voxelAt r.dstData3D p) ∧
          ¬ IsLowerLabel (nb + 2) (voxelAt r.dstData3D p) ∧
          ¬ IsUpperLabel (nb + 2) (voxelAt r.dstData3D p)) ∨
        (¬ IsBoundaryLabel nb (voxelAt r.dstData3D p) ∧
          IsLowerLabel (nb + 2) (voxelAt r.dstData3D p) ∧
          ¬ IsUpperLabel (nb + 2) (voxelAt r.dstData3D p)) ∨
        (¬ IsBoundaryLabel nb (voxelAt r.dstData3D p) ∧
          ¬ IsLowerLabel (nb + 2) (voxelAt r.dstData3D p) ∧
          IsUpperLabel (nb + 2) (voxelAt r.dstData3D p)) := by
  refine ⟨label_sequences_disjoint, ?_⟩
  obtain ⟨r, seedsB, seedsL, seedsU, hr, hout⟩ := parallel_outcome hDz hfuel hno
  obtain ⟨_, _, _, hovL, hovU⟩ := hno
  refine ⟨r, seedsB.length, hr, hout.boundaryCount_eq, ?_⟩
  intro p hp hne
  have hobj : IsObject Dx Dy Dz v p := by
    refine ⟨hp, ?_⟩
    rcases hbin p hp with h0 | h1
    · exact absurd (by rw [hout.background p (by rw [h0]; decide), h0]) hne
    · exact h1
  have hdis := label_sequences_disjoint seedsB.length (voxelAt r.dstData3D p)
  have hlenB := hout.lenB
  have hlenL := hout.lenL
  have hlenU := hout.lenU
  rcases hout.tagged p hobj with ⟨n, x, hn, _, hv⟩ | ⟨n, x, hn, _, hv⟩ | ⟨n, x, hn, _, hv⟩
  · have hnlt := (List.getElem?_eq_some_iff.1 hn).1
    have hB : IsBoundaryLabel seedsB.length (voxelAt r.dstData3D p) :=
      isBoundaryLabel_iff.2 ⟨n, hnlt, by omega, hv⟩
    exact Or.inl ⟨hB, fun h => hdis.1 ⟨hB, h⟩, fun h => hdis.2.1 ⟨hB, h⟩⟩
  · have hnlt := (List.getElem?_eq_some_iff.1 hn).1
    have hL : IsLowerLabel (seedsB.length + 2) (voxelAt r.dstData3D p) :=
      isLowerLabel_iff.2 ⟨n, by omega, hv⟩
    exact Or.inr (Or.inl ⟨fun h => hdis.1 ⟨h, hL⟩, hL, fun h => hdis.2.2 ⟨hL, h⟩⟩)
  · have hnlt := (List.getElem?_eq_some_iff.1 hn).1
    have hU : IsUpperLabel (seedsB.length + 2) (voxelAt r.dstData3D p) :=
      isUpperLabel_iff.2 ⟨n, by omega, hv⟩
    exact Or.inr (Or.inr ⟨fun h => hdis.2.1 ⟨h, hU⟩, fun h => hdis.2.2 ⟨h, hU⟩, hU⟩)

theorem isBinary_triadVolume (Dx Dy Dz : Nat) : IsBinary Dx Dy Dz triadVolume := by
  intro p _
  unfold voxelAt triadVolume
  by_cases h : p.j = 0 ∧ ((p.i = 0 ∧ p.k = 1) ∨ (p.i = 2 ∧ p.k = 0) ∨ (p.i = 4 ∧ p.k = 2))
  · right; rw [if_pos h]
  · left; rw [if_neg h]

/-- On the `6×1×3` volume (stacks of capacity 1, midplane `z = 1`) with one voxel on the
midplane, one below and one above it: the call returns with one boundary component
(`L = 3`); the midplane voxel holds the boundary label 2, the lower voxel the first
lower-half label `2 L = 6` and the upper voxel the first upper-half label `2 L + 1 = 7`,
so each of the three sequences occurs. -/
theorem parallel_label_sequences_disjoint_witness :
    STACK_INITIAL_SIZE 6 1 3 = 1 ∧
    ((∀ B1 x, ¬ (IsBoundaryLabel B1 x ∧ IsLowerLabel (B1 + 2) x) ∧
      ¬ (IsBoundaryLabel B1 x ∧ IsUpperLabel (B1 + 2) x) ∧
      ¬ (IsLowerLabel (B1 + 2) x ∧ IsUpperLabel (B1 + 2) x)) ∧
    ∃ (r : ParallelResult) (nb : Nat),
      parallelEdgeFirstSinglePassLabeling 20 6 1 3 triadVolume = some r ∧
      r.boundaryCount = (nb : Int) ∧
      ∀ p, InBox 6 1 3 p → voxelAt r.dstData3D p ≠ 0 →
        (IsBoundaryLabel nb (voxelAt r.dstData3D p) ∧
          ¬ IsLowerLabel (nb + 2) (voxelAt r.dstData3D p) ∧
          ¬ IsUpperLabel (nb + 2) (voxelAt r.dstData3D p)) ∨
        (¬ IsBoundaryLabel nb (voxelAt r.dstData3D p) ∧
          IsLowerLabel (nb + 2) (voxelAt r.dstData3D p) ∧
          ¬ IsUpperLabel (nb + 2) (voxelAt r.dstData3D p)) ∨
        (¬ IsBoundaryLabel nb (voxelAt r.dstData3D p) ∧
          ¬ IsLowerLabel (nb + 2) (voxelAt r.dstData3D p) ∧
          IsUpperLabel (nb + 2) (voxelAt r.dstData3D p))) ∧
    (parallelEdgeFirstSinglePassLabeling 20 6 1 3 triadVolume).map
      (fun r => (r.boundaryCount, voxelAt r.dstData3D ⟨0, 0, 1⟩,
        voxelAt r.dstData3D ⟨2, 0, 0⟩, voxelAt r.dstData3D ⟨4, 0, 2⟩)) = some (1, 2, 6, 7) ∧
    IsBoundaryLabel 1 2 ∧ IsLowerLabel 3 6 ∧ IsUpperLabel 3 7 :=
  ⟨by decide, parallel_label_sequences_disjoint 20 6 1 3 triadVolume _ _ _
    (isBinary_triadVolume 6 1 3) (by decide) (by decide)
    (noLabelOverflow_of_volume triadVolume (by decide)) (by decide), by decide,
    ⟨0, by decide, by decide, by decide⟩, ⟨0, by decide, by decide⟩,
    ⟨0, by decide, by decide⟩⟩

/-- C10: within `parallelEdgeFirstSinglePassLabeling`, for every input volume with at least
one z-plane (binary or not, with or without label wrap-around), whenever the call returns,
the lower-half `singlePassLabeling` run (started after the boundary pass) has changed only
voxels with `z < kMid` and the upper-half run only voxels with `z > kMid`, where
`kMid = Dz / 2`; no voxel is changed by both runs. The call returns whenever no label
computation overflows. -/
theorem parallel_halves_change_disjoint_ranges (fuel Dx Dy Dz : Nat) (v : Volume)
    (hDz : 0 < Dz) :
    (∀ B NL NU, NoLabelOverflow Dx Dy Dz v B NL NU → Dx * Dy * Dz + 2 ≤ fuel →
      ∃ r, parallelEdgeFirstSinglePassLabeling fuel Dx Dy Dz v = some r) ∧
    ∀ r, parallelEdgeFirstSinglePassLabeling fuel Dx Dy Dz v = some r →
      ∃ (b : FillState × Nat) (r0 r1 : Volume × Nat),
        boundaryPass fuel Dx Dy Dz v = some b ∧
        halfRun fuel Dx Dy Dz b.1.dstData3D b.2 0 = some r0 ∧
        halfRun fuel Dx Dy Dz r0.1 b.2 1 = some r1 ∧
        r.dstData3D = r1.1 ∧
        (∀ q, voxelAt r0.1 q ≠ voxelAt b.1.dstData3D q → q.k < kMid Dz) ∧
        (∀ q, voxelAt r1.1 q ≠ voxelAt r0.1 q → kMid Dz < q.k) ∧
        (∀ q, ¬ (voxelAt r0.1 q ≠ voxelAt b.1.dstData3D q ∧
          voxelAt r1.1 q ≠ voxelAt r0.1 q)) := by
  refine ⟨?_, ?_⟩
  · intro B NL NU hno hfuel
    obtain ⟨r, _, _, _, hr, _⟩ := parallel_outcome hDz hfuel hno
    exact ⟨r, hr⟩
  · intro r hr
    obtain ⟨b, r0, r1, hb, hr0, hr1, hres⟩ := parallel_decompose hr
    have hk := kMid_range hDz
    obtain ⟨sB, seedsB, hinvB, hbs⟩ := boundaryPass_inv hDz hb
    have hb1 : b.1.dstData3D = sB.fill.dstData3D := by rw [hbs]
    have hisoB : PlaneIsolated Dx Dy Dz b.1.dstData3D (kMid Dz) := by
      rw [hb1]; exact hinvB.planeIsolated
    have hr0' := hr0
    rw [halfRun_zero] at hr0'
    obtain ⟨sL, seedsL, hinvL, hr0s⟩ := singlePassLabeling_inv (le_refl 0) (le_of_lt hk.2)
      (halfLabelStart_lt _ _) hr0'
    have hr01 : r0.1 = sL.fill.dstData3D := by rw [hr0s]
    have hiso2 : PlaneIsolated Dx Dy Dz r0.1 (kMid Dz) := by
      rw [hr01]
      exact hisoB.of_shrink (fun q hq => hinvL.one_was_one hq)
    have hr1' := hr1
    rw [halfRun_one] at hr1'
    obtain ⟨sU, seedsU, hinvU, hr1s⟩ := singlePassLabeling_inv
      (show (0 : Int) ≤ kMid Dz + 1 by omega) (le_refl _) (halfLabelStart_lt _ _) hr1'
    have hr11 : r1.1 = sU.fill.dstData3D := by rw [hr1s]
    have hlow : ∀ q, voxelAt r0.1 q ≠ voxelAt b.1.dstData3D q → q.k < kMid Dz := by
      intro q hq
      rw [hr01] at hq
      exact hinvL.changed_below (le_refl 0) (le_of_lt hk.2) hisoB (le_refl _) hq
    have hup : ∀ q, voxelAt r1.1 q ≠ voxelAt r0.1 q → kMid Dz < q.k := by
      intro q hq
      rw [hr11] at hq
      exact hinvU.changed_above (show (0 : Int) ≤ kMid Dz + 1 by omega) (le_refl _) hiso2
        (by omega) hq
    refine ⟨b, r0, r1, hb, hr0, hr1, by rw [hres], hlow, hup, ?_⟩
    rintro q ⟨h1, h2⟩
    have := hlow q h1
    have := hup q h2
    omega

/-- On the `6×1×3` volume (stacks of capacity 1, midplane `z = 1`) whose only `1`s are at
`x = 0`, `z = 0` and `x = 0`, `z = 2`: the call returns, the boundary pass leaves both
voxels at 1, the lower-half run writes 4 at `z = 0` and leaves the voxel at `z = 2`, and
the upper-half run writes 5 at `z = 2`; each run has changed voxels of its own side only. -/
theorem parallel_halves_change_disjoint_ranges_witness :
    ∃ (r : ParallelResult) (b : FillState × Nat) (r0 r1 : Volume × Nat),
      parallelEdgeFirstSinglePassLabeling 20 6 1 3 splitVolume = some r ∧
      boundaryPass 20 6 1 3 splitVolume = some b ∧
      halfRun 20 6 1 3 b.1.dstData3D b.2 0 = some r0 ∧
      halfRun 20 6 1 3 r0.1 b.2 1 = some r1 ∧
      r.dstData3D = r1.1 ∧
      voxelAt b.1.dstData3D ⟨0, 0, 0⟩ = 1 ∧ voxelAt b.1.dstData3D ⟨0, 0, 2⟩ = 1 ∧
      voxelAt r0.1 ⟨0, 0, 0⟩ = 4 ∧ voxelAt r0.1 ⟨0, 0, 2⟩ = 1 ∧
      voxelAt r1.1 ⟨0, 0, 0⟩ = 4 ∧ voxelAt r1.1 ⟨0, 0, 2⟩ = 5 ∧
      (∀ q, voxelAt r0.1 q ≠ voxelAt b.1.dstData3D q → q.k < kMid 3) ∧
      (∀ q, voxelAt r1.1 q ≠ voxelAt r0.1 q → kMid 3 < q.k) ∧
      (∀ q, ¬ (voxelAt r0.1 q ≠ voxelAt b.1.dstData3D q ∧
        voxelAt r1.1 q ≠ voxelAt r0.1 q)) := by
  have h := parallel_halves_change_disjoint_ranges 20 6 1 3 splitVolume (by decide)
  obtain ⟨r, hr⟩ := h.1 _ _ _ (noLabelOverflow_of_volume splitVolume (by decide)) (by decide)
  obtain ⟨b, r0, r1, hb, hr0, hr1, hres, hlow, hup, hdis⟩ := h.2 r hr
  have e1 : (boundaryPass 20 6 1 3 splitVolume).map
      (fun b => (voxelAt b.1.dstData3D ⟨0, 0, 0⟩, voxelAt b.1.dstData3D ⟨0, 0, 2⟩))
      = some (1, 1) := by decide
  have e2 : ((boundaryPass 20 6 1 3 splitVolume).bind
      (fun b => halfRun 20 6 1 3 b.1.dstData3D b.2 0)).map
      (fun r0 => (voxelAt r0.1 ⟨0, 0, 0⟩, voxelAt r0.1 ⟨0, 0, 2⟩)) = some (4, 1) := by decide
  have e3 : (parallelEdgeFirstSinglePassLabeling 20 6 1 3 splitVolume).map
      (fun r => (voxelAt r.dstData3D ⟨0, 0, 0⟩, voxelAt r.dstData3D ⟨0, 0, 2⟩))
      = some (4, 5) := by decide
  rw [hb] at e1 e2
  rw [Option.some_bind, hr0] at e2
  rw [hr] at e3
  simp only [Option.map_some', Option.some.injEq, Prod.mk.injEq] at e1 e2 e3
  rw [hres] at e3
  exact ⟨r, b, r0, r1, hr, hb, hr0, hr1, hres, e1.1, e1.2, e2.1, e2.2, e3.1, e3.2, hlow, hup,
    hdis⟩

/-! ### Sequences of pushes and pops -/

theorem pushAll_holds (xs : List Int) :
    ∀ (s : Stack) (l : List Int), s.Holds l → (pushAll s xs).Holds (xs.reverse ++ l) := by
  induction xs with
  | nil => intro s l h; simpa [pushAll] using h
  | cons x xs ih =>
    intro s l h
    have h1 := ih (push s x) (x :: l) (h.push_holds x)
    simpa [pushAll] using h1

theorem popN_holds (l : List Int) :
    ∀ s : Stack, s.Holds l → (popN l.length s).1 = l ∧ (popN l.length s).2.Holds [] := by
  induction l with
  | nil => intro s h; exact ⟨rfl, h⟩
  | cons x l ih =>
    intro s h
    obtain ⟨h1, h2⟩ := h.pop_holds
    obtain ⟨h3, h4⟩ := ih _ h2
    simp only [List.length_cons, popN]
    exact ⟨by rw [h1, h3], h4⟩

theorem push_fields (s : Stack) (x : Int) :
    (push s x).size = s.size + 1 ∧ (push s x).top = s.top + 1 ∧
    (push s x).capacity = (if s.size = s.capacity then s.capacity * 2 else s.capacity) ∧
    ∀ n, (push s x).arr n = if n = s.top + 1 then x else s.arr n := by
  unfold ParallelLabeling.push isFull doubleStack
  by_cases h : s.size = s.capacity
  · simp [h]
  · simp [h]

theorem push_keeps_room (s : Stack) (x : Int) (h1 : 1 ≤ s.capacity)
    (h2 : s.size ≤ s.capacity) :
    1 ≤ (push s x).capacity ∧ (push s x).size ≤ (push s x).capacity := by
  obtain ⟨e1, -, e3, -⟩ := push_fields s x
  rw [e1, e3]
  by_cases h : s.size = s.capacity
  · rw [if_pos h]; omega
  · rw [if_neg h]; omega

theorem pop_fields (s : Stack) :
    (s.size = 0 → pop s = (-1, s)) ∧
    (s.size ≠ 0 → (pop s).1 = s.arr s.top ∧ (pop s).2.size = s.size - 1 ∧
      (pop s).2.top = s.top - 1 ∧ (pop s).2.capacity = s.capacity ∧
      (pop s).2.arr = s.arr) := by
  unfold pop isEmpty
  constructor
  · intro h; simp [h]
  · intro h; simp [h]

theorem pushAll_keeps_room (xs : List Int) :
    ∀ s : Stack, 1 ≤ s.capacity → s.size ≤ s.capacity →
      (pushAll s xs).size ≤ (pushAll s xs).capacity := by
  induction xs with
  | nil => intro s _ h; simpa [pushAll] using h
  | cons x xs ih =>
    intro s h1 h2
    obtain ⟨h3, h4⟩ := push_keeps_room s x h1 h2
    have := ih (push s x) h3 h4
    simpa [pushAll] using this

theorem applyOps_keeps_room (ops : List StackOp) :
    ∀ s : Stack, 1 ≤ s.capacity → s.size ≤ s.capacity →
      (applyOps s ops).size ≤ (applyOps s ops).capacity := by
  induction ops with
  | nil => intro s _ h; simpa [applyOps] using h
  | cons o ops ih =>
    intro s h1 h2
    have key : 1 ≤ (applyOp s o).capacity ∧ (applyOp s o).size ≤ (applyOp s o).capacity := by
      cases o with
      | pushOp item => exact push_keeps_room s item h1 h2
      | popOp =>
        simp only [applyOp]
        by_cases h : s.size = 0
        · rw [(pop_fields s).1 h]; exact ⟨h1, h2⟩
        · obtain ⟨-, e1, -, e2, -⟩ := (pop_fields s).2 h
          rw [e1, e2]; omega
    have := ih (applyOp s o) key.1 key.2
    simpa [applyOps] using this

/-- With a positive initial capacity the bookkeeping keeps `size ≤ capacity` through every
sequence of pushes and pops. -/
theorem size_le_capacity_of_pos (c : Int) (hc : 1 ≤ c) (ops : List StackOp) :
    (applyOps (createStack c) ops).size ≤ (applyOps (createStack c) ops).capacity :=
  applyOps_keeps_room ops (createStack c) hc (by simp only [createStack]; omega)

theorem isEmpty_iff (s : Stack) : isEmpty s = true ↔ s.size = 0 := by
  simp [isEmpty]

theorem pushRealloc_ok (s : Stack) (item : Int) :
    pushRealloc true s.toRaw item = Except.ok (push s item).toRaw := by
  unfold pushRealloc doubleStackRealloc Stack.toRaw ParallelLabeling.push isFull doubleStack
  by_cases h : s.size = s.capacity
  · simp [h]
  · simp [h]

/-! ## Claims about the index stack -/

/-- C16: for an initial capacity `c ≥ 1` and any sequence `xs` of `n` values (in particular
one with `n > c`), pushing the values on `createStack c` and then calling `pop` `n` times
returns the values in exact reverse order and leaves the stack empty; the capacity has
grown to at least `n` on the way. -/
theorem push_then_pop_reverses (c : Int) (xs : List Int) (hc : 1 ≤ c) :
    (popN xs.length (pushAll (createStack c) xs)).1 = xs.reverse ∧
    isEmpty (popN xs.length (pushAll (createStack c) xs)).2 = true ∧
    getSize (popN xs.length (pushAll (createStack c) xs)).2 = 0 ∧
    (xs.length : Int) ≤ (pushAll (createStack c) xs).capacity := by
  have h1 := pushAll_holds xs (createStack c) [] (createStack_holds c)
  rw [List.append_nil] at h1
  have h2 := popN_holds xs.reverse (pushAll (createStack c) xs) h1
  rw [List.length_reverse] at h2
  have h3 : (popN xs.length (pushAll (createStack c) xs)).2.size = 0 := by
    simpa using h2.2.1
  refine ⟨h2.1, (isEmpty_iff _).2 h3, h3, ?_⟩
  have h4 := pushAll_keeps_room xs (createStack c) hc (by simp only [createStack]; omega)
  have h5 : (pushAll (createStack c) xs).size = (xs.length : Int) := by
    simpa using h1.1
  omega

/-- The demonstration of `stack.c`: `createStack(2)`, pushes `1, 2, 3, 4, 5`, five pops. -/
theorem push_then_pop_reverses_witness :
    (popN 5 (pushAll (createStack 2) [1, 2, 3, 4, 5])).1 = [5, 4, 3, 2, 1] ∧
    isEmpty (popN 5 (pushAll (createStack 2) [1, 2, 3, 4, 5])).2 = true ∧
    (pushAll (createStack 2) [1, 2, 3, 4, 5]).capacity = 8 := by
  have h := push_then_pop_reverses 2 [1, 2, 3, 4, 5] (by decide)
  exact ⟨h.1, h.2.1, by decide⟩

/-- C17: on a stack in the state the interface keeps (`top = size - 1`) whose capacity is
at least 1, `push v` with `size = capacity = c` gives capacity `2 c`, size `c + 1`, the
cells `0 .. c - 1` unchanged and `v` in the top cell; with `size < capacity` it keeps the
capacity and the cells `0 .. size - 1`, and puts `v` in the new top cell. In both cases the
cell written lies inside the block: `0 ≤ top < capacity` afterwards. (With capacity 0 the
doubling leaves the capacity at 0 and the store falls outside the block; that case is the
subject of C19.) -/
theorem push_grows_or_keeps (s : Stack) (v : Int) (hwf : s.top + 1 = s.size)
    (hsize : 0 ≤ s.size) (hcap : 1 ≤ s.capacity) :
    (s.size = s.capacity →
      (push s v).capacity = 2 * s.capacity ∧ (push s v).size = s.capacity + 1 ∧
      (∀ n, 0 ≤ n → n < s.capacity → (push s v).arr n = s.arr n) ∧
      (push s v).top = s.capacity ∧ (push s v).arr (push s v).top = v ∧
      0 ≤ (push s v).top ∧ (push s v).top < (push s v).capacity) ∧
    (s.size < s.capacity →
      (push s v).capacity = s.capacity ∧ (push s v).size = s.size + 1 ∧
      (∀ n, 0 ≤ n → n < s.size → (push s v).arr n = s.arr n) ∧
      (push s v).top = s.size ∧ (push s v).arr (push s v).top = v ∧
      0 ≤ (push s v).top ∧ (push s v).top < (push s v).capacity) := by
  obtain ⟨e1, e2, e3, e4⟩ := push_fields s v
  constructor
  · intro h
    rw [e1, e2, e3, if_pos h]
    refine ⟨by omega, by omega, ?_, by omega, ?_, by omega, by omega⟩
    · intro n _ hn
      rw [e4, if_neg (by omega)]
    · rw [e4, if_pos rfl]
  · intro h
    rw [e1, e2, e3, if_neg (by omega)]
    refine ⟨rfl, rfl, ?_, by omega, ?_, by omega, by omega⟩
    · intro n _ hn
      rw [e4, if_neg (by omega)]
    · rw [e4, if_pos rfl]

/-- The third push of the demonstration of `stack.c` meets a full stack of capacity 2. -/
theorem push_grows_or_keeps_witness :
    (push (push (push (createStack 2) 1) 2) 3).capacity = 2 * 2 ∧
    (push (push (push (createStack 2) 1) 2) 3).size = 2 + 1 ∧
    (push (push (push (createStack 2) 1) 2) 3).arr 0 = 1 ∧
    (push (push (push (createStack 2) 1) 2) 3).arr 1 = 2 ∧
    (push (push (push (createStack 2) 1) 2) 3).arr 2 = 3 ∧
    (push (push (push (createStack 2) 1) 2) 3).top
      < (push (push (push (createStack 2) 1) 2) 3).capacity := by
  have h := (push_grows_or_keeps (push (push (createStack 2) 1) 2) 3 (by decide) (by decide)
    (by decide)).1 (by decide)
  exact ⟨h.1, h.2.1, by decide, by decide, by decide, h.2.2.2.2.2.2⟩

/-- C18: `pop` on a stack of size 0 returns `-1` and leaves every field of the stack as it
was; on a stack that holds the values `x :: l` (the values pushed and not yet popped, the
most recent first) it returns `x`, leaves `l`, and decreases `size` by exactly 1. -/
theorem pop_sentinel_or_top (s : Stack) :
    (s.size = 0 → pop s = (-1, s)) ∧
    (∀ x l, s.Holds (x :: l) →
      (pop s).1 = x ∧ (pop s).2.Holds l ∧ (pop s).2.size = s.size - 1) ∧
    (∀ l v, s.Holds l → (push s v).Holds (v :: l)) ∧
    (s.size ≠ 0 → (pop s).1 = s.arr s.top ∧ (pop s).2.size = s.size - 1 ∧
      (pop s).2.capacity = s.capacity ∧ (pop s).2.arr = s.arr) := by
  refine ⟨(pop_fields s).1, ?_, ?_, ?_⟩
  · intro x l h
    obtain ⟨h1, h2⟩ := h.pop_holds
    refine ⟨h1, h2, ?_⟩
    have h3 : s.size ≠ 0 := by
      have := h.1
      simp only [List.length_cons, Nat.cast_add, Nat.cast_one] at this
      omega
    exact ((pop_fields s).2 h3).2.1
  · intro l v h
    exact h.push_holds v
  · intro h
    obtain ⟨a, b, -, c, d⟩ := (pop_fields s).2 h
    exact ⟨a, b, c, d⟩

/-- On the empty `createStack 2` the sentinel comes back; after the pushes `1, 2, 3` the
value `3` comes back and two values are left. -/
theorem pop_sentinel_or_top_witness :
    pop (createStack 2) = (-1, createStack 2) ∧
    (pop (pushAll (createStack 2) [1, 2, 3])).1 = 3 ∧
    (pop (pushAll (createStack 2) [1, 2, 3])).2.size = 2 :=
  ⟨(pop_sentinel_or_top (createStack 2)).1 rfl, by decide, by decide⟩

/-- C19, at `createStack 0`: the first push finds `size = capacity = 0`, doubles the
capacity to `0 * 2 = 0` and then stores and counts one element, so that `size = 1` exceeds
`capacity = 0` (for capacities `c ≥ 1` the bound holds, `size_le_capacity_of_pos`). -/
theorem push_on_capacity_zero :
    (applyOps (createStack 0) [StackOp.pushOp 7]).size = 1 ∧
    (applyOps (createStack 0) [StackOp.pushOp 7]).capacity = 0 ∧
    ¬ (applyOps (createStack 0) [StackOp.pushOp 7]).size
        ≤ (applyOps (createStack 0) [StackOp.pushOp 7]).capacity ∧
    STACK_INITIAL_SIZE 3 3 1 = 0 := by
  decide

/-- C20, on the full stack `createStack 1; push 7` with `realloc` failing: `doubleStack`
reports the failure, but it has already doubled `capacity` to 2 and it overwrites `arr`
with the null pointer; `push` then increments `top` and stores through that null pointer. -/
theorem push_after_failed_realloc :
    (push (createStack 1) 7).size = (push (createStack 1) 7).capacity ∧
    (doubleStackRealloc false (push (createStack 1) 7).toRaw).2 = true ∧
    (doubleStackRealloc false (push (createStack 1) 7).toRaw).1.capacity = 2 ∧
    (doubleStackRealloc false (push (createStack 1) 7).toRaw).1.arr.isNone = true ∧
    pushRealloc false (push (createStack 1) 7).toRaw 8
      = Except.error { arr := none, top := 1, capacity := 2, size := 1 } := by
  refine ⟨by decide, by decide, by decide, by decide, ?_⟩
  rfl

/-! ### A fill from a seed without `1`-valued neighbours -/

theorem foldl_visitList_noop (label : Nat) (L : List Voxel) :
    ∀ s : Volume × List Voxel, (∀ q ∈ L, voxelAt s.1 q ≠ 1) →
      L.foldl (visitList label) s = s := by
  induction L with
  | nil => intro s _; rfl
  | cons q L ih =>
    intro s h
    have hq : visitList label s q = s := by
      unfold visitList
      rw [if_neg (h q (List.mem_cons_self _ _))]
    rw [List.foldl_cons, hq]
    exact ih s (fun x hx => h x (List.mem_cons_of_mem _ hx))

theorem fillLoop_lone_seed (Dx Dy Dz label fuel : Nat) (v : Volume) (p : Voxel)
    (h : ∀ q ∈ neighbors Dx Dy Dz p, voxelAt v q ≠ 1) :
    fillLoop Dx Dy Dz label (fuel + 2) (v, [p]) = some v := by
  simp only [fillLoop]
  rw [foldl_visitList_noop label _ (v, []) h]
  rfl

theorem singlePassDFS_lone_seed (Dx Dy Dz label fuel : Nat) (v : Volume) (p : Voxel)
    (iS jS kS : Stack) (hi : iS.Holds []) (hj : jS.Holds []) (hk : kS.Holds [])
    (h : ∀ q ∈ neighbors Dx Dy Dz p, voxelAt v q ≠ 1) (hfuel : 2 ≤ fuel) :
    ∃ st1, singlePassDFS fuel Dx Dy Dz v p.i p.j p.k label iS jS kS = some st1 ∧
      st1.dstData3D = v ∧ st1.Holds [] := by
  obtain ⟨n, rfl⟩ : ∃ n, fuel = n + 2 := ⟨fuel - 2, by omega⟩
  obtain ⟨h1, h2⟩ := singlePassDFS_refines (n + 2) Dx Dy Dz v p label iS jS kS hi hj hk
  rw [fillLoop_lone_seed Dx Dy Dz label n v p h] at h1
  cases hres : singlePassDFS (n + 2) Dx Dy Dz v p.i p.j p.k label iS jS kS with
  | none => rw [hres] at h1; simp at h1
  | some st1 =>
    rw [hres] at h1
    simp only [Option.map_some', Option.some.injEq] at h1
    exact ⟨st1, rfl, h1, h2 st1 hres⟩

theorem singlePassDFS_leaves_no_neighbour {fuel Dx Dy Dz : Nat} {v : Volume} {p : Voxel}
    {label : Nat} {iS jS kS : Stack} {st1 : FillState} (hp : InBox Dx Dy Dz p)
    (hi : iS.Holds []) (hj : jS.Holds []) (hk : kS.Holds []) (hl : label ≠ 1)
    (h : singlePassDFS fuel Dx Dy Dz v p.i p.j p.k label iS jS kS = some st1) :
    ∀ q ∈ neighbors Dx Dy Dz p, voxelAt st1.dstData3D q ≠ 1 := by
  obtain ⟨-, hreach, hframe⟩ := singlePassDFS_spec hp hi hj hk h
  intro q hq
  by_cases hr : ReachableFrom Dx Dy Dz v p q
  · rw [hreach q hr]; exact hl
  · rw [hframe q hr]
    intro hv
    exact hr (Relation.TransGen.single (ChainStep.of_mem_neighbors hp hq hv))

/-- C15: for every volume, every in-bounds seed and every label different from 1 (so for
every label `≥ 2`, whatever the seed voxel holds), after a first run of `singlePassDFS` a
second run from the same seed with the same label returns the volume exactly as the first
run left it, and its first loop iteration pops the seed and pushes nothing: the three
stacks are empty after it. -/
theorem singlePassDFS_twice (fuel Dx Dy Dz : Nat) (v : Volume) (p : Voxel) (label : Nat)
    (iS jS kS : Stack) (hp : InBox Dx Dy Dz p)
    (hi : iS.Holds []) (hj : jS.Holds []) (hk : kS.Holds [])
    (hl : label ≠ 1) (hfuel : Dx * Dy * Dz + 2 ≤ fuel) :
    ∃ st1, singlePassDFS fuel Dx Dy Dz v p.i p.j p.k label iS jS kS = some st1 ∧
      (∀ fuel2, 2 ≤ fuel2 →
        ∃ st2, singlePassDFS fuel2 Dx Dy Dz st1.dstData3D p.i p.j p.k label
            st1.iStack st1.jStack st1.kStack = some st2 ∧
          st2.dstData3D = st1.dstData3D ∧ st2.Holds []) ∧
      (dfsBody Dx Dy Dz label
          { dstData3D := st1.dstData3D
            iStack := push st1.iStack p.i
            jStack := push st1.jStack p.j
            kStack := push st1.kStack p.k }).Holds [] ∧
      (dfsBody Dx Dy Dz label
          { dstData3D := st1.dstData3D
            iStack := push st1.iStack p.i
            jStack := push st1.jStack p.j
            kStack := push st1.kStack p.k }).dstData3D = st1.dstData3D := by
  obtain ⟨st1, h1⟩ := @singlePassDFS_returns fuel Dx Dy Dz v p label iS jS kS hp hi hj hk
    hl hfuel
  have hemp := (singlePassDFS_spec hp hi hj hk h1).1
  have hnb := singlePassDFS_leaves_no_neighbour hp hi hj hk hl h1
  refine ⟨st1, h1, ?_, ?_⟩
  · intro fuel2 h2
    exact singlePassDFS_lone_seed Dx Dy Dz label fuel2 st1.dstData3D p _ _ _
      hemp.1 hemp.2.1 hemp.2.2 hnb h2
  · have hs : FillState.Holds
        { dstData3D := st1.dstData3D
          iStack := push st1.iStack p.i
          jStack := push st1.jStack p.j
          kStack := push st1.kStack p.k } [p] :=
      ⟨hemp.1.push_holds p.i, hemp.2.1.push_holds p.j, hemp.2.2.push_holds p.k⟩
    have hb := hs.dfsBody_holds Dx Dy Dz label
    rw [foldl_visitList_noop label _ _ hnb] at hb
    exact ⟨hb.2, hb.1⟩

/-- On the row `[1, 1, 0, 1]` with seed `(0,0,0)` and label 2: the first run gives
`[2, 2, 0, 1]` (the seed written by the caller), and so does the second. -/
theorem singlePassDFS_twice_witness :
    InBox 4 1 1 ⟨0, 0, 0⟩ ∧
    ∃ st1, singlePassDFS 6 4 1 1 (writeAt rowVolume ⟨0, 0, 0⟩ 2) 0 0 0 2
        (createStack 0) (createStack 0) (createStack 0) = some st1 ∧
      (∀ fuel2, 2 ≤ fuel2 →
        ∃ st2, singlePassDFS fuel2 4 1 1 st1.dstData3D 0 0 0 2
            st1.iStack st1.jStack st1.kStack = some st2 ∧
          st2.dstData3D = st1.dstData3D ∧ st2.Holds []) := by
  refine ⟨by decide, ?_⟩
  obtain ⟨st1, h1, h2, -⟩ := singlePassDFS_twice 6 4 1 1 (writeAt rowVolume ⟨0, 0, 0⟩ 2)
    ⟨0, 0, 0⟩ 2 (createStack 0) (createStack 0) (createStack 0) (by decide)
    (createStack_holds 0) (createStack_holds 0) (createStack_holds 0) (by decide) (by decide)
  exact ⟨st1, h1, h2⟩

/-! ## Claims about the boundary pass -/

/-- C13 (as stated, refuted): on the `6×1×3` volume (stacks of capacity 1) whose only `1`s
are the column `x = 0`, `z = 0, 1, 2`, the midplane is `z = 1`, and the boundary pass,
seeded at `(0, 0, 1)`, relabels the voxels at `z = 0` and `z = 2` from 1 to 2. -/
theorem boundaryPass_writes_off_midplane :
    STACK_INITIAL_SIZE 6 1 3 = 1 ∧ kMid 3 = 1 ∧
    voxelAt columnVolume ⟨0, 0, 0⟩ = 1 ∧ voxelAt columnVolume ⟨0, 0, 2⟩ = 1 ∧
    (boundaryPass 20 6 1 3 columnVolume).map
        (fun b => (voxelAt b.1.dstData3D ⟨0, 0, 0⟩, voxelAt b.1.dstData3D ⟨0, 0, 1⟩,
          voxelAt b.1.dstData3D ⟨0, 0, 2⟩)) = some (2, 2, 2) := by
  decide

/-- C13 (amended): the boundary pass fills in all three dimensions. For every volume with
at least one z-plane whose stacks are created with a capacity of at least 1
(`Dx + Dy + Dz ≥ 10`), the pass changes only voxels of components that have a `1`-valued
voxel on the midplane `z = kMid`: a voxel, on or off the midplane, that is not connected to
a `1`-valued midplane voxel has the same value after the pass as before; every component
that meets the midplane receives, in all its voxels, those off the midplane included, the
value `(2 + n) mod 65536` for an index `n` below the number `Dx * Dy` of midplane voxels,
which is the value `2 + n` of the sequence `2, 3, ...` (so no longer 1) when
`Dx * Dy + 1 < 65536`. With enough fuel and fewer than 65534 voxels the pass returns. -/
theorem boundaryPass_changes_midplane_components (fuel Dx Dy Dz : Nat) (v : Volume)
    (hDz : 0 < Dz) (hcap : 1 ≤ STACK_INITIAL_SIZE Dx Dy Dz) :
    (∀ b, boundaryPass fuel Dx Dy Dz v = some b →
      (∀ q, (∀ m, IsObject Dx Dy Dz v m → m.k = kMid Dz → ¬ Connected Dx Dy Dz v m q) →
        voxelAt b.1.dstData3D q = voxelAt v q) ∧
      (∀ m, IsObject Dx Dy Dz v m → m.k = kMid Dz →
        ∃ n, n < Dx * Dy ∧
          (∀ q, Connected Dx Dy Dz v m q → voxelAt b.1.dstData3D q = (2 + n) % 65536) ∧
          (Dx * Dy + 1 < 65536 →
            ∀ q, Connected Dx Dy Dz v m q → voxelAt b.1.dstData3D q = 2 + n))) ∧
    (Dx * Dy * Dz + 2 ≤ fuel → Dx * Dy * Dz + 2 < PIXEL_RANGE →
      ∃ b, boundaryPass fuel Dx Dy Dz v = some b) := by
  have hk := kMid_range hDz
  refine ⟨?_, ?_⟩
  · intro b hb
    obtain ⟨sB, seeds, hinv, hbs⟩ := boundaryPass_inv hDz hb
    have hb1 : b.1.dstData3D = sB.fill.dstData3D := by rw [hbs]
    have hbox : ∀ p ∈ scanOrder Dx Dy (kMid Dz) (kMid Dz + 1), InBox Dx Dy Dz p :=
      fun p hp => scanOrder_inBox hk.1 (by omega) hp
    have hlen : seeds.length ≤ Dx * Dy := by
      have h1 := hinv.sub.length_le
      rw [length_scanOrder] at h1
      have h2 : (kMid Dz + 1 - kMid Dz).toNat = 1 := by
        rw [add_sub_cancel_left]; rfl
      rw [h2, one_mul, Nat.mul_comm] at h1
      exact h1
    rw [hb1]
    refine ⟨?_, ?_⟩
    · intro q hq
      apply hinv.frame
      intro x hx
      have hxo := hinv.seed_isObject hbox hx
      have hxk := mem_scanOrder.1 (hinv.sub.subset hx)
      exact hq x hxo (by omega)
    · intro m hm hmK
      have hmem : m ∈ scanOrder Dx Dy (kMid Dz) (kMid Dz + 1) := by
        rw [mem_scanOrder]
        have := hm.1
        unfold InBox at this
        omega
      obtain ⟨n, x, hn, hxm, -⟩ := hinv.covered hmem hm.2
      have hn1 := (List.getElem?_eq_some_iff.1 hn).1
      have hval : ∀ q, Connected Dx Dy Dz v m q →
          voxelAt sB.fill.dstData3D q = (2 + n) % 65536 := by
        intro q hq
        rw [hinv.lab n x hn q (hxm.trans hq)]
        unfold labelAt PIXEL_RANGE
        rw [mul_one]
      refine ⟨n, by omega, hval, ?_⟩
      intro hsmall q hq
      rw [hval q hq]
      omega
  · intro hfuel hsmall
    exact boundaryPass_returns hDz hfuel (Dx * Dy * Dz)
      (atMostComponents_of_volume v _ (le_refl _)) (by omega)

/-- On the `6×1×3` volume (stacks of capacity 1) whose only `1`s are the column `x = 0`,
`z = 0, 1, 2`: the pass returns and writes one value `2 + n` on the whole column. -/
theorem boundaryPass_changes_midplane_components_witness :
    STACK_INITIAL_SIZE 6 1 3 = 1 ∧
    (∀ b, boundaryPass 20 6 1 3 columnVolume = some b →
      (∀ q, (∀ m, IsObject 6 1 3 columnVolume m → m.k = kMid 3 →
          ¬ Connected 6 1 3 columnVolume m q) →
        voxelAt b.1.dstData3D q = voxelAt columnVolume q) ∧
      (∀ m, IsObject 6 1 3 columnVolume m → m.k = kMid 3 →
        ∃ n, n < 6 * 1 ∧
          (∀ q, Connected 6 1 3 columnVolume m q →
            voxelAt b.1.dstData3D q = (2 + n) % 65536) ∧
          (6 * 1 + 1 < 65536 →
            ∀ q, Connected 6 1 3 columnVolume m q → voxelAt b.1.dstData3D q = 2 + n))) ∧
    (6 * 1 * 3 + 2 ≤ 20 → 6 * 1 * 3 + 2 < PIXEL_RANGE →
      ∃ b, boundaryPass 20 6 1 3 columnVolume = some b) :=
  ⟨by decide,
    boundaryPass_changes_midplane_components 20 6 1 3 columnVolume (by decide) (by decide)⟩

/-! ## Two components separated by the midplane -/

theorem atMost_zero_of_none {Dx Dy Dz : Nat} {v : Volume} {S : Voxel → Prop}
    (h : ∀ x, IsObject Dx Dy Dz v x → ¬ S x) : AtMostComponents Dx Dy Dz v S 0 := by
  intro reps hreps _
  cases reps with
  | nil => simp
  | cons a l =>
    have ha := hreps a (List.mem_cons_self _ _)
    exact absurd ha.2 (h a ha.1)

theorem atMost_one_of_common {Dx Dy Dz : Nat} {v : Volume} {S : Voxel → Prop} {p : Voxel}
    (hpo : IsObject Dx Dy Dz v p)
    (h : ∀ x, IsObject Dx Dy Dz v x → S x → Connected Dx Dy Dz v p x) :
    AtMostComponents Dx Dy Dz v S 1 := by
  intro reps hreps hpw
  cases reps with
  | nil => simp
  | cons a l =>
    cases l with
    | nil => simp
    | cons b l2 =>
      exfalso
      have ha := hreps a (List.mem_cons_self _ _)
      have hb := hreps b (List.mem_cons_of_mem _ (List.mem_cons_self _ _))
      have hab := (List.pairwise_cons.1 hpw).1 b (List.mem_cons_self _ _)
      have hpa := h a ha.1 ha.2
      have hpb := h b hb.1 hb.2
      exact hab ((hpa.symm hpo).trans hpb)

/-- C14: for a volume whose stacks are created with a capacity of at least 1
(`Dx + Dy + Dz ≥ 10`) and whose `1`-valued voxels form exactly two components, that of `pL`
lying entirely in `z < kMid` and that of `pU` entirely in `z > kMid`,
`parallelEdgeFirstSinglePassLabeling` returns, counts 0 boundary components and one
component in each half, writes 4 on the lower component and 5 on the upper one, and
leaves every other voxel as it was. -/
theorem parallel_two_separated_components (fuel Dx Dy Dz : Nat) (v : Volume)
    (pL pU : Voxel) (hDz : 0 < Dz) (hcap : 1 ≤ STACK_INITIAL_SIZE Dx Dy Dz)
    (hfuel : Dx * Dy * Dz + 2 ≤ fuel)
    (hL : IsObject Dx Dy Dz v pL) (hU : IsObject Dx Dy Dz v pU)
    (hall : ∀ q, IsObject Dx Dy Dz v q →
      Connected Dx Dy Dz v pL q ∨ Connected Dx Dy Dz v pU q)
    (hlow : ∀ q, Connected Dx Dy Dz v pL q → q.k < kMid Dz)
    (hup : ∀ q, Connected Dx Dy Dz v pU q → kMid Dz < q.k) :
    ∃ r, parallelEdgeFirstSinglePassLabeling fuel Dx Dy Dz v = some r ∧
      r.boundaryCount = 0 ∧ r.lowerCount = 1 ∧ r.upperCount = 1 ∧
      (∀ q, Connected Dx Dy Dz v pL q → voxelAt r.dstData3D q = 4) ∧
      (∀ q, Connected Dx Dy Dz v pU q → voxelAt r.dstData3D q = 5) ∧
      (∀ q, voxelAt v q ≠ 1 → voxelAt r.dstData3D q = voxelAt v q) := by
  have hno : NoLabelOverflow Dx Dy Dz v 0 1 1 := by
    refine ⟨?_, ?_, ?_, by omega, by omega⟩
    · apply atMost_zero_of_none
      intro x hx hxK
      rcases hall x hx with h | h
      · have := hlow x h; omega
      · have := hup x h; omega
    · apply atMost_one_of_common hL
      intro x hx hxS
      rcases hall x hx with h | h
      · exact h
      · have := hup x h; omega
    · apply atMost_one_of_common hU
      intro x hx hxS
      rcases hall x hx with h | h
      · have := hlow x h; omega
      · exact h
  obtain ⟨r, seedsB, seedsL, seedsU, hr, hout, hsB, hsL, hsU⟩ :=
    parallel_outcome_sides hDz hfuel hno
  have hB0 : seedsB.length = 0 := by have := hout.lenB; omega
  have hvalL : voxelAt r.dstData3D pL = 4 ∧ seedsL.length = 1 := by
    rcases hout.tagged pL hL with ⟨n, x, hn, -, -⟩ | ⟨n, x, hn, -, hv⟩ | ⟨n, x, hn, hc, -⟩
    · have := (List.getElem?_eq_some_iff.1 hn).1
      omega
    · have h1 := (List.getElem?_eq_some_iff.1 hn).1
      have h2 := hout.lenL
      have hn0 : n = 0 := by omega
      rw [hv, hB0, hn0]
      exact ⟨rfl, by omega⟩
    · exfalso
      have hx : x ∈ seedsU := List.mem_iff_getElem?.2 ⟨n, hn⟩
      have hxo := hout.seedObj x (Or.inr (Or.inr hx))
      have h1 := hsU x hx
      have h2 := hlow x (hc.symm hxo)
      omega
  have hvalU : voxelAt r.dstData3D pU = 5 ∧ seedsU.length = 1 := by
    rcases hout.tagged pU hU with ⟨n, x, hn, -, -⟩ | ⟨n, x, hn, hc, -⟩ | ⟨n, x, hn, -, hv⟩
    · have := (List.getElem?_eq_some_iff.1 hn).1
      omega
    · exfalso
      have hx : x ∈ seedsL := List.mem_iff_getElem?.2 ⟨n, hn⟩
      have hxo := hout.seedObj x (Or.inr (Or.inl hx))
      have h1 := hsL x hx
      have h2 := hup x (hc.symm hxo)
      omega
    · have h1 := (List.getElem?_eq_some_iff.1 hn).1
      have h2 := hout.lenU
      have hn0 : n = 0 := by omega
      rw [hv, hB0, hn0]
      exact ⟨rfl, by omega⟩
  refine ⟨r, hr, ?_, ?_, ?_, ?_, ?_, hout.background⟩
  · rw [hout.boundaryCount_eq, hB0]; rfl
  · rw [hout.lowerCount_eq]; exact hvalL.2
  · rw [hout.upperCount_eq]; exact hvalU.2
  · intro q hq
    rw [← hout.const pL q hL hq]; exact hvalL.1
  · intro q hq
    rw [← hout.const pU q hU hq]; exact hvalU.1

/-- On the `6×1×3` volume (stacks of capacity 1, midplane `z = 1`) whose only `1`s are at
`x = 0`, `z = 0` and `x = 0`, `z = 2` (scenario D): no boundary component, label 4 below
and label 5 above. -/
theorem parallel_two_separated_components_witness :
    STACK_INITIAL_SIZE 6 1 3 = 1 ∧
    (∃ r, parallelEdgeFirstSinglePassLabeling 20 6 1 3 splitVolume = some r ∧
      r.boundaryCount = 0 ∧ r.lowerCount = 1 ∧ r.upperCount = 1 ∧
      (∀ q, Connected 6 1 3 splitVolume ⟨0, 0, 0⟩ q → voxelAt r.dstData3D q = 4) ∧
      (∀ q, Connected 6 1 3 splitVolume ⟨0, 0, 2⟩ q → voxelAt r.dstData3D q = 5) ∧
      (∀ q, voxelAt splitVolume q ≠ 1 → voxelAt r.dstData3D q = voxelAt splitVolume q)) ∧
    (parallelEdgeFirstSinglePassLabeling 20 6 1 3 splitVolume).map
      (fun r => (r.boundaryCount, voxelAt r.dstData3D ⟨0, 0, 0⟩,
        voxelAt r.dstData3D ⟨0, 0, 1⟩, voxelAt r.dstData3D ⟨0, 0, 2⟩))
      = some (0, 4, 0, 5) := by
  refine ⟨by decide, parallel_two_separated_components 20 6 1 3 splitVolume ⟨0, 0, 0⟩
    ⟨0, 0, 2⟩ (by decide) (by decide) (by decide) ⟨by decide, by decide⟩
    ⟨by decide, by decide⟩ ?_ ?_ ?_, by decide⟩
  · intro q hq
    have h := splitVolume_off_midplane hq.2
    rcases h.2.2 with h0 | h2
    · left
      have e : q = ⟨0, 0, 0⟩ := Voxel.ext h.1 h.2.1 h0
      rw [e]; exact Relation.ReflTransGen.refl
    · right
      have e : q = ⟨0, 0, 2⟩ := Voxel.ext h.1 h.2.1 h2
      rw [e]; exact Relation.ReflTransGen.refl
  · intro q hq
    have := hq.eq_of_isolated (fun c => splitVolume_lone 6 1 3 (by decide))
    rw [this]; decide
  · intro q hq
    have := hq.eq_of_isolated (fun c => splitVolume_lone 6 1 3 (by decide))
    rw [this]; decide

/-! ### A scan is determined by the volume it starts on -/

theorem ScanInv.mem_seeds_iff {Dx Dy Dz : Nat} {v0 : Volume} {a st : Nat}
    {done : List Voxel} {s : ScanState} {seeds : List Voxel}
    (hinv : ScanInv Dx Dy Dz v0 a st done s seeds) (hbox : ∀ p ∈ done, InBox Dx Dy Dz p)
    (x : Voxel) :
    x ∈ seeds ↔ x ∈ done ∧ voxelAt v0 x = 1 ∧
      ∀ p ∈ done, Connected Dx Dy Dz v0 x p → x = p ∨ scanLt x p := by
  constructor
  · intro hx
    exact ⟨hinv.sub.subset hx, hinv.obj x hx, fun p hp hc => hinv.seed_first hbox hx hp hc⟩
  · rintro ⟨hx, hv, hfirst⟩
    obtain ⟨n, y, hn, hyx, hor⟩ := hinv.covered hx hv
    have hy : y ∈ seeds := List.mem_iff_getElem?.2 ⟨n, hn⟩
    rcases hor with e | hlt
    · rw [← e]; exact hy
    · exfalso
      have hyo := hinv.seed_isObject hbox hy
      rcases hfirst y (hinv.sub.subset hy) (hyx.symm hyo) with e | hlt2
      · rw [e] at hlt; exact scanLt_irrefl y hlt
      · exact scanLt_asymm hlt hlt2

theorem ScanInv.unique {Dx Dy Dz : Nat} {v0 : Volume} {a st : Nat}
    {done : List Voxel} {s s1 : ScanState} {seeds seeds1 : List Voxel}
    (h : ScanInv Dx Dy Dz v0 a st done s seeds)
    (h1 : ScanInv Dx Dy Dz v0 a st done s1 seeds1)
    (hbox : ∀ p ∈ done, InBox Dx Dy Dz p) (hsorted : done.Pairwise scanLt) :
    seeds = seeds1 ∧ (∀ q, voxelAt s.fill.dstData3D q = voxelAt s1.fill.dstData3D q) ∧
      s.label = s1.label ∧ s.objectCount = s1.objectCount := by
  have hseeds : seeds = seeds1 := by
    haveI : IsAntisymm Voxel scanLt := ⟨fun a b hab hba => (scanLt_asymm hab hba).elim⟩
    have hs := h.seeds_sorted hsorted
    have hs1 := h1.seeds_sorted hsorted
    have hnd : seeds.Nodup := by
      unfold List.Nodup
      exact hs.imp (by intro a b hab e; rw [e] at hab; exact scanLt_irrefl _ hab)
    have hnd1 : seeds1.Nodup := by
      unfold List.Nodup
      exact hs1.imp (by intro a b hab e; rw [e] at hab; exact scanLt_irrefl _ hab)
    refine List.eq_of_perm_of_sorted ((List.perm_ext_iff_of_nodup hnd hnd1).2 ?_) hs hs1
    intro x
    rw [h.mem_seeds_iff hbox, h1.mem_seeds_iff hbox]
  subst hseeds
  refine ⟨rfl, ?_, ?_, ?_⟩
  · intro q
    by_cases hq : ∃ x ∈ seeds, Connected Dx Dy Dz v0 x q
    · obtain ⟨x, hx, hxq⟩ := hq
      obtain ⟨n, hn⟩ := List.mem_iff_getElem?.1 hx
      rw [h.lab n x hn q hxq, h1.lab n x hn q hxq]
    · push_neg at hq
      rw [h.frame q hq, h1.frame q hq]
  · rw [h.label_eq, h1.label_eq]
  · rw [h.count_eq, h1.count_eq]

/-! ### A scan returns when its invariant has a solution -/

theorem ScanInv.scanVoxel_returns_lone {Dx Dy Dz : Nat} {v0 : Volume} {a st : Nat}
    {done : List Voxel} {s : ScanState} {seeds : List Voxel}
    (hinv : ScanInv Dx Dy Dz v0 a st done s seeds)
    {p : Voxel} (hp : InBox Dx Dy Dz p) {fuel : Nat}
    (hl : voxelAt s.fill.dstData3D p = 1 → labelAt a st seeds.length = 1 →
      ∀ c, ¬ ChainStep Dx Dy Dz v0 p c)
    (hfuel : Dx * Dy * Dz + 2 ≤ fuel) :
    ∃ s1, scanVoxel fuel Dx Dy Dz st s p.i p.j p.k = some s1 := by
  by_cases hv : voxelAt s.fill.dstData3D p = 1
  · by_cases hl1 : labelAt a st seeds.length = 1
    · unfold scanVoxel
      have hv2 : s.fill.dstData3D p.k p.j p.i = 1 := hv
      rw [if_pos hv2]
      have hnb : ∀ q ∈ neighbors Dx Dy Dz p,
          voxelAt (setVoxel s.fill.dstData3D p.k p.j p.i s.label) q ≠ 1 := by
        intro q hq hq1
        have hne : q ≠ p := fun e => by
          have hadj := ((mem_neighbors_iff hp).1 hq).1
          rw [e] at hadj
          exact hadj.ne rfl
        have hq2 : voxelAt s.fill.dstData3D q = 1 := by
          rw [← voxelAt_writeAt_ne s.fill.dstData3D s.label hne]
          exact hq1
        exact hl hv hl1 q (ChainStep.of_mem_neighbors hp hq (hinv.one_was_one hq2))
      obtain ⟨st1, h1, -, -⟩ := singlePassDFS_lone_seed Dx Dy Dz s.label fuel
        (setVoxel s.fill.dstData3D p.k p.j p.i s.label) p _ _ _
        hinv.stacksEmpty.1 hinv.stacksEmpty.2.1 hinv.stacksEmpty.2.2 hnb (by omega)
      rw [h1]
      exact ⟨_, rfl⟩
    · exact hinv.scanVoxel_returns hp (fun _ => hl1) hfuel
  · exact hinv.scanVoxel_returns hp (fun h => absurd h hv) hfuel

theorem ScanInv.scanVoxel_step_seeds {Dx Dy Dz : Nat} {v0 : Volume} {a st : Nat}
    {done : List Voxel} {s : ScanState} {seeds : List Voxel}
    (hinv : ScanInv Dx Dy Dz v0 a st done s seeds)
    {p : Voxel} (hp : InBox Dx Dy Dz p) (hlt : ∀ x ∈ done, scanLt x p) {fuel : Nat}
    {s1 : ScanState} (h : scanVoxel fuel Dx Dy Dz st s p.i p.j p.k = some s1) :
    ScanInv Dx Dy Dz v0 a st (done ++ [p]) s1
      (if voxelAt s.fill.dstData3D p = 1 then seeds ++ [p] else seeds) := by
  unfold scanVoxel at h
  by_cases hv : voxelAt s.fill.dstData3D p = 1
  · have hv2 : s.fill.dstData3D p.k p.j p.i = 1 := hv
    rw [if_pos hv2] at h
    rw [Option.map_eq_some'] at h
    obtain ⟨st1, hdfs, hs1⟩ := h
    rw [← hs1, if_pos hv]
    exact hinv.seed hp hlt hv hdfs
  · have hv2 : ¬ s.fill.dstData3D p.k p.j p.i = 1 := hv
    rw [if_neg hv2] at h
    simp only [Option.some.injEq] at h
    rw [← h, if_neg hv]
    exact hinv.skip hlt hv

theorem mem_done_of_scanLt {done post : List Voxel} {p y : Voxel}
    (hsorted : (done ++ p :: post).Pairwise scanLt) (hy : y ∈ done ++ p :: post)
    (hlt : scanLt y p) : y ∈ done := by
  rw [List.mem_append, List.mem_cons] at hy
  rcases hy with hy | hy | hy
  · exact hy
  · rw [hy] at hlt; exact absurd hlt (scanLt_irrefl p)
  · have h1 := (List.pairwise_cons.1 (List.pairwise_append.1 hsorted).2.1).1 y hy
    exact absurd hlt (fun h => scanLt_asymm h h1)

theorem ScanInv.next_seed {Dx Dy Dz : Nat} {v0 : Volume} {a st : Nat}
    {done post : List Voxel} {s sR : ScanState} {seeds seedsR : List Voxel} {p : Voxel}
    (hsorted : (done ++ p :: post).Pairwise scanLt)
    (hbox : ∀ q ∈ done ++ p :: post, InBox Dx Dy Dz q)
    (hinv : ScanInv Dx Dy Dz v0 a st done s seeds)
    (href : ScanInv Dx Dy Dz v0 a st (done ++ p :: post) sR seedsR)
    (hpre : seeds <+: seedsR) (hv : voxelAt s.fill.dstData3D p = 1) :
    seeds ++ [p] <+: seedsR := by
  have hp : InBox Dx Dy Dz p := hbox p (by simp)
  have hlt : ∀ x ∈ done, scanLt x p := fun x hx =>
    (List.pairwise_append.1 hsorted).2.2 x hx p (List.mem_cons_self _ _)
  obtain ⟨hfresh, hv0, -, -⟩ := hinv.fresh hp hlt hv
  -- a seed of the reference scan that lies in `done` and is not connected to the seeds so far
  have hold : ∀ y ∈ seedsR, y ∈ done → ∃ z ∈ seeds, Connected Dx Dy Dz v0 z y := by
    intro y hy hyd
    obtain ⟨z, hz, hzy, -⟩ := hinv.cover y hyd (href.obj y hy)
    exact ⟨z, hz, hzy⟩
  have hpR : p ∈ seedsR := by
    obtain ⟨n, y, hn, hyp, hor⟩ := href.covered (show p ∈ done ++ p :: post by simp) hv0
    have hy : y ∈ seedsR := List.mem_iff_getElem?.2 ⟨n, hn⟩
    rcases hor with e | hlt2
    · rw [← e]; exact hy
    · exfalso
      have hyd := mem_done_of_scanLt hsorted (href.sub.subset hy) hlt2
      obtain ⟨z, hz, hzy⟩ := hold y hy hyd
      exact hfresh z hz (hzy.trans hyp)
  obtain ⟨rest, hrest⟩ := hpre
  have hpn : p ∉ seeds := fun hps =>
    scanLt_irrefl p (hlt p (hinv.sub.subset hps))
  have hprest : p ∈ rest := by
    rw [← hrest, List.mem_append] at hpR
    exact hpR.resolve_left hpn
  cases rest with
  | nil => simp at hprest
  | cons y0 rest1 =>
    have hy0 : y0 = p := by
      by_contra hne
      have hp1 : p ∈ rest1 := by
        rcases List.mem_cons.1 hprest with e | h1
        · exact absurd e.symm hne
        · exact h1
      have hsR := href.seeds_sorted hsorted
      rw [← hrest] at hsR
      have hlt0 : scanLt y0 p :=
        (List.pairwise_cons.1 (List.pairwise_append.1 hsR).2.1).1 p hp1
      have hy0R : y0 ∈ seedsR := by rw [← hrest]; simp
      have hyd := mem_done_of_scanLt hsorted (href.sub.subset hy0R) hlt0
      obtain ⟨z, hz, hzy⟩ := hold y0 hy0R hyd
      have hsep := href.sep
      rw [← hrest] at hsep
      exact (List.pairwise_append.1 hsep).2.2 z hz y0 (List.mem_cons_self _ _) hzy
    refine ⟨rest1, ?_⟩
    rw [← hrest, hy0]
    simp

theorem ScanInv.fold_returns_of_solution {Dx Dy Dz : Nat} {v0 : Volume} {a st fuel : Nat}
    (hfuel : Dx * Dy * Dz + 2 ≤ fuel) {sR : ScanState} {seedsR : List Voxel} :
    ∀ (post done : List Voxel) (s : ScanState) (seeds : List Voxel),
      (done ++ post).Pairwise scanLt → (∀ p ∈ done ++ post, InBox Dx Dy Dz p) →
      ScanInv Dx Dy Dz v0 a st done s seeds →
      ScanInv Dx Dy Dz v0 a st (done ++ post) sR seedsR → seeds <+: seedsR →
      ∃ s1, post.foldlM (fun s2 p => scanVoxel fuel Dx Dy Dz st s2 p.i p.j p.k) s = some s1 := by
  intro post
  induction post with
  | nil =>
    intro done s seeds _ _ _ _ _
    exact ⟨s, rfl⟩
  | cons p post ih =>
    intro done s seeds hsorted hbox hinv href hpre
    have hp : InBox Dx Dy Dz p := hbox p (by simp)
    have hlt : ∀ x ∈ done, scanLt x p := fun x hx =>
      (List.pairwise_append.1 hsorted).2.2 x hx p (List.mem_cons_self _ _)
    have hl : voxelAt s.fill.dstData3D p = 1 → labelAt a st seeds.length = 1 →
        ∀ c, ¬ ChainStep Dx Dy Dz v0 p c := by
      intro hv hl1
      obtain ⟨rest, hrest⟩ := hinv.next_seed hsorted hbox href hpre hv
      have hidx : seedsR[seeds.length]? = some p := by
        rw [← hrest, List.append_assoc, List.getElem?_append_right (le_refl _)]
        simp
      exact href.iso seeds.length p hidx hl1
    obtain ⟨s2, h2⟩ := hinv.scanVoxel_returns_lone hp hl hfuel
    have hinv2 := hinv.scanVoxel_step_seeds hp hlt h2
    have hpre2 : (if voxelAt s.fill.dstData3D p = 1 then seeds ++ [p] else seeds)
        <+: seedsR := by
      by_cases hv : voxelAt s.fill.dstData3D p = 1
      · rw [if_pos hv]; exact hinv.next_seed hsorted hbox href hpre hv
      · rw [if_neg hv]; exact hpre
    have he : done ++ [p] ++ post = done ++ p :: post := by simp
    obtain ⟨s1, h1⟩ := ih (done ++ [p]) s2 _ (by rw [he]; exact hsorted)
      (by rw [he]; exact hbox) hinv2 (by rw [he]; exact href) hpre2
    refine ⟨s1, ?_⟩
    rw [List.foldlM_cons, h2]
    exact h1

theorem singlePassLabeling_returns_of_solution {fuel Dx Dy Dz : Nat} {v0 : Volume}
    {kMin kMax : Int} {a st : Nat} (h0 : 0 ≤ kMin) (h1 : kMax ≤ (Dz : Int))
    (ha : a < PIXEL_RANGE) (hfuel : Dx * Dy * Dz + 2 ≤ fuel)
    {sR : ScanState} {seedsR : List Voxel}
    (href : ScanInv Dx Dy Dz v0 a st (scanOrder Dx Dy kMin kMax) sR seedsR) :
    ∃ r, singlePassLabeling fuel Dx Dy Dz v0 kMin kMax a st = some r := by
  have hret := ScanInv.fold_returns_of_solution hfuel (scanOrder Dx Dy kMin kMax) []
    { fill := FillState.mk v0 (allocateStack Dx Dy Dz).1 (allocateStack Dx Dy Dz).2.1
        (allocateStack Dx Dy Dz).2.2
      label := a
      objectCount := 0 } []
    (by rw [List.nil_append]; exact pairwise_scanOrder Dx Dy kMin kMax)
    (fun p hp => scanOrder_inBox h0 h1 (by simpa using hp))
    (ScanInv.start Dx Dy Dz v0 st ha rfl (allocateStack_holds Dx Dy Dz v0))
    (by rw [List.nil_append]; exact href) List.nil_prefix
  obtain ⟨s1, hs1⟩ := hret
  rw [← scanRange_eq_foldlM] at hs1
  unfold singlePassLabeling
  simp only [hs1, Option.map_some']
  exact ⟨_, rfl⟩

/-! ### Two scans on opposite sides of an isolated plane -/

theorem voxelAt_mergeVolume (side : Int → Bool) (a b : Volume) (q : Voxel) :
    voxelAt (mergeVolume side a b) q
      = if side q.k = true then voxelAt a q else voxelAt b q := rfl

theorem ScanInv.changed_in_side {Dx Dy Dz : Nat} {v0 : Volume} {a st : Nat}
    {done : List Voxel} {s : ScanState} {seeds : List Voxel} {side : Int → Bool}
    (hinv : ScanInv Dx Dy Dz v0 a st done s seeds) (hbox : ∀ p ∈ done, InBox Dx Dy Dz p)
    (hps : ∀ p ∈ done, side p.k = true) (hcl : SideClosed Dx Dy Dz side v0) {q : Voxel}
    (hq : voxelAt s.fill.dstData3D q ≠ voxelAt v0 q) : side q.k = true := by
  obtain ⟨n, x, hn, hxq⟩ := hinv.changed hq
  have hx : x ∈ seeds := List.mem_iff_getElem?.2 ⟨n, hn⟩
  exact hcl x q (hinv.seed_isObject hbox hx) (hps x (hinv.sub.subset hx)) hxq

theorem connected_iff_on_side {Dx Dy Dz : Nat} {u u1 : Volume} {side : Int → Bool}
    (hcl : SideClosed Dx Dy Dz side u)
    (hA : ∀ q, side q.k = true → voxelAt u1 q = voxelAt u q)
    (hB : ∀ x c, IsObject Dx Dy Dz u x → side x.k = true → ChainStep Dx Dy Dz u1 x c →
      voxelAt u c = 1)
    {x : Voxel} (hx : IsObject Dx Dy Dz u x) (hxs : side x.k = true) (q : Voxel) :
    Connected Dx Dy Dz u1 x q ↔ Connected Dx Dy Dz u x q := by
  constructor
  · intro h
    induction h with
    | refl => exact Relation.ReflTransGen.refl
    | tail hxb hbc ih =>
      rename_i b c
      have hb : IsObject Dx Dy Dz u b := Connected.isObject ih hx
      have hbs : side b.k = true := hcl x b hx hxs ih
      exact Relation.ReflTransGen.tail ih ⟨hbc.1, hbc.2.1, hB b c hb hbs hbc⟩
  · intro h
    induction h with
    | refl => exact Relation.ReflTransGen.refl
    | tail hxb hbc ih =>
      rename_i b c
      have hc : Connected Dx Dy Dz u x c := Relation.ReflTransGen.tail hxb hbc
      have hcs : side c.k = true := hcl x c hx hxs hc
      exact Relation.ReflTransGen.tail ih ⟨hbc.1, hbc.2.1, by rw [hA c hcs]; exact hbc.2.2⟩

theorem ScanInv.transport {Dx Dy Dz : Nat} {u u1 : Volume} {a st : Nat}
    {done : List Voxel} {s : ScanState} {seeds : List Voxel} {side : Int → Bool}
    (hinv : ScanInv Dx Dy Dz u a st done s seeds) (hbox : ∀ p ∈ done, InBox Dx Dy Dz p)
    (hps : ∀ p ∈ done, side p.k = true) (hcl : SideClosed Dx Dy Dz side u)
    (hA : ∀ q, side q.k = true → voxelAt u1 q = voxelAt u q)
    (hB : ∀ x c, IsObject Dx Dy Dz u x → side x.k = true → ChainStep Dx Dy Dz u1 x c →
      voxelAt u c = 1) :
    ScanInv Dx Dy Dz u1 a st done
      { fill :=
          { dstData3D := mergeVolume side s.fill.dstData3D u1
            iStack := s.fill.iStack
            jStack := s.fill.jStack
            kStack := s.fill.kStack }
        label := s.label
        objectCount := s.objectCount } seeds := by
  have hso : ∀ x ∈ seeds, IsObject Dx Dy Dz u x ∧ side x.k = true :=
    fun x hx => ⟨hinv.seed_isObject hbox hx, hps x (hinv.sub.subset hx)⟩
  have hconn : ∀ x ∈ seeds, ∀ q, Connected Dx Dy Dz u1 x q ↔ Connected Dx Dy Dz u x q :=
    fun x hx q => connected_iff_on_side hcl hA hB (hso x hx).1 (hso x hx).2 q
  refine
    { stacksEmpty := hinv.stacksEmpty
      sub := hinv.sub
      obj := ?_
      sep := ?_
      cover := ?_
      lab := ?_
      frame := ?_
      label_eq := hinv.label_eq
      count_eq := hinv.count_eq
      iso := ?_ }
  · intro x hx
    rw [hA x (hso x hx).2]
    exact hinv.obj x hx
  · refine hinv.sep.imp_of_mem ?_
    intro x y hx _ hn hc
    exact hn ((hconn x hx y).1 hc)
  · intro p hp hv
    rw [hA p (hps p hp)] at hv
    obtain ⟨x, hx, hxp, hor⟩ := hinv.cover p hp hv
    exact ⟨x, hx, (hconn x hx p).2 hxp, hor⟩
  · intro n x hn q hc
    have hx : x ∈ seeds := List.mem_iff_getElem?.2 ⟨n, hn⟩
    have hc1 := (hconn x hx q).1 hc
    have hqs : side q.k = true := hcl x q (hso x hx).1 (hso x hx).2 hc1
    show voxelAt (mergeVolume side s.fill.dstData3D u1) q = _
    rw [voxelAt_mergeVolume, if_pos hqs]
    exact hinv.lab n x hn q hc1
  · intro q hq
    show voxelAt (mergeVolume side s.fill.dstData3D u1) q = _
    rw [voxelAt_mergeVolume]
    by_cases hqs : side q.k = true
    · rw [if_pos hqs, hA q hqs]
      exact hinv.frame q (fun x hx hc => hq x hx ((hconn x hx q).2 hc))
    · rw [if_neg hqs]
  · intro n x hn hl c hc
    have hx : x ∈ seeds := List.mem_iff_getElem?.2 ⟨n, hn⟩
    have h1 := hB x c (hso x hx).1 (hso x hx).2 hc
    exact hinv.iso n x hn hl c ⟨hc.1, hc.2.1, h1⟩

theorem scans_commute_core {Dx Dy Dz : Nat} {u : Volume} {K : Int} {side other : Int → Bool}
    {aX stX aY stY : Nat} {psX psY : List Voxel} {sX sY : ScanState}
    {seedsX seedsY : List Voxel}
    (hdisj : ∀ k, side k = true → other k = true → False)
    (hclS : ∀ w, PlaneIsolated Dx Dy Dz w K → SideClosed Dx Dy Dz side w)
    (hclO : ∀ w, PlaneIsolated Dx Dy Dz w K → SideClosed Dx Dy Dz other w)
    (hadj : ∀ x c : Voxel, other x.k = true → Adjacent6 x c → ¬ side c.k = true)
    (hiso : PlaneIsolated Dx Dy Dz u K)
    (hboxX : ∀ p ∈ psX, InBox Dx Dy Dz p) (hboxY : ∀ p ∈ psY, InBox Dx Dy Dz p)
    (hsX : ∀ p ∈ psX, side p.k = true) (hsY : ∀ p ∈ psY, other p.k = true)
    (hsortX : psX.Pairwise scanLt) (hsortY : psY.Pairwise scanLt)
    (hinvX : ScanInv Dx Dy Dz u aX stX psX sX seedsX)
    (hinvY : ScanInv Dx Dy Dz sX.fill.dstData3D aY stY psY sY seedsY) :
    (∃ sR, ScanInv Dx Dy Dz u aY stY psY sR seedsY) ∧
    ∀ sY1 seedsY1, ScanInv Dx Dy Dz u aY stY psY sY1 seedsY1 →
      (∃ sR, ScanInv Dx Dy Dz sY1.fill.dstData3D aX stX psX sR seedsX) ∧
      sY1.objectCount = sY.objectCount ∧
      ∀ sX1 seedsX1, ScanInv Dx Dy Dz sY1.fill.dstData3D aX stX psX sX1 seedsX1 →
        sX1.objectCount = sX.objectCount ∧
        ∀ q, voxelAt sX1.fill.dstData3D q = voxelAt sY.fill.dstData3D q := by
  have hisoX : PlaneIsolated Dx Dy Dz sX.fill.dstData3D K :=
    hiso.of_shrink (fun q hq => hinvX.one_was_one hq)
  have hchX : ∀ q, voxelAt sX.fill.dstData3D q ≠ voxelAt u q → side q.k = true :=
    fun q hq => hinvX.changed_in_side hboxX hsX (hclS u hiso) hq
  have hchY : ∀ q, voxelAt sY.fill.dstData3D q ≠ voxelAt sX.fill.dstData3D q →
      other q.k = true :=
    fun q hq => hinvY.changed_in_side hboxY hsY (hclO _ hisoX) hq
  have hrefY := @ScanInv.transport Dx Dy Dz sX.fill.dstData3D u aY stY psY sY seedsY other
    hinvY hboxY hsY (hclO _ hisoX)
    (by
      intro q hqo
      by_contra hne
      exact hdisj q.k (hchX q (fun e => hne e.symm)) hqo)
    (by
      intro x c _ hxo hc
      by_contra hne
      have : voxelAt sX.fill.dstData3D c ≠ voxelAt u c := by rw [hc.2.2]; exact hne
      exact hadj x c hxo hc.1 (hchX c this))
  refine ⟨⟨_, hrefY⟩, ?_⟩
  intro sY1 seedsY1 hinvY1
  obtain ⟨-, hYvol, -, hYcount⟩ := hinvY1.unique hrefY hboxY hsortY
  have hchY1 : ∀ q, voxelAt sY1.fill.dstData3D q ≠ voxelAt u q → other q.k = true :=
    fun q hq => hinvY1.changed_in_side hboxY hsY (hclO u hiso) hq
  have hrefX := @ScanInv.transport Dx Dy Dz u sY1.fill.dstData3D aX stX psX sX seedsX side
    hinvX hboxX hsX (hclS u hiso)
    (by
      intro q hqs
      by_contra hne
      exact hdisj q.k hqs (hchY1 q hne))
    (by
      intro x c _ _ hc
      exact hinvY1.one_was_one hc.2.2)
  refine ⟨⟨_, hrefX⟩, hYcount, ?_⟩
  intro sX1 seedsX1 hinvX1
  obtain ⟨-, hXvol, -, hXcount⟩ := hinvX1.unique hrefX hboxX hsortX
  refine ⟨hXcount, ?_⟩
  intro q
  rw [hXvol q]
  show voxelAt (mergeVolume side sX.fill.dstData3D sY1.fill.dstData3D) q = _
  rw [voxelAt_mergeVolume]
  by_cases hqs : side q.k = true
  · rw [if_pos hqs]
    by_contra hne
    exact hdisj q.k hqs (hchY q (fun e => hne e.symm))
  · rw [if_neg hqs, hYvol q]
    show voxelAt (mergeVolume other sY.fill.dstData3D u) q = _
    rw [voxelAt_mergeVolume]
    by_cases hqo : other q.k = true
    · rw [if_pos hqo]
    · rw [if_neg hqo]
      have h1 : voxelAt sY.fill.dstData3D q = voxelAt sX.fill.dstData3D q := by
        by_contra hne
        exact hqo (hchY q hne)
      have h2 : voxelAt sX.fill.dstData3D q = voxelAt u q := by
        by_contra hne
        exact hqs (hchX q hne)
      rw [h1, h2]

theorem singlePassLabeling_commute {fuel Dx Dy Dz : Nat} {u : Volume} {K : Int}
    {side other : Int → Bool} {aX stX aY stY : Nat} {x0 x1 y0 y1 : Int}
    (hdisj : ∀ k, side k = true → other k = true → False)
    (hclS : ∀ w, PlaneIsolated Dx Dy Dz w K → SideClosed Dx Dy Dz side w)
    (hclO : ∀ w, PlaneIsolated Dx Dy Dz w K → SideClosed Dx Dy Dz other w)
    (hadj : ∀ x c : Voxel, other x.k = true → Adjacent6 x c → ¬ side c.k = true)
    (hiso : PlaneIsolated Dx Dy Dz u K)
    (hx0 : 0 ≤ x0) (hx1 : x1 ≤ (Dz : Int)) (hy0 : 0 ≤ y0) (hy1 : y1 ≤ (Dz : Int))
    (hsX : ∀ k, x0 ≤ k → k < x1 → side k = true)
    (hsY : ∀ k, y0 ≤ k → k < y1 → other k = true)
    (haX : aX < PIXEL_RANGE) (haY : aY < PIXEL_RANGE) {rX rY : Volume × Nat}
    (hX : singlePassLabeling fuel Dx Dy Dz u x0 x1 aX stX = some rX)
    (hY : singlePassLabeling fuel Dx Dy Dz rX.1 y0 y1 aY stY = some rY) :
    (∀ rY1 rX1, singlePassLabeling fuel Dx Dy Dz u y0 y1 aY stY = some rY1 →
      singlePassLabeling fuel Dx Dy Dz rY1.1 x0 x1 aX stX = some rX1 →
      rX1.1 = rY.1 ∧ rX1.2 = rX.2 ∧ rY1.2 = rY.2) ∧
    (Dx * Dy * Dz + 2 ≤ fuel →
      ∃ rY1 rX1, singlePassLabeling fuel Dx Dy Dz u y0 y1 aY stY = some rY1 ∧
        singlePassLabeling fuel Dx Dy Dz rY1.1 x0 x1 aX stX = some rX1) := by
  obtain ⟨sX, seedsX, hinvX, hrX⟩ := singlePassLabeling_inv hx0 hx1 haX hX
  have eX : rX.1 = sX.fill.dstData3D := by rw [hrX]
  rw [eX] at hY
  obtain ⟨sY, seedsY, hinvY, hrY⟩ := singlePassLabeling_inv hy0 hy1 haY hY
  have hcore := scans_commute_core hdisj hclS hclO hadj hiso
    (fun p hp => scanOrder_inBox hx0 hx1 hp) (fun p hp => scanOrder_inBox hy0 hy1 hp)
    (fun p hp => hsX p.k (mem_scanOrder.1 hp).2.2.2.2.1 (mem_scanOrder.1 hp).2.2.2.2.2)
    (fun p hp => hsY p.k (mem_scanOrder.1 hp).2.2.2.2.1 (mem_scanOrder.1 hp).2.2.2.2.2)
    (pairwise_scanOrder Dx Dy x0 x1) (pairwise_scanOrder Dx Dy y0 y1) hinvX hinvY
  refine ⟨?_, ?_⟩
  · intro rY1 rX1 h1 h2
    obtain ⟨sY1, seedsY1, hinvY1, hrY1⟩ := singlePassLabeling_inv hy0 hy1 haY h1
    have eY1 : rY1.1 = sY1.fill.dstData3D := by rw [hrY1]
    rw [eY1] at h2
    obtain ⟨sX1, seedsX1, hinvX1, hrX1⟩ := singlePassLabeling_inv hx0 hx1 haX h2
    obtain ⟨-, hcY, hrest⟩ := hcore.2 sY1 seedsY1 hinvY1
    obtain ⟨hcX, hpt⟩ := hrest sX1 seedsX1 hinvX1
    refine ⟨?_, ?_, ?_⟩
    · rw [hrX1, hrY]
      funext k j i
      exact hpt ⟨i, j, k⟩
    · rw [hrX1, hrX]; exact hcX
    · rw [hrY1, hrY]; exact hcY
  · intro hfuel
    obtain ⟨sR, href⟩ := hcore.1
    obtain ⟨rY1, h1⟩ := singlePassLabeling_returns_of_solution hy0 hy1 haY hfuel href
    obtain ⟨sY1, seedsY1, hinvY1, hrY1⟩ := singlePassLabeling_inv hy0 hy1 haY h1
    have eY1 : rY1.1 = sY1.fill.dstData3D := by rw [hrY1]
    obtain ⟨⟨sR2, href2⟩, -, -⟩ := hcore.2 sY1 seedsY1 hinvY1
    obtain ⟨rX1, h2⟩ := singlePassLabeling_returns_of_solution hx0 hx1 haX hfuel href2
    exact ⟨rY1, rX1, h1, by rw [eY1]; exact h2⟩

theorem sideClosed_below {Dx Dy Dz : Nat} {K : Int} (w : Volume)
    (h : PlaneIsolated Dx Dy Dz w K) : SideClosed Dx Dy Dz (belowPlane K) w := by
  intro x q hx hxs hc
  simp only [belowPlane, decide_eq_true_eq] at hxs ⊢
  exact h.stays_below hx hxs hc

theorem sideClosed_above {Dx Dy Dz : Nat} {K : Int} (w : Volume)
    (h : PlaneIsolated Dx Dy Dz w K) : SideClosed Dx Dy Dz (abovePlane K) w := by
  intro x q hx hxs hc
  simp only [abovePlane, decide_eq_true_eq] at hxs ⊢
  exact h.stays_above hx hxs hc

theorem below_above_disjoint (K k : Int) (h1 : belowPlane K k = true)
    (h2 : abovePlane K k = true) : False := by
  simp only [belowPlane, abovePlane, decide_eq_true_eq] at h1 h2
  omega

theorem not_below_of_adjacent_above (K : Int) (x c : Voxel) (h : abovePlane K x.k = true)
    (hadj : Adjacent6 x c) : ¬ belowPlane K c.k = true := by
  simp only [belowPlane, abovePlane, decide_eq_true_eq] at h ⊢
  unfold Adjacent6 at hadj
  omega

theorem not_above_of_adjacent_below (K : Int) (x c : Voxel) (h : belowPlane K x.k = true)
    (hadj : Adjacent6 x c) : ¬ abovePlane K c.k = true := by
  simp only [belowPlane, abovePlane, decide_eq_true_eq] at h ⊢
  unfold Adjacent6 at hadj
  omega

theorem lower_then_upper_commute {fuel Dx Dy Dz : Nat} {u : Volume} {L : Nat}
    (hDz : 0 < Dz) (hiso : PlaneIsolated Dx Dy Dz u (kMid Dz)) {rL rLU : Volume × Nat}
    (hL : halfRun fuel Dx Dy Dz u L 0 = some rL)
    (hLU : halfRun fuel Dx Dy Dz rL.1 L 1 = some rLU) :
    (∀ rU rUL, halfRun fuel Dx Dy Dz u L 1 = some rU →
      halfRun fuel Dx Dy Dz rU.1 L 0 = some rUL →
      rUL.1 = rLU.1 ∧ rUL.2 = rL.2 ∧ rU.2 = rLU.2) ∧
    (Dx * Dy * Dz + 2 ≤ fuel →
      ∃ rU rUL, halfRun fuel Dx Dy Dz u L 1 = some rU ∧
        halfRun fuel Dx Dy Dz rU.1 L 0 = some rUL) := by
  have hk := kMid_range hDz
  simp only [halfRun_zero, halfRun_one] at hL hLU ⊢
  exact singlePassLabeling_commute (below_above_disjoint (kMid Dz))
    sideClosed_below sideClosed_above (not_below_of_adjacent_above (kMid Dz)) hiso
    (le_refl 0) (le_of_lt hk.2) (by omega) (le_refl _)
    (by intro k _ h; simpa [belowPlane] using h)
    (by intro k h _; simp only [abovePlane, decide_eq_true_eq]; omega)
    (halfLabelStart_lt _ _) (halfLabelStart_lt _ _) hL hLU

theorem upper_then_lower_commute {fuel Dx Dy Dz : Nat} {u : Volume} {L : Nat}
    (hDz : 0 < Dz) (hiso : PlaneIsolated Dx Dy Dz u (kMid Dz)) {rU rUL : Volume × Nat}
    (hU : halfRun fuel Dx Dy Dz u L 1 = some rU)
    (hUL : halfRun fuel Dx Dy Dz rU.1 L 0 = some rUL) :
    (∀ rL rLU, halfRun fuel Dx Dy Dz u L 0 = some rL →
      halfRun fuel Dx Dy Dz rL.1 L 1 = some rLU →
      rLU.1 = rUL.1 ∧ rLU.2 = rU.2 ∧ rL.2 = rUL.2) ∧
    (Dx * Dy * Dz + 2 ≤ fuel →
      ∃ rL rLU, halfRun fuel Dx Dy Dz u L 0 = some rL ∧
        halfRun fuel Dx Dy Dz rL.1 L 1 = some rLU) := by
  have hk := kMid_range hDz
  simp only [halfRun_zero, halfRun_one] at hU hUL ⊢
  exact singlePassLabeling_commute (fun k h1 h2 => below_above_disjoint (kMid Dz) k h2 h1)
    sideClosed_above sideClosed_below (not_above_of_adjacent_below (kMid Dz)) hiso
    (by omega) (le_refl _) (le_refl 0) (le_of_lt hk.2)
    (by intro k h _; simp only [abovePlane, decide_eq_true_eq]; omega)
    (by intro k _ h; simpa [belowPlane] using h)
    (halfLabelStart_lt _ _) (halfLabelStart_lt _ _) hU hUL

/-- C11: after the serial boundary pass of `parallelEdgeFirstSinglePassLabeling`, for every
volume, running the lower-half run and then the upper-half run gives exactly the same
final volume and the same two component counts as running the upper-half run and then the
lower-half run (each run with its own start label and step 2); with enough fuel one order
returns exactly when the other does, and both return when no label overflows. -/
theorem halfRuns_commute (fuel Dx Dy Dz : Nat) (v : Volume) (hDz : 0 < Dz) :
    ∀ b, boundaryPass fuel Dx Dy Dz v = some b →
      (∀ rL rLU rU rUL, halfRun fuel Dx Dy Dz b.1.dstData3D b.2 0 = some rL →
        halfRun fuel Dx Dy Dz rL.1 b.2 1 = some rLU →
        halfRun fuel Dx Dy Dz b.1.dstData3D b.2 1 = some rU →
        halfRun fuel Dx Dy Dz rU.1 b.2 0 = some rUL →
        rLU.1 = rUL.1 ∧ rL.2 = rUL.2 ∧ rLU.2 = rU.2) ∧
      (Dx * Dy * Dz + 2 ≤ fuel →
        ((∃ rL rLU, halfRun fuel Dx Dy Dz b.1.dstData3D b.2 0 = some rL ∧
            halfRun fuel Dx Dy Dz rL.1 b.2 1 = some rLU) ↔
          (∃ rU rUL, halfRun fuel Dx Dy Dz b.1.dstData3D b.2 1 = some rU ∧
            halfRun fuel Dx Dy Dz rU.1 b.2 0 = some rUL))) ∧
      (Dx * Dy * Dz + 2 ≤ fuel → ∀ B NL NU, NoLabelOverflow Dx Dy Dz v B NL NU →
        ∃ rL rLU, halfRun fuel Dx Dy Dz b.1.dstData3D b.2 0 = some rL ∧
          halfRun fuel Dx Dy Dz rL.1 b.2 1 = some rLU) := by
  intro b hb
  obtain ⟨sB, seedsB, hinvB, hbs⟩ := boundaryPass_inv hDz hb
  have hiso : PlaneIsolated Dx Dy Dz b.1.dstData3D (kMid Dz) := by
    rw [hbs]; exact hinvB.planeIsolated
  refine ⟨?_, ?_, ?_⟩
  · intro rL rLU rU rUL hL hLU hU hUL
    obtain ⟨h1, h2, h3⟩ := (lower_then_upper_commute hDz hiso hL hLU).1 rU rUL hU hUL
    exact ⟨h1.symm, h2.symm, h3.symm⟩
  · intro hfuel
    constructor
    · rintro ⟨rL, rLU, hL, hLU⟩
      exact (lower_then_upper_commute hDz hiso hL hLU).2 hfuel
    · rintro ⟨rU, rUL, hU, hUL⟩
      exact (upper_then_lower_commute hDz hiso hU hUL).2 hfuel
  · intro hfuel B NL NU hno
    obtain ⟨r, -, -, -, hr, -⟩ := parallel_outcome hDz hfuel hno
    obtain ⟨b1, r0, r1, hb1, hr0, hr1, -⟩ := parallel_decompose hr
    rw [hb] at hb1
    have e : b = b1 := Option.some.inj hb1
    rw [← e] at hr0 hr1
    exact ⟨r0, r1, hr0, hr1⟩

/-- On the column `[1, 0, 1]` along `z`: both orders return, with the labels 4 and 5 on the
two voxels and the counts 1 and 1. -/
theorem halfRuns_commute_witness :
    (∀ b, boundaryPass 5 1 1 3 splitVolume = some b →
      (∀ rL rLU rU rUL, halfRun 5 1 1 3 b.1.dstData3D b.2 0 = some rL →
        halfRun 5 1 1 3 rL.1 b.2 1 = some rLU →
        halfRun 5 1 1 3 b.1.dstData3D b.2 1 = some rU →
        halfRun 5 1 1 3 rU.1 b.2 0 = some rUL →
        rLU.1 = rUL.1 ∧ rL.2 = rUL.2 ∧ rLU.2 = rU.2) ∧
      (1 * 1 * 3 + 2 ≤ 5 →
        ((∃ rL rLU, halfRun 5 1 1 3 b.1.dstData3D b.2 0 = some rL ∧
            halfRun 5 1 1 3 rL.1 b.2 1 = some rLU) ↔
          (∃ rU rUL, halfRun 5 1 1 3 b.1.dstData3D b.2 1 = some rU ∧
            halfRun 5 1 1 3 rU.1 b.2 0 = some rUL))) ∧
      (1 * 1 * 3 + 2 ≤ 5 → ∀ B NL NU, NoLabelOverflow 1 1 3 splitVolume B NL NU →
        ∃ rL rLU, halfRun 5 1 1 3 b.1.dstData3D b.2 0 = some rL ∧
          halfRun 5 1 1 3 rL.1 b.2 1 = some rLU)) ∧
    ((boundaryPass 5 1 1 3 splitVolume).bind fun b =>
      (halfRun 5 1 1 3 b.1.dstData3D b.2 0).bind fun rL =>
        (halfRun 5 1 1 3 rL.1 b.2 1).map fun rLU =>
          (voxelAt rLU.1 ⟨0, 0, 0⟩, voxelAt rLU.1 ⟨0, 0, 2⟩, rL.2, rLU.2))
      = some (4, 5, 1, 1) ∧
    ((boundaryPass 5 1 1 3 splitVolume).bind fun b =>
      (halfRun 5 1 1 3 b.1.dstData3D b.2 1).bind fun rU =>
        (halfRun 5 1 1 3 rU.1 b.2 0).map fun rUL =>
          (voxelAt rUL.1 ⟨0, 0, 0⟩, voxelAt rUL.1 ⟨0, 0, 2⟩, rUL.2, rU.2))
      = some (4, 5, 1, 1) :=
  ⟨halfRuns_commute 5 1 1 3 splitVolume (by decide), by decide, by decide⟩

/-! ### More fuel does not change a result -/

theorem dfsLoop_mono (Dx Dy Dz label : Nat) :
    ∀ (fuel : Nat) (st st1 : FillState), dfsLoop Dx Dy Dz label fuel st = some st1 →
      ∀ fuel2, fuel ≤ fuel2 → dfsLoop Dx Dy Dz label fuel2 st = some st1 := by
  intro fuel
  induction fuel with
  | zero => intro st st1 h; simp [dfsLoop] at h
  | succ n ih =>
    intro st st1 h fuel2 hle
    obtain ⟨m, rfl⟩ : ∃ m, fuel2 = m + 1 := ⟨fuel2 - 1, by omega⟩
    simp only [dfsLoop] at h ⊢
    by_cases hs : getSize st.iStack > 0
    · rw [if_pos hs] at h ⊢
      exact ih _ _ h m (by omega)
    · rw [if_neg hs] at h ⊢
      exact h

theorem singlePassDFS_mono {fuel fuel2 Dx Dy Dz : Nat} {v : Volume} {i j k : Int} {label : Nat}
    {iS jS kS : Stack} {st1 : FillState}
    (h : singlePassDFS fuel Dx Dy Dz v i j k label iS jS kS = some st1) (hle : fuel ≤ fuel2) :
    singlePassDFS fuel2 Dx Dy Dz v i j k label iS jS kS = some st1 :=
  dfsLoop_mono Dx Dy Dz label fuel _ _ h fuel2 hle

theorem scanVoxel_mono {fuel fuel2 Dx Dy Dz st : Nat} {s s1 : ScanState} {i j k : Int}
    (h : scanVoxel fuel Dx Dy Dz st s i j k = some s1) (hle : fuel ≤ fuel2) :
    scanVoxel fuel2 Dx Dy Dz st s i j k = some s1 := by
  unfold scanVoxel at h ⊢
  by_cases hv : s.fill.dstData3D k j i = 1
  · rw [if_pos hv] at h ⊢
    rw [Option.map_eq_some'] at h
    obtain ⟨st1, hdfs, hs1⟩ := h
    rw [singlePassDFS_mono hdfs hle, Option.map_some', hs1]
  · rw [if_neg hv] at h ⊢
    exact h

theorem foldlM_option_mono {α σ : Type} (f g : σ → α → Option σ)
    (h : ∀ s a r, f s a = some r → g s a = some r) :
    ∀ (l : List α) (s r : σ), l.foldlM f s = some r → l.foldlM g s = some r := by
  intro l
  induction l with
  | nil => intro s r hr; exact hr
  | cons a l ih =>
    intro s r hr
    rw [List.foldlM_cons] at hr ⊢
    cases hf : f s a with
    | none => rw [hf] at hr; simp at hr
    | some s1 =>
      rw [hf] at hr
      rw [h s a s1 hf]
      exact ih s1 r hr

theorem singlePassLabeling_mono {fuel fuel2 Dx Dy Dz : Nat} {v : Volume} {kMin kMax : Int}
    {a st : Nat} {r : Volume × Nat}
    (h : singlePassLabeling fuel Dx Dy Dz v kMin kMax a st = some r) (hle : fuel ≤ fuel2) :
    singlePassLabeling fuel2 Dx Dy Dz v kMin kMax a st = some r := by
  unfold singlePassLabeling at h ⊢
  simp only [Option.map_eq_some'] at h ⊢
  obtain ⟨s1, hs1, hr⟩ := h
  refine ⟨s1, ?_, hr⟩
  rw [scanRange_eq_foldlM] at hs1 ⊢
  exact foldlM_option_mono _ _ (fun s p r h => scanVoxel_mono h hle) _ _ _ hs1

/-! ### The loop as a sequence of states -/

theorem singlePassDFS_eq_dfsLoop (fuel Dx Dy Dz : Nat) (v : Volume) (i j k : Int)
    (label : Nat) (iS jS kS : Stack) :
    singlePassDFS fuel Dx Dy Dz v i j k label iS jS kS
      = dfsLoop Dx Dy Dz label fuel (dfsStart v i j k iS jS kS) := rfl

theorem dfsStart_holds (v : Volume) (p : Voxel) {iS jS kS : Stack}
    (hi : iS.Holds []) (hj : jS.Holds []) (hk : kS.Holds []) :
    (dfsStart v p.i p.j p.k iS jS kS).Holds [p] :=
  ⟨hi.push_holds p.i, hj.push_holds p.j, hk.push_holds p.k⟩

theorem fillAfter_nil (Dx Dy Dz label : Nat) (v : Volume) :
    ∀ n, fillAfter Dx Dy Dz label n (v, []) = (v, []) := by
  intro n
  induction n with
  | zero => rfl
  | succ n ih => simp only [fillAfter, fillStep]; exact ih

theorem FillState.Holds.size_eq {st : FillState} {l : List Voxel} (h : st.Holds l) :
    getSize st.iStack = (l.length : Int) ∧ getSize st.jStack = (l.length : Int) ∧
      getSize st.kStack = (l.length : Int) := by
  obtain ⟨hi, hj, hk⟩ := h
  refine ⟨?_, ?_, ?_⟩
  · have := hi.getSize_eq; simpa using this
  · have := hj.getSize_eq; simpa using this
  · have := hk.getSize_eq; simpa using this

theorem dfsAfter_refines (Dx Dy Dz label : Nat) :
    ∀ (n : Nat) (st : FillState) (l : List Voxel), st.Holds l →
      (dfsAfter Dx Dy Dz label n st).dstData3D
          = (fillAfter Dx Dy Dz label n (st.dstData3D, l)).1 ∧
        (dfsAfter Dx Dy Dz label n st).Holds
          (fillAfter Dx Dy Dz label n (st.dstData3D, l)).2 := by
  intro n
  induction n with
  | zero => intro st l h; exact ⟨rfl, h⟩
  | succ n ih =>
    intro st l h
    have hsz := h.size_eq.1
    cases l with
    | nil =>
      have hs : ¬ getSize st.iStack > 0 := by rw [hsz]; simp
      simp only [dfsAfter, if_neg hs]
      rw [fillAfter_nil]
      exact ⟨rfl, h⟩
    | cons p rest =>
      have hs : getSize st.iStack > 0 := by
        rw [hsz]; simp only [List.length_cons, Nat.cast_add, Nat.cast_one]; omega
      simp only [dfsAfter, if_pos hs, fillAfter, fillStep]
      obtain ⟨hv, hh⟩ := h.dfsBody_holds Dx Dy Dz label
      have := ih (dfsBody Dx Dy Dz label st) _ hh
      rw [hv] at this
      exact this

theorem dfsLoop_eq_dfsAfter (Dx Dy Dz label : Nat) :
    ∀ (fuel : Nat) (st st1 : FillState), dfsLoop Dx Dy Dz label fuel st = some st1 →
      ∃ n, n < fuel ∧ st1 = dfsAfter Dx Dy Dz label n st ∧ ¬ getSize st1.iStack > 0 := by
  intro fuel
  induction fuel with
  | zero => intro st st1 h; simp [dfsLoop] at h
  | succ m ih =>
    intro st st1 h
    simp only [dfsLoop] at h
    by_cases hs : getSize st.iStack > 0
    · rw [if_pos hs] at h
      obtain ⟨n, hn, he, hex⟩ := ih _ _ h
      refine ⟨n + 1, by omega, ?_, hex⟩
      simp only [dfsAfter, if_pos hs]
      exact he
    · rw [if_neg hs] at h
      simp only [Option.some.injEq] at h
      subst h
      exact ⟨0, by omega, rfl, hs⟩

/-! ## Claims about the run of `singlePassDFS` -/

theorem foldl_visitList_length_le (label : Nat) (L : List Voxel) :
    ∀ s : Volume × List Voxel, s.2.length ≤ (L.foldl (visitList label) s).2.length := by
  induction L with
  | nil => intro s; exact le_refl _
  | cons q L ih =>
    intro s
    rw [List.foldl_cons]
    refine le_trans ?_ (ih _)
    unfold visitList
    by_cases hv : voxelAt s.1 q = 1
    · rw [if_pos hv]; simp
    · rw [if_neg hv]

theorem dfsBody_measure {Dx Dy Dz label : Nat} (hl : label ≠ 1) {st : FillState} {p : Voxel}
    {rest : List Voxel} (hs : st.Holds (p :: rest)) (hp : InBox Dx Dy Dz p) :
    onesCount Dx Dy Dz (dfsBody Dx Dy Dz label st).dstData3D < onesCount Dx Dy Dz st.dstData3D ∨
    (onesCount Dx Dy Dz (dfsBody Dx Dy Dz label st).dstData3D = onesCount Dx Dy Dz st.dstData3D ∧
      getSize (dfsBody Dx Dy Dz label st).iStack < getSize st.iStack) := by
  obtain ⟨hv, hh⟩ := hs.dfsBody_holds Dx Dy Dz label
  have hm := foldl_visitList_measure hl (neighbors Dx Dy Dz p) (st.dstData3D, rest)
    (fun q hq => neighbors_inBox hp hq)
  have hlen := foldl_visitList_length_le label (neighbors Dx Dy Dz p) (st.dstData3D, rest)
  have h1 := hh.size_eq.1
  have h2 := hs.size_eq.1
  rw [hv, h1, h2]
  simp only [List.length_cons, Nat.cast_add, Nat.cast_one] at hm hlen ⊢
  omega

theorem singlePassLabeling_total {Dx Dy Dz : Nat} {v : Volume} {kMin kMax : Int} {a st : Nat}
    (h0 : 0 ≤ kMin) (h1 : kMax ≤ (Dz : Int)) (ha : a < PIXEL_RANGE) (N : Nat)
    (hN : AtMostComponents Dx Dy Dz v (fun p => kMin ≤ p.k ∧ p.k < kMax) N)
    (hl : ∀ n, n < N → labelAt a st n ≠ 1) :
    ∃ r, ∀ fuel, Dx * Dy * Dz + 2 ≤ fuel →
      singlePassLabeling fuel Dx Dy Dz v kMin kMax a st = some r := by
  obtain ⟨r, hr⟩ := @singlePassLabeling_returns_of_bound (Dx * Dy * Dz + 2) Dx Dy Dz v
    kMin kMax a st h0 h1 ha (le_refl _) N hN hl
  exact ⟨r, fun fuel hf => singlePassLabeling_mono hr hf⟩

/-- C24: for a label other than 1, every iteration of the loop of `singlePassDFS` (entered
with an in-bounds coordinate on top of the stack) either decreases the number of 1-valued
voxels or keeps it and decreases the stack size; the fill is total: with any fuel of at
least `Dx * Dy * Dz + 2` it returns one and the same result; and `singlePassLabeling`
returns, also with one result for all such fuels, whenever none of the labels it
generates (one per component met, at most `N` of them) equals 1. -/
theorem singlePassDFS_terminates (Dx Dy Dz : Nat) (label : Nat) (hl : label ≠ 1) :
    (∀ (st : FillState) (p : Voxel) (rest : List Voxel), st.Holds (p :: rest) →
      InBox Dx Dy Dz p →
      onesCount Dx Dy Dz (dfsBody Dx Dy Dz label st).dstData3D
          < onesCount Dx Dy Dz st.dstData3D ∨
      (onesCount Dx Dy Dz (dfsBody Dx Dy Dz label st).dstData3D
          = onesCount Dx Dy Dz st.dstData3D ∧
        getSize (dfsBody Dx Dy Dz label st).iStack < getSize st.iStack)) ∧
    (∀ (v : Volume) (p : Voxel) (iS jS kS : Stack), InBox Dx Dy Dz p →
      iS.Holds [] → jS.Holds [] → kS.Holds [] →
      ∃ st1, ∀ fuel, Dx * Dy * Dz + 2 ≤ fuel →
        singlePassDFS fuel Dx Dy Dz v p.i p.j p.k label iS jS kS = some st1) ∧
    (∀ (v : Volume) (kMin kMax : Int) (labelStart labelStep N : Nat), 0 ≤ kMin →
      kMax ≤ (Dz : Int) → labelStart < PIXEL_RANGE →
      AtMostComponents Dx Dy Dz v (fun p => kMin ≤ p.k ∧ p.k < kMax) N →
      (∀ n, n < N → labelAt labelStart labelStep n ≠ 1) →
      ∃ r, ∀ fuel, Dx * Dy * Dz + 2 ≤ fuel →
        singlePassLabeling fuel Dx Dy Dz v kMin kMax labelStart labelStep = some r) := by
  refine ⟨?_, ?_, ?_⟩
  · intro st p rest hs hp
    exact dfsBody_measure hl hs hp
  · intro v p iS jS kS hp hi hj hk
    obtain ⟨st1, h1⟩ := @singlePassDFS_returns (Dx * Dy * Dz + 2) Dx Dy Dz v p label
      iS jS kS hp hi hj hk hl (le_refl _)
    exact ⟨st1, fun fuel hf => singlePassDFS_mono h1 hf⟩
  · intro v kMin kMax a st N h0 h1 ha hN hlab
    exact singlePassLabeling_total h0 h1 ha N hN hlab

/-- On the row `[1, 1, 0, 1]` with the seed `(0,0,0)` already written and label 2: the first
iteration turns one `1` into `2`, and every fuel from 6 on gives the same result. -/
theorem singlePassDFS_terminates_witness :
    (2 : Nat) ≠ 1 ∧
    onesCount 4 1 1 (dfsBody 4 1 1 2 (dfsStart (writeAt rowVolume ⟨0, 0, 0⟩ 2) 0 0 0
        (createStack 0) (createStack 0) (createStack 0))).dstData3D
      < onesCount 4 1 1 (writeAt rowVolume ⟨0, 0, 0⟩ 2) ∧
    ∃ st1, ∀ fuel, 4 * 1 * 1 + 2 ≤ fuel →
      singlePassDFS fuel 4 1 1 (writeAt rowVolume ⟨0, 0, 0⟩ 2) 0 0 0 2
        (createStack 0) (createStack 0) (createStack 0) = some st1 := by
  have h := singlePassDFS_terminates 4 1 1 2 (by decide)
  refine ⟨by decide, ?_, ?_⟩
  · have hs : (dfsStart (writeAt rowVolume ⟨0, 0, 0⟩ 2) 0 0 0
        (createStack 0) (createStack 0) (createStack 0)).Holds [⟨0, 0, 0⟩] :=
      dfsStart_holds _ ⟨0, 0, 0⟩ (createStack_holds 0) (createStack_holds 0)
        (createStack_holds 0)
    rcases h.1 _ ⟨0, 0, 0⟩ [] hs (by decide) with h1 | ⟨h1, h2⟩
    · exact h1
    · exfalso
      revert h2
      decide
  · exact h.2.1 (writeAt rowVolume ⟨0, 0, 0⟩ 2) ⟨0, 0, 0⟩ _ _ _ (by decide)
      (createStack_holds 0) (createStack_holds 0) (createStack_holds 0)

theorem FillState.Holds.pops {st : FillState} {p : Voxel} {rest : List Voxel}
    (hs : st.Holds (p :: rest)) :
    (pop st.iStack).1 = p.i ∧ (pop st.jStack).1 = p.j ∧ (pop st.kStack).1 = p.k ∧
    isEmpty st.iStack = false ∧ isEmpty st.jStack = false ∧ isEmpty st.kStack = false := by
  obtain ⟨hi, hj, hk⟩ := hs
  simp only [List.map_cons] at hi hj hk
  have hne : ∀ (s : Stack) (x : Int) (l : List Int), s.Holds (x :: l) → isEmpty s = false := by
    intro s x l h
    have := h.1
    simp only [List.length_cons, Nat.cast_add, Nat.cast_one] at this
    simp only [isEmpty, beq_eq_false_iff_ne, ne_eq]
    omega
  exact ⟨hi.pop_holds.1, hj.pop_holds.1, hk.pop_holds.1, hne _ _ _ hi, hne _ _ _ hj,
    hne _ _ _ hk⟩

/-- C25: when `singlePassDFS` is entered with its three stacks empty, after every number
`n` of loop iterations the three stacks are the `i`-, `j`- and `k`-projections of one
stack of coordinate triples (that of the one-stack loop), so they have equal size; whenever
the loop condition `getSize(iStack) > 0` holds none of the three stacks is empty, so no
`pop` takes the branch that returns `-1`, and the three popped values are the coordinates
of the triple on top; when the function returns, all three stacks are empty. -/
theorem singlePassDFS_stacks_in_lock_step (Dx Dy Dz : Nat) (v : Volume) (p : Voxel)
    (label : Nat) (iS jS kS : Stack)
    (hi : iS.Holds []) (hj : jS.Holds []) (hk : kS.Holds []) :
    (∀ n,
      (dfsAfter Dx Dy Dz label n (dfsStart v p.i p.j p.k iS jS kS)).Holds
        (fillAfter Dx Dy Dz label n (v, [p])).2 ∧
      getSize (dfsAfter Dx Dy Dz label n (dfsStart v p.i p.j p.k iS jS kS)).iStack
        = getSize (dfsAfter Dx Dy Dz label n (dfsStart v p.i p.j p.k iS jS kS)).jStack ∧
      getSize (dfsAfter Dx Dy Dz label n (dfsStart v p.i p.j p.k iS jS kS)).jStack
        = getSize (dfsAfter Dx Dy Dz label n (dfsStart v p.i p.j p.k iS jS kS)).kStack ∧
      (getSize (dfsAfter Dx Dy Dz label n (dfsStart v p.i p.j p.k iS jS kS)).iStack > 0 →
        isEmpty (dfsAfter Dx Dy Dz label n (dfsStart v p.i p.j p.k iS jS kS)).iStack = false ∧
        isEmpty (dfsAfter Dx Dy Dz label n (dfsStart v p.i p.j p.k iS jS kS)).jStack = false ∧
        isEmpty (dfsAfter Dx Dy Dz label n (dfsStart v p.i p.j p.k iS jS kS)).kStack = false ∧
        ∃ q rest, (fillAfter Dx Dy Dz label n (v, [p])).2 = q :: rest ∧
          (pop (dfsAfter Dx Dy Dz label n (dfsStart v p.i p.j p.k iS jS kS)).iStack).1 = q.i ∧
          (pop (dfsAfter Dx Dy Dz label n (dfsStart v p.i p.j p.k iS jS kS)).jStack).1 = q.j ∧
          (pop (dfsAfter Dx Dy Dz label n (dfsStart v p.i p.j p.k iS jS kS)).kStack).1
            = q.k)) ∧
    (∀ fuel st1, singlePassDFS fuel Dx Dy Dz v p.i p.j p.k label iS jS kS = some st1 →
      (∃ n, n < fuel ∧ st1 = dfsAfter Dx Dy Dz label n (dfsStart v p.i p.j p.k iS jS kS)) ∧
      st1.Holds [] ∧ isEmpty st1.iStack = true ∧ isEmpty st1.jStack = true ∧
      isEmpty st1.kStack = true) := by
  have hstart := dfsStart_holds v p hi hj hk
  refine ⟨?_, ?_⟩
  · intro n
    obtain ⟨-, hh⟩ := dfsAfter_refines Dx Dy Dz label n _ _ hstart
    have hh2 : (dfsAfter Dx Dy Dz label n (dfsStart v p.i p.j p.k iS jS kS)).Holds
        (fillAfter Dx Dy Dz label n (v, [p])).2 := hh
    obtain ⟨s1, s2, s3⟩ := hh2.size_eq
    refine ⟨hh2, by rw [s1, s2], by rw [s2, s3], ?_⟩
    intro hpos
    cases hl : (fillAfter Dx Dy Dz label n (v, [p])).2 with
    | nil =>
      rw [hl] at s1
      rw [s1] at hpos
      simp at hpos
    | cons q rest =>
      rw [hl] at hh2
      obtain ⟨a, b, c, d, e, f⟩ := hh2.pops
      exact ⟨d, e, f, q, rest, rfl, a, b, c⟩
  · intro fuel st1 h
    rw [singlePassDFS_eq_dfsLoop] at h
    obtain ⟨n, hn, he, -⟩ := dfsLoop_eq_dfsAfter Dx Dy Dz label fuel _ _ h
    have hemp := (dfsLoop_refines Dx Dy Dz label fuel _ [p] hstart).2 st1 h
    obtain ⟨s1, s2, s3⟩ := hemp.size_eq
    simp only [getSize, List.length_nil, Nat.cast_zero] at s1 s2 s3
    exact ⟨⟨n, hn, he⟩, hemp, (isEmpty_iff _).2 s1, (isEmpty_iff _).2 s2, (isEmpty_iff _).2 s3⟩

/-- On the row `[1, 1, 0, 1]`, seed `(0,0,0)`, label 2: after one iteration the three
stacks hold the single triple `(1,0,0)`; the run returns with empty stacks. -/
theorem singlePassDFS_stacks_in_lock_step_witness :
    (fillAfter 4 1 1 2 1 (writeAt rowVolume ⟨0, 0, 0⟩ 2, [⟨0, 0, 0⟩])).2 = [⟨1, 0, 0⟩] ∧
    (dfsAfter 4 1 1 2 1 (dfsStart (writeAt rowVolume ⟨0, 0, 0⟩ 2) 0 0 0
        (createStack 0) (createStack 0) (createStack 0))).Holds
      (fillAfter 4 1 1 2 1 (writeAt rowVolume ⟨0, 0, 0⟩ 2, [⟨0, 0, 0⟩])).2 ∧
    ∀ fuel st1, singlePassDFS fuel 4 1 1 (writeAt rowVolume ⟨0, 0, 0⟩ 2) 0 0 0 2
        (createStack 0) (createStack 0) (createStack 0) = some st1 →
      isEmpty st1.iStack = true ∧ isEmpty st1.jStack = true ∧ isEmpty st1.kStack = true := by
  have h := singlePassDFS_stacks_in_lock_step 4 1 1 (writeAt rowVolume ⟨0, 0, 0⟩ 2) ⟨0, 0, 0⟩ 2
    (createStack 0) (createStack 0) (createStack 0) (createStack_holds 0)
    (createStack_holds 0) (createStack_holds 0)
  refine ⟨by decide, (h.1 1).1, ?_⟩
  intro fuel st1 hst
  exact (h.2 fuel st1 hst).2.2

/-! ### Every voxel access of the fill is in range -/

theorem guarded_visitChecked (Dx Dy Dz label : Nat) (st : FillState) (c : Prop) [Decidable c]
    (i j k : Int)
    (h : c → 0 ≤ i ∧ i < (Dx : Int) ∧ 0 ≤ j ∧ j < (Dy : Int) ∧ 0 ≤ k ∧ k < (Dz : Int)) :
    (if c then visitNeighborChecked Dx Dy Dz label st i j k else some st)
      = some (if c then visitNeighbor label st i j k else st) := by
  by_cases hc : c
  · rw [if_pos hc, if_pos hc]
    unfold visitNeighborChecked
    rw [if_pos (h hc)]
  · rw [if_neg hc, if_neg hc]

theorem dfsBodyChecked_eq {Dx Dy Dz label : Nat} {st : FillState} {p : Voxel}
    {rest : List Voxel} (hs : st.Holds (p :: rest)) (hp : InBox Dx Dy Dz p) :
    dfsBodyChecked Dx Dy Dz label st = some (dfsBody Dx Dy Dz label st) := by
  obtain ⟨ei, ej, ek, -, -, -⟩ := hs.pops
  unfold InBox at hp
  unfold dfsBodyChecked dfsBody
  simp only [ei, ej, ek]
  rw [guarded_visitChecked Dx Dy Dz label _ _ _ _ _ (fun h => by omega), Option.some_bind,
    guarded_visitChecked Dx Dy Dz label _ _ _ _ _ (fun h => by omega), Option.some_bind,
    guarded_visitChecked Dx Dy Dz label _ _ _ _ _ (fun h => by omega), Option.some_bind,
    guarded_visitChecked Dx Dy Dz label _ _ _ _ _ (fun h => by omega), Option.some_bind,
    guarded_visitChecked Dx Dy Dz label _ _ _ _ _ (fun h => by omega), Option.some_bind,
    guarded_visitChecked Dx Dy Dz label _ _ _ _ _ (fun h => by omega)]

theorem fillStep_inBox {Dx Dy Dz label : Nat} {s : Volume × List Voxel}
    (h : ∀ q ∈ s.2, InBox Dx Dy Dz q) : ∀ q ∈ (fillStep Dx Dy Dz label s).2, InBox Dx Dy Dz q := by
  obtain ⟨v, l⟩ := s
  cases l with
  | nil => exact h
  | cons p rest =>
    intro q hq
    simp only [fillStep] at hq
    rw [foldl_visitList_mem] at hq
    rcases hq with hq | hq
    · exact h q (List.mem_cons_of_mem _ hq)
    · exact neighbors_inBox (h p (List.mem_cons_self _ _)) hq.1

theorem fillAfter_inBox {Dx Dy Dz label : Nat} :
    ∀ (n : Nat) (s : Volume × List Voxel), (∀ q ∈ s.2, InBox Dx Dy Dz q) →
      ∀ q ∈ (fillAfter Dx Dy Dz label n s).2, InBox Dx Dy Dz q := by
  intro n
  induction n with
  | zero => intro s h; exact h
  | succ n ih =>
    intro s h
    simp only [fillAfter]
    exact ih _ (fillStep_inBox h)

theorem dfsLoopChecked_eq (Dx Dy Dz label : Nat) :
    ∀ (fuel : Nat) (st : FillState) (l : List Voxel), st.Holds l →
      (∀ q ∈ l, InBox Dx Dy Dz q) →
      dfsLoopChecked Dx Dy Dz label fuel st = (dfsLoop Dx Dy Dz label fuel st).map some := by
  intro fuel
  induction fuel with
  | zero => intro st l _ _; rfl
  | succ n ih =>
    intro st l hs hbox
    have hsz := hs.size_eq.1
    simp only [dfsLoopChecked, dfsLoop]
    cases l with
    | nil =>
      have hn : ¬ getSize st.iStack > 0 := by rw [hsz]; simp
      rw [if_neg hn, if_neg hn]
      rfl
    | cons p rest =>
      have hpos : getSize st.iStack > 0 := by
        rw [hsz]; simp only [List.length_cons, Nat.cast_add, Nat.cast_one]; omega
      rw [if_pos hpos, if_pos hpos, dfsBodyChecked_eq hs (hbox p (List.mem_cons_self _ _))]
      obtain ⟨-, hh⟩ := hs.dfsBody_holds Dx Dy Dz label
      refine ih _ _ hh ?_
      exact @fillStep_inBox Dx Dy Dz label (st.dstData3D, p :: rest) hbox

/-- C26: for every volume and every seed inside `[0, Dx) × [0, Dy) × [0, Dz)`, the fill with
every voxel access checked against the extents never takes the out-of-range branch: it
is the unchecked `singlePassDFS`. After every number of iterations every coordinate
triple on the stacks lies inside the volume, and the next iteration, which pops the top
triple and reads and writes its guarded neighbours, makes no access out of range. -/
theorem singlePassDFS_accesses_in_range (fuel Dx Dy Dz : Nat) (v : Volume) (p : Voxel)
    (label : Nat) (iS jS kS : Stack) (hp : InBox Dx Dy Dz p)
    (hi : iS.Holds []) (hj : jS.Holds []) (hk : kS.Holds []) :
    singlePassDFSChecked fuel Dx Dy Dz v p.i p.j p.k label iS jS kS
      = (singlePassDFS fuel Dx Dy Dz v p.i p.j p.k label iS jS kS).map some ∧
    ∀ n, ∃ l : List Voxel,
      (dfsAfter Dx Dy Dz label n (dfsStart v p.i p.j p.k iS jS kS)).Holds l ∧
      (∀ q ∈ l, InBox Dx Dy Dz q) ∧
      (getSize (dfsAfter Dx Dy Dz label n (dfsStart v p.i p.j p.k iS jS kS)).iStack > 0 →
        dfsBodyChecked Dx Dy Dz label
            (dfsAfter Dx Dy Dz label n (dfsStart v p.i p.j p.k iS jS kS))
          = some (dfsBody Dx Dy Dz label
            (dfsAfter Dx Dy Dz label n (dfsStart v p.i p.j p.k iS jS kS)))) := by
  have hstart := dfsStart_holds v p hi hj hk
  have hb1 : ∀ q ∈ [p], InBox Dx Dy Dz q := by
    intro q hq; rw [List.mem_singleton] at hq; rw [hq]; exact hp
  refine ⟨?_, ?_⟩
  · unfold singlePassDFSChecked
    rw [singlePassDFS_eq_dfsLoop]
    exact dfsLoopChecked_eq Dx Dy Dz label fuel _ [p] hstart hb1
  · intro n
    obtain ⟨-, hh⟩ := dfsAfter_refines Dx Dy Dz label n _ _ hstart
    have hbox := @fillAfter_inBox Dx Dy Dz label n (v, [p]) hb1
    have hh2 : (dfsAfter Dx Dy Dz label n (dfsStart v p.i p.j p.k iS jS kS)).Holds
        (fillAfter Dx Dy Dz label n (v, [p])).2 := hh
    refine ⟨_, hh2, hbox, ?_⟩
    intro hpos
    cases hl : (fillAfter Dx Dy Dz label n (v, [p])).2 with
    | nil =>
      have s1 := hh2.size_eq.1
      rw [hl] at s1
      rw [s1] at hpos
      simp at hpos
    | cons q rest =>
      rw [hl] at hh2 hbox
      exact dfsBodyChecked_eq hh2 (hbox q (List.mem_cons_self _ _))

/-- On the row `[1, 1, 0, 1]`, seed `(0,0,0)`, label 2: the checked fill returns, with
`[2, 2, 0, 1]`; from the seed `(5,0,0)`, outside the row, the first iteration reads
`(4,0,0)` out of range. -/
theorem singlePassDFS_accesses_in_range_witness :
    InBox 4 1 1 ⟨0, 0, 0⟩ ∧
    singlePassDFSChecked 6 4 1 1 (writeAt rowVolume ⟨0, 0, 0⟩ 2) 0 0 0 2
        (createStack 0) (createStack 0) (createStack 0)
      = (singlePassDFS 6 4 1 1 (writeAt rowVolume ⟨0, 0, 0⟩ 2) 0 0 0 2
        (createStack 0) (createStack 0) (createStack 0)).map some ∧
    (singlePassDFSChecked 6 4 1 1 (writeAt rowVolume ⟨0, 0, 0⟩ 2) 0 0 0 2
        (createStack 0) (createStack 0) (createStack 0)).map
      (fun o => o.map (fun st => (voxelAt st.dstData3D ⟨0, 0, 0⟩, voxelAt st.dstData3D ⟨1, 0, 0⟩,
        voxelAt st.dstData3D ⟨2, 0, 0⟩, voxelAt st.dstData3D ⟨3, 0, 0⟩)))
      = some (some (2, 2, 0, 1)) ∧
    (singlePassDFSChecked 6 4 1 1 rowVolume 5 0 0 2
        (createStack 0) (createStack 0) (createStack 0)).map Option.isSome = some false :=
  ⟨by decide,
    (singlePassDFS_accesses_in_range 6 4 1 1 (writeAt rowVolume ⟨0, 0, 0⟩ 2) ⟨0, 0, 0⟩ 2
      (createStack 0) (createStack 0) (createStack 0) (by decide) (createStack_holds 0)
      (createStack_holds 0) (createStack_holds 0)).1,
    by decide, by decide⟩

/-! ### No coordinate is pushed twice -/

theorem PushInv.visit {Dx Dy Dz label : Nat} {s : (Volume × List Voxel) × List Voxel}
    (h : PushInv Dx Dy Dz label s) (hl : label ≠ 1) {q : Voxel} (hq : InBox Dx Dy Dz q) :
    PushInv Dx Dy Dz label (visitListLog label s q) := by
  unfold visitListLog
  by_cases hv : voxelAt s.1.1 q = 1
  · rw [if_pos hv]
    have hnot : q ∉ s.2 := fun hmem => hl (by rw [← h.logLabel q hmem]; exact hv)
    refine ⟨List.nodup_cons.2 ⟨hnot, h.logNodup⟩, ?_, ?_, h.stackSub.cons₂ q⟩
    · intro x hx
      rcases List.mem_cons.1 hx with e | hx
      · rw [e]; exact hq
      · exact h.logInBox x hx
    · intro x hx
      show voxelAt (writeAt s.1.1 q label) x = label
      rcases List.mem_cons.1 hx with e | hx
      · rw [e]; exact voxelAt_writeAt_self _ _ _
      · have hne : x ≠ q := fun e => hnot (e ▸ hx)
        rw [voxelAt_writeAt_ne _ _ hne]
        exact h.logLabel x hx
  · rw [if_neg hv]
    exact h

theorem PushInv.foldl_visit {Dx Dy Dz label : Nat} (hl : label ≠ 1) (L : List Voxel) :
    ∀ s : (Volume × List Voxel) × List Voxel, PushInv Dx Dy Dz label s →
      (∀ q ∈ L, InBox Dx Dy Dz q) → PushInv Dx Dy Dz label (L.foldl (visitListLog label) s) := by
  induction L with
  | nil => intro s h _; exact h
  | cons q L ih =>
    intro s h hbox
    rw [List.foldl_cons]
    exact ih _ (h.visit hl (hbox q (List.mem_cons_self _ _)))
      (fun x hx => hbox x (List.mem_cons_of_mem _ hx))

theorem PushInv.popped {Dx Dy Dz label : Nat} {v : Volume} {p : Voxel} {rest log : List Voxel}
    (h : PushInv Dx Dy Dz label ((v, p :: rest), log)) :
    PushInv Dx Dy Dz label ((v, rest), log) :=
  ⟨h.logNodup, h.logInBox, h.logLabel, (List.sublist_cons_self p rest).trans h.stackSub⟩

theorem PushInv.top_inBox {Dx Dy Dz label : Nat} {v : Volume} {p : Voxel}
    {rest log : List Voxel} (h : PushInv Dx Dy Dz label ((v, p :: rest), log)) :
    InBox Dx Dy Dz p :=
  h.logInBox p (h.stackSub.subset (List.mem_cons_self _ _))

theorem PushInv.push_step {Dx Dy Dz label : Nat} (hl : label ≠ 1)
    {s : (Volume × List Voxel) × List Voxel} (h : PushInv Dx Dy Dz label s) :
    PushInv Dx Dy Dz label (fillStepLog Dx Dy Dz label s) := by
  obtain ⟨⟨v, l⟩, log⟩ := s
  cases l with
  | nil => exact h
  | cons p rest =>
    simp only [fillStepLog]
    exact PushInv.foldl_visit hl _ _ h.popped (fun q hq => neighbors_inBox h.top_inBox hq)

theorem PushInv.after {Dx Dy Dz label : Nat} (hl : label ≠ 1) :
    ∀ (n : Nat) (s : (Volume × List Voxel) × List Voxel), PushInv Dx Dy Dz label s →
      PushInv Dx Dy Dz label (fillAfterLog Dx Dy Dz label n s) := by
  intro n
  induction n with
  | zero => intro s h; exact h
  | succ n ih =>
    intro s h
    simp only [fillAfterLog]
    exact ih _ (h.push_step hl)

theorem PushInv.log_length_le {Dx Dy Dz label : Nat} {s : (Volume × List Voxel) × List Voxel}
    (h : PushInv Dx Dy Dz label s) :
    s.1.2.length ≤ s.2.length ∧ s.2.length ≤ Dx * Dy * Dz := by
  refine ⟨h.stackSub.length_le, ?_⟩
  rw [← List.toFinset_card_of_nodup h.logNodup]
  refine le_trans (Finset.card_le_card ?_) (card_boxFinset_le Dx Dy Dz)
  intro x hx
  rw [List.mem_toFinset] at hx
  exact mem_boxFinset.2 (h.logInBox x hx)

theorem foldl_visitListLog_fst (label : Nat) (L : List Voxel) :
    ∀ s : (Volume × List Voxel) × List Voxel,
      (L.foldl (visitListLog label) s).1 = L.foldl (visitList label) s.1 := by
  induction L with
  | nil => intro s; rfl
  | cons q L ih =>
    intro s
    rw [List.foldl_cons, List.foldl_cons, ih]
    congr 1
    unfold visitListLog visitList
    by_cases hv : voxelAt s.1.1 q = 1
    · rw [if_pos hv, if_pos hv]
    · rw [if_neg hv, if_neg hv]

theorem fillStepLog_fst (Dx Dy Dz label : Nat) (s : (Volume × List Voxel) × List Voxel) :
    (fillStepLog Dx Dy Dz label s).1 = fillStep Dx Dy Dz label s.1 := by
  obtain ⟨⟨v, l⟩, log⟩ := s
  cases l with
  | nil => rfl
  | cons p rest =>
    simp only [fillStepLog, fillStep]
    exact foldl_visitListLog_fst label _ _

theorem fillAfterLog_fst (Dx Dy Dz label : Nat) :
    ∀ (n : Nat) (s : (Volume × List Voxel) × List Voxel),
      (fillAfterLog Dx Dy Dz label n s).1 = fillAfter Dx Dy Dz label n s.1 := by
  intro n
  induction n with
  | zero => intro s; rfl
  | succ n ih =>
    intro s
    simp only [fillAfterLog, fillAfter]
    rw [ih, fillStepLog_fst]

theorem PushInv.push_start {Dx Dy Dz label : Nat} {v : Volume} {p : Voxel} (hp : InBox Dx Dy Dz p)
    (hseed : voxelAt v p = label) : PushInv Dx Dy Dz label ((v, [p]), [p]) := by
  refine ⟨List.nodup_singleton p, ?_, ?_, List.Sublist.refl _⟩
  · intro q hq; rw [List.mem_singleton] at hq; rw [hq]; exact hp
  · intro q hq; rw [List.mem_singleton] at hq; rw [hq]; exact hseed

/-- C27: in a run of `singlePassDFS` with a label other than 1 from an in-bounds seed that
already holds the label, after every number `n` of iterations, and after every number `m`
of neighbour blocks of the next iteration, the log of all coordinates pushed so far has no
repetition, every logged voxel holds the label, and the stack is a sublist of the log: the
coordinates on the stack are pairwise distinct and hold the label, and the stack has at
most `Dx * Dy * Dz` entries. -/
theorem singlePassDFS_pushes_once (Dx Dy Dz : Nat) (v : Volume) (p : Voxel) (label : Nat)
    (iS jS kS : Stack) (hp : InBox Dx Dy Dz p)
    (hi : iS.Holds []) (hj : jS.Holds []) (hk : kS.Holds [])
    (hl : label ≠ 1) (hseed : voxelAt v p = label) :
    ∀ n,
      (dfsAfter Dx Dy Dz label n (dfsStart v p.i p.j p.k iS jS kS)).dstData3D
        = (fillAfterLog Dx Dy Dz label n ((v, [p]), [p])).1.1 ∧
      (dfsAfter Dx Dy Dz label n (dfsStart v p.i p.j p.k iS jS kS)).Holds
        (fillAfterLog Dx Dy Dz label n ((v, [p]), [p])).1.2 ∧
      PushInv Dx Dy Dz label (fillAfterLog Dx Dy Dz label n ((v, [p]), [p])) ∧
      (fillAfterLog Dx Dy Dz label n ((v, [p]), [p])).1.2.Nodup ∧
      (∀ q ∈ (fillAfterLog Dx Dy Dz label n ((v, [p]), [p])).1.2,
        voxelAt (dfsAfter Dx Dy Dz label n (dfsStart v p.i p.j p.k iS jS kS)).dstData3D q
          = label) ∧
      getSize (dfsAfter Dx Dy Dz label n (dfsStart v p.i p.j p.k iS jS kS)).iStack
        ≤ ((Dx * Dy * Dz : Nat) : Int) ∧
      (∀ q rest m, (fillAfterLog Dx Dy Dz label n ((v, [p]), [p])).1.2 = q :: rest →
        PushInv Dx Dy Dz label
          (((neighbors Dx Dy Dz q).take m).foldl (visitListLog label)
            (((fillAfterLog Dx Dy Dz label n ((v, [p]), [p])).1.1, rest),
              (fillAfterLog Dx Dy Dz label n ((v, [p]), [p])).2)) ∧
        (((neighbors Dx Dy Dz q).take m).foldl (visitListLog label)
            (((fillAfterLog Dx Dy Dz label n ((v, [p]), [p])).1.1, rest),
              (fillAfterLog Dx Dy Dz label n ((v, [p]), [p])).2)).1.2.length
          ≤ Dx * Dy * Dz) := by
  intro n
  have hstart := dfsStart_holds v p hi hj hk
  obtain ⟨hv, hh⟩ := dfsAfter_refines Dx Dy Dz label n _ _ hstart
  have hfst := fillAfterLog_fst Dx Dy Dz label n ((v, [p]), [p])
  have hinv := PushInv.after hl n _ (PushInv.push_start hp hseed)
  have hv2 : (dfsAfter Dx Dy Dz label n (dfsStart v p.i p.j p.k iS jS kS)).dstData3D
      = (fillAfterLog Dx Dy Dz label n ((v, [p]), [p])).1.1 := by
    rw [hfst]; exact hv
  have hh2 : (dfsAfter Dx Dy Dz label n (dfsStart v p.i p.j p.k iS jS kS)).Holds
      (fillAfterLog Dx Dy Dz label n ((v, [p]), [p])).1.2 := by
    rw [hfst]; exact hh
  refine ⟨hv2, hh2, hinv, hinv.stackSub.nodup hinv.logNodup, ?_, ?_, ?_⟩
  · intro q hq
    rw [hv2]
    exact hinv.logLabel q (hinv.stackSub.subset hq)
  · rw [hh2.size_eq.1]
    have := hinv.log_length_le
    exact_mod_cast le_trans this.1 this.2
  · intro q rest m hq
    have hinv2 : PushInv Dx Dy Dz label
        (((fillAfterLog Dx Dy Dz label n ((v, [p]), [p])).1.1, q :: rest),
          (fillAfterLog Dx Dy Dz label n ((v, [p]), [p])).2) := by
      rw [← hq]; exact hinv
    have h3 := PushInv.foldl_visit hl ((neighbors Dx Dy Dz q).take m) _ hinv2.popped
      (fun x hx => neighbors_inBox hinv2.top_inBox (List.mem_of_mem_take hx))
    exact ⟨h3, le_trans h3.log_length_le.1 h3.log_length_le.2⟩

/-- On the row `[1, 1, 0, 1]`, seed `(0,0,0)` holding the label 2: after one iteration the
stack is `[(1,0,0)]` and the log is `[(1,0,0), (0,0,0)]`. -/
theorem singlePassDFS_pushes_once_witness :
    InBox 4 1 1 ⟨0, 0, 0⟩ ∧
    (fillAfterLog 4 1 1 2 1
      ((writeAt rowVolume ⟨0, 0, 0⟩ 2, [⟨0, 0, 0⟩]), [⟨0, 0, 0⟩])).1.2 = [⟨1, 0, 0⟩] ∧
    (fillAfterLog 4 1 1 2 1
      ((writeAt rowVolume ⟨0, 0, 0⟩ 2, [⟨0, 0, 0⟩]), [⟨0, 0, 0⟩])).2
        = [⟨1, 0, 0⟩, ⟨0, 0, 0⟩] ∧
    PushInv 4 1 1 2 (fillAfterLog 4 1 1 2 1
      ((writeAt rowVolume ⟨0, 0, 0⟩ 2, [⟨0, 0, 0⟩]), [⟨0, 0, 0⟩])) :=
  ⟨by decide, by decide, by decide,
    (singlePassDFS_pushes_once 4 1 1 (writeAt rowVolume ⟨0, 0, 0⟩ 2) ⟨0, 0, 0⟩ 2
      (createStack 0) (createStack 0) (createStack 0) (by decide) (createStack_holds 0)
      (createStack_holds 0) (createStack_holds 0) (by decide) (by decide) 1).2.2.1⟩

/-! ## Scenarios of the specification and the z-ranges of the scans -/

theorem foldlM_scanVoxel_noop (fuel Dx Dy Dz st : Nat) :
    ∀ (ps : List Voxel) (s : ScanState), (∀ p ∈ ps, voxelAt s.fill.dstData3D p ≠ 1) →
      ps.foldlM (fun s2 p => scanVoxel fuel Dx Dy Dz st s2 p.i p.j p.k) s = some s := by
  intro ps
  induction ps with
  | nil => intro s _; rfl
  | cons p ps ih =>
    intro s h
    have hp : ¬ s.fill.dstData3D p.k p.j p.i = 1 := h p (List.mem_cons_self _ _)
    rw [List.foldlM_cons]
    have : scanVoxel fuel Dx Dy Dz st s p.i p.j p.k = some s := by
      unfold scanVoxel
      rw [if_neg hp]
    rw [this]
    exact ih s (fun q hq => h q (List.mem_cons_of_mem _ hq))

theorem singlePassLabeling_noop (fuel Dx Dy Dz : Nat) (v : Volume) (kMin kMax : Int)
    (a st : Nat) (h : ∀ p ∈ scanOrder Dx Dy kMin kMax, voxelAt v p ≠ 1) :
    singlePassLabeling fuel Dx Dy Dz v kMin kMax a st = some (v, 0) := by
  unfold singlePassLabeling
  simp only
  rw [scanRange_eq_foldlM, foldlM_scanVoxel_noop fuel Dx Dy Dz st _ _ h]
  rfl

theorem boundaryPass_noop (fuel Dx Dy Dz : Nat) (v : Volume)
    (h : ∀ p ∈ scanOrder Dx Dy (kMid Dz) (kMid Dz + 1), voxelAt v p ≠ 1) :
    boundaryPass fuel Dx Dy Dz v
      = some (FillState.mk v (allocateStack Dx Dy Dz).1 (allocateStack Dx Dy Dz).2.1
          (allocateStack Dx Dy Dz).2.2, 2) := by
  rw [boundaryPass_eq_scanRange, scanRange_eq_foldlM,
    foldlM_scanVoxel_noop fuel Dx Dy Dz 1 _ _ h]
  rfl

/-- C21: on a volume whose voxels are all 0, `singlePassLabeling` over any z-range inside
the volume, with any `labelStart` and `labelStep` (and any fuel), reports 0 components and
returns the volume unchanged; `parallelEdgeFirstSinglePassLabeling` (for `Dz ≥ 1`, so that
the midplane exists) reports 0 boundary components and 0 components in each half and
returns the volume unchanged. -/
theorem zero_volume_no_components (Dx Dy Dz : Nat) (v : Volume)
    (hz : ∀ p, InBox Dx Dy Dz p → voxelAt v p = 0) :
    (∀ (fuel : Nat) (kMin kMax : Int) (labelStart labelStep : Nat), 0 ≤ kMin →
      kMax ≤ (Dz : Int) →
      singlePassLabeling fuel Dx Dy Dz v kMin kMax labelStart labelStep = some (v, 0)) ∧
    (0 < Dz → ∀ fuel, ∃ r, parallelEdgeFirstSinglePassLabeling fuel Dx Dy Dz v = some r ∧
      r.dstData3D = v ∧ r.boundaryCount = 0 ∧ r.lowerCount = 0 ∧ r.upperCount = 0) := by
  have hne : ∀ (kMin kMax : Int), 0 ≤ kMin → kMax ≤ (Dz : Int) →
      ∀ p ∈ scanOrder Dx Dy kMin kMax, voxelAt v p ≠ 1 := by
    intro kMin kMax h0 h1 p hp
    rw [hz p (scanOrder_inBox h0 h1 hp)]
    decide
  refine ⟨?_, ?_⟩
  · intro fuel kMin kMax a st h0 h1
    exact singlePassLabeling_noop fuel Dx Dy Dz v kMin kMax a st (hne kMin kMax h0 h1)
  · intro hDz fuel
    have hk := kMid_range hDz
    have hb := boundaryPass_noop fuel Dx Dy Dz v (hne _ _ hk.1 (by omega))
    have h0 : halfRun fuel Dx Dy Dz v 2 0 = some (v, 0) := by
      rw [halfRun_zero]
      exact singlePassLabeling_noop _ _ _ _ _ _ _ _ _ (hne _ _ (le_refl 0) (le_of_lt hk.2))
    have h1 : halfRun fuel Dx Dy Dz v 2 1 = some (v, 0) := by
      rw [halfRun_one]
      exact singlePassLabeling_noop _ _ _ _ _ _ _ _ _ (hne _ _ (by omega) (le_refl _))
    have hr := @parallel_compose fuel Dx Dy Dz v _ (v, 0) (v, 0) hb h0 h1
    exact ⟨_, hr, rfl, rfl, rfl, rfl⟩

/-- The all-zero `2×2×2` volume: no component in any scan. -/
theorem zero_volume_no_components_witness :
    (∀ (fuel : Nat) (kMin kMax : Int) (labelStart labelStep : Nat), 0 ≤ kMin →
      kMax ≤ ((2 : Nat) : Int) →
      singlePassLabeling fuel 2 2 2 zeroVolume kMin kMax labelStart labelStep
        = some (zeroVolume, 0)) ∧
    (0 < 2 → ∀ fuel, ∃ r, parallelEdgeFirstSinglePassLabeling fuel 2 2 2 zeroVolume = some r ∧
      r.dstData3D = zeroVolume ∧ r.boundaryCount = 0 ∧ r.lowerCount = 0 ∧
      r.upperCount = 0) :=
  zero_volume_no_components 2 2 2 zeroVolume (fun _ _ => rfl)

theorem rowVolume_left_part {Dx Dy Dz : Nat} {q : Voxel}
    (h : Connected Dx Dy Dz rowVolume ⟨0, 0, 0⟩ q) : q.i ≤ 1 := by
  induction h with
  | refl => decide
  | tail hab hbc ih =>
    rename_i b c
    obtain ⟨hadj, hbox, hv⟩ := hbc
    unfold InBox at hbox
    unfold Adjacent6 at hadj
    unfold voxelAt rowVolume at hv
    by_cases hc : c.k = 0 ∧ c.j = 0 ∧ (c.i = 0 ∨ c.i = 1 ∨ c.i = 3)
    · omega
    · rw [if_neg hc] at hv
      omega

/-- C22, on the `4×1×1` row `[1, 1, 0, 1]`: `allocateStack` creates the three stacks with
capacity `STACK_INITIAL_SIZE = (4 + 1 + 1) / 10 = 0`; the scan finds the seed `(0, 0, 0)`
and `singlePassDFS` starts by pushing its coordinates. Each of the three pushes finds
`size = capacity = 0`, leaves the capacity at `0 * 2 = 0` and stores into cell 0 of a block
of capacity 0, so that `top = 0` is not below `capacity = 0`. On the same row in an `8×1×1`
volume, whose stacks are created with capacity 1, the scan (with any fuel from 3 on)
reports 2 components and leaves `[2, 2, 0, 3]` followed by zeros; the voxels 0 and 1 are
connected, the voxels 0 and 3 are not. -/
theorem scenario_B_push_outside_block :
    STACK_INITIAL_SIZE 4 1 1 = 0 ∧ voxelAt rowVolume ⟨0, 0, 0⟩ = 1 ∧
    (∀ fuel, singlePassDFS fuel 4 1 1 (setVoxel rowVolume 0 0 0 2) 0 0 0 2
        (allocateStack 4 1 1).1 (allocateStack 4 1 1).2.1 (allocateStack 4 1 1).2.2
      = dfsLoop 4 1 1 2 fuel
          (dfsStart (setVoxel rowVolume 0 0 0 2) 0 0 0
            (allocateStack 4 1 1).1 (allocateStack 4 1 1).2.1 (allocateStack 4 1 1).2.2)) ∧
    ((dfsStart (setVoxel rowVolume 0 0 0 2) 0 0 0
        (allocateStack 4 1 1).1 (allocateStack 4 1 1).2.1 (allocateStack 4 1 1).2.2).iStack.top,
      (dfsStart (setVoxel rowVolume 0 0 0 2) 0 0 0
        (allocateStack 4 1 1).1 (allocateStack 4 1 1).2.1
        (allocateStack 4 1 1).2.2).iStack.capacity) = (0, 0) ∧
    ((dfsStart (setVoxel rowVolume 0 0 0 2) 0 0 0
        (allocateStack 4 1 1).1 (allocateStack 4 1 1).2.1 (allocateStack 4 1 1).2.2).jStack.top,
      (dfsStart (setVoxel rowVolume 0 0 0 2) 0 0 0
        (allocateStack 4 1 1).1 (allocateStack 4 1 1).2.1
        (allocateStack 4 1 1).2.2).jStack.capacity) = (0, 0) ∧
    ((dfsStart (setVoxel rowVolume 0 0 0 2) 0 0 0
        (allocateStack 4 1 1).1 (allocateStack 4 1 1).2.1 (allocateStack 4 1 1).2.2).kStack.top,
      (dfsStart (setVoxel rowVolume 0 0 0 2) 0 0 0
        (allocateStack 4 1 1).1 (allocateStack 4 1 1).2.1
        (allocateStack 4 1 1).2.2).kStack.capacity) = (0, 0) ∧
    STACK_INITIAL_SIZE 8 1 1 = 1 ∧
    (∀ fuel, 3 ≤ fuel →
      (singlePassLabeling fuel 8 1 1 rowVolume 0 1 2 1).map
        (fun r => ((voxelAt r.1 ⟨0, 0, 0⟩, voxelAt r.1 ⟨1, 0, 0⟩, voxelAt r.1 ⟨2, 0, 0⟩,
          voxelAt r.1 ⟨3, 0, 0⟩), (voxelAt r.1 ⟨4, 0, 0⟩, voxelAt r.1 ⟨5, 0, 0⟩,
          voxelAt r.1 ⟨6, 0, 0⟩, voxelAt r.1 ⟨7, 0, 0⟩), r.2))
        = some ((2, 2, 0, 3), (0, 0, 0, 0), 2)) ∧
    Connected 8 1 1 rowVolume ⟨0, 0, 0⟩ ⟨1, 0, 0⟩ ∧
    ¬ Connected 8 1 1 rowVolume ⟨0, 0, 0⟩ ⟨3, 0, 0⟩ := by
  refine ⟨by decide, by decide, fun _ => rfl, by decide, by decide, by decide, by decide,
    ?_, ?_, ?_⟩
  · intro fuel hfuel
    have hd : (singlePassLabeling 3 8 1 1 rowVolume 0 1 2 1).map
        (fun r => ((voxelAt r.1 ⟨0, 0, 0⟩, voxelAt r.1 ⟨1, 0, 0⟩, voxelAt r.1 ⟨2, 0, 0⟩,
          voxelAt r.1 ⟨3, 0, 0⟩), (voxelAt r.1 ⟨4, 0, 0⟩, voxelAt r.1 ⟨5, 0, 0⟩,
          voxelAt r.1 ⟨6, 0, 0⟩, voxelAt r.1 ⟨7, 0, 0⟩), r.2))
        = some ((2, 2, 0, 3), (0, 0, 0, 0), 2) := by decide
    cases h : singlePassLabeling 3 8 1 1 rowVolume 0 1 2 1 with
    | none => rw [h] at hd; simp at hd
    | some r =>
      rw [h] at hd
      rw [singlePassLabeling_mono h hfuel]
      exact hd
  · exact Relation.ReflTransGen.single ⟨by decide, by decide, by decide⟩
  · intro h
    have := rowVolume_left_part h
    revert this
    decide

/-- C29: on the `6×1×3` volume (stacks of capacity 1) whose only `1`s are at `x = 0`,
`z = 1` and `x = 0`, `z = 2`, the scan of the z-range `[1, 2)`, strictly inside `[0, 3)`,
finds the seed `(0, 0, 1)` and its fill also relabels the voxel at `z = 2`, outside the
range: there is a volume and a range strictly inside `[0, Dz)` for which
`singlePassLabeling` changes a voxel whose `z` is outside the range. -/
theorem singlePassLabeling_writes_outside_range :
    STACK_INITIAL_SIZE 6 1 3 = 1 ∧
    voxelAt upperPairVolume ⟨0, 0, 2⟩ = 1 ∧
    (singlePassLabeling 20 6 1 3 upperPairVolume 1 2 2 1).map
        (fun r => (voxelAt r.1 ⟨0, 0, 0⟩, voxelAt r.1 ⟨0, 0, 1⟩, voxelAt r.1 ⟨0, 0, 2⟩, r.2))
      = some (0, 2, 2, 1) ∧
    ∃ (Dx Dy Dz fuel : Nat) (v : Volume) (kMin kMax : Int) (r : Volume × Nat) (q : Voxel),
      1 ≤ STACK_INITIAL_SIZE Dx Dy Dz ∧ 0 < kMin ∧ kMax < (Dz : Int) ∧
      singlePassLabeling fuel Dx Dy Dz v kMin kMax 2 1 = some r ∧ InBox Dx Dy Dz q ∧
      ¬ (kMin ≤ q.k ∧ q.k < kMax) ∧ voxelAt r.1 q ≠ voxelAt v q := by
  have hd : (singlePassLabeling 20 6 1 3 upperPairVolume 1 2 2 1).map
        (fun r => (voxelAt r.1 ⟨0, 0, 0⟩, voxelAt r.1 ⟨0, 0, 1⟩, voxelAt r.1 ⟨0, 0, 2⟩, r.2))
      = some (0, 2, 2, 1) := by decide
  refine ⟨by decide, by decide, hd, ?_⟩
  cases h : singlePassLabeling 20 6 1 3 upperPairVolume 1 2 2 1 with
  | none => rw [h] at hd; simp at hd
  | some r =>
    rw [h] at hd
    simp only [Option.map_some', Option.some.injEq, Prod.mk.injEq] at hd
    refine ⟨6, 1, 3, 20, upperPairVolume, 1, 2, r, ⟨0, 0, 2⟩, by decide, by decide,
      by decide, h, by decide, by decide, ?_⟩
    rw [hd.2.2.1]
    decide

/-- C28 (as stated, refuted): for `Dz = 3` the midplane is `kMid = 1` and the upper-half
run scans from `z = 2`: on the column `[0, 1, 0]` it finds nothing and leaves the `1` at
`z = 1`, whereas the scan of `[kMid, Dz) = [1, 3)` with the same labels finds one
component and relabels that voxel. -/
theorem upper_half_run_skips_midplane :
    kMid 3 = 1 ∧
    (halfRun 5 1 1 3 midDotVolume 2 1).map (fun r => (voxelAt r.1 ⟨0, 0, 1⟩, r.2))
      = some (1, 0) ∧
    (singlePassLabeling 5 1 1 3 midDotVolume (kMid 3) 3 (halfLabelStart 2 1) 2).map
        (fun r => (voxelAt r.1 ⟨0, 0, 1⟩, r.2)) = some (5, 1) := by
  decide

/-- C28 (amended): `parallelEdgeFirstSinglePassLabeling` is the boundary pass, which scans
the midplane `z = kMid` alone, followed by the lower-half run, invoked with `kMin = 0`,
`kMax = kMid`, and the upper-half run, invoked with `kMin = kMid + 1`, `kMax = Dz`, where
`kMid = Dz / 2`; for `Dz ≥ 1` every voxel of the volume is scanned by exactly one of the
three. -/
theorem parallel_scans_three_ranges (fuel Dx Dy Dz : Nat) (v : Volume) :
    parallelEdgeFirstSinglePassLabeling fuel Dx Dy Dz v
      = ((boundaryPass fuel Dx Dy Dz v).bind fun b =>
          (singlePassLabeling fuel Dx Dy Dz b.1.dstData3D 0 (kMid Dz)
            (halfLabelStart b.2 0) 2).bind fun r0 =>
          (singlePassLabeling fuel Dx Dy Dz r0.1 (kMid Dz + 1) Dz
            (halfLabelStart b.2 1) 2).map fun r1 =>
            { dstData3D := r1.1
              boundaryCount := (b.2 : Int) - 2
              lowerCount := r0.2
              upperCount := r1.2 }) ∧
    boundaryPass fuel Dx Dy Dz v
      = (scanRange fuel Dx Dy Dz 1
          { fill := FillState.mk v (allocateStack Dx Dy Dz).1 (allocateStack Dx Dy Dz).2.1
              (allocateStack Dx Dy Dz).2.2
            label := 2
            objectCount := 0 } (kMid Dz) (kMid Dz + 1)).map (fun s => (s.fill, s.label)) ∧
    kMid Dz = (Dz : Int) / 2 ∧
    (0 < Dz → ∀ p, InBox Dx Dy Dz p →
      (p ∈ scanOrder Dx Dy 0 (kMid Dz) ∧ p ∉ scanOrder Dx Dy (kMid Dz) (kMid Dz + 1) ∧
        p ∉ scanOrder Dx Dy (kMid Dz + 1) Dz) ∨
      (p ∉ scanOrder Dx Dy 0 (kMid Dz) ∧ p ∈ scanOrder Dx Dy (kMid Dz) (kMid Dz + 1) ∧
        p ∉ scanOrder Dx Dy (kMid Dz + 1) Dz) ∨
      (p ∉ scanOrder Dx Dy 0 (kMid Dz) ∧ p ∉ scanOrder Dx Dy (kMid Dz) (kMid Dz + 1) ∧
        p ∈ scanOrder Dx Dy (kMid Dz + 1) Dz)) := by
  refine ⟨?_, boundaryPass_eq_scanRange fuel Dx Dy Dz v, rfl, ?_⟩
  · unfold parallelEdgeFirstSinglePassLabeling
    simp only [halfRun_zero, halfRun_one]
  · intro hDz p hp
    have hk := kMid_range hDz
    unfold InBox at hp
    simp only [mem_scanOrder]
    omega

/-- For `Dz = 3`: the lower-half run scans `[0, 1)`, the upper-half run `[2, 3)`. -/
theorem parallel_scans_three_ranges_witness :
    kMid 3 = 1 ∧
    (∀ (fuel : Nat) (v : Volume) (label : Nat),
      halfRun fuel 1 1 3 v label 0
        = singlePassLabeling fuel 1 1 3 v 0 1 (halfLabelStart label 0) 2 ∧
      halfRun fuel 1 1 3 v label 1
        = singlePassLabeling fuel 1 1 3 v 2 3 (halfLabelStart label 1) 2) ∧
    parallelEdgeFirstSinglePassLabeling 5 1 1 3 columnVolume
      = ((boundaryPass 5 1 1 3 columnVolume).bind fun b =>
          (singlePassLabeling 5 1 1 3 b.1.dstData3D 0 (kMid 3)
            (halfLabelStart b.2 0) 2).bind fun r0 =>
          (singlePassLabeling 5 1 1 3 r0.1 (kMid 3 + 1) (3 : Nat)
            (halfLabelStart b.2 1) 2).map fun r1 =>
            { dstData3D := r1.1
              boundaryCount := (b.2 : Int) - 2
              lowerCount := r0.2
              upperCount := r1.2 }) :=
  ⟨by decide, fun fuel v label => ⟨halfRun_zero fuel 1 1 3 v label, halfRun_one fuel 1 1 3 v label⟩,
    (parallel_scans_three_ranges 5 1 1 3 columnVolume).1⟩

/-- C31: for every value `L` of `label` left by the boundary pass and all `n`, `m`, the
`n`-th label of the lower-half run is `(2 L + 2 n) mod 65536` and is even, the `m`-th label
of the upper-half run is `(2 L + 1 + 2 m) mod 65536` and is odd; so the two half runs never
produce the same label, also when the 16-bit label wraps around. -/
theorem half_run_labels_parity (L n m : Nat) :
    labelAt (halfLabelStart L 0) 2 n = (2 * L + 2 * n) % 65536 ∧
    labelAt (halfLabelStart L 0) 2 n % 2 = 0 ∧
    labelAt (halfLabelStart L 1) 2 m = (2 * L + 1 + 2 * m) % 65536 ∧
    labelAt (halfLabelStart L 1) 2 m % 2 = 1 ∧
    labelAt (halfLabelStart L 0) 2 n ≠ labelAt (halfLabelStart L 1) 2 m := by
  unfold labelAt halfLabelStart PIXEL_RANGE
  rw [Nat.shiftLeft_eq, pow_one]
  omega

/-! ## Claims about `process` and `someOutput` -/

theorem foldl_flatMap_eq {α β σ : Type} (f : α → List β) (g : σ → β → σ) :
    ∀ (l : List α) (s : σ),
      (l.flatMap f).foldl g s = l.foldl (fun s1 a => (f a).foldl g s1) s := by
  intro l
  induction l with
  | nil => intro s; rfl
  | cons a l ih =>
    intro s
    rw [List.flatMap_cons, List.foldl_append, List.foldl_cons]
    exact ih _

theorem process_eq_foldl (Dx Dy Dz : Nat) (src dst : Volume) :
    process Dx Dy Dz src dst
      = (scanOrder Dx Dy 0 Dz).foldl
          (fun d p => writeAt d p (processVoxel Dx Dy Dz src p.i p.j p.k)) dst := by
  unfold process scanOrder
  rw [foldl_flatMap_eq]
  congr 1
  funext d k
  rw [foldl_flatMap_eq]
  congr 1
  funext d1 j
  rw [List.foldl_map]
  rfl

theorem someOutput_eq_foldl (Dx Dy Dz : Nat) (dst : Volume) :
    someOutput Dx Dy Dz dst
      = (scanOrder Dx Dy 0 Dz).foldl (fun h p => countVoxel h (voxelAt dst p))
          { sum0 := 0, sum1 := 0, sum2 := 0, sum3 := 0, sum4 := 0, sum5 := 0, sum6 := 0,
            unexpected := 0 } := by
  unfold someOutput scanOrder
  rw [foldl_flatMap_eq]
  congr 1
  funext d k
  rw [foldl_flatMap_eq]
  congr 1
  funext d1 j
  rw [List.foldl_map]
  rfl

theorem foldl_writeAt_value (F : Voxel → Nat) :
    ∀ (L : List Voxel) (d : Volume) (q : Voxel),
      voxelAt (L.foldl (fun d1 p => writeAt d1 p (F p)) d) q
        = if q ∈ L then F q else voxelAt d q := by
  intro L
  induction L with
  | nil => intro d q; simp
  | cons p L ih =>
    intro d q
    rw [List.foldl_cons, ih]
    by_cases hL : q ∈ L
    · rw [if_pos hL, if_pos (List.mem_cons_of_mem _ hL)]
    · rw [if_neg hL]
      by_cases hp : q = p
      · rw [if_pos (by rw [hp]; exact List.mem_cons_self _ _), hp, voxelAt_writeAt_self]
      · rw [if_neg (by simp [hp, hL]), voxelAt_writeAt_ne _ _ hp]

theorem process_value (Dx Dy Dz : Nat) (src dst : Volume) (q : Voxel) :
    voxelAt (process Dx Dy Dz src dst) q
      = if InBox Dx Dy Dz q then processVoxel Dx Dy Dz src q.i q.j q.k else voxelAt dst q := by
  rw [process_eq_foldl,
    foldl_writeAt_value (fun p => processVoxel Dx Dy Dz src p.i p.j p.k)]
  have : q ∈ scanOrder Dx Dy 0 Dz ↔ InBox Dx Dy Dz q := by
    rw [mem_scanOrder]; unfold InBox; rfl
  by_cases h : InBox Dx Dy Dz q
  · rw [if_pos (this.2 h), if_pos h]
  · rw [if_neg (fun hm => h (this.1 hm)), if_neg h]

theorem bump_eq (r : Nat) (g s : Prop) [Decidable g] [Decidable s] (h : r < 65535) :
    (if g then (if s then (r + 1) % PIXEL_RANGE else r) else r)
      = r + (if g ∧ s then 1 else 0) := by
  unfold PIXEL_RANGE
  by_cases hg : g
  · by_cases hs : s
    · rw [if_pos hg, if_pos hs, if_pos ⟨hg, hs⟩]; omega
    · rw [if_pos hg, if_neg hs, if_neg (fun c => hs c.2)]; rfl
  · rw [if_neg hg, if_neg (fun c => hg c.1)]; rfl

theorem indicator_le_one (c : Prop) [Decidable c] : (if c then 1 else 0 : Nat) ≤ 1 := by
  by_cases h : c
  · rw [if_pos h]
  · rw [if_neg h]; omega

theorem processVoxel_eq_sum (Dx Dy Dz : Nat) (src : Volume) (i j k : Int) :
    processVoxel Dx Dy Dz src i j k
      = (if i ≥ 1 ∧ src k j (i - 1) ≠ 0 then 1 else 0)
        + (if i < (Dx : Int) - 1 ∧ src k j (i + 1) ≠ 0 then 1 else 0)
        + (if j ≥ 1 ∧ src k (j - 1) i ≠ 0 then 1 else 0)
        + (if j < (Dy : Int) - 1 ∧ src k (j + 1) i ≠ 0 then 1 else 0)
        + (if k ≥ 1 ∧ src (k - 1) j i ≠ 0 then 1 else 0)
        + (if k < (Dz : Int) - 1 ∧ src (k + 1) j i ≠ 0 then 1 else 0) := by
  have b1 := indicator_le_one (i ≥ 1 ∧ src k j (i - 1) ≠ 0)
  have b2 := indicator_le_one (i < (Dx : Int) - 1 ∧ src k j (i + 1) ≠ 0)
  have b3 := indicator_le_one (j ≥ 1 ∧ src k (j - 1) i ≠ 0)
  have b4 := indicator_le_one (j < (Dy : Int) - 1 ∧ src k (j + 1) i ≠ 0)
  have b5 := indicator_le_one (k ≥ 1 ∧ src (k - 1) j i ≠ 0)
  unfold processVoxel
  simp only
  rw [bump_eq 0 (i ≥ 1) (src k j (i - 1) ≠ 0) (by omega),
    bump_eq _ (i < (Dx : Int) - 1) (src k j (i + 1) ≠ 0) (by omega),
    bump_eq _ (j ≥ 1) (src k (j - 1) i ≠ 0) (by omega),
    bump_eq _ (j < (Dy : Int) - 1) (src k (j + 1) i ≠ 0) (by omega),
    bump_eq _ (k ≥ 1) (src (k - 1) j i ≠ 0) (by omega),
    bump_eq _ (k < (Dz : Int) - 1) (src (k + 1) j i ≠ 0) (by omega)]
  omega

theorem neighbors_nodup (Dx Dy Dz : Nat) (p : Voxel) : (neighbors Dx Dy Dz p).Nodup := by
  have key : ((neighbors Dx Dy Dz p).map
      (fun q => (q.i - p.i) + 3 * (q.j - p.j) + 9 * (q.k - p.k))).Sublist
      [-1, 1, -3, 3, -9, 9] := by
    unfold neighbors
    simp only [List.map_append]
    have piece : ∀ (g : Prop) [Decidable g] (q : Voxel) (c : Int),
        (q.i - p.i) + 3 * (q.j - p.j) + 9 * (q.k - p.k) = c →
        ((if g then [q] else []).map
          (fun q => (q.i - p.i) + 3 * (q.j - p.j) + 9 * (q.k - p.k))).Sublist [c] := by
      intro g _ q c hc
      by_cases hg : g
      · rw [if_pos hg, List.map_singleton, hc]
      · rw [if_neg hg]; exact List.nil_sublist _
    have e : ([-1, 1, -3, 3, -9, 9] : List Int)
        = [-1] ++ ([1] ++ ([-3] ++ ([3] ++ ([-9] ++ [9])))) := rfl
    rw [e]
    refine List.Sublist.append (piece _ _ _ (by simp)) (List.Sublist.append
      (piece _ _ _ (by simp)) (List.Sublist.append (piece _ _ _ (by simp))
      (List.Sublist.append (piece _ _ _ (by simp)) (List.Sublist.append
      (piece _ _ _ (by simp)) (piece _ _ _ (by simp))))))
  exact List.Nodup.of_map _ (key.nodup (by decide))

theorem length_filter_guard (g : Prop) [Decidable g] (P : Voxel → Bool) (q : Voxel) :
    ((if g then [q] else []).filter P).length = if g ∧ P q = true then 1 else 0 := by
  by_cases hg : g
  · by_cases hq : P q = true
    · rw [if_pos hg, if_pos ⟨hg, hq⟩]; simp [hq]
    · rw [if_pos hg, if_neg (fun c => hq c.2)]; simp [hq]
  · rw [if_neg hg, if_neg (fun c => hg c.1)]; rfl

theorem processVoxel_eq_length (Dx Dy Dz : Nat) (src : Volume) (p : Voxel) :
    processVoxel Dx Dy Dz src p.i p.j p.k
      = ((neighbors Dx Dy Dz p).filter (fun q => decide (voxelAt src q ≠ 0))).length := by
  rw [processVoxel_eq_sum]
  unfold neighbors
  simp only [List.filter_append, List.length_append, length_filter_guard, decide_eq_true_eq]
  unfold voxelAt
  simp only
  omega

theorem processVoxel_eq_card {Dx Dy Dz : Nat} (src : Volume) {p : Voxel}
    (hp : InBox Dx Dy Dz p) :
    processVoxel Dx Dy Dz src p.i p.j p.k = (nonzeroNeighbors Dx Dy Dz src p).card := by
  rw [processVoxel_eq_length]
  have hnd : ((neighbors Dx Dy Dz p).filter (fun q => decide (voxelAt src q ≠ 0))).Nodup :=
    (neighbors_nodup Dx Dy Dz p).filter _
  rw [← List.toFinset_card_of_nodup hnd]
  congr 1
  ext q
  unfold nonzeroNeighbors
  rw [List.mem_toFinset, List.mem_filter, Finset.mem_filter, mem_boxFinset,
    mem_neighbors_iff hp, decide_eq_true_eq]
  tauto

theorem processVoxel_le_six (Dx Dy Dz : Nat) (src : Volume) (i j k : Int) :
    processVoxel Dx Dy Dz src i j k ≤ 6 := by
  rw [processVoxel_eq_sum]
  have b1 := indicator_le_one (i ≥ 1 ∧ src k j (i - 1) ≠ 0)
  have b2 := indicator_le_one (i < (Dx : Int) - 1 ∧ src k j (i + 1) ≠ 0)
  have b3 := indicator_le_one (j ≥ 1 ∧ src k (j - 1) i ≠ 0)
  have b4 := indicator_le_one (j < (Dy : Int) - 1 ∧ src k (j + 1) i ≠ 0)
  have b5 := indicator_le_one (k ≥ 1 ∧ src (k - 1) j i ≠ 0)
  have b6 := indicator_le_one (k < (Dz : Int) - 1 ∧ src (k + 1) j i ≠ 0)
  omega

theorem countVoxel_small (h : Histogram) (x : Nat) (hx : x ≤ 6) :
    (countVoxel h x).total = h.total + 1 ∧ (countVoxel h x).unexpected = h.unexpected := by
  have hcases : x = 0 ∨ x = 1 ∨ x = 2 ∨ x = 3 ∨ x = 4 ∨ x = 5 ∨ x = 6 := by omega
  rcases hcases with e | e | e | e | e | e | e <;> subst e <;> refine ⟨?_, rfl⟩ <;>
    simp only [countVoxel, Histogram.total] <;> ring

theorem foldl_countVoxel (dst : Volume) :
    ∀ (L : List Voxel) (h : Histogram), (∀ p ∈ L, voxelAt dst p ≤ 6) →
      (L.foldl (fun h1 p => countVoxel h1 (voxelAt dst p)) h).total = h.total + L.length ∧
      (L.foldl (fun h1 p => countVoxel h1 (voxelAt dst p)) h).unexpected = h.unexpected := by
  intro L
  induction L with
  | nil => intro h _; simp
  | cons p L ih =>
    intro h hL
    rw [List.foldl_cons]
    obtain ⟨e1, e2⟩ := countVoxel_small h (voxelAt dst p) (hL p (List.mem_cons_self _ _))
    obtain ⟨e3, e4⟩ := ih (countVoxel h (voxelAt dst p))
      (fun q hq => hL q (List.mem_cons_of_mem _ hq))
    rw [e3, e4, e1, e2]
    simp only [List.length_cons, Nat.cast_add, Nat.cast_one]
    constructor
    · omega
    · trivial

/-- C32: for every source volume, `process` writes to every destination voxel `(i, j, k)`
of the volume the number of its 6-neighbours that lie inside the volume and have a non-zero
source value, and leaves everything else of the destination as it was; every value it
writes is between 0 and 6, so in `someOutput` the seven buckets `sum0 .. sum6` add up to
the volume size `Dx * Dy * Dz` and the `default` ("unexpected value") branch never runs. -/
theorem process_counts_neighbours (Dx Dy Dz : Nat) (srcData3D dstData3D : Volume) :
    (∀ p, InBox Dx Dy Dz p →
      voxelAt (process Dx Dy Dz srcData3D dstData3D) p
        = (nonzeroNeighbors Dx Dy Dz srcData3D p).card ∧
      voxelAt (process Dx Dy Dz srcData3D dstData3D) p ≤ 6) ∧
    (∀ p, ¬ InBox Dx Dy Dz p →
      voxelAt (process Dx Dy Dz srcData3D dstData3D) p = voxelAt dstData3D p) ∧
    (someOutput Dx Dy Dz (process Dx Dy Dz srcData3D dstData3D)).total
      = ((Dx * Dy * Dz : Nat) : Int) ∧
    (someOutput Dx Dy Dz (process Dx Dy Dz srcData3D dstData3D)).unexpected = 0 := by
  have hval : ∀ p, InBox Dx Dy Dz p →
      voxelAt (process Dx Dy Dz srcData3D dstData3D) p
        = processVoxel Dx Dy Dz srcData3D p.i p.j p.k := by
    intro p hp
    rw [process_value, if_pos hp]
  have hhist := foldl_countVoxel (process Dx Dy Dz srcData3D dstData3D)
    (scanOrder Dx Dy 0 Dz)
    { sum0 := 0, sum1 := 0, sum2 := 0, sum3 := 0, sum4 := 0, sum5 := 0, sum6 := 0,
      unexpected := 0 }
    (by
      intro p hp
      rw [hval p (scanOrder_inBox (le_refl 0) (le_refl _) hp)]
      exact processVoxel_le_six _ _ _ _ _ _ _)
  refine ⟨?_, ?_, ?_, ?_⟩
  · intro p hp
    rw [hval p hp]
    exact ⟨processVoxel_eq_card srcData3D hp, processVoxel_le_six _ _ _ _ _ _ _⟩
  · intro p hp
    rw [process_value, if_neg hp]
  · rw [someOutput_eq_foldl, hhist.1, length_scanOrder]
    simp only [Histogram.total, sub_zero, Int.toNat_ofNat]
    push_cast
    ring
  · rw [someOutput_eq_foldl, hhist.2]

/-- The source row `[1, 1, 0, 1]` (`4×1×1`) gives the counts `[1, 1, 2, 0]` and the
histogram `sum0 = 1`, `sum1 = 2`, `sum2 = 1`. -/
theorem process_counts_neighbours_witness :
    voxelAt (process 4 1 1 rowVolume zeroVolume) ⟨0, 0, 0⟩ = 1 ∧
    voxelAt (process 4 1 1 rowVolume zeroVolume) ⟨1, 0, 0⟩ = 1 ∧
    voxelAt (process 4 1 1 rowVolume zeroVolume) ⟨2, 0, 0⟩ = 2 ∧
    voxelAt (process 4 1 1 rowVolume zeroVolume) ⟨3, 0, 0⟩ = 0 ∧
    (someOutput 4 1 1 (process 4 1 1 rowVolume zeroVolume)).sum0 = 1 ∧
    (someOutput 4 1 1 (process 4 1 1 rowVolume zeroVolume)).sum1 = 2 ∧
    (someOutput 4 1 1 (process 4 1 1 rowVolume zeroVolume)).sum2 = 1 ∧
    (someOutput 4 1 1 (process 4 1 1 rowVolume zeroVolume)).total = ((4 * 1 * 1 : Nat) : Int) ∧
    (someOutput 4 1 1 (process 4 1 1 rowVolume zeroVolume)).unexpected = 0 :=
  ⟨by decide, by decide, by decide, by decide, by decide, by decide, by decide,
    (process_counts_neighbours 4 1 1 rowVolume zeroVolume).2.2.1,
    (process_counts_neighbours 4 1 1 rowVolume zeroVolume).2.2.2⟩

/-! ## The flat-index `process` agrees with the 3-D-indexed one -/

theorem decodeIndex_spec {Dx Dy Dz : Nat} {inx : Int} (h0 : 0 ≤ inx)
    (h1 : inx < (Dx : Int) * (Dy : Int) * (Dz : Int)) :
    InBox Dx Dy Dz (decodeIndex Dx Dy inx) ∧ flatIndex Dx Dy (decodeIndex Dx Dy inx) = inx := by
  have hDx : (0 : Int) < Dx := by
    rcases Nat.eq_zero_or_pos Dx with e | e
    · subst e; simp at h1; omega
    · exact_mod_cast e
  have hDy : (0 : Int) < Dy := by
    rcases Nat.eq_zero_or_pos Dy with e | e
    · subst e; simp at h1; omega
    · exact_mod_cast e
  have hP : (0 : Int) < (Dx : Int) * (Dy : Int) := Int.mul_pos hDx hDy
  have e1 := Int.emod_add_ediv inx ((Dx : Int) * (Dy : Int))
  have t0 := Int.emod_nonneg inx (ne_of_gt hP)
  have t1 := Int.emod_lt_of_pos inx hP
  have k0 := Int.ediv_nonneg h0 (le_of_lt hP)
  have k1 : inx / ((Dx : Int) * (Dy : Int)) < (Dz : Int) :=
    Int.ediv_lt_of_lt_mul hP (lt_of_lt_of_eq h1 (mul_comm _ _))
  have e2 := Int.emod_add_ediv (inx % ((Dx : Int) * (Dy : Int))) (Dx : Int)
  have i0 := Int.emod_nonneg (inx % ((Dx : Int) * (Dy : Int))) (ne_of_gt hDx)
  have i1 := Int.emod_lt_of_pos (inx % ((Dx : Int) * (Dy : Int))) hDx
  have j0 := Int.ediv_nonneg t0 (le_of_lt hDx)
  have j1 : (inx % ((Dx : Int) * (Dy : Int))) / (Dx : Int) < (Dy : Int) :=
    Int.ediv_lt_of_lt_mul hDx (lt_of_lt_of_eq t1 (mul_comm _ _))
  refine ⟨⟨i0, i1, j0, j1, k0, k1⟩, ?_⟩
  unfold flatIndex decodeIndex
  simp only
  linear_combination e1 + e2

theorem flatIndex_decode {Dx Dy Dz : Nat} {p : Voxel} (hp : InBox Dx Dy Dz p) :
    decodeIndex Dx Dy (flatIndex Dx Dy p) = p ∧ 0 ≤ flatIndex Dx Dy p ∧
      flatIndex Dx Dy p < (Dx : Int) * (Dy : Int) * (Dz : Int) := by
  unfold InBox at hp
  obtain ⟨i0, i1, j0, j1, k0, k1⟩ := hp
  have hDx : (0 : Int) < Dx := by omega
  have hDy : (0 : Int) < Dy := by omega
  have hP : (0 : Int) < (Dx : Int) * (Dy : Int) := Int.mul_pos hDx hDy
  have ht0 : 0 ≤ p.j * (Dx : Int) + p.i := by positivity
  have ht1 : p.j * (Dx : Int) + p.i < (Dx : Int) * (Dy : Int) := by nlinarith
  have hflat : flatIndex Dx Dy p = (p.j * (Dx : Int) + p.i) + (Dx : Int) * (Dy : Int) * p.k := by
    unfold flatIndex; ring
  have hk : flatIndex Dx Dy p / ((Dx : Int) * (Dy : Int)) = p.k := by
    rw [hflat, Int.add_mul_ediv_left _ _ (ne_of_gt hP), Int.ediv_eq_zero_of_lt ht0 ht1]
    omega
  have ht : flatIndex Dx Dy p % ((Dx : Int) * (Dy : Int)) = p.j * (Dx : Int) + p.i := by
    rw [hflat, Int.add_mul_emod_self_left, Int.emod_eq_of_lt ht0 ht1]
  have hj : (p.j * (Dx : Int) + p.i) / (Dx : Int) = p.j := by
    rw [show p.j * (Dx : Int) + p.i = p.i + (Dx : Int) * p.j by ring,
      Int.add_mul_ediv_left _ _ (ne_of_gt hDx), Int.ediv_eq_zero_of_lt i0 i1]
    omega
  have hi : (p.j * (Dx : Int) + p.i) % (Dx : Int) = p.i := by
    rw [show p.j * (Dx : Int) + p.i = p.i + (Dx : Int) * p.j by ring,
      Int.add_mul_emod_self_left, Int.emod_eq_of_lt i0 i1]
  refine ⟨?_, ?_, ?_⟩
  · unfold decodeIndex
    rw [hk, ht, hj, hi]
  · rw [hflat]; positivity
  · rw [hflat]; nlinarith

theorem foldl_store_value (F : Int → Nat) :
    ∀ (L : List Int) (d : Int → Nat) (n : Int),
      (L.foldl (fun d1 inx => fun m => if m = inx then F inx else d1 m) d) n
        = if n ∈ L then F n else d n := by
  intro L
  induction L with
  | nil => intro d n; simp
  | cons a L ih =>
    intro d n
    rw [List.foldl_cons, ih]
    by_cases hL : n ∈ L
    · rw [if_pos hL, if_pos (List.mem_cons_of_mem _ hL)]
    · rw [if_neg hL]
      by_cases ha : n = a
      · rw [if_pos ha, if_pos (by rw [ha]; exact List.mem_cons_self _ _), ha]
      · rw [if_neg ha, if_neg (by simp [ha, hL])]

theorem flat_process_value (Dx Dy Dz : Nat) (src dst : Int → Nat) (n : Int) :
    ExampleAdvanced.process Dx Dy Dz src dst n
      = if 0 ≤ n ∧ n < (Dx : Int) * (Dy : Int) * (Dz : Int) then
          ExampleAdvanced.processIndex Dx Dy Dz src n else dst n := by
  unfold ExampleAdvanced.process
  rw [foldl_store_value (fun inx => ExampleAdvanced.processIndex Dx Dy Dz src inx)]
  by_cases h : 0 ≤ n ∧ n < (Dx : Int) * (Dy : Int) * (Dz : Int)
  · rw [if_pos (mem_forRange.2 h), if_pos h]
  · rw [if_neg (fun hm => h (mem_forRange.1 hm)), if_neg h]

theorem processIndex_eq_sum (Dx Dy Dz : Nat) (src : Int → Nat) (inx : Int) :
    ExampleAdvanced.processIndex Dx Dy Dz src inx
      = (if (decodeIndex Dx Dy inx).i ≥ 1 ∧
            src ((decodeIndex Dx Dy inx).k * ((Dx : Int) * (Dy : Int))
              + (decodeIndex Dx Dy inx).j * (Dx : Int) + ((decodeIndex Dx Dy inx).i - 1)) ≠ 0
          then 1 else 0)
        + (if (decodeIndex Dx Dy inx).i < (Dx : Int) - 1 ∧
            src ((decodeIndex Dx Dy inx).k * ((Dx : Int) * (Dy : Int))
              + (decodeIndex Dx Dy inx).j * (Dx : Int) + ((decodeIndex Dx Dy inx).i + 1)) ≠ 0
          then 1 else 0)
        + (if (decodeIndex Dx Dy inx).j ≥ 1 ∧
            src ((decodeIndex Dx Dy inx).k * ((Dx : Int) * (Dy : Int))
              + ((decodeIndex Dx Dy inx).j - 1) * (Dx : Int) + (decodeIndex Dx Dy inx).i) ≠ 0
          then 1 else 0)
        + (if (decodeIndex Dx Dy inx).j < (Dy : Int) - 1 ∧
            src ((decodeIndex Dx Dy inx).k * ((Dx : Int) * (Dy : Int))
              + ((decodeIndex Dx Dy inx).j + 1) * (Dx : Int) + (decodeIndex Dx Dy inx).i) ≠ 0
          then 1 else 0)
        + (if (decodeIndex Dx Dy inx).k ≥ 1 ∧
            src (((decodeIndex Dx Dy inx).k - 1) * ((Dx : Int) * (Dy : Int))
              + (decodeIndex Dx Dy inx).j * (Dx : Int) + (decodeIndex Dx Dy inx).i) ≠ 0
          then 1 else 0)
        + (if (decodeIndex Dx Dy inx).k < (Dz : Int) - 1 ∧
            src (((decodeIndex Dx Dy inx).k + 1) * ((Dx : Int) * (Dy : Int))
              + (decodeIndex Dx Dy inx).j * (Dx : Int) + (decodeIndex Dx Dy inx).i) ≠ 0
          then 1 else 0) := by
  generalize hq : decodeIndex Dx Dy inx = q
  have hi : inx % ((Dx : Int) * (Dy : Int)) % (Dx : Int) = q.i := by rw [← hq]; rfl
  have hj : inx % ((Dx : Int) * (Dy : Int)) / (Dx : Int) = q.j := by rw [← hq]; rfl
  have hk : inx / ((Dx : Int) * (Dy : Int)) = q.k := by rw [← hq]; rfl
  have b1 := indicator_le_one (q.i ≥ 1 ∧
    src (q.k * ((Dx : Int) * (Dy : Int)) + q.j * (Dx : Int) + (q.i - 1)) ≠ 0)
  have b2 := indicator_le_one (q.i < (Dx : Int) - 1 ∧
    src (q.k * ((Dx : Int) * (Dy : Int)) + q.j * (Dx : Int) + (q.i + 1)) ≠ 0)
  have b3 := indicator_le_one (q.j ≥ 1 ∧
    src (q.k * ((Dx : Int) * (Dy : Int)) + (q.j - 1) * (Dx : Int) + q.i) ≠ 0)
  have b4 := indicator_le_one (q.j < (Dy : Int) - 1 ∧
    src (q.k * ((Dx : Int) * (Dy : Int)) + (q.j + 1) * (Dx : Int) + q.i) ≠ 0)
  have b5 := indicator_le_one (q.k ≥ 1 ∧
    src ((q.k - 1) * ((Dx : Int) * (Dy : Int)) + q.j * (Dx : Int) + q.i) ≠ 0)
  unfold ExampleAdvanced.processIndex
  simp only [hi, hj, hk]
  rw [bump_eq 0 (q.i ≥ 1) _ (by omega),
    bump_eq _ (q.i < (Dx : Int) - 1) _ (by omega),
    bump_eq _ (q.j ≥ 1) _ (by omega),
    bump_eq _ (q.j < (Dy : Int) - 1) _ (by omega),
    bump_eq _ (q.k ≥ 1) _ (by omega),
    bump_eq _ (q.k < (Dz : Int) - 1) _ (by omega)]
  omega

theorem indicator_congr (g s t : Prop) [Decidable g] [Decidable s] [Decidable t]
    (h : g → (s ↔ t)) : (if g ∧ s then 1 else 0 : Nat) = if g ∧ t then 1 else 0 := by
  by_cases hg : g
  · by_cases hs : s
    · rw [if_pos ⟨hg, hs⟩, if_pos ⟨hg, (h hg).1 hs⟩]
    · rw [if_neg (fun c => hs c.2), if_neg (fun c => hs ((h hg).2 c.2))]
  · rw [if_neg (fun c => hg c.1), if_neg (fun c => hg c.1)]

theorem processIndex_eq_processVoxel {Dx Dy Dz : Nat} {src3D : Volume} {src : Int → Nat}
    (hsrc : ∀ p, InBox Dx Dy Dz p → src (flatIndex Dx Dy p) = voxelAt src3D p)
    {inx : Int} (hbox : InBox Dx Dy Dz (decodeIndex Dx Dy inx)) :
    ExampleAdvanced.processIndex Dx Dy Dz src inx
      = processVoxel Dx Dy Dz src3D (decodeIndex Dx Dy inx).i (decodeIndex Dx Dy inx).j
          (decodeIndex Dx Dy inx).k := by
  rw [processIndex_eq_sum, processVoxel_eq_sum]
  generalize decodeIndex Dx Dy inx = q at hbox ⊢
  unfold InBox at hbox
  have hread : ∀ (p : Voxel), InBox Dx Dy Dz p → ∀ n : Int, n = flatIndex Dx Dy p →
      (src n ≠ 0 ↔ src3D p.k p.j p.i ≠ 0) := by
    intro p hp n hn
    rw [hn, hsrc p hp]
    rfl
  rw [indicator_congr _ _ _ (fun hg => hread ⟨q.i - 1, q.j, q.k⟩
        (by unfold InBox; simp only; omega) _ (by unfold flatIndex; simp only; ring)),
    indicator_congr (q.i < (Dx : Int) - 1) _ _ (fun hg => hread ⟨q.i + 1, q.j, q.k⟩
        (by unfold InBox; simp only; omega) _ (by unfold flatIndex; simp only; ring)),
    indicator_congr (q.j ≥ 1) _ _ (fun hg => hread ⟨q.i, q.j - 1, q.k⟩
        (by unfold InBox; simp only; omega) _ (by unfold flatIndex; simp only; ring)),
    indicator_congr (q.j < (Dy : Int) - 1) _ _ (fun hg => hread ⟨q.i, q.j + 1, q.k⟩
        (by unfold InBox; simp only; omega) _ (by unfold flatIndex; simp only; ring)),
    indicator_congr (q.k ≥ 1) _ _ (fun hg => hread ⟨q.i, q.j, q.k - 1⟩
        (by unfold InBox; simp only; omega) _ (by unfold flatIndex; simp only; ring)),
    indicator_congr (q.k < (Dz : Int) - 1) _ _ (fun hg => hread ⟨q.i, q.j, q.k + 1⟩
        (by unfold InBox; simp only; omega) _ (by unfold flatIndex; simp only; ring))]

theorem flatten_flatIndex {Dx Dy Dz : Nat} (v : Volume) {p : Voxel} (hp : InBox Dx Dy Dz p) :
    flatten Dx Dy v (flatIndex Dx Dy p) = voxelAt v p := by
  unfold flatten
  rw [(flatIndex_decode hp).1]

/-- C33: for every source image, given as a 3-D array and as the flat array that stores it
row-major with `x` fastest, and every flat index `inx` in `[0, Dx * Dy * Dz)`: the
flat-index `process` decodes `inx` into `k = inx / (Dx * Dy)`,
`j = (inx mod (Dx * Dy)) / Dx`, `i = (inx mod (Dx * Dy)) mod Dx`, which lie in range and
satisfy `(k * Dy + j) * Dx + i = inx`, and it writes at `inx` the value that the
3-D-indexed `process` writes at `[k][j][i]`. -/
theorem flat_process_agrees (Dx Dy Dz : Nat) (srcData3D dstData3D : Volume)
    (srcDataPtr dstDataPtr : Int → Nat)
    (hsrc : ∀ p, InBox Dx Dy Dz p → srcDataPtr (flatIndex Dx Dy p) = voxelAt srcData3D p)
    (inx : Int) (h0 : 0 ≤ inx) (h1 : inx < (Dx : Int) * (Dy : Int) * (Dz : Int)) :
    (decodeIndex Dx Dy inx).k = inx / ((Dx : Int) * (Dy : Int)) ∧
    (decodeIndex Dx Dy inx).j = (inx % ((Dx : Int) * (Dy : Int))) / (Dx : Int) ∧
    (decodeIndex Dx Dy inx).i = (inx % ((Dx : Int) * (Dy : Int))) % (Dx : Int) ∧
    InBox Dx Dy Dz (decodeIndex Dx Dy inx) ∧
    ((decodeIndex Dx Dy inx).k * (Dy : Int) + (decodeIndex Dx Dy inx).j) * (Dx : Int)
      + (decodeIndex Dx Dy inx).i = inx ∧
    ExampleAdvanced.process Dx Dy Dz srcDataPtr dstDataPtr inx
      = voxelAt (process Dx Dy Dz srcData3D dstData3D) (decodeIndex Dx Dy inx) := by
  obtain ⟨hbox, hflat⟩ := decodeIndex_spec h0 h1
  refine ⟨rfl, rfl, rfl, hbox, hflat, ?_⟩
  rw [flat_process_value, if_pos ⟨h0, h1⟩, process_value, if_pos hbox]
  exact processIndex_eq_processVoxel hsrc hbox

/-- The row `[1, 1, 0, 1]` stored flat: at `inx = 2` both versions write the count 2. -/
theorem flat_process_agrees_witness :
    decodeIndex 4 1 2 = ⟨2, 0, 0⟩ ∧
    ExampleAdvanced.process 4 1 1 (flatten 4 1 rowVolume) (fun _ => 0) 2 = 2 ∧
    ExampleAdvanced.process 4 1 1 (flatten 4 1 rowVolume) (fun _ => 0) 2
      = voxelAt (process 4 1 1 rowVolume zeroVolume) (decodeIndex 4 1 2) :=
  ⟨by decide, by decide,
    (flat_process_agrees 4 1 1 rowVolume zeroVolume (flatten 4 1 rowVolume) (fun _ => 0)
      (fun _ hp => flatten_flatIndex rowVolume hp) 2 (by decide) (by decide)).2.2.2.2.2⟩

/-! ### Lists sorted in scan order -/

theorem sorted_ext {l1 l2 : List Voxel} (h1 : l1.Pairwise scanLt) (h2 : l2.Pairwise scanLt)
    (h : ∀ x, x ∈ l1 ↔ x ∈ l2) : l1 = l2 := by
  haveI : IsAntisymm Voxel scanLt := ⟨fun a b hab hba => (scanLt_asymm hab hba).elim⟩
  have hnd1 : l1.Nodup := by
    unfold List.Nodup
    exact h1.imp (by intro a b hab e; rw [e] at hab; exact scanLt_irrefl _ hab)
  have hnd2 : l2.Nodup := by
    unfold List.Nodup
    exact h2.imp (by intro a b hab e; rw [e] at hab; exact scanLt_irrefl _ hab)
  exact List.eq_of_perm_of_sorted ((List.perm_ext_iff_of_nodup hnd1 hnd2).2 h) h1 h2

/-! ### The striped row -/

theorem stripeVolume_isolated (Dx : Nat) (p c : Voxel) (hp : voxelAt stripeVolume p = 1) :
    ¬ ChainStep Dx 1 1 stripeVolume p c := by
  rintro ⟨hadj, hbox, hv⟩
  unfold InBox at hbox
  unfold Adjacent6 at hadj
  unfold voxelAt stripeVolume at hp hv
  by_cases h1 : p.k = 0 ∧ p.j = 0 ∧ 0 ≤ p.i ∧ p.i % 2 = 0
  · by_cases h2 : c.k = 0 ∧ c.j = 0 ∧ 0 ≤ c.i ∧ c.i % 2 = 0
    · omega
    · rw [if_neg h2] at hv; omega
  · rw [if_neg h1] at hp; omega

theorem mem_stripeSeeds {Dx m : Nat} (hm : Dx + 1 = 2 * m) (x : Voxel) :
    x ∈ stripeSeeds m ↔ (x ∈ scanOrder Dx 1 0 1 ∧ voxelAt stripeVolume x = 1) := by
  unfold stripeSeeds
  rw [List.mem_map, mem_scanOrder]
  constructor
  · rintro ⟨n, hn, rfl⟩
    rw [List.mem_range] at hn
    refine ⟨by dsimp only; omega, ?_⟩
    unfold voxelAt stripeVolume
    rw [if_pos (by dsimp only; omega)]
  · rintro ⟨hbox, hv⟩
    unfold voxelAt stripeVolume at hv
    by_cases h1 : x.k = 0 ∧ x.j = 0 ∧ 0 ≤ x.i ∧ x.i % 2 = 0
    · refine ⟨(x.i / 2).toNat, ?_, ?_⟩
      · rw [List.mem_range]
        have h2 : ((x.i / 2).toNat : Int) = x.i / 2 := Int.toNat_of_nonneg (by omega)
        omega
      · have h2 : ((x.i / 2).toNat : Int) = x.i / 2 := Int.toNat_of_nonneg (by omega)
        apply Voxel.ext
        · dsimp only; omega
        · exact h1.2.1.symm
        · exact h1.1.symm
    · rw [if_neg h1] at hv; omega

theorem stripeSeeds_sorted (m : Nat) : (stripeSeeds m).Pairwise scanLt := by
  unfold stripeSeeds
  rw [List.pairwise_map]
  refine (List.pairwise_lt_range m).imp ?_
  intro a b hab
  unfold scanLt
  dsimp only
  omega

theorem length_stripeSeeds (m : Nat) : (stripeSeeds m).length = m := by
  unfold stripeSeeds
  rw [List.length_map, List.length_range]

theorem getElem_stripeSeeds {m n : Nat} (hn : n < m) :
    (stripeSeeds m)[n]? = some ⟨2 * (n : Int), 0, 0⟩ := by
  unfold stripeSeeds
  rw [List.getElem?_map, List.getElem?_range hn]
  rfl

theorem stripeSeeds_of_char {Dx m : Nat} (hm : Dx + 1 = 2 * m) {seeds : List Voxel}
    (hs : seeds.Pairwise scanLt)
    (hmem : ∀ x, x ∈ seeds ↔ (x ∈ scanOrder Dx 1 0 1 ∧ voxelAt stripeVolume x = 1 ∧
      ∀ p ∈ scanOrder Dx 1 0 1, Connected Dx 1 1 stripeVolume x p → x = p ∨ scanLt x p)) :
    seeds = stripeSeeds m := by
  refine sorted_ext hs (stripeSeeds_sorted m) ?_
  intro x
  rw [hmem, mem_stripeSeeds hm]
  constructor
  · rintro ⟨h1, h2, -⟩
    exact ⟨h1, h2⟩
  · rintro ⟨h1, h2⟩
    refine ⟨h1, h2, fun p _ hc => Or.inl ?_⟩
    exact (hc.eq_of_isolated (fun c => stripeVolume_isolated Dx x c h2)).symm

theorem ScanInv.stripe_seeds {Dx m a st : Nat} {s : ScanState} {seeds : List Voxel}
    (hm : Dx + 1 = 2 * m)
    (hinv : ScanInv Dx 1 1 stripeVolume a st (scanOrder Dx 1 0 1) s seeds) :
    seeds = stripeSeeds m :=
  stripeSeeds_of_char hm (hinv.seeds_sorted (pairwise_scanOrder Dx 1 0 1))
    (hinv.mem_seeds_iff (fun p hp => scanOrder_inBox (le_refl 0) (by simp) hp))

/-! ## Claims about the 16-bit label arithmetic -/

theorem scanLt_trans {p q r : Voxel} (h1 : scanLt p q) (h2 : scanLt q r) : scanLt p r := by
  unfold scanLt at h1 h2 ⊢
  omega

/-- When the scan reaches a voxel `p` that still holds 1, `p` is the next entry of the list
of scan-first voxels of the components: its index there is the number of seeds found so
far. -/
theorem ScanInv.seed_index_of_char {Dx Dy Dz : Nat} {v0 : Volume} {a st : Nat}
    {done post : List Voxel} {s : ScanState} {seeds S : List Voxel} {p : Voxel}
    (hsorted : (done ++ p :: post).Pairwise scanLt)
    (hbox : ∀ q ∈ done ++ p :: post, InBox Dx Dy Dz q)
    (hinv : ScanInv Dx Dy Dz v0 a st done s seeds)
    (hS : S.Pairwise scanLt)
    (hmem : ∀ x, x ∈ S ↔ (x ∈ done ++ p :: post ∧ voxelAt v0 x = 1 ∧
      ∀ q ∈ done ++ p :: post, Connected Dx Dy Dz v0 x q → x = q ∨ scanLt x q))
    (hv : voxelAt s.fill.dstData3D p = 1) :
    S[seeds.length]? = some p := by
  have hp : InBox Dx Dy Dz p := hbox p (by simp)
  have hboxd : ∀ q ∈ done, InBox Dx Dy Dz q := fun q hq => hbox q (by simp [hq])
  have hsd : done.Pairwise scanLt := (List.pairwise_append.1 hsorted).1
  have hlt : ∀ x ∈ done, ∀ y ∈ p :: post, scanLt x y := (List.pairwise_append.1 hsorted).2.2
  have hpost : ∀ y ∈ post, scanLt p y :=
    (List.pairwise_cons.1 (List.pairwise_append.1 hsorted).2.1).1
  obtain ⟨hfresh, hv0, -, -⟩ := hinv.fresh hp (fun x hx => hlt x hx p (by simp)) hv
  have hpS : p ∈ S := by
    rw [hmem]
    refine ⟨by simp, hv0, ?_⟩
    intro q hq hc
    rcases List.mem_append.1 hq with hqd | hqp
    · exfalso
      obtain ⟨z, hz, hzq, -⟩ := hinv.cover q hqd (hc.value hv0)
      exact hfresh z hz (hzq.trans (hc.symm ⟨hp, hv0⟩))
    · rcases List.mem_cons.1 hqp with e | hqpost
      · left; exact e.symm
      · right; exact hpost q hqpost
  have hseedsS : ∀ x, x ∈ seeds → x ∈ S := by
    intro x hx
    obtain ⟨hxd, hxv, hxf⟩ := (hinv.mem_seeds_iff hboxd x).1 hx
    rw [hmem]
    refine ⟨by simp [hxd], hxv, ?_⟩
    intro q hq hc
    rcases List.mem_append.1 hq with hqd | hqp
    · exact hxf q hqd hc
    · right; exact hlt x hxd q hqp
  have hSeq : S = seeds ++ p :: S.filter (fun x => decide (scanLt p x)) := by
    refine sorted_ext hS ?_ ?_
    · rw [List.pairwise_append]
      refine ⟨hinv.seeds_sorted hsd, ?_, ?_⟩
      · rw [List.pairwise_cons]
        refine ⟨?_, hS.sublist (List.filter_sublist _)⟩
        intro y hy
        simpa using (List.mem_filter.1 hy).2
      · intro x hx y hy
        have hxp : scanLt x p := hlt x (hinv.sub.subset hx) p (by simp)
        rcases List.mem_cons.1 hy with e | hyf
        · rw [e]; exact hxp
        · have hpy : scanLt p y := by simpa using (List.mem_filter.1 hyf).2
          exact scanLt_trans hxp hpy
    · intro x
      constructor
      · intro hx
        obtain ⟨hxm, hxv, hxf⟩ := (hmem x).1 hx
        rcases List.mem_append.1 hxm with hxd | hxp
        · refine List.mem_append_left _ ((hinv.mem_seeds_iff hboxd x).2 ⟨hxd, hxv, ?_⟩)
          intro q hq hc
          exact hxf q (by simp [hq]) hc
        · refine List.mem_append_right _ ?_
          rcases List.mem_cons.1 hxp with e | hxpost
          · rw [e]; simp
          · refine List.mem_cons_of_mem _ (List.mem_filter.2 ⟨hx, ?_⟩)
            simpa using hpost x hxpost
      · intro hx
        rcases List.mem_append.1 hx with hxs | hxr
        · exact hseedsS x hxs
        · rcases List.mem_cons.1 hxr with e | hxf
          · rw [e]; exact hpS
          · exact (List.mem_filter.1 hxf).1
  rw [hSeq, List.getElem?_append_right (le_refl _)]
  simp

theorem ScanInv.fold_returns_of_seedList {Dx Dy Dz : Nat} {v0 : Volume} {a st fuel : Nat}
    (hfuel : Dx * Dy * Dz + 2 ≤ fuel) {S : List Voxel} (hS : S.Pairwise scanLt)
    (hiso : ∀ n x, S[n]? = some x → labelAt a st n = 1 → ∀ c, ¬ ChainStep Dx Dy Dz v0 x c) :
    ∀ (post done : List Voxel) (s : ScanState) (seeds : List Voxel),
      (done ++ post).Pairwise scanLt → (∀ p ∈ done ++ post, InBox Dx Dy Dz p) →
      ScanInv Dx Dy Dz v0 a st done s seeds →
      (∀ x, x ∈ S ↔ (x ∈ done ++ post ∧ voxelAt v0 x = 1 ∧
        ∀ q ∈ done ++ post, Connected Dx Dy Dz v0 x q → x = q ∨ scanLt x q)) →
      ∃ s1, post.foldlM (fun s2 p => scanVoxel fuel Dx Dy Dz st s2 p.i p.j p.k) s = some s1 := by
  intro post
  induction post with
  | nil =>
    intro done s seeds _ _ _ _
    exact ⟨s, rfl⟩
  | cons p post ih =>
    intro done s seeds hsorted hbox hinv hmem
    have hp : InBox Dx Dy Dz p := hbox p (by simp)
    have hlt : ∀ x ∈ done, scanLt x p := fun x hx =>
      (List.pairwise_append.1 hsorted).2.2 x hx p (List.mem_cons_self _ _)
    have hl : voxelAt s.fill.dstData3D p = 1 → labelAt a st seeds.length = 1 →
        ∀ c, ¬ ChainStep Dx Dy Dz v0 p c := by
      intro hv hl1
      exact hiso seeds.length p (hinv.seed_index_of_char hsorted hbox hS hmem hv) hl1
    obtain ⟨s2, h2⟩ := hinv.scanVoxel_returns_lone hp hl hfuel
    obtain ⟨seeds2, hinv2⟩ := hinv.scanVoxel_step hp hlt h2
    have e : (done ++ [p]) ++ post = done ++ p :: post := by
      rw [List.append_assoc]; rfl
    obtain ⟨s1, h1⟩ := ih (done ++ [p]) s2 seeds2 (by rw [e]; exact hsorted)
      (by rw [e]; exact hbox) hinv2 (by rw [e]; exact hmem)
    refine ⟨s1, ?_⟩
    rw [List.foldlM_cons, h2]
    exact h1

/-- The call returns, given the fuel, when each scan-first voxel whose label is 1 has no
`1`-valued neighbour; `S` is the list of the scan-first voxels of the components met, in
scan order. -/
theorem singlePassLabeling_returns_of_seedList {fuel Dx Dy Dz : Nat} {v0 : Volume}
    {kMin kMax : Int} {a st : Nat} (h0 : 0 ≤ kMin) (h1 : kMax ≤ (Dz : Int))
    (ha : a < PIXEL_RANGE) (hfuel : Dx * Dy * Dz + 2 ≤ fuel)
    {S : List Voxel} (hS : S.Pairwise scanLt)
    (hmem : ∀ x, x ∈ S ↔ (x ∈ scanOrder Dx Dy kMin kMax ∧ voxelAt v0 x = 1 ∧
      ∀ q ∈ scanOrder Dx Dy kMin kMax, Connected Dx Dy Dz v0 x q → x = q ∨ scanLt x q))
    (hiso : ∀ n x, S[n]? = some x → labelAt a st n = 1 → ∀ c, ¬ ChainStep Dx Dy Dz v0 x c) :
    ∃ r, singlePassLabeling fuel Dx Dy Dz v0 kMin kMax a st = some r := by
  obtain ⟨s1, hs1⟩ := ScanInv.fold_returns_of_seedList hfuel hS hiso
    (scanOrder Dx Dy kMin kMax) []
    { fill := FillState.mk v0 (allocateStack Dx Dy Dz).1 (allocateStack Dx Dy Dz).2.1
        (allocateStack Dx Dy Dz).2.2
      label := a
      objectCount := 0 } []
    (by rw [List.nil_append]; exact pairwise_scanOrder Dx Dy kMin kMax)
    (fun p hp => scanOrder_inBox h0 h1 (by simpa using hp))
    (ScanInv.start Dx Dy Dz v0 st ha rfl (allocateStack_holds Dx Dy Dz v0))
    (by rw [List.nil_append]; exact hmem)
  rw [← scanRange_eq_foldlM] at hs1
  unfold singlePassLabeling
  simp only [hs1, Option.map_some']
  exact ⟨_, rfl⟩

theorem stripeSeeds_char {Dx m : Nat} (hm : Dx + 1 = 2 * m) (x : Voxel) :
    x ∈ stripeSeeds m ↔ (x ∈ scanOrder Dx 1 0 1 ∧ voxelAt stripeVolume x = 1 ∧
      ∀ p ∈ scanOrder Dx 1 0 1, Connected Dx 1 1 stripeVolume x p → x = p ∨ scanLt x p) := by
  rw [mem_stripeSeeds hm]
  constructor
  · rintro ⟨h1, h2⟩
    refine ⟨h1, h2, fun p _ hc => Or.inl ?_⟩
    exact (hc.eq_of_isolated (fun c => stripeVolume_isolated Dx x c h2)).symm
  · rintro ⟨h1, h2, -⟩
    exact ⟨h1, h2⟩

/-- C30: labels are computed in 16-bit unsigned arithmetic with no validation: for every
volume whose stacks are created with a capacity of at least 1 (`Dx + Dy + Dz ≥ 10`), every
z-range, `labelStart` and `labelStep`, whenever `singlePassLabeling` returns, the component
with discovery index `n` (the seeds are the scan-first voxels of the components met, in
scan order) holds `(labelStart + n * labelStep) mod 65536`; so with `labelStart = 2` and
`labelStep = 1` the component with `n = 65534` holds 0 and the component with `n = 65535`
holds 1. The call returns, given fuel for `Dx * Dy * Dz + 2` iterations, exactly when every
component whose label is 1 consists of a single voxel: a returned call has given the value
1 to one-voxel components only (the fill of a larger component with label 1 does not
terminate), and the call returns whenever the scan-first voxels whose label is 1 have no
`1`-valued neighbour. -/
theorem singlePassLabeling_labels_mod (fuel Dx Dy Dz : Nat) (v : Volume) (kMin kMax : Int)
    (labelStart labelStep : Nat) (hcap : 1 ≤ STACK_INITIAL_SIZE Dx Dy Dz)
    (h0 : 0 ≤ kMin) (h1 : kMax ≤ (Dz : Int)) (hstart : labelStart < PIXEL_RANGE) :
    (∀ r, singlePassLabeling fuel Dx Dy Dz v kMin kMax labelStart labelStep = some r →
      ∃ seeds : List Voxel, seeds.Pairwise scanLt ∧
        (∀ x, x ∈ seeds ↔ (x ∈ scanOrder Dx Dy kMin kMax ∧ voxelAt v x = 1 ∧
          ∀ p ∈ scanOrder Dx Dy kMin kMax, Connected Dx Dy Dz v x p → x = p ∨ scanLt x p)) ∧
        (∀ (n : Nat) (x : Voxel), seeds[n]? = some x → ∀ q, Connected Dx Dy Dz v x q →
          voxelAt r.1 q = (labelStart + n * labelStep) % 65536) ∧
        (labelStart = 2 → labelStep = 1 →
          (∀ x, seeds[65534]? = some x → ∀ q, Connected Dx Dy Dz v x q →
            voxelAt r.1 q = 0) ∧
          (∀ x, seeds[65535]? = some x → ∀ q, Connected Dx Dy Dz v x q →
            voxelAt r.1 q = 1)) ∧
        (∀ (n : Nat) (x : Voxel), seeds[n]? = some x →
          (labelStart + n * labelStep) % 65536 = 1 → ∀ c, ¬ ChainStep Dx Dy Dz v x c)) ∧
    (∀ seeds : List Voxel, seeds.Pairwise scanLt →
      (∀ x, x ∈ seeds ↔ (x ∈ scanOrder Dx Dy kMin kMax ∧ voxelAt v x = 1 ∧
        ∀ p ∈ scanOrder Dx Dy kMin kMax, Connected Dx Dy Dz v x p → x = p ∨ scanLt x p)) →
      (∀ (n : Nat) (x : Voxel), seeds[n]? = some x →
        (labelStart + n * labelStep) % 65536 = 1 → ∀ c, ¬ ChainStep Dx Dy Dz v x c) →
      Dx * Dy * Dz + 2 ≤ fuel →
      ∃ r, singlePassLabeling fuel Dx Dy Dz v kMin kMax labelStart labelStep = some r) := by
  refine ⟨?_, ?_⟩
  · intro r hr
    obtain ⟨s1, seeds, hinv, hrs⟩ := singlePassLabeling_inv h0 h1 hstart hr
    have hbox : ∀ x ∈ scanOrder Dx Dy kMin kMax, InBox Dx Dy Dz x :=
      fun x hx => scanOrder_inBox h0 h1 hx
    have hlab : ∀ (n : Nat) (x : Voxel), seeds[n]? = some x →
        ∀ q, Connected Dx Dy Dz v x q →
          voxelAt r.1 q = (labelStart + n * labelStep) % 65536 := by
      intro n x hn q hq
      rw [hrs]
      exact hinv.lab n x hn q hq
    refine ⟨seeds, hinv.seeds_sorted (pairwise_scanOrder Dx Dy kMin kMax),
      hinv.mem_seeds_iff hbox, hlab, ?_, fun n x hn hl => hinv.iso n x hn hl⟩
    intro ha hs
    subst ha hs
    exact ⟨fun x hx q hq => hlab 65534 x hx q hq, fun x hx q hq => hlab 65535 x hx q hq⟩
  · intro seeds hs hmem hiso hfuel
    exact singlePassLabeling_returns_of_seedList h0 h1 hstart hfuel hs hmem
      (fun n x hn hl => hiso n x hn hl)

/-- On the striped row of width 131071 (65536 one-voxel components, stacks of capacity
13107) with `labelStart = 2` and `labelStep = 1`: the call returns, the first voxel holds
2, the voxel `x = 131068` (discovery index 65534) has been set to 0 and the voxel
`x = 131070` (discovery index 65535) holds 1. -/
theorem singlePassLabeling_labels_mod_witness :
    STACK_INITIAL_SIZE 131071 1 1 = 13107 ∧
    ∃ r, singlePassLabeling 131073 131071 1 1 stripeVolume 0 1 2 1 = some r ∧
      voxelAt stripeVolume ⟨131068, 0, 0⟩ = 1 ∧ voxelAt r.1 ⟨0, 0, 0⟩ = 2 ∧
      voxelAt r.1 ⟨131068, 0, 0⟩ = 0 ∧ voxelAt r.1 ⟨131070, 0, 0⟩ = 1 := by
  refine ⟨by decide, ?_⟩
  obtain ⟨hlabels, hret⟩ := singlePassLabeling_labels_mod 131073 131071 1 1 stripeVolume 0 1
    2 1 (by decide) (le_refl 0) (by decide) (by decide)
  obtain ⟨r, hr⟩ := hret (stripeSeeds 65536) (stripeSeeds_sorted 65536)
    (stripeSeeds_char (by decide))
    (fun n x hn _ c => stripeVolume_isolated 131071 x c
      (((@mem_stripeSeeds 131071 65536 (by decide) x).1
        (List.mem_iff_getElem?.2 ⟨n, hn⟩)).2))
    (by decide)
  obtain ⟨seeds, hs, hmem, hlab, -, -⟩ := hlabels r hr
  have hseeds : seeds = stripeSeeds 65536 := stripeSeeds_of_char (by decide) hs hmem
  have e0 : seeds[0]? = some ⟨0, 0, 0⟩ := by
    rw [hseeds, getElem_stripeSeeds (by decide)]; rfl
  have e1 : seeds[65534]? = some ⟨131068, 0, 0⟩ := by
    rw [hseeds, getElem_stripeSeeds (by decide)]; rfl
  have e2 : seeds[65535]? = some ⟨131070, 0, 0⟩ := by
    rw [hseeds, getElem_stripeSeeds (by decide)]; rfl
  refine ⟨r, hr, by decide, ?_, ?_, ?_⟩
  · rw [hlab 0 _ e0 _ Relation.ReflTransGen.refl]
  · rw [hlab 65534 _ e1 _ Relation.ReflTransGen.refl]
  · rw [hlab 65535 _ e2 _ Relation.ReflTransGen.refl]

/-! ## Claims about the labels of the boundary pass and the starts of the half runs -/

theorem kMid_one : kMid 1 = 0 := by decide

theorem labelAt_two_one (n : Nat) : labelAt 2 1 n = (n + 2) % 65536 := by
  unfold labelAt PIXEL_RANGE
  rw [mul_one, add_comm]

theorem halfLabelStart_mod (label imageNo : Nat) :
    halfLabelStart label imageNo = (2 * label + imageNo) % 65536 := by
  unfold halfLabelStart PIXEL_RANGE
  rw [Nat.shiftLeft_eq, pow_one, mul_comm]

/-- C23 (counterexample): on the striped row of width 65531, a single slice which is its
own midplane, the boundary pass returns having discovered 32766 components, the last of
which holds 32767, and leaves `label = 32768`; the lower-half run is then invoked with
`labelStart = 0` and the upper-half run with `labelStart = 1`, not with `2 * 32768` and
`2 * 32768 + 1`. -/
theorem boundaryPass_half_start_wraps :
    ∃ b, boundaryPass 65533 65531 1 1 stripeVolume = some b ∧
      voxelAt b.1.dstData3D ⟨0, 0, 0⟩ = 2 ∧ voxelAt b.1.dstData3D ⟨65530, 0, 0⟩ = 32767 ∧
      b.2 = 32766 + 2 ∧
      halfLabelStart b.2 0 = 0 ∧ halfLabelStart b.2 1 = 1 ∧
      halfLabelStart b.2 0 ≠ 2 * b.2 ∧ halfLabelStart b.2 1 ≠ 2 * b.2 + 1 ∧
      halfRun 65533 65531 1 1 b.1.dstData3D b.2 0
        = singlePassLabeling 65533 65531 1 1 b.1.dstData3D 0 (kMid 1) 0 2 ∧
      halfRun 65533 65531 1 1 b.1.dstData3D b.2 1
        = singlePassLabeling 65533 65531 1 1 b.1.dstData3D (kMid 1 + 1) (1 : Nat) 1 2 := by
  obtain ⟨b, hb⟩ := @boundaryPass_returns 65533 65531 1 1 stripeVolume (by decide) (by decide)
    65531 (atMostComponents_of_volume stripeVolume _ (by decide)) (by decide)
  obtain ⟨sB, seeds, hinv, hbs⟩ := boundaryPass_inv (by decide) hb
  rw [kMid_one, zero_add] at hinv
  have hseeds : seeds = stripeSeeds 32766 := hinv.stripe_seeds (by decide)
  have e0 : seeds[0]? = some ⟨0, 0, 0⟩ := by
    rw [hseeds, getElem_stripeSeeds (by decide)]; rfl
  have e1 : seeds[32765]? = some ⟨65530, 0, 0⟩ := by
    rw [hseeds, getElem_stripeSeeds (by decide)]; rfl
  have hlen : seeds.length = 32766 := by rw [hseeds, length_stripeSeeds]
  have hL : b.2 = 32768 := by
    rw [hbs]
    show sB.label = 32768
    rw [hinv.label_eq, hlen]
    decide
  have h0 : halfLabelStart b.2 0 = 0 := by rw [hL]; decide
  have h1 : halfLabelStart b.2 1 = 1 := by rw [hL]; decide
  refine ⟨b, hb, ?_, ?_, hL, h0, h1, ?_, ?_, ?_, ?_⟩
  · rw [hbs]
    show voxelAt sB.fill.dstData3D ⟨0, 0, 0⟩ = 2
    rw [hinv.lab 0 _ e0 _ Relation.ReflTransGen.refl]
    decide
  · rw [hbs]
    show voxelAt sB.fill.dstData3D ⟨65530, 0, 0⟩ = 32767
    rw [hinv.lab 32765 _ e1 _ Relation.ReflTransGen.refl]
    decide
  · rw [h0, hL]; decide
  · rw [h1, hL]; decide
  · rw [halfRun_zero, h0]
  · rw [halfRun_one, h1]

/-- C23 (amended): for every volume with `Dz ≥ 1`, whenever the boundary pass of
`parallelEdgeFirstSinglePassLabeling` returns, the components it has discovered are those
meeting the midplane, in the order their first midplane voxel is met scanning y outer,
x inner, and the component with discovery index `n` holds `(n + 2) mod 65536`, which is
`n + 2` (the distinct labels `2, 3, ..., B + 1`) when their number `B` is at most 65534;
the label value after the pass is `L = (B + 2) mod 65536`, which is `B + 2` when
`B ≤ 65533`; the lower-half run is invoked with `labelStart = (2 L) mod 65536` and the
upper-half run with `labelStart = (2 L + 1) mod 65536`, both with `labelStep = 2`, and these
are `2 (B + 2)` and `2 (B + 2) + 1` when `B ≤ 32765`. The pass returns whenever the fuel
covers the volume and at most 65534 components meet the midplane. The stacks are assumed
to be created with a capacity of at least 1 (`Dx + Dy + Dz ≥ 10`). -/
theorem boundaryPass_labels_and_starts (fuel Dx Dy Dz : Nat) (v : Volume) (hDz : 0 < Dz)
    (hcap : 1 ≤ STACK_INITIAL_SIZE Dx Dy Dz) :
    (∀ b, boundaryPass fuel Dx Dy Dz v = some b →
      ∃ seeds : List Voxel,
        IsRepresentativeSystem Dx Dy Dz v (fun p => p.k = kMid Dz) seeds ∧
        seeds.Pairwise (fun x y => x.j < y.j ∨ (x.j = y.j ∧ x.i < y.i)) ∧
        (∀ x, x ∈ seeds ↔ (x ∈ scanOrder Dx Dy (kMid Dz) (kMid Dz + 1) ∧ voxelAt v x = 1 ∧
          ∀ p ∈ scanOrder Dx Dy (kMid Dz) (kMid Dz + 1), Connected Dx Dy Dz v x p →
            x = p ∨ scanLt x p)) ∧
        (∀ (n : Nat) (x : Voxel), seeds[n]? = some x → ∀ q, Connected Dx Dy Dz v x q →
          voxelAt b.1.dstData3D q = (n + 2) % 65536) ∧
        b.2 = (seeds.length + 2) % 65536 ∧
        halfLabelStart b.2 0 = (2 * b.2) % 65536 ∧
        halfLabelStart b.2 1 = (2 * b.2 + 1) % 65536 ∧
        (seeds.length ≤ 65534 →
          ∀ (n : Nat) (x : Voxel), seeds[n]? = some x → ∀ q, Connected Dx Dy Dz v x q →
            voxelAt b.1.dstData3D q = n + 2) ∧
        (seeds.length ≤ 65533 → b.2 = seeds.length + 2) ∧
        (seeds.length ≤ 32765 →
          halfLabelStart b.2 0 = 2 * (seeds.length + 2) ∧
          halfLabelStart b.2 1 = 2 * (seeds.length + 2) + 1)) ∧
    (∀ (w : Volume) (L : Nat),
      halfRun fuel Dx Dy Dz w L 0
        = singlePassLabeling fuel Dx Dy Dz w 0 (kMid Dz) (halfLabelStart L 0) 2 ∧
      halfRun fuel Dx Dy Dz w L 1
        = singlePassLabeling fuel Dx Dy Dz w (kMid Dz + 1) Dz (halfLabelStart L 1) 2) ∧
    (Dx * Dy * Dz + 2 ≤ fuel →
      AtMostComponents Dx Dy Dz v (fun p => p.k = kMid Dz) 65534 →
      ∃ b, boundaryPass fuel Dx Dy Dz v = some b) := by
  have hk := kMid_range hDz
  refine ⟨?_, fun w L => ⟨halfRun_zero fuel Dx Dy Dz w L, halfRun_one fuel Dx Dy Dz w L⟩,
    fun hfuel hB => boundaryPass_returns hDz hfuel 65534 hB (by decide)⟩
  intro b hb
  obtain ⟨sB, seeds, hinv, hbs⟩ := boundaryPass_inv hDz hb
  have hbox : ∀ p ∈ scanOrder Dx Dy (kMid Dz) (kMid Dz + 1), InBox Dx Dy Dz p :=
    fun p hp => scanOrder_inBox hk.1 (by omega) hp
  have hplane : ∀ x ∈ seeds, x.k = kMid Dz := by
    intro x hx
    have := mem_scanOrder.1 (hinv.sub.subset hx)
    omega
  have hlab : ∀ (n : Nat) (x : Voxel), seeds[n]? = some x → ∀ q, Connected Dx Dy Dz v x q →
      voxelAt b.1.dstData3D q = (n + 2) % 65536 := by
    intro n x hn q hq
    rw [hbs, ← labelAt_two_one]
    exact hinv.lab n x hn q hq
  have hL : b.2 = (seeds.length + 2) % 65536 := by
    rw [hbs, ← labelAt_two_one]
    exact hinv.label_eq
  have hrep := hinv.representatives hk.1 (show kMid Dz + 1 ≤ (Dz : Int) by omega)
  refine ⟨seeds, ?_, ?_, hinv.mem_seeds_iff hbox, hlab, hL, ?_, halfLabelStart_mod _ _, ?_, ?_,
    ?_⟩
  · refine ⟨fun x hx => ⟨(hrep.1 x hx).1, hplane x hx⟩, hrep.2.1, ?_⟩
    intro p hp hpk
    exact hrep.2.2 p hp (by dsimp only; omega)
  · refine List.Pairwise.imp_of_mem ?_ (hinv.seeds_sorted (pairwise_scanOrder _ _ _ _))
    intro x y hx hy hxy
    have h1 := hplane x hx
    have h2 := hplane y hy
    unfold scanLt at hxy
    omega
  · rw [halfLabelStart_mod, add_zero]
  · intro hlen n x hn q hq
    rw [hlab n x hn q hq]
    have hn1 := (List.getElem?_eq_some_iff.1 hn).1
    omega
  · intro hlen
    rw [hL]
    omega
  · intro hlen
    rw [halfLabelStart_mod, halfLabelStart_mod, hL]
    omega

/-- On the striped row of width 9 (a single slice `1, 0, 1, 0, 1, 0, 1, 0, 1`, stacks of
capacity 1): the boundary pass returns, its five components hold 2, 3, 4, 5 and 6, the
label value after the pass is 7, and the half runs are invoked with `labelStart` 14 and
15. -/
theorem boundaryPass_labels_and_starts_witness :
    STACK_INITIAL_SIZE 9 1 1 = 1 ∧
    ∃ b, boundaryPass 11 9 1 1 stripeVolume = some b ∧
      voxelAt b.1.dstData3D ⟨0, 0, 0⟩ = 2 ∧ voxelAt b.1.dstData3D ⟨2, 0, 0⟩ = 3 ∧
      voxelAt b.1.dstData3D ⟨4, 0, 0⟩ = 4 ∧ voxelAt b.1.dstData3D ⟨6, 0, 0⟩ = 5 ∧
      voxelAt b.1.dstData3D ⟨8, 0, 0⟩ = 6 ∧ b.2 = 7 ∧
      halfLabelStart b.2 0 = 14 ∧ halfLabelStart b.2 1 = 15 := by
  refine ⟨by decide, ?_⟩
  obtain ⟨hlabels, -, hret⟩ := boundaryPass_labels_and_starts 11 9 1 1 stripeVolume
    (by decide) (by decide)
  obtain ⟨b, hb⟩ := hret (by decide) (atMostComponents_of_volume stripeVolume _ (by decide))
  obtain ⟨seeds, -, hord, hmem, hlab, -, -, -, -, hL, hstart⟩ := hlabels b hb
  rw [kMid_one, zero_add] at hmem
  have hs : seeds.Pairwise scanLt := by
    refine List.Pairwise.imp_of_mem ?_ hord
    intro x y hx hy hxy
    have h1 := mem_scanOrder.1 ((hmem x).1 hx).1
    have h2 := mem_scanOrder.1 ((hmem y).1 hy).1
    unfold scanLt
    omega
  have hseeds : seeds = stripeSeeds 5 := stripeSeeds_of_char (by decide) hs hmem
  have hlen : seeds.length = 5 := by rw [hseeds, length_stripeSeeds]
  have e0 : seeds[0]? = some ⟨0, 0, 0⟩ := by
    rw [hseeds, getElem_stripeSeeds (by decide)]; rfl
  have e1 : seeds[1]? = some ⟨2, 0, 0⟩ := by
    rw [hseeds, getElem_stripeSeeds (by decide)]; rfl
  have e2 : seeds[2]? = some ⟨4, 0, 0⟩ := by
    rw [hseeds, getElem_stripeSeeds (by decide)]; rfl
  have e3 : seeds[3]? = some ⟨6, 0, 0⟩ := by
    rw [hseeds, getElem_stripeSeeds (by decide)]; rfl
  have e4 : seeds[4]? = some ⟨8, 0, 0⟩ := by
    rw [hseeds, getElem_stripeSeeds (by decide)]; rfl
  rw [hlen] at hL hstart
  refine ⟨b, hb, ?_, ?_, ?_, ?_, ?_, hL (by decide), (hstart (by decide)).1,
    (hstart (by decide)).2⟩
  · rw [hlab 0 _ e0 _ Relation.ReflTransGen.refl]
  · rw [hlab 1 _ e1 _ Relation.ReflTransGen.refl]
  · rw [hlab 2 _ e2 _ Relation.ReflTransGen.refl]
  · rw [hlab 3 _ e3 _ Relation.ReflTransGen.refl]
  · rw [hlab 4 _ e4 _ Relation.ReflTransGen.refl]

/-! ## Stores stay inside the block from capacity 1 on -/

theorem createStack_room (c : Int) (hc : 1 ≤ c) : (createStack c).Room := by
  unfold Stack.Room createStack
  dsimp only
  omega

theorem allocateStack_room {Dx Dy Dz : Nat} (hcap : 1 ≤ STACK_INITIAL_SIZE Dx Dy Dz) :
    (allocateStack Dx Dy Dz).1.Room ∧ (allocateStack Dx Dy Dz).2.1.Room ∧
      (allocateStack Dx Dy Dz).2.2.Room :=
  ⟨createStack_room _ hcap, createStack_room _ hcap, createStack_room _ hcap⟩

/-- On a stack with room, `push` leaves room and has written a cell inside the block. -/
theorem Stack.Room.push_room {s : Stack} (h : s.Room) (x : Int) :
    (push s x).Room ∧ 0 ≤ (push s x).top ∧ (push s x).top < (push s x).capacity := by
  obtain ⟨e1, e2, e3, -⟩ := push_fields s x
  obtain ⟨h1, h2, h3, h4⟩ := h
  unfold Stack.Room
  rw [e1, e2, e3]
  by_cases hf : s.size = s.capacity
  · rw [if_pos hf]; omega
  · rw [if_neg hf]; omega

theorem Stack.Room.pop_room {s : Stack} (h : s.Room) : (pop s).2.Room := by
  obtain ⟨h1, h2, h3, h4⟩ := h
  by_cases h0 : s.size = 0
  · rw [(pop_fields s).1 h0]
    exact ⟨h1, h2, h3, h4⟩
  · obtain ⟨-, e1, e2, e3, -⟩ := (pop_fields s).2 h0
    unfold Stack.Room
    rw [e1, e2, e3]
    omega

theorem FillState.Room.visitNeighbor_room {st : FillState} (h : st.Room) (label : Nat)
    (i j k : Int) : (visitNeighbor label st i j k).Room := by
  unfold visitNeighbor
  by_cases hv : st.dstData3D k j i = 1
  · rw [if_pos hv]
    exact ⟨(h.1.push_room i).1, (h.2.1.push_room j).1, (h.2.2.push_room k).1⟩
  · rw [if_neg hv]
    exact h

theorem FillState.Room.dfsBody_room {st : FillState} (h : st.Room) (Dx Dy Dz label : Nat) :
    (dfsBody Dx Dy Dz label st).Room := by
  have h0 : FillState.Room
      { dstData3D := st.dstData3D
        iStack := (pop st.iStack).2
        jStack := (pop st.jStack).2
        kStack := (pop st.kStack).2 } :=
    ⟨h.1.pop_room, h.2.1.pop_room, h.2.2.pop_room⟩
  unfold dfsBody
  dsimp only
  have step : ∀ (c : Prop) [Decidable c] (s : FillState) (i j k : Int), s.Room →
      (if c then visitNeighbor label s i j k else s).Room := by
    intro c _ s i j k hs
    by_cases hc : c
    · rw [if_pos hc]; exact hs.visitNeighbor_room label i j k
    · rw [if_neg hc]; exact hs
  exact step _ _ _ _ _ (step _ _ _ _ _ (step _ _ _ _ _ (step _ _ _ _ _
    (step _ _ _ _ _ (step _ _ _ _ _ h0)))))

/-- Through every iteration of the loop of `singlePassDFS` the three stacks leave room. -/
theorem FillState.Room.dfsAfter_room (Dx Dy Dz label : Nat) :
    ∀ (n : Nat) (st : FillState), st.Room → (dfsAfter Dx Dy Dz label n st).Room := by
  intro n
  induction n with
  | zero => intro st h; exact h
  | succ m ih =>
    intro st h
    simp only [dfsAfter]
    by_cases hs : getSize st.iStack > 0
    · rw [if_pos hs]; exact ih _ (h.dfsBody_room Dx Dy Dz label)
    · rw [if_neg hs]; exact h

/-- The three pushes of the seed are made on stacks with room and leave room. -/
theorem dfsStart_room (v : Volume) (i j k : Int) {iS jS kS : Stack}
    (hi : iS.Room) (hj : jS.Room) (hk : kS.Room) : (dfsStart v i j k iS jS kS).Room :=
  ⟨(hi.push_room i).1, (hj.push_room j).1, (hk.push_room k).1⟩

theorem singlePassDFS_room {fuel Dx Dy Dz : Nat} {v : Volume} {i j k : Int} {label : Nat}
    {iS jS kS : Stack} (hi : iS.Room) (hj : jS.Room) (hk : kS.Room) {st1 : FillState}
    (h : singlePassDFS fuel Dx Dy Dz v i j k label iS jS kS = some st1) : st1.Room := by
  rw [singlePassDFS_eq_dfsLoop] at h
  obtain ⟨n, -, he, -⟩ := dfsLoop_eq_dfsAfter Dx Dy Dz label fuel _ _ h
  rw [he]
  exact FillState.Room.dfsAfter_room Dx Dy Dz label n _ (dfsStart_room v i j k hi hj hk)

theorem scanVoxel_room {fuel Dx Dy Dz st : Nat} {s s1 : ScanState} {i j k : Int}
    (hs : s.fill.Room) (h : scanVoxel fuel Dx Dy Dz st s i j k = some s1) : s1.fill.Room := by
  unfold scanVoxel at h
  by_cases hv : s.fill.dstData3D k j i = 1
  · rw [if_pos hv, Option.map_eq_some'] at h
    obtain ⟨st1, hdfs, hs1⟩ := h
    rw [← hs1]
    exact singlePassDFS_room hs.1 hs.2.1 hs.2.2 hdfs
  · rw [if_neg hv] at h
    simp only [Option.some.injEq] at h
    rw [← h]
    exact hs

theorem foldlM_option_inv {α σ : Type} (P : σ → Prop) (f : σ → α → Option σ)
    (hf : ∀ s a r, P s → f s a = some r → P r) :
    ∀ (l : List α) (s r : σ), P s → l.foldlM f s = some r → P r := by
  intro l
  induction l with
  | nil =>
    intro s r hs hr
    simp only [List.foldlM_nil, Option.pure_def, Option.some.injEq] at hr
    rw [← hr]; exact hs
  | cons a l ih =>
    intro s r hs hr
    rw [List.foldlM_cons] at hr
    cases hfa : f s a with
    | none => rw [hfa] at hr; simp at hr
    | some s1 =>
      rw [hfa] at hr
      exact ih s1 r (hf s a s1 hs hfa) hr

/-- A scan started on stacks with room makes every fill on stacks with room and ends with
room: with `1 ≤ STACK_INITIAL_SIZE` no push of a labeling run stores outside the block. -/
theorem scanRange_room {fuel Dx Dy Dz st : Nat} {s s1 : ScanState} {kMin kMax : Int}
    (hs : s.fill.Room) (h : scanRange fuel Dx Dy Dz st s kMin kMax = some s1) :
    s1.fill.Room := by
  unfold scanRange scanPlane at h
  refine foldlM_option_inv (fun t : ScanState => t.fill.Room) _ ?_ _ s s1 hs h
  intro t k r ht hr
  refine foldlM_option_inv (fun t : ScanState => t.fill.Room) _ ?_ _ t r ht hr
  intro t2 j r2 ht2 hr2
  refine foldlM_option_inv (fun t : ScanState => t.fill.Room) _ ?_ _ t2 r2 ht2 hr2
  intro t3 i r3 ht3 hr3
  exact scanVoxel_room ht3 hr3

end ParallelLabeling
